import Mathlib

/-!
Field utilities of EAMxx (`share/field/field_utils_impl.hpp`).

A shallow embedding of the rank-dispatch algorithms of `scream::impl` and the
properties proved about them.

Conventions of the embedding.

* A Kokkos view `v(i,j,k)` is a function on index tuples, `v [i, j, k]`.
  Host and device copies of a field are kept identical by the `sync_to_host`
  and `sync_to_dev` calls, so a field carries one store of logical entries.
* `EKAT_REQUIRE_MSG` and `EKAT_ERROR_MSG` raise an error: every routine returns
  in `Except String`.
* A `for (int i=0; i<n; ++i)` loop is `forLoop n body`; Kokkos `parallel_for`
  and `parallel_reduce` run their functor once for every index of the policy
  and are embedded as the same loop in increasing index order.
* The element type `ST` is a type parameter; statements about sums are made in
  exact arithmetic (a commutative monoid or semiring), not for rounded floats.
-/

namespace scream

/-! ## Collaborators: layout, field, process group -/

/-- Modelled from the spec: the semantic tags of the axes of a layout (the
enumeration itself is declared in a header outside this file). `COL` is the
partition axis, `LEV` the level axis. -/
inductive FieldTag where
  | COL
  | LEV
  | CMP
  | ILEV
  | EL
  | GP
  deriving DecidableEq, Repr

/-- Modelled from the spec: a layout is an ordered sequence of descriptors
`(tag, extent)`; two layouts are equal iff they have the same tags in the same
order with the same extents. -/
structure FieldLayout where
  descriptors : List (FieldTag × Nat)
  deriving DecidableEq, Repr

/-- The tags of a layout, `layout.tags()`. -/
def FieldLayout.tags (l : FieldLayout) : List FieldTag := l.descriptors.map Prod.fst

/-- The extents of a layout, `layout.dims()`. -/
def FieldLayout.dims (l : FieldLayout) : List Nat := l.descriptors.map Prod.snd

/-- The number of axes, `layout.rank()`. -/
def FieldLayout.rank (l : FieldLayout) : Nat := l.descriptors.length

/-- The extent of axis `i`, `layout.dim(i)` (0 for an axis that does not exist). -/
def FieldLayout.dim (l : FieldLayout) (i : Nat) : Nat := l.dims.getD i 0

/-- The number of logical entries, `layout.size()`. -/
def FieldLayout.size (l : FieldLayout) : Nat := l.dims.prod

/-- A Kokkos view of element type `α`: the accessor `v(i,j,...)`. -/
abbrev View (α : Type) : Type := List Nat → α

/-- Modelled from the spec: a field is an identity (name, layout), an
allocation property saying whether its storage is contiguous, and the store of
its logical entries, addressed by index tuple. -/
structure Field (α : Type) where
  name : String
  layout : FieldLayout
  contiguous : Bool
  data : View α

/-- Modelled from the spec: the typed contiguous accessor `f.get_view<ST*...*>()`,
where `N` is the number of stars. The accessor is typed by rank: asking for a
view whose rank is not the rank of the field is an error. -/
def Field.get_view {α : Type} (f : Field α) (N : Nat) : Except String (View α) :=
  if f.layout.rank = N then .ok f.data
  else .error "Error! Input view type rank does not match the field rank.\n"

/-- Modelled from the spec: the typed strided accessor
`f.get_strided_view<ST*...*,Host>()`; it works on contiguous and on strided
storage alike and is typed by rank like `get_view`. -/
def Field.get_strided_view {α : Type} (f : Field α) (N : Nat) : Except String (View α) :=
  if f.layout.rank = N then .ok f.data
  else .error "Error! Input view type rank does not match the field rank.\n"

/-- A write `v(idx) = val` through a view of the field `f`: the entry at `idx`
of the storage of `f` is replaced. -/
def Field.set {α : Type} (f : Field α) (idx : List Nat) (val : α) : Field α :=
  { f with data := Function.update f.data idx val }

/-- Modelled from the spec: a process group as seen from one of its processes
during one collective call: the values contributed by the processes of lower
rank and of higher rank, each list in rank order. -/
structure Comm (β : Type) where
  lower : List β
  upper : List β

/-- Modelled from the spec: the blocking collective `comm->all_reduce(..., op)`:
every process receives the contributions of all processes of the group,
combined by `op` in rank order. -/
def Comm.all_reduce {β : Type} (c : Comm β) (op : β → β → β) (loc : β) : β :=
  match c.lower ++ loc :: c.upper with
  | [] => loc
  | x :: xs => xs.foldl op x

/-- The view of the group that process `p` has when the processes contribute
the values `contribs`, listed in rank order. -/
def Comm.ofContribs {β : Type} (contribs : List β) (p : Nat) : Comm β :=
  ⟨contribs.take p, contribs.drop (p + 1)⟩

/-- The reduction operation `MPI_SUM` on a buffer: entrywise sum. -/
def MPI_SUM {α : Type} [Add α] (a b : View α) : View α := fun idx => a idx + b idx

/-- The reduction operation `MPI_LAND`. -/
def MPI_LAND (a b : Bool) : Bool := a && b

/-! ## Loops and index spaces -/

/-- The loop `for (int i=0; i<n; ++i) body(i)` acting on a state. -/
def forLoop {σ : Type} (n : Nat) (body : Nat → σ → σ) (s : σ) : σ :=
  (List.range n).foldl (fun st i => body i st) s

/-- The loop `for (int i=0; guard && i<n; ++i) body(i)`: the guard is evaluated
before every iteration. -/
def forLoopGuard {σ : Type} (guard : σ → Bool) (body : Nat → σ → σ) : List Nat → σ → σ
  | [], s => s
  | i :: is, s => if guard s then forLoopGuard guard body is (body i s) else s

/-- The loop `for (int i=0; i<n; ++i) body(i)` whose body may execute `break`:
the body returns the new state and whether it broke out. -/
def forLoopBreak {σ : Type} (body : Nat → σ → σ × Bool) : List Nat → σ → σ
  | [], s => s
  | i :: is, s => if (body i s).2 then (body i s).1 else forLoopBreak body is (body i s).1

/-- The logical index tuples of an array with extents `dims`, in row-major
order (axis 0 outermost, last axis fastest). -/
def indexSpace : List Nat → List (List Nat)
  | [] => [[]]
  | d :: ds => (List.range d).flatMap (fun i => (indexSpace ds).map (fun idx => i :: idx))

/-- An index tuple is in bounds for the extents `dims`: it has one component
for every axis and each component is below the extent of its axis. -/
def InBounds (dims idx : List Nat) : Prop := List.Forall₂ (fun i d => i < d) idx dims

/-- The runtime of `Kokkos::parallel_reduce(RangePolicy(0,n), functor, result)`
(and of the nested reduction over `TeamVectorRange(tm,n)`) with the default sum
reducer: the accumulator starts from 0, the functor is applied once for every
`i` in `[0,n)`, and the final accumulator overwrites the result. -/
def parallel_reduce {α : Type} [Zero α] (n : Nat) (functor : Nat → α → α) : α :=
  forLoop n functor 0

/-- The runtime of `Kokkos::parallel_for` over a policy with `n` work items
(a range of `n` indices, or a league of `n` teams): the functor is applied
once for every index in `[0,n)`. -/
def parallel_for {σ : Type} (n : Nat) (functor : Nat → σ → σ) (s : σ) : σ :=
  forLoop n functor s

/-! ## Contractions -/

/-- The routine `horiz_contraction<ST>(f_out, f_in, weight, comm)`: the
weighted sum of `f_in` along its leading axis, written to `f_out`. The result
is the field `f_out` after the call. With a process group the output buffer is
reduced entrywise by the `MPI_SUM` collective over its `l_out.size()` logical
entries. -/
def horiz_contraction {α : Type} [Zero α] [Add α] [Mul α]
    (f_out f_in weight : Field α) (comm : Option (Comm (View α))) :
    Except String (Field α) := do
  let l_out := f_out.layout
  let l_in := f_in.layout
  let v_w ← weight.get_view 1
  let ncols := l_in.dim 0
  let out ←
    match l_in.rank with
    | 1 => do
      let v_in ← f_in.get_view 1
      let _v_out ← f_out.get_view 0
      pure (f_out.set [] (parallel_reduce ncols (fun i ls => ls + v_w [i] * v_in [i])))
    | 2 => do
      let v_in ← f_in.get_view 2
      let _v_out ← f_out.get_view 1
      let d1 := l_in.dim 1
      pure (parallel_for d1 (fun j (out : Field α) =>
        out.set [j] (parallel_reduce ncols (fun i ac => ac + v_w [i] * v_in [i, j]))) f_out)
    | 3 => do
      let v_in ← f_in.get_view 3
      let _v_out ← f_out.get_view 2
      let d1 := l_in.dim 1
      let d2 := l_in.dim 2
      pure (parallel_for (d1 * d2) (fun idx (out : Field α) =>
        let j := idx / d2
        let k := idx % d2
        out.set [j, k] (parallel_reduce ncols (fun i ac => ac + v_w [i] * v_in [i, j, k]))) f_out)
    | _ => throw "Error! Unsupported field rank.\n"
  match comm with
  | some c =>
    let reduced := c.all_reduce MPI_SUM out.data
    pure { out with data := fun idx => if idx ∈ indexSpace l_out.dims then reduced idx else out.data idx }
  | none => pure out

/-! ## Concrete fields used as examples -/

/-- The rank-2 example field of layout (COL=3, LEV=2) holding [[1,2],[3,4],[5,6]]. -/
def exIn32 : Field Int :=
  { name := "f_in", layout := ⟨[(FieldTag.COL, 3), (FieldTag.LEV, 2)]⟩, contiguous := true,
    data := fun idx => match idx with
      | [0, 0] => 1 | [0, 1] => 2 | [1, 0] => 3 | [1, 1] => 4 | [2, 0] => 5 | [2, 1] => 6
      | _ => 0 }

/-- The rank-1 weight over COL=3 holding [1,1,1]. -/
def exW3 : Field Int :=
  { name := "weight", layout := ⟨[(FieldTag.COL, 3)]⟩, contiguous := true,
    data := fun idx => match idx with
      | [0] => 1 | [1] => 1 | [2] => 1
      | _ => 0 }

/-- A rank-1 output field over LEV=2, holding arbitrary previous content. -/
def exOut2 : Field Int :=
  { name := "f_out", layout := ⟨[(FieldTag.LEV, 2)]⟩, contiguous := true,
    data := fun _ => 77 }

/-- The routine `vert_contraction<ST>(f_out, f_in, weight)`: the weighted sum
of `f_in` along its trailing axis, written to `f_out`. The result is the field
`f_out` after the call. Of the two weight views `w1d` and `w2d` only the one
selected by `w_is_1d` is assigned; the other stays default-constructed and is
never read (it is embedded as the constant 0). -/
def vert_contraction {α : Type} [Zero α] [Add α] [Mul α]
    (f_out f_in weight : Field α) : Except String (Field α) := do
  let l_in := f_in.layout
  let l_w := weight.layout
  let nlevs := l_in.dim (l_in.rank - 1)
  let w_is_1d : Bool := decide (l_w.rank = 1)
  let w1d : View α ← if w_is_1d then weight.get_view 1 else pure (fun _ => 0)
  let w2d : View α ← if w_is_1d then pure (fun _ => 0) else weight.get_view 2
  match l_in.rank with
  | 1 => do
    let v_w ← weight.get_view 1
    let v_in ← f_in.get_view 1
    let _v_out ← f_out.get_view 0
    pure (f_out.set [] (parallel_reduce nlevs (fun i ls => ls + v_w [i] * v_in [i])))
  | 2 => do
    let v_in ← f_in.get_view 2
    let _v_out ← f_out.get_view 1
    let d0 := l_in.dim 0
    pure (parallel_for d0 (fun i (out : Field α) =>
      out.set [i] (parallel_reduce nlevs (fun j ac =>
        ac + (if w_is_1d then w1d [j] * v_in [i, j] else w2d [i, j] * v_in [i, j])))) f_out)
  | 3 => do
    let v_in ← f_in.get_view 3
    let _v_out ← f_out.get_view 2
    let d0 := l_in.dim 0
    let d1 := l_in.dim 1
    pure (parallel_for (d0 * d1) (fun idx (out : Field α) =>
      let i := idx / d1
      let j := idx % d1
      out.set [i, j] (parallel_reduce nlevs (fun k ac =>
        ac + (if w_is_1d then w1d [k] * v_in [i, j, k] else w2d [i, k] * v_in [i, j, k]))))
      f_out)
  | _ => throw "Error! Unsupported field rank in vert_contraction.\n"

/-- A rank-3 example input of layout (COL=1, CMP=2, LEV=2) holding
[[[1,2],[3,4]]]. -/
def exIn122 : Field Int :=
  { name := "f_in", layout := ⟨[(FieldTag.COL, 1), (FieldTag.CMP, 2), (FieldTag.LEV, 2)]⟩,
    contiguous := true,
    data := fun idx => match idx with
      | [0, 0, 0] => 1 | [0, 0, 1] => 2 | [0, 1, 0] => 3 | [0, 1, 1] => 4
      | _ => 0 }

/-- A rank-3 weight of layout (COL=1, CMP=2, LEV=2) holding [[[1,1],[1,1]]]. -/
def exW122 : Field Int :=
  { name := "weight", layout := ⟨[(FieldTag.COL, 1), (FieldTag.CMP, 2), (FieldTag.LEV, 2)]⟩,
    contiguous := true,
    data := fun idx => match idx with
      | [0, 0, 0] => 1 | [0, 0, 1] => 1 | [0, 1, 0] => 1 | [0, 1, 1] => 1
      | _ => 0 }

/-- A rank-2 weight of layout (COL=1, LEV=2) holding [[10,100]]. -/
def exW12 : Field Int :=
  { name := "weight", layout := ⟨[(FieldTag.COL, 1), (FieldTag.LEV, 2)]⟩,
    contiguous := true,
    data := fun idx => match idx with
      | [0, 0] => 10 | [0, 1] => 100
      | _ => 0 }

/-- A rank-1 weight over LEV=2 holding [10,100]. -/
def exW2 : Field Int :=
  { name := "weight", layout := ⟨[(FieldTag.LEV, 2)]⟩, contiguous := true,
    data := fun idx => match idx with
      | [0] => 10 | [1] => 100
      | _ => 0 }

/-- A rank-2 output field of layout (COL=1, CMP=2), holding arbitrary previous
content. -/
def exOut12 : Field Int :=
  { name := "f_out", layout := ⟨[(FieldTag.COL, 1), (FieldTag.CMP, 2)]⟩, contiguous := true,
    data := fun _ => 77 }

/-- A rank-1 output field over COL=3, holding arbitrary previous content. -/
def exOut3 : Field Int :=
  { name := "f_out", layout := ⟨[(FieldTag.COL, 3)]⟩, contiguous := true,
    data := fun _ => 77 }

/-- A rank-0 output field, holding arbitrary previous content. -/
def exOut0 : Field Int :=
  { name := "f_out", layout := ⟨[]⟩, contiguous := true, data := fun _ => 77 }

/-! ## Splitting the column axis over a process group -/

/-- The layout `l` with the extent of its leading axis replaced by `n`. -/
def FieldLayout.with_leading (l : FieldLayout) (n : Nat) : FieldLayout :=
  match l.descriptors with
  | [] => ⟨[]⟩
  | (t, _) :: r => ⟨(t, n) :: r⟩

/-- The part of a field owned by one process when its leading (column) axis is
split into consecutive blocks: the `n` columns starting at column `off`,
renumbered locally from 0. -/
def Field.col_block {α : Type} (f : Field α) (off n : Nat) : Field α :=
  { f with
    layout := f.layout.with_leading n
    data := fun idx => match idx with
      | [] => f.data []
      | i :: r => f.data ((off + i) :: r) }

/-- The consecutive blocks `(offset, size)` of a column axis split into parts of
the sizes `ns`, the first block starting at column `off`. -/
def blocks : Nat → List Nat → List (Nat × Nat)
  | _, [] => []
  | off, n :: ns => (off, n) :: blocks (off + n) ns

/-- The fields `(f_out, f_in, weight)` held by the processes of a group when the
columns of the global input and weight are split into consecutive blocks of the
sizes `ns`; process `p` owns block `p`. -/
def split_columns {α : Type} (f_out f_in weight : Field α) (ns : List Nat) :
    List (Field α × Field α × Field α) :=
  (blocks 0 ns).map (fun b => (f_out, f_in.col_block b.1 b.2, weight.col_block b.1 b.2))

/-- Modelled from the spec: the call of `horiz_contraction` made by process `p`
of a process group whose processes hold the fields `procs` (in rank order).
Every process computes its local weighted sum; the buffers contributed to the
`MPI_SUM` collective are the local output buffers of the processes. -/
def horiz_contraction_spmd {α : Type} [Zero α] [Add α] [Mul α]
    (procs : List (Field α × Field α × Field α)) (p : Nat) : Except String (Field α) := do
  let locals ← procs.mapM (fun q => horiz_contraction q.1 q.2.1 q.2.2 none)
  match procs.get? p with
  | some q =>
    horiz_contraction q.1 q.2.1 q.2.2 (some (Comm.ofContribs (locals.map Field.data) p))
  | none => throw "Error! Process rank out of the group.\n"

/-- The single columns of the example field [[1,2],[3,4],[5,6]] with local
weight [1], one per process of a group of three. -/
def exProcs3 : List (Field Int × Field Int × Field Int) :=
  split_columns exOut2 exIn32 exW3 [1, 1, 1]

/-! ## Equality of two fields -/

/-- The routine `views_are_equal<ST>(f1, f2, comm)`: whether two fields of equal
layouts hold equal values at every logical entry. One hand-unrolled loop nest
per rank; the innermost loop leaves by `break` at the first mismatch and every
outer loop is guarded by `same_locally`. With a process group the local
verdicts are combined by the `MPI_LAND` collective. -/
def views_are_equal {α : Type} [DecidableEq α]
    (f1 f2 : Field α) (comm : Option (Comm Bool)) : Except String Bool := do
  let l1 := f1.layout
  let l2 := f2.layout
  if l1 = l2 then
    let dims := l1.dims
    let same_locally ←
      match l1.rank with
      | 0 => do
        let v1 ← f1.get_strided_view 0
        let v2 ← f2.get_strided_view 0
        pure (if v1 [] ≠ v2 [] then false else true)
      | 1 => do
        let v1 ← f1.get_strided_view 1
        let v2 ← f2.get_strided_view 1
        pure (forLoopBreak (fun i same_locally =>
          if v1 [i] ≠ v2 [i] then (false, true) else (same_locally, false))
          (List.range (dims.getD 0 0)) true)
      | 2 => do
        let v1 ← f1.get_strided_view 2
        let v2 ← f2.get_strided_view 2
        pure (forLoopGuard (fun same_locally => same_locally) (fun i same_locally =>
          forLoopBreak (fun j same_locally =>
            if v1 [i, j] ≠ v2 [i, j] then (false, true) else (same_locally, false))
            (List.range (dims.getD 1 0)) same_locally)
          (List.range (dims.getD 0 0)) true)
      | 3 => do
        let v1 ← f1.get_strided_view 3
        let v2 ← f2.get_strided_view 3
        pure (forLoopGuard (fun same_locally => same_locally) (fun i same_locally =>
          forLoopGuard (fun same_locally => same_locally) (fun j same_locally =>
            forLoopBreak (fun k same_locally =>
              if v1 [i, j, k] ≠ v2 [i, j, k] then (false, true) else (same_locally, false))
              (List.range (dims.getD 2 0)) same_locally)
            (List.range (dims.getD 1 0)) same_locally)
          (List.range (dims.getD 0 0)) true)
      | 4 => do
        let v1 ← f1.get_strided_view 4
        let v2 ← f2.get_strided_view 4
        pure (forLoopGuard (fun same_locally => same_locally) (fun i same_locally =>
          forLoopGuard (fun same_locally => same_locally) (fun j same_locally =>
            forLoopGuard (fun same_locally => same_locally) (fun k same_locally =>
              forLoopBreak (fun l same_locally =>
                if v1 [i, j, k, l] ≠ v2 [i, j, k, l] then (false, true) else (same_locally, false))
                (List.range (dims.getD 3 0)) same_locally)
              (List.range (dims.getD 2 0)) same_locally)
            (List.range (dims.getD 1 0)) same_locally)
          (List.range (dims.getD 0 0)) true)
      | 5 => do
        let v1 ← f1.get_strided_view 5
        let v2 ← f2.get_strided_view 5
        pure (forLoopGuard (fun same_locally => same_locally) (fun i same_locally =>
          forLoopGuard (fun same_locally => same_locally) (fun j same_locally =>
            forLoopGuard (fun same_locally => same_locally) (fun k same_locally =>
              forLoopGuard (fun same_locally => same_locally) (fun l same_locally =>
                forLoopBreak (fun m same_locally =>
                  if v1 [i, j, k, l, m] ≠ v2 [i, j, k, l, m] then (false, true) else (same_locally, false))
                  (List.range (dims.getD 4 0)) same_locally)
                (List.range (dims.getD 3 0)) same_locally)
              (List.range (dims.getD 2 0)) same_locally)
            (List.range (dims.getD 1 0)) same_locally)
          (List.range (dims.getD 0 0)) true)
      | 6 => do
        let v1 ← f1.get_strided_view 6
        let v2 ← f2.get_strided_view 6
        pure (forLoopGuard (fun same_locally => same_locally) (fun i same_locally =>
          forLoopGuard (fun same_locally => same_locally) (fun j same_locally =>
            forLoopGuard (fun same_locally => same_locally) (fun k same_locally =>
              forLoopGuard (fun same_locally => same_locally) (fun l same_locally =>
                forLoopGuard (fun same_locally => same_locally) (fun m same_locally =>
                  forLoopBreak (fun n same_locally =>
                    if v1 [i, j, k, l, m, n] ≠ v2 [i, j, k, l, m, n] then (false, true) else (same_locally, false))
                    (List.range (dims.getD 5 0)) same_locally)
                  (List.range (dims.getD 4 0)) same_locally)
                (List.range (dims.getD 3 0)) same_locally)
              (List.range (dims.getD 2 0)) same_locally)
            (List.range (dims.getD 1 0)) same_locally)
          (List.range (dims.getD 0 0)) true)
      | _ => throw "Error! Unsupported field rank.\n"
    match comm with
    | some c => pure (c.all_reduce MPI_LAND same_locally)
    | none => pure same_locally
  else
    throw "Error! Input fields have different layouts.\n"

/-- Modelled from the spec: the call of `views_are_equal` made by process `p` of
a process group whose processes hold the pairs of fields `procs` (in rank
order); the values contributed to the `MPI_LAND` collective are the local
verdicts of the processes. -/
def views_are_equal_spmd {α : Type} [DecidableEq α]
    (procs : List (Field α × Field α)) (p : Nat) : Except String Bool := do
  let locals ← procs.mapM (fun q => views_are_equal q.1 q.2 none)
  match procs.get? p with
  | some q => views_are_equal q.1 q.2 (some (Comm.ofContribs locals p))
  | none => throw "Error! Process rank out of the group.\n"

/-- The example field [[1,2],[3,4],[5,6]] with the entry at (2,1) changed to 7. -/
def exIn32b : Field Int := exIn32.set [2, 1] 7

/-- A group of two processes: the first holds two equal fields, the second two
fields that differ in one entry. -/
def exPairs : List (Field Int × Field Int) := [(exIn32, exIn32), (exIn32, exIn32b)]

/-! ## Masks -/

/-- The comparison kinds of `compute_mask`. -/
inductive Comparison where
  | EQ
  | NE
  | GT
  | GE
  | LT
  | LE
  deriving DecidableEq, Repr

/-- The member `SetMaskHelper::set_mask(x_val, m_val)`: the value stored in the
mask entry, `static_cast<int>` of the comparison of `x_val` with the threshold
`val` selected by `CMP`. -/
def set_mask {α : Type} [DecidableEq α] [LT α] [DecidableRel (fun a b : α => a < b)]
    [LE α] [DecidableRel (fun a b : α => a ≤ b)] (CMP : Comparison) (val x_val : α) : Int :=
  match CMP with
  | .EQ => if x_val = val then 1 else 0
  | .NE => if x_val ≠ val then 1 else 0
  | .GT => if val < x_val then 1 else 0
  | .GE => if val ≤ x_val then 1 else 0
  | .LT => if x_val < val then 1 else 0
  | .LE => if x_val ≤ val then 1 else 0

/-- The member `SetMaskHelper::run(dims)` for a view of rank `N`: a parallel loop
over a range (ranks 0 and 1) or over the `MDRangePolicy` of the extents with the
rightmost index fastest (ranks 2 to 6), whose functor `operator()` calls
`set_mask(x(i,...), m(i,...))`. The state is the mask field written to. -/
def SetMaskHelper_run {α : Type} [DecidableEq α] [LT α] [DecidableRel (fun a b : α => a < b)]
    [LE α] [DecidableRel (fun a b : α => a ≤ b)] (CMP : Comparison) (N : Nat)
    (x : View α) (val : α) (dims : List Nat) (m : Field Int) : Except String (Field Int) :=
  match N with
  | 0 => pure (parallel_for 1 (fun _ (m : Field Int) => m.set [] (set_mask CMP val (x []))) m)
  | 1 =>
    pure (parallel_for (dims.getD 0 0) (fun i (m : Field Int) =>
      m.set [i] (set_mask CMP val (x [i]))) m)
  | 2 =>
    pure (forLoop (dims.getD 0 0) (fun i (m : Field Int) =>
      forLoop (dims.getD 1 0) (fun j (m : Field Int) =>
        m.set [i, j] (set_mask CMP val (x [i, j]))) m) m)
  | 3 =>
    pure (forLoop (dims.getD 0 0) (fun i (m : Field Int) =>
      forLoop (dims.getD 1 0) (fun j (m : Field Int) =>
        forLoop (dims.getD 2 0) (fun k (m : Field Int) =>
          m.set [i, j, k] (set_mask CMP val (x [i, j, k]))) m) m) m)
  | 4 =>
    pure (forLoop (dims.getD 0 0) (fun i (m : Field Int) =>
      forLoop (dims.getD 1 0) (fun j (m : Field Int) =>
        forLoop (dims.getD 2 0) (fun k (m : Field Int) =>
          forLoop (dims.getD 3 0) (fun l (m : Field Int) =>
            m.set [i, j, k, l] (set_mask CMP val (x [i, j, k, l]))) m) m) m) m)
  | 5 =>
    pure (forLoop (dims.getD 0 0) (fun i (m : Field Int) =>
      forLoop (dims.getD 1 0) (fun j (m : Field Int) =>
        forLoop (dims.getD 2 0) (fun k (m : Field Int) =>
          forLoop (dims.getD 3 0) (fun l (m : Field Int) =>
            forLoop (dims.getD 4 0) (fun n (m : Field Int) =>
              m.set [i, j, k, l, n] (set_mask CMP val (x [i, j, k, l, n]))) m) m) m) m) m)
  | 6 =>
    pure (forLoop (dims.getD 0 0) (fun i (m : Field Int) =>
      forLoop (dims.getD 1 0) (fun j (m : Field Int) =>
        forLoop (dims.getD 2 0) (fun k (m : Field Int) =>
          forLoop (dims.getD 3 0) (fun l (m : Field Int) =>
            forLoop (dims.getD 4 0) (fun n (m : Field Int) =>
              forLoop (dims.getD 5 0) (fun p (m : Field Int) =>
                m.set [i, j, k, l, n, p] (set_mask CMP val (x [i, j, k, l, n, p]))) m) m) m) m) m) m)
  | _ => throw "Unsupported rank! Should be in [2,6].\n"

/-- The helper `setMaskHelper<CMP>(x, m, mh, val, dims)`: fills a
`SetMaskHelper` with the two views and the threshold and runs it. `N` is the
rank of the view type of `x`. -/
def setMaskHelper {α : Type} [DecidableEq α] [LT α] [DecidableRel (fun a b : α => a < b)]
    [LE α] [DecidableRel (fun a b : α => a ≤ b)] (CMP : Comparison) (N : Nat)
    (x : View α) (m : Field Int) (val : α) (dims : List Nat) : Except String (Field Int) :=
  SetMaskHelper_run CMP N x val dims m

/-- The routine `compute_mask<CMP,ST>(x, value, m)`: every entry of the mask `m`
is set to 1 where the entry of `x` compares to `value` under `CMP` and to 0
elsewhere. The source is read through `get_view` when its storage is contiguous
and through `get_strided_view` otherwise; the mask is written through
`get_view`. The result is the field `m` after the call. -/
def compute_mask {α : Type} [DecidableEq α] [LT α] [DecidableRel (fun a b : α => a < b)]
    [LE α] [DecidableRel (fun a b : α => a ≤ b)] (CMP : Comparison)
    (x : Field α) (value : α) (m : Field Int) : Except String (Field Int) := do
  let layout := x.layout
  let dims := layout.dims
  let contiguous := x.contiguous
  match layout.rank with
  | 0 =>
    if contiguous then do
      let xv ← x.get_view 0
      let _mv ← m.get_view 0
      setMaskHelper CMP 0 xv m value dims
    else do
      let xv ← x.get_strided_view 0
      let _mv ← m.get_view 0
      setMaskHelper CMP 0 xv m value dims
  | 1 =>
    if contiguous then do
      let xv ← x.get_view 1
      let _mv ← m.get_view 1
      setMaskHelper CMP 1 xv m value dims
    else do
      let xv ← x.get_strided_view 1
      let _mv ← m.get_view 1
      setMaskHelper CMP 1 xv m value dims
  | 2 =>
    if contiguous then do
      let xv ← x.get_view 2
      let _mv ← m.get_view 2
      setMaskHelper CMP 2 xv m value dims
    else do
      let xv ← x.get_strided_view 2
      let _mv ← m.get_view 2
      setMaskHelper CMP 2 xv m value dims
  | 3 =>
    if contiguous then do
      let xv ← x.get_view 3
      let _mv ← m.get_view 3
      setMaskHelper CMP 3 xv m value dims
    else do
      let xv ← x.get_strided_view 3
      let _mv ← m.get_view 3
      setMaskHelper CMP 3 xv m value dims
  | 4 =>
    if contiguous then do
      let xv ← x.get_view 4
      let _mv ← m.get_view 4
      setMaskHelper CMP 4 xv m value dims
    else do
      let xv ← x.get_strided_view 4
      let _mv ← m.get_view 4
      setMaskHelper CMP 4 xv m value dims
  | 5 =>
    if contiguous then do
      let xv ← x.get_view 5
      let _mv ← m.get_view 5
      setMaskHelper CMP 5 xv m value dims
    else do
      let xv ← x.get_strided_view 5
      let _mv ← m.get_view 5
      setMaskHelper CMP 5 xv m value dims
  | 6 =>
    if contiguous then do
      let xv ← x.get_view 6
      let _mv ← m.get_view 6
      setMaskHelper CMP 6 xv m value dims
    else do
      let xv ← x.get_strided_view 6
      let _mv ← m.get_view 6
      setMaskHelper CMP 6 xv m value dims
  | _ =>
    throw ("Unsupported field rank in compute_mask.\n"
      ++ " - field name: " ++ x.name ++ "\n"
      ++ " - field rank: " ++ toString layout.rank ++ "\n")

/-- The loop over a list of index tuples, in the order of the list. -/
def forEachIndex {σ : Type} (L : List (List Nat)) (body : List Nat → σ → σ) (s : σ) : σ :=
  L.foldl (fun st idx => body idx st) s

/-- A strided copy of the example field [[1,2],[3,4],[5,6]]: the same logical
entries, in storage that is not contiguous. -/
def exIn32s : Field Int := { exIn32 with name := "f_in_strided", contiguous := false }

/-- A rank-2 mask field of layout (COL=3, LEV=2), holding arbitrary previous
content. -/
def exMask32 : Field Int :=
  { name := "mask", layout := ⟨[(FieldTag.COL, 3), (FieldTag.LEV, 2)]⟩, contiguous := true,
    data := fun _ => 77 }

/-! ## Global maximum -/

/-- The library function `std::max(a, b)`: `b` if `a < b`, otherwise `a`. -/
def std_max {α : Type} [LT α] [DecidableRel (fun a b : α => a < b)] (a b : α) : α :=
  if a < b then b else a

/-- The reduction operation `MPI_MAX`. -/
def MPI_MAX {α : Type} [LT α] [DecidableRel (fun a b : α => a < b)] (a b : α) : α :=
  if a < b then b else a

/-- The routine `field_max<ST>(f, comm)`: a running maximum over all logical
entries, seeded with `std::numeric_limits<ST>::lowest()`, which is the
parameter `lowest` (a constant of the element type). With a process group the
local maxima are combined by the `MPI_MAX` collective. -/
def field_max {α : Type} [LT α] [DecidableRel (fun a b : α => a < b)] (lowest : α)
    (f : Field α) (comm : Option (Comm α)) : Except String α := do
  let fl := f.layout
  let max ←
    match fl.rank with
    | 1 => do
      let v ← f.get_strided_view 1
      pure (forLoop (fl.dim 0) (fun i max =>
        std_max max (v [i])) lowest)
    | 2 => do
      let v ← f.get_strided_view 2
      pure (forLoop (fl.dim 0) (fun i max =>
        forLoop (fl.dim 1) (fun j max =>
          std_max max (v [i, j])) max) lowest)
    | 3 => do
      let v ← f.get_strided_view 3
      pure (forLoop (fl.dim 0) (fun i max =>
        forLoop (fl.dim 1) (fun j max =>
          forLoop (fl.dim 2) (fun k max =>
            std_max max (v [i, j, k])) max) max) lowest)
    | 4 => do
      let v ← f.get_strided_view 4
      pure (forLoop (fl.dim 0) (fun i max =>
        forLoop (fl.dim 1) (fun j max =>
          forLoop (fl.dim 2) (fun k max =>
            forLoop (fl.dim 3) (fun l max =>
              std_max max (v [i, j, k, l])) max) max) max) lowest)
    | 5 => do
      let v ← f.get_strided_view 5
      pure (forLoop (fl.dim 0) (fun i max =>
        forLoop (fl.dim 1) (fun j max =>
          forLoop (fl.dim 2) (fun k max =>
            forLoop (fl.dim 3) (fun l max =>
              forLoop (fl.dim 4) (fun m max =>
                std_max max (v [i, j, k, l, m])) max) max) max) max) lowest)
    | 6 => do
      let v ← f.get_strided_view 6
      pure (forLoop (fl.dim 0) (fun i max =>
        forLoop (fl.dim 1) (fun j max =>
          forLoop (fl.dim 2) (fun k max =>
            forLoop (fl.dim 3) (fun l max =>
              forLoop (fl.dim 4) (fun m max =>
                forLoop (fl.dim 5) (fun n max =>
                  std_max max (v [i, j, k, l, m, n])) max) max) max) max) max) lowest)
    | _ => throw "Error! Unsupported field rank.\n"
  match comm with
  | some c => pure (c.all_reduce MPI_MAX max)
  | none => pure max

/-- Modelled from the spec: the call of `field_max` made by process `p` of a
process group whose processes hold the fields `procs` (in rank order); the
values contributed to the `MPI_MAX` collective are the local maxima. -/
def field_max_spmd {α : Type} [LT α] [DecidableRel (fun a b : α => a < b)] (lowest : α)
    (procs : List (Field α)) (p : Nat) : Except String α := do
  let locals ← procs.mapM (fun q => field_max lowest q none)
  match procs.get? p with
  | some q => field_max lowest q (some (Comm.ofContribs locals p))
  | none => throw "Error! Process rank out of the group.\n"

/-- The lowest value of a 32-bit signed integer, `std::numeric_limits<int>::lowest()`. -/
def int_lowest : Int := -2147483648

/-! ## Global minimum -/

/-- The library function `std::min(a, b)`: `b` if `b < a`, otherwise `a`. -/
def std_min {α : Type} [LT α] [DecidableRel (fun a b : α => a < b)] (a b : α) : α :=
  if b < a then b else a

/-- The reduction operation `MPI_MIN`. -/
def MPI_MIN {α : Type} [LT α] [DecidableRel (fun a b : α => a < b)] (a b : α) : α :=
  if b < a then b else a

/-- The routine `field_min<ST>(f, comm)`: a running minimum over all logical
entries, seeded with `std::numeric_limits<ST>::max()`, which is the parameter
`largest` (a constant of the element type). With a process group the local
minima are combined by the `MPI_MIN` collective. -/
def field_min {α : Type} [LT α] [DecidableRel (fun a b : α => a < b)] (largest : α)
    (f : Field α) (comm : Option (Comm α)) : Except String α := do
  let fl := f.layout
  let min ←
    match fl.rank with
    | 1 => do
      let v ← f.get_strided_view 1
      pure (forLoop (fl.dim 0) (fun i min =>
        std_min min (v [i])) largest)
    | 2 => do
      let v ← f.get_strided_view 2
      pure (forLoop (fl.dim 0) (fun i min =>
        forLoop (fl.dim 1) (fun j min =>
          std_min min (v [i, j])) min) largest)
    | 3 => do
      let v ← f.get_strided_view 3
      pure (forLoop (fl.dim 0) (fun i min =>
        forLoop (fl.dim 1) (fun j min =>
          forLoop (fl.dim 2) (fun k min =>
            std_min min (v [i, j, k])) min) min) largest)
    | 4 => do
      let v ← f.get_strided_view 4
      pure (forLoop (fl.dim 0) (fun i min =>
        forLoop (fl.dim 1) (fun j min =>
          forLoop (fl.dim 2) (fun k min =>
            forLoop (fl.dim 3) (fun l min =>
              std_min min (v [i, j, k, l])) min) min) min) largest)
    | 5 => do
      let v ← f.get_strided_view 5
      pure (forLoop (fl.dim 0) (fun i min =>
        forLoop (fl.dim 1) (fun j min =>
          forLoop (fl.dim 2) (fun k min =>
            forLoop (fl.dim 3) (fun l min =>
              forLoop (fl.dim 4) (fun m min =>
                std_min min (v [i, j, k, l, m])) min) min) min) min) largest)
    | 6 => do
      let v ← f.get_strided_view 6
      pure (forLoop (fl.dim 0) (fun i min =>
        forLoop (fl.dim 1) (fun j min =>
          forLoop (fl.dim 2) (fun k min =>
            forLoop (fl.dim 3) (fun l min =>
              forLoop (fl.dim 4) (fun m min =>
                forLoop (fl.dim 5) (fun n min =>
                  std_min min (v [i, j, k, l, m, n])) min) min) min) min) min) largest)
    | _ => throw "Error! Unsupported field rank.\n"
  match comm with
  | some c => pure (c.all_reduce MPI_MIN min)
  | none => pure min

/-- Modelled from the spec: the call of `field_min` made by process `p` of a
process group whose processes hold the fields `procs` (in rank order); the
values contributed to the `MPI_MIN` collective are the local minima. -/
def field_min_spmd {α : Type} [LT α] [DecidableRel (fun a b : α => a < b)] (largest : α)
    (procs : List (Field α)) (p : Nat) : Except String α := do
  let locals ← procs.mapM (fun q => field_min largest q none)
  match procs.get? p with
  | some q => field_min largest q (some (Comm.ofContribs locals p))
  | none => throw "Error! Process rank out of the group.\n"

/-- The largest value of a 32-bit signed integer, `std::numeric_limits<int>::max()`. -/
def int_largest : Int := 2147483647

/-! ## Global sum and Euclidean norm -/

/-- The reduction operation `MPI_SUM` on a buffer of one element. -/
def MPI_SUM1 {α : Type} [Add α] (a b : α) : α := a + b

/-- The library function `std::pow(x, n)` for a natural exponent. -/
def std_pow {α : Type} [Pow α Nat] (x : α) (n : Nat) : α := x ^ n

/-- The routine `field_sum<ST>(f, comm)`: the sum of all logical entries,
accumulated by the Kahan algorithm. The state of every loop nest is the pair
`(sum, c)` of the running sum and the compensation. With a process group the
local sums are combined by the `MPI_SUM` collective. -/
def field_sum {α : Type} [Zero α] [Add α] [Sub α]
    (f : Field α) (comm : Option (Comm α)) : Except String α := do
  let fl := f.layout
  let st ←
    match fl.rank with
    | 1 => do
      let v ← f.get_strided_view 1
      pure (forLoop (fl.dim 0) (fun i (st : α × α) =>
        let sum := st.1
        let c := st.2
        let y := v [i] - c
        let temp := sum + y
        let c := (temp - sum) - y
        let sum := temp
        (sum, c)) (0, 0))
    | 2 => do
      let v ← f.get_strided_view 2
      pure (forLoop (fl.dim 0) (fun i (st : α × α) =>
        forLoop (fl.dim 1) (fun j (st : α × α) =>
          let sum := st.1
          let c := st.2
          let y := v [i, j] - c
          let temp := sum + y
          let c := (temp - sum) - y
          let sum := temp
          (sum, c)) st) (0, 0))
    | 3 => do
      let v ← f.get_strided_view 3
      pure (forLoop (fl.dim 0) (fun i (st : α × α) =>
        forLoop (fl.dim 1) (fun j (st : α × α) =>
          forLoop (fl.dim 2) (fun k (st : α × α) =>
            let sum := st.1
            let c := st.2
            let y := v [i, j, k] - c
            let temp := sum + y
            let c := (temp - sum) - y
            let sum := temp
            (sum, c)) st) st) (0, 0))
    | 4 => do
      let v ← f.get_strided_view 4
      pure (forLoop (fl.dim 0) (fun i (st : α × α) =>
        forLoop (fl.dim 1) (fun j (st : α × α) =>
          forLoop (fl.dim 2) (fun k (st : α × α) =>
            forLoop (fl.dim 3) (fun l (st : α × α) =>
              let sum := st.1
              let c := st.2
              let y := v [i, j, k, l] - c
              let temp := sum + y
              let c := (temp - sum) - y
              let sum := temp
              (sum, c)) st) st) st) (0, 0))
    | 5 => do
      let v ← f.get_strided_view 5
      pure (forLoop (fl.dim 0) (fun i (st : α × α) =>
        forLoop (fl.dim 1) (fun j (st : α × α) =>
          forLoop (fl.dim 2) (fun k (st : α × α) =>
            forLoop (fl.dim 3) (fun l (st : α × α) =>
              forLoop (fl.dim 4) (fun m (st : α × α) =>
                let sum := st.1
                let c := st.2
                let y := v [i, j, k, l, m] - c
                let temp := sum + y
                let c := (temp - sum) - y
                let sum := temp
                (sum, c)) st) st) st) st) (0, 0))
    | 6 => do
      let v ← f.get_strided_view 6
      pure (forLoop (fl.dim 0) (fun i (st : α × α) =>
        forLoop (fl.dim 1) (fun j (st : α × α) =>
          forLoop (fl.dim 2) (fun k (st : α × α) =>
            forLoop (fl.dim 3) (fun l (st : α × α) =>
              forLoop (fl.dim 4) (fun m (st : α × α) =>
                forLoop (fl.dim 5) (fun n (st : α × α) =>
                  let sum := st.1
                  let c := st.2
                  let y := v [i, j, k, l, m, n] - c
                  let temp := sum + y
                  let c := (temp - sum) - y
                  let sum := temp
                  (sum, c)) st) st) st) st) st) (0, 0))
    | _ => throw "Error! Unsupported field rank.\n"
  let sum := st.1
  match comm with
  | some c => pure (c.all_reduce MPI_SUM1 sum)
  | none => pure sum

/-- The routine `frobenius_norm<ST>(f, comm)`: the square root of the sum of
the squares of all logical entries, the sum being accumulated by the Kahan
algorithm. The library function `std::sqrt` of the element type is the
parameter `sqrt`. With a process group the local sums of squares are combined
by the `MPI_SUM` collective before the square root is taken. -/
def frobenius_norm {α : Type} [Zero α] [Add α] [Sub α] [Pow α Nat] (sqrt : α → α)
    (f : Field α) (comm : Option (Comm α)) : Except String α := do
  let fl := f.layout
  let st ←
    match fl.rank with
    | 1 => do
      let v ← f.get_strided_view 1
      pure (forLoop (fl.dim 0) (fun i (st : α × α) =>
        let norm := st.1
        let c := st.2
        let y := std_pow (v [i]) 2 - c
        let temp := norm + y
        let c := (temp - norm) - y
        let norm := temp
        (norm, c)) (0, 0))
    | 2 => do
      let v ← f.get_strided_view 2
      pure (forLoop (fl.dim 0) (fun i (st : α × α) =>
        forLoop (fl.dim 1) (fun j (st : α × α) =>
          let norm := st.1
          let c := st.2
          let y := std_pow (v [i, j]) 2 - c
          let temp := norm + y
          let c := (temp - norm) - y
          let norm := temp
          (norm, c)) st) (0, 0))
    | 3 => do
      let v ← f.get_strided_view 3
      pure (forLoop (fl.dim 0) (fun i (st : α × α) =>
        forLoop (fl.dim 1) (fun j (st : α × α) =>
          forLoop (fl.dim 2) (fun k (st : α × α) =>
            let norm := st.1
            let c := st.2
            let y := std_pow (v [i, j, k]) 2 - c
            let temp := norm + y
            let c := (temp - norm) - y
            let norm := temp
            (norm, c)) st) st) (0, 0))
    | 4 => do
      let v ← f.get_strided_view 4
      pure (forLoop (fl.dim 0) (fun i (st : α × α) =>
        forLoop (fl.dim 1) (fun j (st : α × α) =>
          forLoop (fl.dim 2) (fun k (st : α × α) =>
            forLoop (fl.dim 3) (fun l (st : α × α) =>
              let norm := st.1
              let c := st.2
              let y := std_pow (v [i, j, k, l]) 2 - c
              let temp := norm + y
              let c := (temp - norm) - y
              let norm := temp
              (norm, c)) st) st) st) (0, 0))
    | 5 => do
      let v ← f.get_strided_view 5
      pure (forLoop (fl.dim 0) (fun i (st : α × α) =>
        forLoop (fl.dim 1) (fun j (st : α × α) =>
          forLoop (fl.dim 2) (fun k (st : α × α) =>
            forLoop (fl.dim 3) (fun l (st : α × α) =>
              forLoop (fl.dim 4) (fun m (st : α × α) =>
                let norm := st.1
                let c := st.2
                let y := std_pow (v [i, j, k, l, m]) 2 - c
                let temp := norm + y
                let c := (temp - norm) - y
                let norm := temp
                (norm, c)) st) st) st) st) (0, 0))
    | 6 => do
      let v ← f.get_strided_view 6
      pure (forLoop (fl.dim 0) (fun i (st : α × α) =>
        forLoop (fl.dim 1) (fun j (st : α × α) =>
          forLoop (fl.dim 2) (fun k (st : α × α) =>
            forLoop (fl.dim 3) (fun l (st : α × α) =>
              forLoop (fl.dim 4) (fun m (st : α × α) =>
                forLoop (fl.dim 5) (fun n (st : α × α) =>
                  let norm := st.1
                  let c := st.2
                  let y := std_pow (v [i, j, k, l, m, n]) 2 - c
                  let temp := norm + y
                  let c := (temp - norm) - y
                  let norm := temp
                  (norm, c)) st) st) st) st) st) (0, 0))
    | _ => throw "Error! Unsupported field rank.\n"
  let norm := st.1
  match comm with
  | some c =>
    let global_norm := c.all_reduce MPI_SUM1 norm
    pure (sqrt global_norm)
  | none => pure (sqrt norm)

/-- One step of the Kahan algorithm on the state `(sum, c)`:
`y = term - c; t = sum + y; c = (t - sum) - y; sum = t`. -/
def kahan_step {α : Type} [Add α] [Sub α] (term : α) (st : α × α) : α × α :=
  (st.1 + (term - st.2), ((st.1 + (term - st.2)) - st.1) - (term - st.2))

/-- The generic Kahan fold over a list of terms, starting from `sum = 0` and
`c = 0`; the result is the final pair `(sum, c)`. -/
def kahan_fold {α : Type} [Zero α] [Add α] [Sub α] (terms : List α) : α × α :=
  terms.foldl (fun st t => kahan_step t st) (0, 0)

/-- Modelled from the spec: the call of `field_sum` made by process `p` of a
process group whose processes hold the fields `procs` (in rank order); the
values contributed to the `MPI_SUM` collective are the local sums. -/
def field_sum_spmd {α : Type} [Zero α] [Add α] [Sub α]
    (procs : List (Field α)) (p : Nat) : Except String α := do
  let locals ← procs.mapM (fun q => field_sum q none)
  match procs.get? p with
  | some q => field_sum q (some (Comm.ofContribs locals p))
  | none => throw "Error! Process rank out of the group.\n"

/-- Modelled from the spec: the call of `frobenius_norm` made by process `p` of
a process group whose processes hold the fields `procs` (in rank order); the
values contributed to the `MPI_SUM` collective are the local sums of squares,
that is the values `norm` the processes hold before the square root (they are
obtained by running the routine with the identity in place of `sqrt`). -/
def frobenius_norm_spmd {α : Type} [Zero α] [Add α] [Sub α] [Pow α Nat] (sqrt : α → α)
    (procs : List (Field α)) (p : Nat) : Except String α := do
  let locals ← procs.mapM (fun q => frobenius_norm (fun x => x) q none)
  match procs.get? p with
  | some q => frobenius_norm sqrt q (some (Comm.ofContribs locals p))
  | none => throw "Error! Process rank out of the group.\n"

/-- An integer square root standing for `std::sqrt` on the exact squares used in
the examples. -/
def int_sqrt (x : Int) : Int := Int.ofNat (Nat.sqrt x.toNat)

/-- A rank-1 field over COL=1 holding [3]. -/
def exF3 : Field Int :=
  { name := "f3", layout := ⟨[(FieldTag.COL, 1)]⟩, contiguous := true,
    data := fun idx => match idx with
      | [0] => 3
      | _ => 0 }

/-- A rank-1 field over COL=1 holding [4]. -/
def exF4 : Field Int :=
  { name := "f4", layout := ⟨[(FieldTag.COL, 1)]⟩, contiguous := true,
    data := fun idx => match idx with
      | [0] => 4
      | _ => 0 }

/-! ## Randomization -/

/-- The routine `randomize<ST>(f, engine, pdf)`: every logical entry of `f` is
assigned one sample `pdf(engine)`. The random engine is a state of type `ε`;
the call `pdf(engine)` returns the sample and the advanced engine. The state of
every loop nest is the pair of the field and the engine; the result is that
pair after the call. -/
def randomize {α ε : Type} (f : Field α) (engine : ε) (pdf : ε → α × ε) :
    Except String (Field α × ε) := do
  let fl := f.layout
  match fl.rank with
  | 0 => do
    let _v ← f.get_strided_view 0
    pure (f.set [] (pdf engine).1, (pdf engine).2)
  | 1 => do
    let _v ← f.get_strided_view 1
    pure (forLoop (fl.dim 0) (fun i (st : Field α × ε) =>
      (st.1.set [i] (pdf st.2).1, (pdf st.2).2)) (f, engine))
  | 2 => do
    let _v ← f.get_strided_view 2
    pure (forLoop (fl.dim 0) (fun i (st : Field α × ε) =>
      forLoop (fl.dim 1) (fun j (st : Field α × ε) =>
        (st.1.set [i, j] (pdf st.2).1, (pdf st.2).2)) st) (f, engine))
  | 3 => do
    let _v ← f.get_strided_view 3
    pure (forLoop (fl.dim 0) (fun i (st : Field α × ε) =>
      forLoop (fl.dim 1) (fun j (st : Field α × ε) =>
        forLoop (fl.dim 2) (fun k (st : Field α × ε) =>
          (st.1.set [i, j, k] (pdf st.2).1, (pdf st.2).2)) st) st) (f, engine))
  | 4 => do
    let _v ← f.get_strided_view 4
    pure (forLoop (fl.dim 0) (fun i (st : Field α × ε) =>
      forLoop (fl.dim 1) (fun j (st : Field α × ε) =>
        forLoop (fl.dim 2) (fun k (st : Field α × ε) =>
          forLoop (fl.dim 3) (fun l (st : Field α × ε) =>
            (st.1.set [i, j, k, l] (pdf st.2).1, (pdf st.2).2)) st) st) st) (f, engine))
  | 5 => do
    let _v ← f.get_strided_view 5
    pure (forLoop (fl.dim 0) (fun i (st : Field α × ε) =>
      forLoop (fl.dim 1) (fun j (st : Field α × ε) =>
        forLoop (fl.dim 2) (fun k (st : Field α × ε) =>
          forLoop (fl.dim 3) (fun l (st : Field α × ε) =>
            forLoop (fl.dim 4) (fun m (st : Field α × ε) =>
              (st.1.set [i, j, k, l, m] (pdf st.2).1, (pdf st.2).2)) st) st) st) st) (f, engine))
  | 6 => do
    let _v ← f.get_strided_view 6
    pure (forLoop (fl.dim 0) (fun i (st : Field α × ε) =>
      forLoop (fl.dim 1) (fun j (st : Field α × ε) =>
        forLoop (fl.dim 2) (fun k (st : Field α × ε) =>
          forLoop (fl.dim 3) (fun l (st : Field α × ε) =>
            forLoop (fl.dim 4) (fun m (st : Field α × ε) =>
              forLoop (fl.dim 5) (fun n (st : Field α × ε) =>
                (st.1.set [i, j, k, l, m, n] (pdf st.2).1, (pdf st.2).2)) st) st) st) st) st) (f, engine))
  | _ => throw "Error! Unsupported field rank.\n"

/-- The state of the engine after `n` draws of `pdf` from the state `e`. -/
def advance {α ε : Type} (pdf : ε → α × ε) (e : ε) : Nat → ε
  | 0 => e
  | n + 1 => (pdf (advance pdf e n)).2

/-- The `n`-th sample (counted from 0) drawn by `pdf` from the engine state `e`. -/
def sample {α ε : Type} (pdf : ε → α × ε) (e : ε) (n : Nat) : α :=
  (pdf (advance pdf e n)).1

/-- The row-major flat index of an index tuple in an array of extents `dims`:
axis 0 outermost, last axis fastest. -/
def flatIndex : List Nat → List Nat → Nat
  | _ :: ds, i :: is => i * ds.prod + flatIndex ds is
  | _, _ => 0

/-- A counting engine for the examples: the state is the number of draws made
so far and the sample drawn in state `n` is `n + 2`. -/
def exPdf (e : Nat) : Int × Nat := (Int.ofNat e + 2, e + 1)

/-! ## Perturbation -/

/-- Modelled from the spec: tag lookup, `layout.has_tag(t)`. -/
def FieldLayout.has_tag (l : FieldLayout) (t : FieldTag) : Bool := l.tags.contains t

/-- Modelled from the spec: tag lookup returning the position of the first axis
with tag `t` (the rank if there is none). -/
def FieldLayout.dim_idx (l : FieldLayout) (t : FieldTag) : Nat := l.tags.indexOf t

/-- Modelled from the spec: `layout.clone()`. -/
def FieldLayout.clone (l : FieldLayout) : FieldLayout := l

/-- Modelled from the spec: `layout.strip_dims(tags)`, the layout with the axes
whose tag is in `tags` removed. -/
def FieldLayout.strip_dims (l : FieldLayout) (ts : List FieldTag) : FieldLayout :=
  ⟨l.descriptors.filter (fun d => !(ts.contains d.1))⟩

/-- Modelled from the spec: `layout.strip_dim(tag)`, the layout with the axes of
tag `tag` removed. -/
def FieldLayout.strip_dim (l : FieldLayout) (t : FieldTag) : FieldLayout := l.strip_dims [t]

/-- The layout with the axis at position `idim` removed: the layout of a
subfield that fixes that axis. -/
def FieldLayout.strip_idx (l : FieldLayout) (idim : Nat) : FieldLayout :=
  ⟨l.descriptors.eraseIdx idim⟩

/-- Modelled from the spec: a field constructed from an identifier of the given
name and layout, after `allocate_view()`: freshly allocated storage holds 0. -/
def Field.allocate {α : Type} [Zero α] (name : String) (layout : FieldLayout) : Field α :=
  { name := name, layout := layout, contiguous := true, data := fun _ => 0 }

/-- The index tuple `idx` with the component `k` inserted at position `pos`
(unchanged if `idx` has fewer than `pos` components). -/
def insertAt : Nat → Nat → List Nat → List Nat
  | 0, k, idx => k :: idx
  | _ + 1, _, [] => []
  | pos + 1, k, i :: idx => i :: insertAt pos k idx

/-- Modelled from the spec: `f.subfield(idim, k)`, the view of `f` that fixes
the axis at position `idim` to the index `k`: a strided field of rank one lower
whose entry at `idx` is the entry of `f` at `idx` with `k` inserted at `idim`. -/
def Field.subfield {α : Type} (f : Field α) (idim k : Nat) : Field α :=
  { name := f.name, layout := f.layout.strip_idx idim, contiguous := false,
    data := fun idx => f.data (insertAt idim k idx) }

/-- The parent field `f` after the entries of its slice `(idim, k)` have been
replaced by the entries of `s`: what the storage of `f` holds after writes made
through the view `f.subfield(idim, k)` left that view equal to `s`. -/
def Field.put_subfield {α : Type} (f : Field α) (idim k : Nat) (s : Field α) : Field α :=
  { f with data := fun idx =>
      if idx.get? idim = some k then s.data (idx.eraseIdx idim) else f.data idx }

/-- Modelled from the spec: an in-place operation `op` run on the view
`f.subfield(idim, k)`. The view shares its storage with `f`, so the result is
`f` with the entries of the slice replaced by those the view holds after `op`. -/
def Field.update_subfield {α : Type} (f : Field α) (idim k : Nat)
    (op : Field α → Field α) : Field α :=
  f.put_subfield idim k (op (f.subfield idim k))

/-- Modelled from the spec: `f.scale(x)`, elementwise multiply in place: every
logical entry of `f` is multiplied by the entry of `x` at the same index. -/
def Field.scale {α : Type} [Mul α] (f x : Field α) : Field α :=
  { f with data := fun idx =>
      if idx ∈ indexSpace f.layout.dims then f.data idx * x.data idx else f.data idx }

/-- The loop `for (int i=0; i<n; ++i) body(i)` whose body may raise an error:
the first error ends the loop. -/
def forLoopE {σ : Type} (n : Nat) (body : Nat → σ → Except String σ) (s : σ) :
    Except String σ :=
  (List.range n).foldlM (fun st i => body i st) s

/-- The seed `base_seed + gids(icol)` computed in `unsigned int` arithmetic: the
`int` global id is converted to `unsigned int` and the sum wraps modulo 2^32. -/
def new_seed (base_seed : Nat) (gid : Int) : Nat :=
  (((base_seed : Int) + gid) % 4294967296).toNat

/-- The objects `perturb` mutates: the field `f`, the random engine and the
work field `perturb_f` that receives the samples. -/
structure PerturbState (α ε : Type) where
  f : Field α
  engine : ε
  perturb_f : Field α

/-- The body of the level loop of `perturb` for the column `icol` of a field
with a column axis: if the level `ilev` is selected by the mask, the work field
is randomized and the sub-view of `f` at column `icol` and level `ilev` is
scaled by it. -/
def perturb_col_lev {α ε : Type} [Mul α] (pdf : ε → α × ε) (level_mask : Nat → Bool)
    (icol ilev : Nat) (st : PerturbState α ε) : Except String (PerturbState α ε) :=
  if level_mask ilev then do
    let r ← randomize st.perturb_f st.engine pdf
    pure { f := st.f.update_subfield (st.f.layout.dim_idx .COL) icol (fun s1 =>
                  s1.update_subfield (s1.layout.dim_idx .LEV) ilev (fun s2 =>
                    s2.scale r.1)),
           engine := r.2, perturb_f := r.1 }
  else pure st

/-- The body of the column loop of `perturb`: the engine is reseeded with
`base_seed + gids(icol)`; then either the level loop runs, or (no level axis)
the work field is randomized and the sub-view of `f` at column `icol` is scaled
by it. -/
def perturb_col {α ε : Type} [Mul α] (seed : ε → Nat → ε) (pdf : ε → α × ε)
    (base_seed : Nat) (level_mask : Nat → Bool) (gids : View Int) (has_lev_dim : Bool)
    (fl : FieldLayout) (icol : Nat) (st : PerturbState α ε) :
    Except String (PerturbState α ε) := do
  let new_seed := new_seed base_seed (gids [icol])
  let engine := seed st.engine new_seed
  if has_lev_dim then
    forLoopE (fl.dims.getLastD 0) (perturb_col_lev pdf level_mask icol)
      { st with engine := engine }
  else do
    let r ← randomize st.perturb_f engine pdf
    pure { f := st.f.update_subfield (st.f.layout.dim_idx .COL) icol (fun s1 =>
                  s1.scale r.1),
           engine := r.2, perturb_f := r.1 }

/-- The body of the level loop of `perturb` for a field without a column axis:
if the level `ilev` is selected by the mask, the work field is randomized and
the sub-view of `f` at level `ilev` is scaled by it. -/
def perturb_lev {α ε : Type} [Mul α] (pdf : ε → α × ε) (level_mask : Nat → Bool)
    (ilev : Nat) (st : PerturbState α ε) : Except String (PerturbState α ε) :=
  if level_mask ilev then do
    let r ← randomize st.perturb_f st.engine pdf
    pure { f := st.f.update_subfield (st.f.layout.dim_idx .LEV) ilev (fun s1 =>
                  s1.scale r.1),
           engine := r.2, perturb_f := r.1 }
  else pure st

/-- The routine `perturb<ST>(f, engine, pdf, base_seed, level_mask, dof_gids)`.
The random source is a state of type `ε`; `engine.seed(s)` is `seed engine s`
and `pdf(engine)` returns the sample and the advanced state. The loops run over
`fl.dims().front()` columns and `fl.dims().back()` levels. The result is the
pair of the field `f` and the engine after the call. -/
def perturb {α ε : Type} [Zero α] [Mul α] (f : Field α) (engine : ε) (seed : ε → Nat → ε)
    (pdf : ε → α × ε) (base_seed : Nat) (level_mask : Nat → Bool) (dof_gids : Field Int) :
    Except String (Field α × ε) := do
  let fl := f.layout
  let has_column_dim := fl.has_tag .COL
  let has_lev_dim := fl.has_tag .LEV
  if has_column_dim then do
    let gids ← dof_gids.get_strided_view 1
    let perturb_fl := fl.clone.strip_dims [.COL, .LEV]
    let perturb_f : Field α := Field.allocate "perturb_field" perturb_fl
    let st ← forLoopE (fl.dims.headD 0)
      (perturb_col seed pdf base_seed level_mask gids has_lev_dim fl)
      { f := f, engine := engine, perturb_f := perturb_f }
    pure (st.f, st.engine)
  else do
    let engine := seed engine base_seed
    let perturb_fl := fl.clone.strip_dim .LEV
    let perturb_f : Field α := Field.allocate "perturb_field" perturb_fl
    if has_lev_dim then do
      let st ← forLoopE (fl.dims.getLastD 0) (perturb_lev pdf level_mask)
        { f := f, engine := engine, perturb_f := perturb_f }
      pure (st.f, st.engine)
    else do
      let r ← randomize perturb_f engine pdf
      pure (f.scale r.1, r.2)

/-- The number of levels below `l` that the mask selects. -/
def true_levels (level_mask : Nat → Bool) (l : Nat) : Nat :=
  ((List.range l).filter level_mask).length

/-- An in-place field operation acts entry by entry: the entry it leaves at an
index is determined by the layout of the field and the entry it found there. -/
def PointwiseOp {α : Type} (T : Field α → Field α) : Prop :=
  ∀ f g idx, f.layout = g.layout → f.data idx = g.data idx →
    (T f).data idx = (T g).data idx

/-- Two work fields that agree in everything but their logical entries. -/
def SameFrame {α : Type} (p q : Field α) : Prop :=
  p.name = q.name ∧ p.layout = q.layout ∧ p.contiguous = q.contiguous ∧
    ∀ idx, ¬ InBounds p.layout.dims idx → p.data idx = q.data idx

/-- A field of layout (COL=2, CMP=2) holding [[1,2],[3,4]]. -/
def exColCmp : Field Int :=
  { name := "f", layout := ⟨[(.COL, 2), (.CMP, 2)]⟩, contiguous := true,
    data := fun idx => match idx with
      | [0, 0] => 1 | [0, 1] => 2 | [1, 0] => 3 | [1, 1] => 4 | _ => 0 }

/-- The global ids 10, 11 of two local columns. -/
def exGids2 : Field Int :=
  { name := "gids", layout := ⟨[(.COL, 2)]⟩, contiguous := true,
    data := fun idx => match idx with
      | [0] => 10 | [1] => 11 | _ => 0 }

/-- A reseeding of the counting engine: the state becomes the seed. -/
def exSeed (_old : Nat) (s : Nat) : Nat := s

/-- The global ids 10, 11, 12 of three local columns. -/
def exGids3 : Field Int :=
  { name := "gids", layout := ⟨[(.COL, 3)]⟩, contiguous := true,
    data := fun idx => match idx with
      | [0] => 10 | [1] => 11 | [2] => 12 | _ => 0 }

/-- A field of layout (COL=1, LEV=2) holding [[5,6]]. -/
def exCol12 : Field Int :=
  { name := "g", layout := ⟨[(.COL, 1), (.LEV, 2)]⟩, contiguous := true,
    data := fun idx => match idx with
      | [0, 0] => 5 | [0, 1] => 6 | _ => 0 }

/-- The global id 12 of one local column. -/
def exGid12 : Field Int :=
  { name := "gids", layout := ⟨[(.COL, 1)]⟩, contiguous := true,
    data := fun idx => match idx with
      | [0] => 12 | _ => 0 }

/-- The state of the engine when the column loop of `perturb` reaches column
`c`, each earlier column having reseeded the engine and then drawn `draws`
samples. -/
def engine_at {α ε : Type} (seed : ε → Nat → ε) (pdf : ε → α × ε) (base_seed : Nat)
    (gids : View Int) (draws : Nat) (e : ε) : Nat → ε
  | 0 => e
  | c + 1 => advance pdf
      (seed (engine_at seed pdf base_seed gids draws e c) (new_seed base_seed (gids [c]))) draws

/-- A field of layout (COL=2, CMP=2, LEV=3) whose entry at `(c, x, l)` is
`100*c + 10*x + l + 1`. -/
def exColCmpLev : Field Int :=
  { name := "f", layout := ⟨[(.COL, 2), (.CMP, 2), (.LEV, 3)]⟩, contiguous := true,
    data := fun idx => match idx with
      | [c, x, l] => Int.ofNat (100 * c + 10 * x + l + 1)
      | _ => 0 }

/-- A level mask selecting every level but level 1. -/
def exLevelMask (l : Nat) : Bool := l != 1

/-! ## The requests made to the random engine -/

/-- A request made to the random engine: `engine.seed(s)`, or one sample drawn
through `pdf(engine)`. -/
inductive EngineEvent where
  | reseed (s : Nat)
  | draw
  deriving DecidableEq

/-- The reseeding `seed` of an engine, instrumented: the engine carries the
list of the requests made to it so far, and a reseed is appended to it. -/
def logged_seed {ε : Type} (seed : ε → Nat → ε) (st : ε × List EngineEvent) (s : Nat) :
    ε × List EngineEvent :=
  (seed st.1 s, st.2 ++ [EngineEvent.reseed s])

/-- The distribution `pdf`, instrumented: every sample drawn is appended to the
list of requests carried by the engine. -/
def logged_pdf {α ε : Type} (pdf : ε → α × ε) (st : ε × List EngineEvent) :
    α × (ε × List EngineEvent) :=
  ((pdf st.1).1, ((pdf st.1).2, st.2 ++ [EngineEvent.draw]))

/-- The requests of one column pass: one reseed with the seed of the column,
then `draws` samples. -/
def column_events (base_seed : Nat) (gids : View Int) (draws : Nat) (c : Nat) :
    List EngineEvent :=
  EngineEvent.reseed (new_seed base_seed (gids [c])) :: List.replicate draws EngineEvent.draw

/-- The number of samples `perturb` draws in one column pass of a field of
layout `fl`: one work field per selected level, or one work field if there is
no level axis. -/
def column_draws (fl : FieldLayout) (level_mask : Nat → Bool) : Nat :=
  (if fl.has_tag .LEV = true then true_levels level_mask (fl.dims.getLastD 0) else 1)
    * (fl.strip_dims [.COL, .LEV]).dims.prod

/-- A field of layout (CMP=2, LEV=3) whose entry at `(x, l)` is `10*x + l + 1`. -/
def exCmpLev : Field Int :=
  { name := "f", layout := ⟨[(.CMP, 2), (.LEV, 3)]⟩, contiguous := true,
    data := fun idx => match idx with
      | [x, l] => Int.ofNat (10 * x + l + 1)
      | _ => 0 }

/-- A field of layout (CMP=3) holding [1,2,3]. -/
def exCmp3 : Field Int :=
  { name := "f", layout := ⟨[(.CMP, 3)]⟩, contiguous := true,
    data := fun idx => match idx with
      | [x] => Int.ofNat (x + 1)
      | _ => 0 }

/-- The field [[1,2],[3,4],[5,6]] of layout (COL=3, LEV=2) over the rationals. -/
def exInQ : Field ℚ :=
  { name := "f_in", layout := ⟨[(.COL, 3), (.LEV, 2)]⟩, contiguous := true,
    data := fun idx => match idx with
      | [0, 0] => 1 | [0, 1] => 2 | [1, 0] => 3 | [1, 1] => 4 | [2, 0] => 5 | [2, 1] => 6
      | _ => 0 }

/-- The rank-1 weight over COL=3 holding 1/3 at every column. -/
def exWQ : Field ℚ :=
  { name := "weight", layout := ⟨[(.COL, 3)]⟩, contiguous := true,
    data := fun _ => 1 / 3 }

/-- A rank-1 rational output field over LEV=2, holding arbitrary previous
content. -/
def exOutQ : Field ℚ :=
  { name := "f_out", layout := ⟨[(.LEV, 2)]⟩, contiguous := true, data := fun _ => 77 }

/-- The rank-1 weight over LEV=2 that is 1 at level 1 and 0 at level 0. -/
def exWLev1 : Field Int :=
  { name := "weight", layout := ⟨[(.LEV, 2)]⟩, contiguous := true,
    data := fun idx => match idx with
      | [1] => 1
      | _ => 0 }

/-! ## Printing a hyperslab -/

/-- One item written to the output stream by `out << ...`: a piece of text, or
a value of the field (its formatting is left to the stream). -/
inductive Tok (α : Type) where
  | text (s : String)
  | value (v : α)
  deriving DecidableEq

/-- The outcome of a call of the printer: what the output stream holds after
the call, and the error raised, if any. -/
structure PrintResult (α : Type) where
  out : List (Tok α)
  error : Option String
  deriving DecidableEq

/-- The helper `ekat::join(v, sep)`: the items of `v` separated by `sep`. -/
def ekat_join (v : List String) (sep : String) : String := sep.intercalate v

/-- The constant `max_per_line` of `print_field_hyperslab`. -/
def max_per_line : Nat := 5

/-- The lambda `get_orig_header` of `print_field_hyperslab`, on the chain of
layouts made of the layout of `f`, of its parent, of the parent of its parent
and so on: the first layout of the chain whose rank is not below `orig_rank`.
Walking past the last header dereferences a null parent; this is `none`. -/
def get_orig_header (orig_rank : Nat) : List FieldLayout → Option FieldLayout
  | [] => none
  | l :: parents => if l.rank < orig_rank then get_orig_header orig_rank parents else some l

/-- The lambda `get_dims_str` of `print_field_hyperslab`: one string per axis
of the original layout, empty except at the axes matched, in order, with the
requested tags, which hold the slice index. The state of the loop is the pair
of `dims_str` and `jj`. -/
def get_dims_str (tags : List FieldTag) (indices : List Nat) (orig_layout : FieldLayout) :
    List String :=
  let orig_rank := orig_layout.rank
  let num_tags := tags.length
  (forLoopGuard (fun (st : List String × Nat) => decide (st.2 < num_tags))
    (fun ii (st : List String × Nat) =>
      if orig_layout.tags.get? ii = tags.get? st.2 then
        (st.1.set ii (toString (indices.getD st.2 0)), st.2 + 1)
      else st)
    (List.range orig_rank) (List.replicate orig_rank "", 0)).1

/-- The lambda `get_dims_left` of `print_field_hyperslab`: the positions in the
original layout of the axes that were not matched, in order, with the requested
tags. The state of the loop is the pair of `dims_left` and `jj`. -/
def get_dims_left (tags : List FieldTag) (orig_layout : FieldLayout) : List Nat :=
  let orig_rank := orig_layout.rank
  let num_tags := tags.length
  (forLoop orig_rank (fun ii (st : List Nat × Nat) =>
      if st.2 < num_tags ∧ orig_layout.tags.get? ii = tags.get? st.2 then (st.1, st.2 + 1)
      else (st.1 ++ [ii], st.2))
    ([], 0)).1

/-- The branch `curr_idx==tags.size()` of `print_field_hyperslab`: all slices
have been taken and the field `f` that is left is printed. `orig_layout` is the
layout returned by `get_orig_header`. The loops carry the output stream and the
vector `dims_str`, which they overwrite in place. -/
def print_sliced_field {α : Type} (layout_str : FieldLayout → String) (f : Field α)
    (orig_layout : FieldLayout) (tags : List FieldTag) (indices : List Nat)
    (out : List (Tok α)) : PrintResult α :=
  let layout := f.layout
  let dims_left := get_dims_left tags orig_layout
  let dims_str := get_dims_str tags indices orig_layout
  let rank := layout.rank
  let out := out ++ [.text "     ", .text f.name, .text (layout_str orig_layout), .text "\n\n"]
  match rank with
    | 0 =>
      let out := out ++ [.text "  ", .text f.name, .text "(", .text (ekat_join dims_str ","), .text ")"]
      match f.get_strided_view 0 with
      | .error e => ⟨out, some e⟩
      | .ok v => ⟨out ++ [.text "\n    ", .value (v []), .text ", \n"], none⟩
    | 1 =>
      let dims_str := dims_str.set (dims_left.getD 0 0) ":"
      let out := out ++ [.text "  ", .text f.name, .text "(", .text (ekat_join dims_str ","), .text ")"]
      match f.get_strided_view 1 with
      | .error e => ⟨out, some e⟩
      | .ok v =>
        let out := forLoop (layout.dim 0) (fun i (out : List (Tok α)) =>
          let out := if i % max_per_line = 0 then out ++ [.text "\n    "] else out
          out ++ [.value (v [i]), .text ", "]) out
        ⟨out ++ [.text "\n"], none⟩
    | 2 =>
      let dims_str := dims_str.set (dims_left.getD 1 0) ":"
      match f.get_strided_view 2 with
      | .error e => ⟨out, some e⟩
      | .ok v =>
        ⟨(
          forLoop (layout.dim 0) (fun i (st : List (Tok α) × List String) =>
            let dims_str := st.2.set (dims_left.getD 0 0) (toString i)
            let out := st.1 ++ [.text "  ", .text f.name, .text "(", .text (ekat_join dims_str ","), .text ")"]
            let out := forLoop (layout.dim 1) (fun j (out : List (Tok α)) =>
              let out := if j % max_per_line = 0 then out ++ [.text "\n    "] else out
              out ++ [.value (v [i, j]), .text ", "]) out
            (out ++ [.text "\n"], dims_str)) (out, dims_str)
          ).1, none⟩
    | 3 =>
      let dims_str := dims_str.set (dims_left.getD 2 0) ":"
      match f.get_strided_view 3 with
      | .error e => ⟨out, some e⟩
      | .ok v =>
        ⟨(
          forLoop (layout.dim 0) (fun i (st : List (Tok α) × List String) =>
            let dims_str := st.2.set (dims_left.getD 0 0) (toString i)
            forLoop (layout.dim 1) (fun j (st : List (Tok α) × List String) =>
              let dims_str := st.2.set (dims_left.getD 1 0) (toString j)
              let out := st.1 ++ [.text "  ", .text f.name, .text "(", .text (ekat_join dims_str ","), .text ")"]
              let out := forLoop (layout.dim 2) (fun k (out : List (Tok α)) =>
                let out := if k % max_per_line = 0 then out ++ [.text "\n    "] else out
                out ++ [.value (v [i, j, k]), .text ", "]) out
              (out ++ [.text "\n"], dims_str))  (st.1, dims_str)) (out, dims_str)
          ).1, none⟩
    | 4 =>
      let dims_str := dims_str.set (dims_left.getD 3 0) ":"
      match f.get_strided_view 4 with
      | .error e => ⟨out, some e⟩
      | .ok v =>
        ⟨(
          forLoop (layout.dim 0) (fun i (st : List (Tok α) × List String) =>
            let dims_str := st.2.set (dims_left.getD 0 0) (toString i)
            forLoop (layout.dim 1) (fun j (st : List (Tok α) × List String) =>
              let dims_str := st.2.set (dims_left.getD 1 0) (toString j)
              forLoop (layout.dim 2) (fun k (st : List (Tok α) × List String) =>
                let dims_str := st.2.set (dims_left.getD 2 0) (toString k)
                let out := st.1 ++ [.text "  ", .text f.name, .text "(", .text (ekat_join dims_str ","), .text ")"]
                let out := forLoop (layout.dim 3) (fun l (out : List (Tok α)) =>
                  let out := if l % max_per_line = 0 then out ++ [.text "\n    "] else out
                  out ++ [.value (v [i, j, k, l]), .text ", "]) out
                (out ++ [.text "\n"], dims_str))  (st.1, dims_str)) (st.1, dims_str)) (out, dims_str)
          ).1, none⟩
    | 5 =>
      let dims_str := dims_str.set (dims_left.getD 4 0) ":"
      match f.get_strided_view 5 with
      | .error e => ⟨out, some e⟩
      | .ok v =>
        ⟨(
          forLoop (layout.dim 0) (fun i (st : List (Tok α) × List String) =>
            let dims_str := st.2.set (dims_left.getD 0 0) (toString i)
            forLoop (layout.dim 1) (fun j (st : List (Tok α) × List String) =>
              let dims_str := st.2.set (dims_left.getD 1 0) (toString j)
              forLoop (layout.dim 2) (fun k (st : List (Tok α) × List String) =>
                let dims_str := st.2.set (dims_left.getD 2 0) (toString k)
                forLoop (layout.dim 3) (fun l (st : List (Tok α) × List String) =>
                  let dims_str := st.2.set (dims_left.getD 3 0) (toString l)
                  let out := st.1 ++ [.text "  ", .text f.name, .text "(", .text (ekat_join dims_str ","), .text ")"]
                  let out := forLoop (layout.dim 3) (fun m (out : List (Tok α)) =>
                    let out := if m % max_per_line = 0 then out ++ [.text "\n    "] else out
                    out ++ [.value (v [i, j, k, l, m]), .text ", "]) out
                  (out ++ [.text "\n"], dims_str))  (st.1, dims_str)) (st.1, dims_str)) (st.1, dims_str)) (out, dims_str)
          ).1, none⟩
    | _ =>
      ⟨out, some ("Unsupported rank in print_field_hyperslab.\n"
        ++ "  - field name  : " ++ f.name ++ "\n"
        ++ "  - field layout (upon slicing): " ++ layout_str layout ++ "\n")⟩

/-- The body of `print_field_hyperslab<T>(f, tags, indices, out, orig_rank,
curr_idx)`, with a bound `fuel` on the number of recursive calls still allowed
(the recursion of the source makes `tags.size() - curr_idx` of them). The field
`f` comes with the layouts `parents` of its chain of parents (nearest first);
`layout_str` and `e2str` stand for `FieldLayout::to_string` and `e2str`, which
only format messages. Each call either takes the slice number `curr_idx` and
recurses on the subfield, or, when all slices are taken, prints the field. The
undefined reads `tags[curr_idx]` past the end and `get_parent()` of a null
header are reported as errors. -/
def print_field_hyperslab_rec {α : Type} (layout_str : FieldLayout → String)
    (e2str : FieldTag → String) (tags : List FieldTag) (indices : List Nat)
    (out : List (Tok α)) (orig_rank : Nat) :
    Nat → Field α → List FieldLayout → Nat → PrintResult α
  | fuel, f, parents, curr_idx =>
    if tags.length ≠ indices.length then
      ⟨out, some "Error! Tags vector size differs from indices vector size.\n"⟩
    else
      let layout := f.layout
      if curr_idx = tags.length then
        match get_orig_header orig_rank (layout :: parents) with
        | none => ⟨out, some "Error! Null parent header.\n"⟩
        | some orig_layout => print_sliced_field layout_str f orig_layout tags indices out
      else
        match tags.get? curr_idx with
        | none => ⟨out, some "Error! Tag index out of range.\n"⟩
        | some tag =>
          let idx := indices.getD curr_idx 0
          let idim := layout.tags.indexOf tag
          if idim = layout.tags.length then
            ⟨out, some ("Error! Something went wrong while slicing field.\n"
              ++ "  - field name  : " ++ f.name ++ "\n"
              ++ "  - field layout: " ++ layout_str layout ++ "\n"
              ++ "  - curr tag    : " ++ e2str tag ++ "\n")⟩
          else if ¬ (idim = 0 ∨ idim = 1) then
            ⟨out, some ("Error! Cannot subview field for printing.\n"
              ++ "  - field name  : " ++ f.name ++ "\n"
              ++ "  - field layout: " ++ layout_str layout ++ "\n"
              ++ "  - loc tags    : <" ++ ekat_join (tags.map e2str) "," ++ ">\n"
              ++ "  - loc indices : (" ++ ekat_join (indices.map toString) "," ++ ")\n")⟩
          else
            let sub_f := f.subfield idim idx
            match fuel with
            | 0 => ⟨out, some "Error! Recursion bound exceeded.\n"⟩
            | fuel + 1 =>
              print_field_hyperslab_rec layout_str e2str tags indices out orig_rank fuel
                sub_f (layout :: parents) (curr_idx + 1)

/-- The routine `print_field_hyperslab<T>(f, tags, indices, out, orig_rank,
curr_idx)`: the recursion is given the `tags.size() - curr_idx` recursive calls
it needs. -/
def print_field_hyperslab {α : Type} (layout_str : FieldLayout → String)
    (e2str : FieldTag → String) (f : Field α) (parents : List FieldLayout)
    (tags : List FieldTag) (indices : List Nat) (out : List (Tok α)) (orig_rank : Nat)
    (curr_idx : Nat) : PrintResult α :=
  print_field_hyperslab_rec layout_str e2str tags indices out orig_rank
    (tags.length - curr_idx) f parents curr_idx

/-- The slices `tags` can all be taken, one after the other, from a field of
layout `l`: at each step the requested tag is a tag of the current (already
sliced) layout and stands at position 0 or 1 of it. -/
def slices_accepted : FieldLayout → List FieldTag → Prop
  | _, [] => True
  | l, t :: ts =>
    t ∈ l.tags ∧ l.tags.indexOf t < 2 ∧ slices_accepted (l.strip_idx (l.tags.indexOf t)) ts

/-- The layout left when the slices `tags` have been taken from the layout `l`,
each at the first axis carrying its tag. -/
def sliced_layout : FieldLayout → List FieldTag → FieldLayout
  | l, [] => l
  | l, t :: ts => sliced_layout (l.strip_idx (l.tags.indexOf t)) ts

/-- The subfield left when the slices `(tags, indices)` have been taken from
`f` in the order given, each at the first axis carrying its tag. -/
def apply_slices {α : Type} : Field α → List FieldTag → List Nat → Field α
  | f, [], _ => f
  | f, t :: ts, is =>
    apply_slices (f.subfield (f.layout.tags.indexOf t) (is.headD 0)) ts is.tail

/-- The first line written by the printer: the name of the field and the
original layout. -/
def header_toks {α : Type} (layout_str : FieldLayout → String) (name : String)
    (orig_layout : FieldLayout) : List (Tok α) :=
  [.text "     ", .text name, .text (layout_str orig_layout), .text "\n\n"]

/-- The label of a printed run: the name of the field and the entries of
`dims_str` separated by commas, in parentheses. -/
def label_toks {α : Type} (name : String) (dims_str : List String) : List (Tok α) :=
  [.text "  ", .text name, .text "(", .text (ekat_join dims_str ","), .text ")"]

/-- The `n` values `g 0, ..., g (n-1)` of a printed run, each followed by a
comma, with a line break before every fifth value. -/
def run_toks {α : Type} (g : Nat → α) (n : Nat) : List (Tok α) :=
  (List.range n).flatMap (fun j =>
    (if j % max_per_line = 0 then [Tok.text "\n    "] else []) ++ [.value (g j), .text ", "])

/-- A field of layout (COL=2, CMP=3, LEV=4) named `f` whose entry at
`(c, x, l)` is `100*c + 10*x + l`. -/
def exF234 : Field Int :=
  { name := "f", layout := ⟨[(.COL, 2), (.CMP, 3), (.LEV, 4)]⟩, contiguous := true,
    data := fun idx => match idx with
      | [c, x, l] => Int.ofNat (100 * c + 10 * x + l)
      | _ => 0 }

/-- A rendering of layouts used in the examples. -/
def exLayoutStr (_l : FieldLayout) : String := "<layout>"

/-- A rendering of tags used in the examples. -/
def exTagStr (_t : FieldTag) : String := "tag"

/-- A field of rank 5 with extents (1,1,1,1,2) holding the two values 1, 2. -/
def exRank5 : Field Int :=
  { name := "g", layout := ⟨[(.COL, 1), (.CMP, 1), (.CMP, 1), (.CMP, 1), (.LEV, 2)]⟩,
    contiguous := true,
    data := fun idx => match idx with
      | [0, 0, 0, 0, 0] => 1 | [0, 0, 0, 0, 1] => 2
      | _ => 0 }

/-- Whether the slices can all be taken is decidable. -/
instance slices_accepted_decidable :
    (l : FieldLayout) → (ts : List FieldTag) → Decidable (slices_accepted l ts)
  | _, [] => isTrue trivial
  | l, t :: ts =>
    @instDecidableAnd _ _ _
      (@instDecidableAnd _ _ _
        (slices_accepted_decidable (l.strip_idx (l.tags.indexOf t)) ts))

/-- The vector `dims_str` after the writes `dims_str[p] = std::to_string(i)`
for the pairs `(p, i)` of `ws`, made in the order of the list. -/
def set_all (ds : List String) : List (Nat × Nat) → List String
  | [] => ds
  | w :: ws => set_all (ds.set w.1 (toString w.2)) ws

/-- The loops of the printer over the outer axes, for the list `axes` of the
pairs (extent, position in `dims_str`) of these axes: each loop writes its
index into `dims_str` and runs the next one; inside the last one `leaf` prints
a run. `o` holds the indices of the loops already entered. -/
def print_nest {α : Type}
    (leaf : List Nat → List String → List (Tok α) → List (Tok α)) :
    List (Nat × Nat) → List Nat → List (Tok α) × List String → List (Tok α) × List String
  | [], o, st => (leaf o st.2 st.1, st.2)
  | a :: axes, o, st =>
    forLoop a.1 (fun i st => print_nest leaf axes (o ++ [i]) (st.1, st.2.set a.2 (toString i)))
      st

/-- Two vectors of strings that agree except at the positions listed in `S`. -/
def AgreeOff (S : List Nat) (a b : List String) : Prop :=
  a.length = b.length ∧ ∀ q, q ∉ S → a.get? q = b.get? q

/-- What the printer writes for one run: the label, the values of the run and
a line break. `g` is the view of the field, `o` the indices of the outer axes
and `n` the number of passes of the innermost loop. -/
def run_block {α : Type} (name : String) (g : List Nat → α) (n : Nat) (o : List Nat)
    (dims_str : List String) : List (Tok α) :=
  label_toks name dims_str ++ run_toks (fun j => g (o ++ [j])) n ++ [.text "\n"]

/-- The innermost part of the loops of the printer, as the code writes it: the
label, the loop over the run, the line break. -/
def run_leaf {α : Type} (name : String) (g : List Nat → α) (n : Nat) (o : List Nat)
    (dims_str : List String) (out : List (Tok α)) : List (Tok α) :=
  (forLoop n (fun j (out : List (Tok α)) =>
      (if j % max_per_line = 0 then out ++ [Tok.text "\n    "] else out)
        ++ [Tok.value (g (o ++ [j])), Tok.text ", "])
    (out ++ [.text "  ", .text name, .text "(", .text (ekat_join dims_str ","), .text ")"]))
    ++ [.text "\n"]

/-- The label the printer is expected to give to a run, one string per axis of
the original layout with tags `T`, in the order of the layout: the position of
an axis whose tag is among the sliced `tags` holds the index of its slice; the
positions of the remaining axes hold, in order, the strings `vals` (the indices
of the outer loops followed by ':'). -/
def expected_label (tags : List FieldTag) (indices : List Nat) :
    List FieldTag → List String → List String
  | [], _ => []
  | t :: T, vals =>
    if t ∈ tags then
      toString (indices.getD (tags.indexOf t) 0) :: expected_label tags indices T vals
    else vals.headD "" :: expected_label tags indices T vals.tail

/-- The vector `dims_str` after the writes `dims_str[p] = s` for the pairs
`(p, s)` of `ws`, made in the order of the list. -/
def write_all (ds : List String) : List (Nat × String) → List String
  | [] => ds
  | w :: ws => write_all (ds.set w.1 w.2) ws

/-- The positions `ii, ii+1, ...` of the axes with tags `T` whose tag is not
among `tags`. -/
def free_positions (tags : List FieldTag) : Nat → List FieldTag → List Nat
  | _, [] => []
  | ii, t :: T =>
    if t ∈ tags then free_positions tags (ii + 1) T
    else ii :: free_positions tags (ii + 1) T

/-- One string per axis with tags `T`: the index of its slice if the tag of the
axis is among `tags`, the empty string otherwise. -/
def fixed_strings (tags : List FieldTag) (indices : List Nat) (T : List FieldTag) :
    List String :=
  T.map (fun t => if t ∈ tags then toString (indices.getD (tags.indexOf t) 0) else "")

/-- A field "h" of layout (CMP=2, COL=3, CMP=4), a layout that carries the tag
CMP twice, whose entry `(a,c,b)` is `100*a + 10*c + b`. -/
def exRepeat : Field Nat :=
  { name := "h"
    layout := ⟨[(.CMP, 2), (.COL, 3), (.CMP, 4)]⟩
    contiguous := true
    data := fun idx => 100 * idx.getD 0 0 + 10 * idx.getD 1 0 + idx.getD 2 0 }

/-- The positions, counted from `ii`, of the axes with tags `T` that are not
matched when the requested tags `rem` are matched in order against `T`, each
with the first axis at or after the previous match that carries it. -/
def unmatched_positions : Nat → List FieldTag → List FieldTag → List Nat
  | _, [], _ => []
  | ii, t :: T, rem =>
    if rem.head? = some t then unmatched_positions (ii + 1) T rem.tail
    else ii :: unmatched_positions (ii + 1) T rem

/-- One string per axis with tags `T` when the requested tags `rem` are matched
in order against `T`: the index of the slice at a matched axis (`jj` is the
number of the first tag of `rem` among all requested tags), the empty string
elsewhere. -/
def matched_strings (indices : List Nat) : Nat → List FieldTag → List FieldTag → List String
  | _, [], _ => []
  | jj, t :: T, rem =>
    if rem.head? = some t then
      toString (indices.getD jj 0) :: matched_strings indices (jj + 1) T rem.tail
    else "" :: matched_strings indices jj T rem

/-! ## Lemmas on loops -/

theorem forLoop_zero {σ : Type} (body : Nat → σ → σ) (s : σ) : forLoop 0 body s = s := rfl

theorem forLoop_succ {σ : Type} (n : Nat) (body : Nat → σ → σ) (s : σ) :
    forLoop (n + 1) body s = body n (forLoop n body s) := by
  simp [forLoop, List.range_succ, List.foldl_append]

theorem parallel_reduce_sum {α : Type} [AddCommMonoid α] (n : Nat) (g : Nat → α) :
    parallel_reduce n (fun i ac => ac + g i) = ∑ i in Finset.range n, g i := by
  unfold parallel_reduce
  induction n with
  | zero => simp [forLoop_zero]
  | succ n ih => rw [forLoop_succ, ih, Finset.sum_range_succ]

theorem Field.set_layout {α : Type} (f : Field α) (idx : List Nat) (v : α) :
    (f.set idx v).layout = f.layout := rfl

theorem forLoop_set_layout {α : Type} (n : Nat) (key : Nat → List Nat) (val : Nat → α)
    (f : Field α) :
    (forLoop n (fun j (out : Field α) => out.set (key j) (val j)) f).layout = f.layout := by
  induction n with
  | zero => rfl
  | succ n ih => rw [forLoop_succ, Field.set_layout, ih]

theorem forLoop_set_hit {α : Type} (n : Nat) (key : Nat → List Nat) (g : List Nat → α)
    (f : Field α) (j : Nat) (hj : j < n) :
    (forLoop n (fun j (out : Field α) => out.set (key j) (g (key j))) f).data (key j)
      = g (key j) := by
  induction n with
  | zero => omega
  | succ n ih =>
    rw [forLoop_succ]
    by_cases h : key n = key j
    · simp [Field.set, h]
    · have hj2 : j < n := by
        rcases Nat.lt_succ_iff_lt_or_eq.mp hj with h1 | h1
        · exact h1
        · subst h1; exact absurd rfl h
      simp only [Field.set]
      rw [Function.update_noteq (Ne.symm h)]
      exact ih hj2

theorem forLoop_set_miss {α : Type} (n : Nat) (key : Nat → List Nat) (val : Nat → α)
    (f : Field α) (idx : List Nat) (h : ∀ j, j < n → key j ≠ idx) :
    (forLoop n (fun j (out : Field α) => out.set (key j) (val j)) f).data idx = f.data idx := by
  induction n with
  | zero => rfl
  | succ n ih =>
    rw [forLoop_succ]
    simp only [Field.set]
    rw [Function.update_noteq (Ne.symm (h n (Nat.lt_succ_self n)))]
    exact ih (fun j hj => h j (Nat.lt_succ_of_lt hj))

theorem flat_split_unique (d1 d2 j k : Nat) (hj : j < d1) (hk : k < d2) :
    ∃ idx, (idx < d1 * d2 ∧ idx / d2 = j ∧ idx % d2 = k) ∧
      ∀ idx2, (idx2 < d1 * d2 ∧ idx2 / d2 = j ∧ idx2 % d2 = k) → idx2 = idx := by
  have hd2 : 0 < d2 := by omega
  refine ⟨j * d2 + k, ⟨?_, ?_, ?_⟩, ?_⟩
  · calc j * d2 + k < j * d2 + d2 := by omega
      _ = (j + 1) * d2 := by ring
      _ ≤ d1 * d2 := Nat.mul_le_mul_right d2 hj
  · rw [Nat.add_comm, Nat.add_mul_div_right _ _ hd2, Nat.div_eq_of_lt hk, Nat.zero_add]
  · rw [Nat.add_comm, Nat.add_mul_mod_self_right, Nat.mod_eq_of_lt hk]
  · rintro idx2 ⟨_, h2, h3⟩
    rw [← h2, ← h3, Nat.mul_comm]
    exact (Nat.div_add_mod idx2 d2).symm

/-! ## Lemmas on layouts and accessors -/

theorem FieldLayout.rank_of_dims (l : FieldLayout) (ds : List Nat) (h : l.dims = ds) :
    l.rank = ds.length := by
  subst h
  simp [FieldLayout.rank, FieldLayout.dims]

theorem FieldLayout.dim_of_dims (l : FieldLayout) (ds : List Nat) (h : l.dims = ds) (i : Nat) :
    l.dim i = ds.getD i 0 := by
  subst h
  rfl

theorem Field.get_view_ok {α : Type} (f : Field α) (N : Nat) (h : f.layout.rank = N) :
    f.get_view N = .ok f.data := by
  simp [Field.get_view, h]

theorem Field.get_strided_view_ok {α : Type} (f : Field α) (N : Nat) (h : f.layout.rank = N) :
    f.get_strided_view N = .ok f.data := by
  simp [Field.get_strided_view, h]

/-! ## Horizontal contraction without a process group -/

theorem horiz_contraction_rank1 {α : Type} [AddCommMonoid α] [Mul α]
    (f_out f_in weight : Field α) (ncols : Nat)
    (hw : weight.layout.rank = 1) (hin : f_in.layout.dims = [ncols])
    (hout : f_out.layout.rank = 0) :
    horiz_contraction f_out f_in weight none
      = .ok (f_out.set [] (∑ i in Finset.range ncols, weight.data [i] * f_in.data [i])) := by
  have hr : f_in.layout.rank = 1 := FieldLayout.rank_of_dims _ _ hin
  have h0 : f_in.layout.dim 0 = ncols := FieldLayout.dim_of_dims _ _ hin 0
  simp only [horiz_contraction, Field.get_view_ok _ _ hw, Field.get_view_ok _ _ hr,
    Field.get_view_ok _ _ hout, hr, h0, parallel_reduce_sum]
  rfl

theorem horiz_contraction_rank2 {α : Type} [AddCommMonoid α] [Mul α]
    (f_out f_in weight : Field α) (ncols d1 : Nat)
    (hw : weight.layout.rank = 1) (hin : f_in.layout.dims = [ncols, d1])
    (hout : f_out.layout.rank = 1) :
    horiz_contraction f_out f_in weight none
      = .ok (forLoop d1 (fun j (out : Field α) =>
          out.set [j] (∑ i in Finset.range ncols, weight.data [i] * f_in.data [i, j])) f_out) := by
  have hr : f_in.layout.rank = 2 := FieldLayout.rank_of_dims _ _ hin
  have h0 : f_in.layout.dim 0 = ncols := FieldLayout.dim_of_dims _ _ hin 0
  have h1 : f_in.layout.dim 1 = d1 := FieldLayout.dim_of_dims _ _ hin 1
  simp only [horiz_contraction, Field.get_view_ok _ _ hw, Field.get_view_ok _ _ hr,
    Field.get_view_ok _ _ hout, hr, h0, h1, parallel_reduce_sum, parallel_for]
  rfl

theorem horiz_contraction_rank3 {α : Type} [AddCommMonoid α] [Mul α]
    (f_out f_in weight : Field α) (ncols d1 d2 : Nat)
    (hw : weight.layout.rank = 1) (hin : f_in.layout.dims = [ncols, d1, d2])
    (hout : f_out.layout.rank = 2) :
    horiz_contraction f_out f_in weight none
      = .ok (forLoop (d1 * d2) (fun idx (out : Field α) =>
          out.set [idx / d2, idx % d2]
            (∑ i in Finset.range ncols, weight.data [i] * f_in.data [i, idx / d2, idx % d2]))
          f_out) := by
  have hr : f_in.layout.rank = 3 := FieldLayout.rank_of_dims _ _ hin
  have h0 : f_in.layout.dim 0 = ncols := FieldLayout.dim_of_dims _ _ hin 0
  have h1 : f_in.layout.dim 1 = d1 := FieldLayout.dim_of_dims _ _ hin 1
  have h2 : f_in.layout.dim 2 = d2 := FieldLayout.dim_of_dims _ _ hin 2
  simp only [horiz_contraction, Field.get_view_ok _ _ hw, Field.get_view_ok _ _ hr,
    Field.get_view_ok _ _ hout, hr, h0, h1, h2, parallel_reduce_sum, parallel_for]
  rfl

/-- Claim C1. Without a process group, `horiz_contraction` on an input of rank
1, 2 or 3 whose leading axis has `ncols` entries succeeds and writes the
weighted column sum: `out = Σ_i w[i]*in[i]` (rank 1), `out[j] = Σ_i w[i]*in[i,j]`
for every `j` (rank 2), `out[j,k] = Σ_i w[i]*in[i,j,k]` for every `(j,k)`
(rank 3), where every `(j,k)` is the split `idx / d2`, `idx % d2` of exactly one
flat task index `idx < d1*d2`. -/
theorem horiz_contraction_weighted_sum {α : Type} [AddCommMonoid α] [Mul α]
    (f_out f_in weight : Field α) (hw : weight.layout.rank = 1) :
    (∀ ncols, f_in.layout.dims = [ncols] → f_out.layout.rank = 0 →
      ∃ out, horiz_contraction f_out f_in weight none = .ok out ∧
        out.data [] = ∑ i in Finset.range ncols, weight.data [i] * f_in.data [i]) ∧
    (∀ ncols d1, f_in.layout.dims = [ncols, d1] → f_out.layout.rank = 1 →
      ∃ out, horiz_contraction f_out f_in weight none = .ok out ∧
        ∀ j, j < d1 →
          out.data [j] = ∑ i in Finset.range ncols, weight.data [i] * f_in.data [i, j]) ∧
    (∀ ncols d1 d2, f_in.layout.dims = [ncols, d1, d2] → f_out.layout.rank = 2 →
      ∃ out, horiz_contraction f_out f_in weight none = .ok out ∧
        ∀ j k, j < d1 → k < d2 →
          out.data [j, k] = ∑ i in Finset.range ncols, weight.data [i] * f_in.data [i, j, k] ∧
          ∃ idx, (idx < d1 * d2 ∧ idx / d2 = j ∧ idx % d2 = k) ∧
            ∀ idx2, (idx2 < d1 * d2 ∧ idx2 / d2 = j ∧ idx2 % d2 = k) → idx2 = idx) := by
  refine ⟨?_, ?_, ?_⟩
  · intro ncols hin hout
    refine ⟨_, horiz_contraction_rank1 f_out f_in weight ncols hw hin hout, ?_⟩
    simp [Field.set]
  · intro ncols d1 hin hout
    refine ⟨_, horiz_contraction_rank2 f_out f_in weight ncols d1 hw hin hout, ?_⟩
    intro j hj
    exact forLoop_set_hit d1 (fun j => [j])
      (fun idx => ∑ i in Finset.range ncols, weight.data [i] * f_in.data (i :: idx)) f_out j hj
  · intro ncols d1 d2 hin hout
    refine ⟨_, horiz_contraction_rank3 f_out f_in weight ncols d1 d2 hw hin hout, ?_⟩
    intro j k hj hk
    have hu := flat_split_unique d1 d2 j k hj hk
    refine ⟨?_, hu⟩
    obtain ⟨idx, ⟨h1, h2, h3⟩, _⟩ := hu
    have := forLoop_set_hit (d1 * d2) (fun idx => [idx / d2, idx % d2])
      (fun idx => ∑ i in Finset.range ncols, weight.data [i] * f_in.data (i :: idx)) f_out idx h1
    simp only [h2, h3] at this
    exact this

/-- Witness for C1: layout (COL=3, LEV=2), values [[1,2],[3,4],[5,6]] and
weight [1,1,1] give the output [9,12]. -/
theorem horiz_contraction_weighted_sum_witness :
    ∃ out, horiz_contraction exOut2 exIn32 exW3 none = .ok out ∧
      out.data [0] = 9 ∧ out.data [1] = 12 := by
  obtain ⟨out, h, hv⟩ :=
    (horiz_contraction_weighted_sum exOut2 exIn32 exW3 rfl).2.1 3 2 rfl rfl
  refine ⟨out, h, ?_, ?_⟩
  · rw [hv 0 (by decide)]; decide
  · rw [hv 1 (by decide)]; decide

/-! ## Vertical contraction -/

theorem vert_contraction_rank1 {α : Type} [AddCommMonoid α] [Mul α]
    (f_out f_in weight : Field α) (nlevs : Nat)
    (hw : weight.layout.rank = 1) (hin : f_in.layout.dims = [nlevs])
    (hout : f_out.layout.rank = 0) :
    vert_contraction f_out f_in weight
      = .ok (f_out.set [] (∑ k in Finset.range nlevs, weight.data [k] * f_in.data [k])) := by
  have hr : f_in.layout.rank = 1 := FieldLayout.rank_of_dims _ _ hin
  have h0 : f_in.layout.dim 0 = nlevs := FieldLayout.dim_of_dims _ _ hin 0
  simp only [vert_contraction, Field.get_view_ok _ _ hw, Field.get_view_ok _ _ hr,
    Field.get_view_ok _ _ hout, hr, hw, h0, parallel_reduce_sum, decide_True, if_true]
  rfl

theorem vert_contraction_rank2_w1d {α : Type} [AddCommMonoid α] [Mul α]
    (f_out f_in weight : Field α) (d0 nlevs : Nat)
    (hw : weight.layout.rank = 1) (hin : f_in.layout.dims = [d0, nlevs])
    (hout : f_out.layout.rank = 1) :
    vert_contraction f_out f_in weight
      = .ok (forLoop d0 (fun i (out : Field α) =>
          out.set [i] (∑ k in Finset.range nlevs, weight.data [k] * f_in.data [i, k])) f_out) := by
  have hr : f_in.layout.rank = 2 := FieldLayout.rank_of_dims _ _ hin
  have h0 : f_in.layout.dim 0 = d0 := FieldLayout.dim_of_dims _ _ hin 0
  have h1 : f_in.layout.dim 1 = nlevs := FieldLayout.dim_of_dims _ _ hin 1
  simp only [vert_contraction, Field.get_view_ok _ _ hw, Field.get_view_ok _ _ hr,
    Field.get_view_ok _ _ hout, hr, hw, h0, h1, parallel_reduce_sum, parallel_for,
    decide_True, if_true]
  rfl

theorem vert_contraction_rank3_w1d {α : Type} [AddCommMonoid α] [Mul α]
    (f_out f_in weight : Field α) (d0 d1 nlevs : Nat)
    (hw : weight.layout.rank = 1) (hin : f_in.layout.dims = [d0, d1, nlevs])
    (hout : f_out.layout.rank = 2) :
    vert_contraction f_out f_in weight
      = .ok (forLoop (d0 * d1) (fun idx (out : Field α) =>
          out.set [idx / d1, idx % d1]
            (∑ k in Finset.range nlevs, weight.data [k] * f_in.data [idx / d1, idx % d1, k]))
          f_out) := by
  have hr : f_in.layout.rank = 3 := FieldLayout.rank_of_dims _ _ hin
  have h0 : f_in.layout.dim 0 = d0 := FieldLayout.dim_of_dims _ _ hin 0
  have h1 : f_in.layout.dim 1 = d1 := FieldLayout.dim_of_dims _ _ hin 1
  have h2 : f_in.layout.dim 2 = nlevs := FieldLayout.dim_of_dims _ _ hin 2
  simp only [vert_contraction, Field.get_view_ok _ _ hw, Field.get_view_ok _ _ hr,
    Field.get_view_ok _ _ hout, hr, hw, h0, h1, h2, parallel_reduce_sum, parallel_for,
    decide_True, if_true]
  rfl

theorem vert_contraction_rank2_w2d {α : Type} [AddCommMonoid α] [Mul α]
    (f_out f_in weight : Field α) (d0 nlevs : Nat)
    (hw : weight.layout.rank = 2) (hin : f_in.layout.dims = [d0, nlevs])
    (hout : f_out.layout.rank = 1) :
    vert_contraction f_out f_in weight
      = .ok (forLoop d0 (fun i (out : Field α) =>
          out.set [i] (∑ k in Finset.range nlevs, weight.data [i, k] * f_in.data [i, k]))
          f_out) := by
  have hr : f_in.layout.rank = 2 := FieldLayout.rank_of_dims _ _ hin
  have h0 : f_in.layout.dim 0 = d0 := FieldLayout.dim_of_dims _ _ hin 0
  have h1 : f_in.layout.dim 1 = nlevs := FieldLayout.dim_of_dims _ _ hin 1
  simp only [vert_contraction, Field.get_view_ok _ _ hw, Field.get_view_ok _ _ hr,
    Field.get_view_ok _ _ hout, hr, hw, h0, h1, parallel_reduce_sum, parallel_for]
  rfl

theorem vert_contraction_rank3_w2d {α : Type} [AddCommMonoid α] [Mul α]
    (f_out f_in weight : Field α) (d0 d1 nlevs : Nat)
    (hw : weight.layout.rank = 2) (hin : f_in.layout.dims = [d0, d1, nlevs])
    (hout : f_out.layout.rank = 2) :
    vert_contraction f_out f_in weight
      = .ok (forLoop (d0 * d1) (fun idx (out : Field α) =>
          out.set [idx / d1, idx % d1]
            (∑ k in Finset.range nlevs,
              weight.data [idx / d1, k] * f_in.data [idx / d1, idx % d1, k]))
          f_out) := by
  have hr : f_in.layout.rank = 3 := FieldLayout.rank_of_dims _ _ hin
  have h0 : f_in.layout.dim 0 = d0 := FieldLayout.dim_of_dims _ _ hin 0
  have h1 : f_in.layout.dim 1 = d1 := FieldLayout.dim_of_dims _ _ hin 1
  have h2 : f_in.layout.dim 2 = nlevs := FieldLayout.dim_of_dims _ _ hin 2
  simp only [vert_contraction, Field.get_view_ok _ _ hw, Field.get_view_ok _ _ hr,
    Field.get_view_ok _ _ hout, hr, hw, h0, h1, h2, parallel_reduce_sum, parallel_for]
  rfl

/-- Claim C2. `vert_contraction` with a rank-1 weight (one weight per level) on
an input of rank 1, 2 or 3 whose trailing axis has `nlevs` entries succeeds and
writes `out = Σ_k w[k]*in[k]` (rank 1), `out[i] = Σ_k w[k]*in[i,k]` for every
`i` (rank 2), `out[i,j] = Σ_k w[k]*in[i,j,k]` for every `(i,j)` (rank 3), where
every `(i,j)` is the split `idx / d1`, `idx % d1` of exactly one flat task
index `idx < d0*d1`. -/
theorem vert_contraction_weight_1d {α : Type} [AddCommMonoid α] [Mul α]
    (f_out f_in weight : Field α) (hw : weight.layout.rank = 1) :
    (∀ nlevs, f_in.layout.dims = [nlevs] → f_out.layout.rank = 0 →
      ∃ out, vert_contraction f_out f_in weight = .ok out ∧
        out.data [] = ∑ k in Finset.range nlevs, weight.data [k] * f_in.data [k]) ∧
    (∀ d0 nlevs, f_in.layout.dims = [d0, nlevs] → f_out.layout.rank = 1 →
      ∃ out, vert_contraction f_out f_in weight = .ok out ∧
        ∀ i, i < d0 →
          out.data [i] = ∑ k in Finset.range nlevs, weight.data [k] * f_in.data [i, k]) ∧
    (∀ d0 d1 nlevs, f_in.layout.dims = [d0, d1, nlevs] → f_out.layout.rank = 2 →
      ∃ out, vert_contraction f_out f_in weight = .ok out ∧
        ∀ i j, i < d0 → j < d1 →
          out.data [i, j] = ∑ k in Finset.range nlevs, weight.data [k] * f_in.data [i, j, k] ∧
          ∃ idx, (idx < d0 * d1 ∧ idx / d1 = i ∧ idx % d1 = j) ∧
            ∀ idx2, (idx2 < d0 * d1 ∧ idx2 / d1 = i ∧ idx2 % d1 = j) → idx2 = idx) := by
  refine ⟨?_, ?_, ?_⟩
  · intro nlevs hin hout
    refine ⟨_, vert_contraction_rank1 f_out f_in weight nlevs hw hin hout, ?_⟩
    simp [Field.set]
  · intro d0 nlevs hin hout
    refine ⟨_, vert_contraction_rank2_w1d f_out f_in weight d0 nlevs hw hin hout, ?_⟩
    intro i hi
    exact forLoop_set_hit d0 (fun i => [i])
      (fun key => ∑ k in Finset.range nlevs, weight.data [k] * f_in.data (key ++ [k])) f_out i hi
  · intro d0 d1 nlevs hin hout
    refine ⟨_, vert_contraction_rank3_w1d f_out f_in weight d0 d1 nlevs hw hin hout, ?_⟩
    intro i j hi hj
    have hu := flat_split_unique d0 d1 i j hi hj
    refine ⟨?_, hu⟩
    obtain ⟨idx, ⟨h1, h2, h3⟩, _⟩ := hu
    have := forLoop_set_hit (d0 * d1) (fun idx => [idx / d1, idx % d1])
      (fun key => ∑ k in Finset.range nlevs, weight.data [k] * f_in.data (key ++ [k]))
      f_out idx h1
    simp only [h2, h3] at this
    exact this

/-- Witness for C2: the rank-2 field [[1,2],[3,4],[5,6]] contracted along its
two levels with the weight [10,100] gives [210,430,650]. -/
theorem vert_contraction_weight_1d_witness :
    ∃ out, vert_contraction exOut3 exIn32 exW2 = .ok out ∧
      out.data [0] = 210 ∧ out.data [1] = 430 ∧ out.data [2] = 650 := by
  obtain ⟨out, h, hv⟩ :=
    (vert_contraction_weight_1d exOut3 exIn32 exW2 rfl).2.1 3 2 rfl rfl
  refine ⟨out, h, ?_, ?_, ?_⟩
  · rw [hv 0 (by decide)]; decide
  · rw [hv 1 (by decide)]; decide
  · rw [hv 2 (by decide)]; decide

/-- Claim C3, counterexample. A rank-3 input with a rank-3 weight (one
weight per element and level) is rejected, because the weight is read through a
rank-2 view; no output `out[i,j] = Σ_k w[i,j,k]*in[i,j,k]` is produced. -/
theorem vert_contraction_rank3_weight_rejected :
    vert_contraction exOut12 exIn122 exW122
        = .error "Error! Input view type rank does not match the field rank.\n" ∧
      ¬ ∃ out, vert_contraction exOut12 exIn122 exW122 = .ok out ∧
          ∀ i j, i < 1 → j < 2 →
            out.data [i, j] = ∑ k in Finset.range 2, exW122.data [i, j, k] * exIn122.data [i, j, k] := by
  have h : vert_contraction exOut12 exIn122 exW122
      = .error "Error! Input view type rank does not match the field rank.\n" := rfl
  refine ⟨h, ?_⟩
  rintro ⟨out, ho, _⟩
  rw [h] at ho
  cases ho

theorem vert_contraction_weight_rank_error {α : Type} [Zero α] [Add α] [Mul α]
    (f_out f_in weight : Field α) (h1 : weight.layout.rank ≠ 1) (h2 : weight.layout.rank ≠ 2) :
    vert_contraction f_out f_in weight
      = .error "Error! Input view type rank does not match the field rank.\n" := by
  simp only [vert_contraction, Field.get_view, h1, h2, decide_False, Bool.false_eq_true,
    if_false]
  rfl

/-- Claim C3, amended. `vert_contraction` with a rank-2 weight, whose axes are
the leading axis of the input and the level axis, computes for a rank-2 input
`out[i] = Σ_k w[i,k]*in[i,k]` for every `i`, and for a rank-3 input
`out[i,j] = Σ_k w[i,k]*in[i,j,k]` for every `(i,j)`: the weight is indexed by
the leading index and the level only. A weight of rank 3, as any weight whose
rank is neither 1 nor 2, is not accepted, whatever the input and the output
are: the call reports the error of the rank-2 view and returns no field. -/
theorem vert_contraction_weight_2d {α : Type} [AddCommMonoid α] [Mul α]
    (f_out f_in weight : Field α) :
    (weight.layout.rank = 2 →
      (∀ d0 nlevs, f_in.layout.dims = [d0, nlevs] → f_out.layout.rank = 1 →
        ∃ out, vert_contraction f_out f_in weight = .ok out ∧
          ∀ i, i < d0 →
            out.data [i] = ∑ k in Finset.range nlevs, weight.data [i, k] * f_in.data [i, k]) ∧
      (∀ d0 d1 nlevs, f_in.layout.dims = [d0, d1, nlevs] → f_out.layout.rank = 2 →
        ∃ out, vert_contraction f_out f_in weight = .ok out ∧
          ∀ i j, i < d0 → j < d1 →
            out.data [i, j]
              = ∑ k in Finset.range nlevs, weight.data [i, k] * f_in.data [i, j, k])) ∧
    (weight.layout.rank = 3 →
      vert_contraction f_out f_in weight
        = .error "Error! Input view type rank does not match the field rank.\n") ∧
    (weight.layout.rank ≠ 1 → weight.layout.rank ≠ 2 →
      vert_contraction f_out f_in weight
        = .error "Error! Input view type rank does not match the field rank.\n") := by
  refine ⟨fun hw => ⟨?_, ?_⟩, fun h3 => ?_, fun h1 h2 => ?_⟩
  · intro d0 nlevs hin hout
    refine ⟨_, vert_contraction_rank2_w2d f_out f_in weight d0 nlevs hw hin hout, ?_⟩
    intro i hi
    exact forLoop_set_hit d0 (fun i => [i])
      (fun key => ∑ k in Finset.range nlevs,
        weight.data (key ++ [k]) * f_in.data (key ++ [k])) f_out i hi
  · intro d0 d1 nlevs hin hout
    refine ⟨_, vert_contraction_rank3_w2d f_out f_in weight d0 d1 nlevs hw hin hout, ?_⟩
    intro i j hi hj
    obtain ⟨idx, ⟨h1, h2, h3⟩, _⟩ := flat_split_unique d0 d1 i j hi hj
    have := forLoop_set_hit (d0 * d1) (fun idx => [idx / d1, idx % d1])
      (fun key => ∑ k in Finset.range nlevs,
        weight.data [key.headD 0, k] * f_in.data (key ++ [k])) f_out idx h1
    simp only [h2, h3] at this
    exact this
  · exact vert_contraction_weight_rank_error f_out f_in weight (by omega) (by omega)
  · exact vert_contraction_weight_rank_error f_out f_in weight h1 h2

/-- Witness for the amended C3: the rank-3 input [[[1,2],[3,4]]] with the
rank-2 weight [[10,100]] gives [[210,430]]; with the rank-3 weight
[[[1,1],[1,1]]] the call reports an error. -/
theorem vert_contraction_weight_2d_witness :
    (∃ out, vert_contraction exOut12 exIn122 exW12 = .ok out ∧
      out.data [0, 0] = 210 ∧ out.data [0, 1] = 430) ∧
    exW122.layout.rank = 3 ∧
    vert_contraction exOut12 exIn122 exW122
      = .error "Error! Input view type rank does not match the field rank.\n" := by
  obtain ⟨out, h, hv⟩ :=
    ((vert_contraction_weight_2d exOut12 exIn122 exW12).1 rfl).2 1 2 2 rfl rfl
  refine ⟨⟨out, h, ?_, ?_⟩, rfl,
    (vert_contraction_weight_2d exOut12 exIn122 exW122).2.1 rfl⟩
  · rw [hv 0 0 (by decide) (by decide)]; decide
  · rw [hv 0 1 (by decide) (by decide)]; decide

/-! ## Index spaces -/

theorem mem_indexSpace (dims idx : List Nat) : idx ∈ indexSpace dims ↔ InBounds dims idx := by
  induction dims generalizing idx with
  | nil =>
    simp only [indexSpace, List.mem_singleton, InBounds]
    constructor
    · rintro rfl; exact List.Forall₂.nil
    · intro h; cases h; rfl
  | cons d ds ih =>
    simp only [indexSpace, List.mem_flatMap, List.mem_range, List.mem_map, InBounds]
    constructor
    · rintro ⟨i, hi, r, hr, rfl⟩
      exact List.Forall₂.cons hi ((ih r).mp hr)
    · intro h
      cases h with
      | cons hi hr => exact ⟨_, hi, _, (ih _).mpr hr, rfl⟩

theorem InBounds.length_eq {dims idx : List Nat} (h : InBounds dims idx) :
    idx.length = dims.length := List.Forall₂.length_eq h

/-! ## Horizontal contraction, entry by entry -/

theorem horiz_contraction_entry {α : Type} [AddCommMonoid α] [Mul α]
    (f_out f_in weight : Field α) (ncols : Nat) (rest : List Nat)
    (hw : weight.layout.rank = 1) (hin : f_in.layout.dims = ncols :: rest)
    (hrest : rest.length ≤ 2) (hout : f_out.layout.dims = rest) :
    ∃ out, horiz_contraction f_out f_in weight none = .ok out ∧
      out.layout = f_out.layout ∧
      ∀ idx, InBounds rest idx →
        out.data idx = ∑ i in Finset.range ncols, weight.data [i] * f_in.data (i :: idx) := by
  have hor : f_out.layout.rank = rest.length := FieldLayout.rank_of_dims _ _ hout
  match rest, hrest, hin, hout, hor with
  | [], _, hin, _, hor =>
    refine ⟨_, horiz_contraction_rank1 f_out f_in weight ncols hw hin hor, rfl, ?_⟩
    intro idx hidx
    cases hidx
    simp [Field.set]
  | [d1], _, hin, _, hor =>
    refine ⟨_, horiz_contraction_rank2 f_out f_in weight ncols d1 hw hin hor,
      forLoop_set_layout _ _ _ _, ?_⟩
    intro idx hidx
    cases hidx with
    | cons hj hr =>
      cases hr
      exact forLoop_set_hit d1 (fun j => [j])
        (fun idx => ∑ i in Finset.range ncols, weight.data [i] * f_in.data (i :: idx)) f_out _ hj
  | [d1, d2], _, hin, _, hor =>
    refine ⟨_, horiz_contraction_rank3 f_out f_in weight ncols d1 d2 hw hin hor,
      forLoop_set_layout _ _ _ _, ?_⟩
    intro idx hidx
    cases hidx with
    | cons hj hr =>
      cases hr with
      | cons hk hr2 =>
        cases hr2
        obtain ⟨fi, ⟨h1, h2, h3⟩, _⟩ := flat_split_unique d1 d2 _ _ hj hk
        have := forLoop_set_hit (d1 * d2) (fun idx => [idx / d2, idx % d2])
          (fun idx => ∑ i in Finset.range ncols, weight.data [i] * f_in.data (i :: idx))
          f_out fi h1
        simp only [h2, h3] at this
        exact this

/-! ## Horizontal contraction over a process group -/

theorem horiz_contraction_comm {α : Type} [Zero α] [Add α] [Mul α]
    (f_out f_in weight : Field α) (c : Comm (View α)) :
    horiz_contraction f_out f_in weight (some c)
      = (horiz_contraction f_out f_in weight none) >>= fun out =>
          pure { out with
                 data := fun idx =>
                   if idx ∈ indexSpace f_out.layout.dims then c.all_reduce MPI_SUM out.data idx
                   else out.data idx } := by
  simp only [horiz_contraction]
  cases weight.get_view 1 with
  | error e => rfl
  | ok v =>
    simp only [bind, Except.bind]
    split
    · cases f_in.get_view 1 <;> cases f_out.get_view 0 <;> rfl
    · cases f_in.get_view 2 <;> cases f_out.get_view 1 <;> rfl
    · cases f_in.get_view 3 <;> cases f_out.get_view 2 <;> rfl
    · rfl

theorem mapM_ok_of_forall {β γ : Type} (f : β → Except String γ) (g : β → γ) (l : List β)
    (h : ∀ x, x ∈ l → f x = .ok (g x)) : l.mapM f = .ok (l.map g) := by
  induction l with
  | nil => rfl
  | cons x xs ih =>
    rw [List.mapM_cons, h x (List.mem_cons_self x xs),
      ih (fun y hy => h y (List.mem_cons_of_mem x hy))]
    rfl

theorem Comm.all_reduce_ofContribs {β : Type} (op : β → β → β) (x : β) (xs : List β)
    (p : Nat) (hp : p < (x :: xs).length) :
    (Comm.ofContribs (x :: xs) p).all_reduce op ((x :: xs).get ⟨p, hp⟩) = xs.foldl op x := by
  have h : (x :: xs).take p ++ (x :: xs).get ⟨p, hp⟩ :: (x :: xs).drop (p + 1) = x :: xs := by
    rw [List.get_eq_getElem, ← List.drop_eq_getElem_cons hp, List.take_append_drop]
  simp only [Comm.all_reduce, Comm.ofContribs, h]

theorem foldl_MPI_SUM {α : Type} [AddCommMonoid α] (x : View α) (xs : List (View α))
    (idx : List Nat) :
    (xs.foldl MPI_SUM x) idx = x idx + (xs.map (fun v => v idx)).sum := by
  induction xs generalizing x with
  | nil => simp
  | cons y ys ih =>
    rw [List.foldl_cons, ih, List.map_cons, List.sum_cons, ← add_assoc]
    rfl

theorem sum_blocks {α : Type} [AddCommMonoid α] (g : Nat → α) (ns : List Nat) (off : Nat) :
    ((blocks off ns).map (fun b => ∑ i in Finset.range b.2, g (b.1 + i))).sum
      = ∑ i in Finset.range ns.sum, g (off + i) := by
  induction ns generalizing off with
  | nil => simp [blocks]
  | cons n ns ih =>
    simp only [blocks, List.map_cons, List.sum_cons, ih, Finset.sum_range_add, add_assoc]

theorem blocks_length (ns : List Nat) (off : Nat) : (blocks off ns).length = ns.length := by
  induction ns generalizing off with
  | nil => rfl
  | cons n ns ih => simp [blocks, ih]

theorem FieldLayout.with_leading_dims (l : FieldLayout) (c n : Nat) (rest : List Nat)
    (h : l.dims = c :: rest) : (l.with_leading n).dims = n :: rest := by
  obtain ⟨ds⟩ := l
  match ds, h with
  | (t, c2) :: r, h =>
    simp only [FieldLayout.dims, List.map_cons, List.cons.injEq] at h
    simp [FieldLayout.with_leading, FieldLayout.dims, h.2]

theorem FieldLayout.with_leading_rank (l : FieldLayout) (n : Nat) :
    (l.with_leading n).rank = l.rank := by
  obtain ⟨ds⟩ := l
  cases ds with
  | nil => rfl
  | cons d r => rfl

theorem all_reduce_MPI_SUM_apply {α : Type} [AddCommMonoid α] (cs : List (View α)) (p : Nat)
    (hp : p < cs.length) (idx : List Nat) :
    (Comm.ofContribs cs p).all_reduce MPI_SUM (cs.get ⟨p, hp⟩) idx
      = (cs.map (fun v => v idx)).sum := by
  cases cs with
  | nil => exact absurd hp (Nat.not_lt_zero p)
  | cons x xs =>
    rw [Comm.all_reduce_ofContribs MPI_SUM x xs p hp, foldl_MPI_SUM, List.map_cons,
      List.sum_cons]

theorem horiz_contraction_block {α : Type} [AddCommMonoid α] [Mul α]
    (f_out f_in weight : Field α) (ncols : Nat) (rest : List Nat)
    (hw : weight.layout.rank = 1) (hin : f_in.layout.dims = ncols :: rest)
    (hrest : rest.length ≤ 2) (hout : f_out.layout.dims = rest) (b : Nat × Nat) :
    ∃ out, horiz_contraction f_out (f_in.col_block b.1 b.2) (weight.col_block b.1 b.2) none
        = .ok out ∧
      ∀ idx, InBounds rest idx →
        out.data idx
          = ∑ i in Finset.range b.2, weight.data [b.1 + i] * f_in.data ((b.1 + i) :: idx) := by
  have hw2 : (weight.col_block b.1 b.2).layout.rank = 1 := by
    show (weight.layout.with_leading b.2).rank = 1
    rw [FieldLayout.with_leading_rank]; exact hw
  have hin2 : (f_in.col_block b.1 b.2).layout.dims = b.2 :: rest :=
    FieldLayout.with_leading_dims _ _ _ _ hin
  obtain ⟨out, h1, _, h3⟩ := horiz_contraction_entry f_out (f_in.col_block b.1 b.2)
    (weight.col_block b.1 b.2) b.2 rest hw2 hin2 hrest hout
  exact ⟨out, h1, h3⟩

/-- Claim C4. In exact arithmetic, for every splitting of the columns of a
global input and its weight into consecutive blocks owned by the processes of a
group, the call of `horiz_contraction` with the group made by any process `p`
succeeds and leaves in every logical entry of its output the value that one
`horiz_contraction` of the unsplit input without a group computes. -/
theorem horiz_contraction_split_invariant {α : Type} [AddCommMonoid α] [Mul α]
    (f_out f_in weight : Field α) (ncols : Nat) (rest ns : List Nat)
    (hw : weight.layout.rank = 1) (hin : f_in.layout.dims = ncols :: rest)
    (hrest : rest.length ≤ 2) (hout : f_out.layout.dims = rest)
    (hns : ns.sum = ncols) (p : Nat) (hp : p < ns.length) :
    ∃ r g, horiz_contraction_spmd (split_columns f_out f_in weight ns) p = .ok r ∧
      horiz_contraction f_out f_in weight none = .ok g ∧
      ∀ idx, InBounds rest idx → r.data idx = g.data idx := by
  obtain ⟨g, hg, _, hgv⟩ :=
    horiz_contraction_entry f_out f_in weight ncols rest hw hin hrest hout
  have hblk := horiz_contraction_block f_out f_in weight ncols rest hw hin hrest hout
  let mk : Nat × Nat → Field α × Field α × Field α :=
    fun b => (f_out, f_in.col_block b.1 b.2, weight.col_block b.1 b.2)
  let loc : Field α × Field α × Field α → Field α := fun q =>
    match horiz_contraction q.1 q.2.1 q.2.2 none with
    | .ok o => o
    | .error _ => q.1
  have hlocb : ∀ b : Nat × Nat,
      horiz_contraction f_out (f_in.col_block b.1 b.2) (weight.col_block b.1 b.2) none
        = .ok (loc (mk b)) ∧
      ∀ idx, InBounds rest idx → (loc (mk b)).data idx
        = ∑ i in Finset.range b.2, weight.data [b.1 + i] * f_in.data ((b.1 + i) :: idx) := by
    intro b
    obtain ⟨out, h1, h2⟩ := hblk b
    have : loc (mk b) = out := by simp only [loc, mk, h1]
    rw [this]
    exact ⟨h1, h2⟩
  have hmap : (split_columns f_out f_in weight ns).mapM
      (fun q => horiz_contraction q.1 q.2.1 q.2.2 none)
        = .ok ((split_columns f_out f_in weight ns).map loc) := by
    apply mapM_ok_of_forall
    intro q hq
    simp only [split_columns, List.mem_map] at hq
    obtain ⟨b, _, rfl⟩ := hq
    exact (hlocb b).1
  have hlen : p < (blocks 0 ns).length := by rw [blocks_length]; exact hp
  have hget : (split_columns f_out f_in weight ns).get? p
      = some (mk ((blocks 0 ns).get ⟨p, hlen⟩)) := by
    simp [split_columns, List.getElem?_eq_getElem hlen, mk]
  let cs : List (View α) := ((split_columns f_out f_in weight ns).map loc).map Field.data
  have hcs : cs = (blocks 0 ns).map (fun b => (loc (mk b)).data) := by
    simp only [cs, split_columns, List.map_map]
    rfl
  have hpcs : p < cs.length := by rw [hcs, List.length_map]; exact hlen
  have hcsp : cs.get ⟨p, hpcs⟩ = (loc (mk ((blocks 0 ns).get ⟨p, hlen⟩))).data := by
    simp [hcs]
  let lp : Field α := loc (mk ((blocks 0 ns).get ⟨p, hlen⟩))
  refine ⟨{ lp with
            data := fun idx =>
              if idx ∈ indexSpace f_out.layout.dims then
                (Comm.ofContribs cs p).all_reduce MPI_SUM lp.data idx
              else lp.data idx }, g, ?_, hg, ?_⟩
  · simp only [horiz_contraction_spmd, hmap, hget]
    show horiz_contraction f_out _ _ (some (Comm.ofContribs cs p)) = _
    rw [horiz_contraction_comm, (hlocb _).1]
    rfl
  · intro idx hidx
    show (if idx ∈ indexSpace f_out.layout.dims then
        (Comm.ofContribs cs p).all_reduce MPI_SUM lp.data idx else lp.data idx) = g.data idx
    have hmem : idx ∈ indexSpace f_out.layout.dims := by
      rw [hout]; exact (mem_indexSpace rest idx).mpr hidx
    simp only [hmem, if_true]
    rw [← hcsp, all_reduce_MPI_SUM_apply cs p hpcs idx, hgv idx hidx, hcs, List.map_map]
    have hcongr : (blocks 0 ns).map ((fun v : View α => v idx) ∘ fun b => (loc (mk b)).data)
        = (blocks 0 ns).map (fun b => ∑ i in Finset.range b.2,
            weight.data [b.1 + i] * f_in.data ((b.1 + i) :: idx)) := by
      apply List.map_congr_left
      intro b _
      exact (hlocb b).2 idx hidx
    rw [hcongr, sum_blocks (fun i => weight.data [i] * f_in.data (i :: idx)) ns 0, hns]
    simp only [Nat.zero_add]

/-- Witness for C4: three processes each owning one column of
[[1,2],[3,4],[5,6]] with local weight [1] all obtain [9,12]. -/
theorem horiz_contraction_split_invariant_witness :
    (∃ r, horiz_contraction_spmd exProcs3 0 = .ok r ∧ r.data [0] = 9 ∧ r.data [1] = 12) ∧
    (∃ r, horiz_contraction_spmd exProcs3 1 = .ok r ∧ r.data [0] = 9 ∧ r.data [1] = 12) ∧
    (∃ r, horiz_contraction_spmd exProcs3 2 = .ok r ∧ r.data [0] = 9 ∧ r.data [1] = 12) := by
  have key : ∀ p, p < 3 → ∃ r, horiz_contraction_spmd exProcs3 p = .ok r ∧
      r.data [0] = 9 ∧ r.data [1] = 12 := by
    intro p hp
    obtain ⟨r, g, hr, hg, hv⟩ := horiz_contraction_split_invariant exOut2 exIn32 exW3 3 [2]
      [1, 1, 1] rfl rfl (by decide) rfl rfl p hp
    have hg2 : g = (forLoop 2 (fun j (out : Field Int) =>
        out.set [j] (∑ i in Finset.range 3, exW3.data [i] * exIn32.data [i, j])) exOut2) := by
      have := horiz_contraction_rank2 exOut2 exIn32 exW3 3 2 rfl rfl rfl
      rw [hg] at this
      exact Except.ok.inj this
    refine ⟨r, hr, ?_, ?_⟩
    · rw [hv [0] (List.Forall₂.cons (by decide) List.Forall₂.nil), hg2]; decide
    · rw [hv [1] (List.Forall₂.cons (by decide) List.Forall₂.nil), hg2]; decide
  exact ⟨key 0 (by decide), key 1 (by decide), key 2 (by decide)⟩

/-! ## Equality of two fields: the loop nests -/

theorem forLoopBreak_ne {α : Type} [DecidableEq α] (a b : Nat → α) (l : List Nat) (s : Bool) :
    forLoopBreak (fun j same => if a j ≠ b j then (false, true) else (same, false)) l s
      = (s && l.all (fun j => decide (a j = b j))) := by
  induction l generalizing s with
  | nil => simp [forLoopBreak]
  | cons j js ih =>
    by_cases h : a j = b j
    · have hn : ¬ (a j ≠ b j) := fun hh => hh h
      simp only [forLoopBreak, if_neg hn, ih, List.all_cons, decide_eq_true h, Bool.true_and,
        Bool.false_eq_true, if_false]
    · simp only [forLoopBreak, if_pos h, List.all_cons, decide_eq_false h, Bool.false_and,
        Bool.and_false, if_true]

theorem forLoopGuard_and (A : Nat → Bool) (l : List Nat) (s : Bool) :
    forLoopGuard (fun same => same) (fun i same => same && A i) l s = (s && l.all A) := by
  induction l generalizing s with
  | nil => simp [forLoopGuard]
  | cons i is ih =>
    cases s with
    | false => simp [forLoopGuard]
    | true => simp [forLoopGuard, ih]

theorem indexSpace_all_cons (d : Nat) (ds : List Nat) (P : List Nat → Bool) :
    (indexSpace (d :: ds)).all P
      = (List.range d).all (fun i => (indexSpace ds).all (fun idx => P (i :: idx))) := by
  simp only [indexSpace, List.all_flatMap, List.all_map]
  rfl

theorem indexSpace_all_nil (P : List Nat → Bool) : (indexSpace []).all P = P [] := by
  simp [indexSpace]

theorem views_are_equal_rank0 {α : Type} [DecidableEq α] (f g : Field α)
    (hd : f.layout.dims = []) (hl : f.layout = g.layout) :
    views_are_equal f g none
      = .ok ((indexSpace []).all (fun idx => decide (f.data idx = g.data idx))) := by
  have hr : f.layout.rank = 0 := FieldLayout.rank_of_dims _ _ hd
  have hrg : g.layout.rank = 0 := by rw [← hl]; exact hr
  have hdg : g.layout.dims = [] := by rw [← hl]; exact hd
  simp only [views_are_equal, hl, hrg, hdg, Field.get_strided_view_ok f 0 hr,
    Field.get_strided_view_ok g 0 hrg, indexSpace_all_cons, indexSpace_all_nil,
    List.getD_cons_zero, List.getD_cons_succ, forLoopBreak_ne, forLoopGuard_and,
    Bool.true_and, if_true]
  show Except.ok (if f.data [] ≠ g.data [] then false else true)
    = Except.ok (decide (f.data [] = g.data []))
  congr 1
  by_cases h : f.data [] = g.data [] <;> simp [h]

theorem views_are_equal_rank1 {α : Type} [DecidableEq α] (f g : Field α) (d0 : Nat)
    (hd : f.layout.dims = [d0]) (hl : f.layout = g.layout) :
    views_are_equal f g none
      = .ok ((indexSpace [d0]).all (fun idx => decide (f.data idx = g.data idx))) := by
  have hr : f.layout.rank = 1 := FieldLayout.rank_of_dims _ _ hd
  have hrg : g.layout.rank = 1 := by rw [← hl]; exact hr
  have hdg : g.layout.dims = [d0] := by rw [← hl]; exact hd
  simp only [views_are_equal, hl, hrg, hdg, Field.get_strided_view_ok f 1 hr,
    Field.get_strided_view_ok g 1 hrg, indexSpace_all_cons, indexSpace_all_nil,
    List.getD_cons_zero, List.getD_cons_succ, forLoopBreak_ne, forLoopGuard_and,
    Bool.true_and, if_true]
  rfl

theorem views_are_equal_rank2 {α : Type} [DecidableEq α] (f g : Field α) (d0 d1 : Nat)
    (hd : f.layout.dims = [d0, d1]) (hl : f.layout = g.layout) :
    views_are_equal f g none
      = .ok ((indexSpace [d0, d1]).all (fun idx => decide (f.data idx = g.data idx))) := by
  have hr : f.layout.rank = 2 := FieldLayout.rank_of_dims _ _ hd
  have hrg : g.layout.rank = 2 := by rw [← hl]; exact hr
  have hdg : g.layout.dims = [d0, d1] := by rw [← hl]; exact hd
  simp only [views_are_equal, hl, hrg, hdg, Field.get_strided_view_ok f 2 hr,
    Field.get_strided_view_ok g 2 hrg, indexSpace_all_cons, indexSpace_all_nil,
    List.getD_cons_zero, List.getD_cons_succ, forLoopBreak_ne, forLoopGuard_and,
    Bool.true_and, if_true]
  rfl

theorem views_are_equal_rank3 {α : Type} [DecidableEq α] (f g : Field α) (d0 d1 d2 : Nat)
    (hd : f.layout.dims = [d0, d1, d2]) (hl : f.layout = g.layout) :
    views_are_equal f g none
      = .ok ((indexSpace [d0, d1, d2]).all (fun idx => decide (f.data idx = g.data idx))) := by
  have hr : f.layout.rank = 3 := FieldLayout.rank_of_dims _ _ hd
  have hrg : g.layout.rank = 3 := by rw [← hl]; exact hr
  have hdg : g.layout.dims = [d0, d1, d2] := by rw [← hl]; exact hd
  simp only [views_are_equal, hl, hrg, hdg, Field.get_strided_view_ok f 3 hr,
    Field.get_strided_view_ok g 3 hrg, indexSpace_all_cons, indexSpace_all_nil,
    List.getD_cons_zero, List.getD_cons_succ, forLoopBreak_ne, forLoopGuard_and,
    Bool.true_and, if_true]
  rfl

theorem views_are_equal_rank4 {α : Type} [DecidableEq α] (f g : Field α) (d0 d1 d2 d3 : Nat)
    (hd : f.layout.dims = [d0, d1, d2, d3]) (hl : f.layout = g.layout) :
    views_are_equal f g none
      = .ok ((indexSpace [d0, d1, d2, d3]).all (fun idx => decide (f.data idx = g.data idx))) := by
  have hr : f.layout.rank = 4 := FieldLayout.rank_of_dims _ _ hd
  have hrg : g.layout.rank = 4 := by rw [← hl]; exact hr
  have hdg : g.layout.dims = [d0, d1, d2, d3] := by rw [← hl]; exact hd
  simp only [views_are_equal, hl, hrg, hdg, Field.get_strided_view_ok f 4 hr,
    Field.get_strided_view_ok g 4 hrg, indexSpace_all_cons, indexSpace_all_nil,
    List.getD_cons_zero, List.getD_cons_succ, forLoopBreak_ne, forLoopGuard_and,
    Bool.true_and, if_true]
  rfl

theorem views_are_equal_rank5 {α : Type} [DecidableEq α] (f g : Field α) (d0 d1 d2 d3 d4 : Nat)
    (hd : f.layout.dims = [d0, d1, d2, d3, d4]) (hl : f.layout = g.layout) :
    views_are_equal f g none
      = .ok ((indexSpace [d0, d1, d2, d3, d4]).all (fun idx => decide (f.data idx = g.data idx))) := by
  have hr : f.layout.rank = 5 := FieldLayout.rank_of_dims _ _ hd
  have hrg : g.layout.rank = 5 := by rw [← hl]; exact hr
  have hdg : g.layout.dims = [d0, d1, d2, d3, d4] := by rw [← hl]; exact hd
  simp only [views_are_equal, hl, hrg, hdg, Field.get_strided_view_ok f 5 hr,
    Field.get_strided_view_ok g 5 hrg, indexSpace_all_cons, indexSpace_all_nil,
    List.getD_cons_zero, List.getD_cons_succ, forLoopBreak_ne, forLoopGuard_and,
    Bool.true_and, if_true]
  rfl

theorem views_are_equal_rank6 {α : Type} [DecidableEq α] (f g : Field α) (d0 d1 d2 d3 d4 d5 : Nat)
    (hd : f.layout.dims = [d0, d1, d2, d3, d4, d5]) (hl : f.layout = g.layout) :
    views_are_equal f g none
      = .ok ((indexSpace [d0, d1, d2, d3, d4, d5]).all (fun idx => decide (f.data idx = g.data idx))) := by
  have hr : f.layout.rank = 6 := FieldLayout.rank_of_dims _ _ hd
  have hrg : g.layout.rank = 6 := by rw [← hl]; exact hr
  have hdg : g.layout.dims = [d0, d1, d2, d3, d4, d5] := by rw [← hl]; exact hd
  simp only [views_are_equal, hl, hrg, hdg, Field.get_strided_view_ok f 6 hr,
    Field.get_strided_view_ok g 6 hrg, indexSpace_all_cons, indexSpace_all_nil,
    List.getD_cons_zero, List.getD_cons_succ, forLoopBreak_ne, forLoopGuard_and,
    Bool.true_and, if_true]
  rfl

theorem views_are_equal_local {α : Type} [DecidableEq α] (f g : Field α)
    (hl : f.layout = g.layout) (hr : f.layout.rank ≤ 6) :
    views_are_equal f g none
      = .ok ((indexSpace f.layout.dims).all (fun idx => decide (f.data idx = g.data idx))) := by
  have hlen : f.layout.dims.length = f.layout.rank := by
    simp [FieldLayout.dims, FieldLayout.rank]
  rw [← hlen] at hr
  match hd : f.layout.dims, hr with
  | [], _ => exact views_are_equal_rank0 f g hd hl
  | [d0], _ => exact views_are_equal_rank1 f g d0 hd hl
  | [d0, d1], _ => exact views_are_equal_rank2 f g d0 d1 hd hl
  | [d0, d1, d2], _ => exact views_are_equal_rank3 f g d0 d1 d2 hd hl
  | [d0, d1, d2, d3], _ => exact views_are_equal_rank4 f g d0 d1 d2 d3 hd hl
  | [d0, d1, d2, d3, d4], _ => exact views_are_equal_rank5 f g d0 d1 d2 d3 d4 hd hl
  | [d0, d1, d2, d3, d4, d5], _ => exact views_are_equal_rank6 f g d0 d1 d2 d3 d4 d5 hd hl
  | _ :: _ :: _ :: _ :: _ :: _ :: _ :: _, h => simp at h

theorem all_indexSpace_iff {α : Type} [DecidableEq α] (dims : List Nat) (a b : View α) :
    (indexSpace dims).all (fun idx => decide (a idx = b idx)) = true
      ↔ ∀ idx, InBounds dims idx → a idx = b idx := by
  simp only [List.all_eq_true, decide_eq_true_eq, mem_indexSpace]

/-- Claim C5. For two fields of equal layouts and rank 0 to 6,
`views_are_equal(f, g, null)` returns a boolean that is true if and only if `f`
and `g` hold equal values at every logical entry; `views_are_equal(f, f, null)`
is true; and the result is false as soon as one logical entry differs, at
whichever index. -/
theorem views_are_equal_iff {α : Type} [DecidableEq α] (f g : Field α)
    (hl : f.layout = g.layout) (hr : f.layout.rank ≤ 6) :
    (∃ b, views_are_equal f g none = .ok b ∧
      (b = true ↔ ∀ idx, InBounds f.layout.dims idx → f.data idx = g.data idx)) ∧
    views_are_equal f f none = .ok true ∧
    (∀ idx, InBounds f.layout.dims idx → f.data idx ≠ g.data idx →
      views_are_equal f g none = .ok false) := by
  refine ⟨⟨_, views_are_equal_local f g hl hr, all_indexSpace_iff _ _ _⟩, ?_, ?_⟩
  · rw [views_are_equal_local f f rfl hr]
    congr 1
    exact (all_indexSpace_iff _ _ _).mpr (fun _ _ => rfl)
  · intro idx hidx hne
    rw [views_are_equal_local f g hl hr]
    congr 1
    apply Bool.eq_false_iff.mpr
    intro hall
    exact hne ((all_indexSpace_iff _ _ _).mp hall idx hidx)

/-- Witness for C5: the field [[1,2],[3,4],[5,6]] equals itself and differs from
the field that holds 7 instead of 6 at index (2,1). -/
theorem views_are_equal_iff_witness :
    views_are_equal exIn32 exIn32 none = .ok true ∧
      views_are_equal exIn32 exIn32b none = .ok false :=
  ⟨(views_are_equal_iff exIn32 exIn32b rfl (by decide)).2.1,
    (views_are_equal_iff exIn32 exIn32b rfl (by decide)).2.2 [2, 1]
      (List.Forall₂.cons (by decide) (List.Forall₂.cons (by decide) List.Forall₂.nil))
      (by decide)⟩

/-! ## Equality of two fields over a process group -/

theorem views_are_equal_comm {α : Type} [DecidableEq α] (f g : Field α) (c : Comm Bool) :
    views_are_equal f g (some c)
      = (views_are_equal f g none) >>= fun b => pure (c.all_reduce MPI_LAND b) := by
  simp only [views_are_equal]
  split
  · simp only [bind, Except.bind]
    split <;>
      first
        | rfl
        | (cases f.get_strided_view _ <;> cases g.get_strided_view _ <;> rfl)
  · rfl

theorem foldl_MPI_LAND (x : Bool) (xs : List Bool) :
    xs.foldl MPI_LAND x = (x :: xs).all (fun b => b) := by
  induction xs generalizing x with
  | nil => simp
  | cons y ys ih =>
    rw [List.foldl_cons, ih]
    simp [MPI_LAND, Bool.and_assoc]

theorem all_reduce_MPI_LAND (cs : List Bool) (p : Nat) (hp : p < cs.length) :
    (Comm.ofContribs cs p).all_reduce MPI_LAND (cs.get ⟨p, hp⟩) = cs.all (fun b => b) := by
  cases cs with
  | nil => exact absurd hp (Nat.not_lt_zero p)
  | cons x xs => rw [Comm.all_reduce_ofContribs MPI_LAND x xs p hp, foldl_MPI_LAND]

/-- Claim C6. With a process group, `views_are_equal` returns the logical AND of
the local verdicts: a call with a group is the local verdict passed through the
`MPI_LAND` collective, and in a group whose processes all hold pairs of fields
of equal layouts, every process `p` gets the same answer, which is true exactly
when on every process all logical entries of the two local fields match.
Without a group the local verdict itself is returned. -/
theorem views_are_equal_group {α : Type} [DecidableEq α] (procs : List (Field α × Field α))
    (hl : ∀ q, q ∈ procs → q.1.layout = q.2.layout ∧ q.1.layout.rank ≤ 6)
    (p : Nat) (hp : p < procs.length) :
    (∃ b, views_are_equal_spmd procs p = .ok b ∧
      (b = true ↔ ∀ q, q ∈ procs →
        ∀ idx, InBounds q.1.layout.dims idx → q.1.data idx = q.2.data idx)) ∧
    (∀ (f g : Field α) (c : Comm Bool), views_are_equal f g (some c)
      = (views_are_equal f g none) >>= fun b => pure (c.all_reduce MPI_LAND b)) ∧
    (∀ q, q ∈ procs → ∃ b, views_are_equal q.1 q.2 none = .ok b ∧
      (b = true ↔ ∀ idx, InBounds q.1.layout.dims idx → q.1.data idx = q.2.data idx)) := by
  let verdict : Field α × Field α → Bool := fun q =>
    (indexSpace q.1.layout.dims).all (fun idx => decide (q.1.data idx = q.2.data idx))
  have hloc : ∀ q, q ∈ procs → views_are_equal q.1 q.2 none = .ok (verdict q) :=
    fun q hq => views_are_equal_local q.1 q.2 (hl q hq).1 (hl q hq).2
  have hmap : procs.mapM (fun q => views_are_equal q.1 q.2 none) = .ok (procs.map verdict) :=
    mapM_ok_of_forall _ _ _ hloc
  have hget : procs.get? p = some (procs.get ⟨p, hp⟩) := by
    simp [List.getElem?_eq_getElem hp]
  have hpl : p < (procs.map verdict).length := by rw [List.length_map]; exact hp
  have hcsp : (procs.map verdict).get ⟨p, hpl⟩ = verdict (procs.get ⟨p, hp⟩) := by simp
  refine ⟨⟨(procs.map verdict).all (fun b => b), ?_, ?_⟩, views_are_equal_comm, ?_⟩
  · simp only [views_are_equal_spmd, hmap, hget]
    show views_are_equal _ _ (some (Comm.ofContribs (procs.map verdict) p)) = _
    rw [views_are_equal_comm, hloc _ (List.get_mem procs p hp), ← hcsp]
    show Except.ok (Comm.all_reduce _ MPI_LAND _) = _
    rw [all_reduce_MPI_LAND]
  · simp only [List.all_eq_true, List.mem_map, forall_exists_index, and_imp]
    constructor
    · intro h q hq
      exact (all_indexSpace_iff _ _ _).mp (h (verdict q) q hq rfl)
    · rintro h b q hq rfl
      exact (all_indexSpace_iff _ _ _).mpr (h q hq)
  · intro q hq
    exact ⟨_, hloc q hq, all_indexSpace_iff _ _ _⟩

/-- Witness for C6: in a group of two processes, one of which holds two fields
that differ in one entry, both processes get `false`. -/
theorem views_are_equal_group_witness :
    views_are_equal_spmd exPairs 0 = .ok false ∧ views_are_equal_spmd exPairs 1 = .ok false := by
  have hl : ∀ q, q ∈ exPairs → q.1.layout = q.2.layout ∧ q.1.layout.rank ≤ 6 := by
    intro q hq
    simp only [exPairs, List.mem_cons, List.mem_singleton, List.not_mem_nil, or_false] at hq
    rcases hq with rfl | rfl <;> exact ⟨rfl, by decide⟩
  have hne : ¬ ∀ q, q ∈ exPairs →
      ∀ idx, InBounds q.1.layout.dims idx → q.1.data idx = q.2.data idx := by
    intro h
    have := h (exIn32, exIn32b) (by simp [exPairs]) [2, 1]
      (List.Forall₂.cons (by decide) (List.Forall₂.cons (by decide) List.Forall₂.nil))
    revert this
    decide
  constructor
  · obtain ⟨b, hb, hiff⟩ := (views_are_equal_group exPairs hl 0 (by decide)).1
    cases b with
    | false => exact hb
    | true => exact absurd (hiff.mp rfl) hne
  · obtain ⟨b, hb, hiff⟩ := (views_are_equal_group exPairs hl 1 (by decide)).1
    cases b with
    | false => exact hb
    | true => exact absurd (hiff.mp rfl) hne

/-- Claim C7. `views_are_equal` called on two fields whose layouts are not equal
reports the error of different layouts instead of a boolean, whatever the
entries of the two fields are and whether or not a process group is given: no
entry is compared and no collective is issued on that path. -/
theorem views_are_equal_layout_mismatch {α : Type} [DecidableEq α] (f g : Field α)
    (hne : f.layout ≠ g.layout) (comm : Option (Comm Bool)) :
    views_are_equal f g comm = .error "Error! Input fields have different layouts.\n" ∧
    ∀ (d1 d2 : View α) (comm2 : Option (Comm Bool)),
      views_are_equal { f with data := d1 } { g with data := d2 } comm2
        = views_are_equal f g comm := by
  have key : ∀ (f2 g2 : Field α) (c2 : Option (Comm Bool)), f2.layout ≠ g2.layout →
      views_are_equal f2 g2 c2 = .error "Error! Input fields have different layouts.\n" := by
    intro f2 g2 c2 h
    simp only [views_are_equal, if_neg h]
    rfl
  refine ⟨key f g comm hne, ?_⟩
  intro d1 d2 comm2
  rw [key f g comm hne]
  exact key _ _ comm2 hne

/-- Witness for C7: a field of layout (COL=3, LEV=2) compared with a field of
layout (COL=3) is an error. -/
theorem views_are_equal_layout_mismatch_witness :
    views_are_equal exIn32 exW3 none
      = .error "Error! Input fields have different layouts.\n" :=
  (views_are_equal_layout_mismatch exIn32 exW3 (by decide) none).1

/-! ## Loops over an index space -/

theorem forEachIndex_nil {σ : Type} (body : List Nat → σ → σ) (s : σ) :
    forEachIndex (indexSpace []) body s = body [] s := rfl

theorem forEachIndex_cons {σ : Type} (d : Nat) (ds : List Nat) (body : List Nat → σ → σ)
    (s : σ) :
    forEachIndex (indexSpace (d :: ds)) body s
      = forLoop d (fun i st => forEachIndex (indexSpace ds) (fun idx => body (i :: idx)) st) s := by
  simp only [forEachIndex, indexSpace, forLoop, List.flatMap_def, List.foldl_flatten,
    List.foldl_map]

theorem forEachIndex_set {β : Type} (L : List (List Nat)) (g : List Nat → β) (m : Field β) :
    forEachIndex L (fun idx (m : Field β) => m.set idx (g idx)) m
      = { m with data := fun idx => if idx ∈ L then g idx else m.data idx } := by
  induction L generalizing m with
  | nil => simp [forEachIndex]
  | cons a L ih =>
    have h := ih (m.set a (g a))
    simp only [forEachIndex, List.foldl_cons] at h ⊢
    rw [h]
    simp only [Field.set, Field.mk.injEq, true_and]
    funext idx
    by_cases h1 : idx ∈ L
    · simp [h1]
    · by_cases h2 : idx = a
      · subst h2; simp [h1]
      · simp [h1, h2]

/-! ## Masks: the rank-specific loops -/

theorem compute_mask_rank0 {α : Type} [DecidableEq α] [LT α] [DecidableRel (fun a b : α => a < b)]
    [LE α] [DecidableRel (fun a b : α => a ≤ b)] (CMP : Comparison)
    (x : Field α) (v : α) (m : Field Int)
    (hd : x.layout.dims = []) (hm : m.layout.rank = 0) :
    compute_mask CMP x v m
      = .ok (forEachIndex (indexSpace [])
          (fun idx (m : Field Int) => m.set idx (set_mask CMP v (x.data idx))) m) := by
  have hr : x.layout.rank = 0 := FieldLayout.rank_of_dims _ _ hd
  simp only [compute_mask, hr, hd, Field.get_view_ok x 0 hr,
    Field.get_strided_view_ok x 0 hr, Field.get_view_ok m 0 hm, setMaskHelper,
    SetMaskHelper_run, forEachIndex_cons, forEachIndex_nil, parallel_for,
    List.getD_cons_zero, List.getD_cons_succ, forLoop_succ, forLoop_zero]
  cases x.contiguous <;> rfl

theorem compute_mask_rank1 {α : Type} [DecidableEq α] [LT α] [DecidableRel (fun a b : α => a < b)]
    [LE α] [DecidableRel (fun a b : α => a ≤ b)] (CMP : Comparison)
    (x : Field α) (v : α) (m : Field Int) (d0 : Nat)
    (hd : x.layout.dims = [d0]) (hm : m.layout.rank = 1) :
    compute_mask CMP x v m
      = .ok (forEachIndex (indexSpace [d0])
          (fun idx (m : Field Int) => m.set idx (set_mask CMP v (x.data idx))) m) := by
  have hr : x.layout.rank = 1 := FieldLayout.rank_of_dims _ _ hd
  simp only [compute_mask, hr, hd, Field.get_view_ok x 1 hr,
    Field.get_strided_view_ok x 1 hr, Field.get_view_ok m 1 hm, setMaskHelper,
    SetMaskHelper_run, forEachIndex_cons, forEachIndex_nil, parallel_for,
    List.getD_cons_zero, List.getD_cons_succ, forLoop_succ, forLoop_zero]
  cases x.contiguous <;> rfl

theorem compute_mask_rank2 {α : Type} [DecidableEq α] [LT α] [DecidableRel (fun a b : α => a < b)]
    [LE α] [DecidableRel (fun a b : α => a ≤ b)] (CMP : Comparison)
    (x : Field α) (v : α) (m : Field Int) (d0 d1 : Nat)
    (hd : x.layout.dims = [d0, d1]) (hm : m.layout.rank = 2) :
    compute_mask CMP x v m
      = .ok (forEachIndex (indexSpace [d0, d1])
          (fun idx (m : Field Int) => m.set idx (set_mask CMP v (x.data idx))) m) := by
  have hr : x.layout.rank = 2 := FieldLayout.rank_of_dims _ _ hd
  simp only [compute_mask, hr, hd, Field.get_view_ok x 2 hr,
    Field.get_strided_view_ok x 2 hr, Field.get_view_ok m 2 hm, setMaskHelper,
    SetMaskHelper_run, forEachIndex_cons, forEachIndex_nil, parallel_for,
    List.getD_cons_zero, List.getD_cons_succ, forLoop_succ, forLoop_zero]
  cases x.contiguous <;> rfl

theorem compute_mask_rank3 {α : Type} [DecidableEq α] [LT α] [DecidableRel (fun a b : α => a < b)]
    [LE α] [DecidableRel (fun a b : α => a ≤ b)] (CMP : Comparison)
    (x : Field α) (v : α) (m : Field Int) (d0 d1 d2 : Nat)
    (hd : x.layout.dims = [d0, d1, d2]) (hm : m.layout.rank = 3) :
    compute_mask CMP x v m
      = .ok (forEachIndex (indexSpace [d0, d1, d2])
          (fun idx (m : Field Int) => m.set idx (set_mask CMP v (x.data idx))) m) := by
  have hr : x.layout.rank = 3 := FieldLayout.rank_of_dims _ _ hd
  simp only [compute_mask, hr, hd, Field.get_view_ok x 3 hr,
    Field.get_strided_view_ok x 3 hr, Field.get_view_ok m 3 hm, setMaskHelper,
    SetMaskHelper_run, forEachIndex_cons, forEachIndex_nil, parallel_for,
    List.getD_cons_zero, List.getD_cons_succ, forLoop_succ, forLoop_zero]
  cases x.contiguous <;> rfl

theorem compute_mask_rank4 {α : Type} [DecidableEq α] [LT α] [DecidableRel (fun a b : α => a < b)]
    [LE α] [DecidableRel (fun a b : α => a ≤ b)] (CMP : Comparison)
    (x : Field α) (v : α) (m : Field Int) (d0 d1 d2 d3 : Nat)
    (hd : x.layout.dims = [d0, d1, d2, d3]) (hm : m.layout.rank = 4) :
    compute_mask CMP x v m
      = .ok (forEachIndex (indexSpace [d0, d1, d2, d3])
          (fun idx (m : Field Int) => m.set idx (set_mask CMP v (x.data idx))) m) := by
  have hr : x.layout.rank = 4 := FieldLayout.rank_of_dims _ _ hd
  simp only [compute_mask, hr, hd, Field.get_view_ok x 4 hr,
    Field.get_strided_view_ok x 4 hr, Field.get_view_ok m 4 hm, setMaskHelper,
    SetMaskHelper_run, forEachIndex_cons, forEachIndex_nil, parallel_for,
    List.getD_cons_zero, List.getD_cons_succ, forLoop_succ, forLoop_zero]
  cases x.contiguous <;> rfl

theorem compute_mask_rank5 {α : Type} [DecidableEq α] [LT α] [DecidableRel (fun a b : α => a < b)]
    [LE α] [DecidableRel (fun a b : α => a ≤ b)] (CMP : Comparison)
    (x : Field α) (v : α) (m : Field Int) (d0 d1 d2 d3 d4 : Nat)
    (hd : x.layout.dims = [d0, d1, d2, d3, d4]) (hm : m.layout.rank = 5) :
    compute_mask CMP x v m
      = .ok (forEachIndex (indexSpace [d0, d1, d2, d3, d4])
          (fun idx (m : Field Int) => m.set idx (set_mask CMP v (x.data idx))) m) := by
  have hr : x.layout.rank = 5 := FieldLayout.rank_of_dims _ _ hd
  simp only [compute_mask, hr, hd, Field.get_view_ok x 5 hr,
    Field.get_strided_view_ok x 5 hr, Field.get_view_ok m 5 hm, setMaskHelper,
    SetMaskHelper_run, forEachIndex_cons, forEachIndex_nil, parallel_for,
    List.getD_cons_zero, List.getD_cons_succ, forLoop_succ, forLoop_zero]
  cases x.contiguous <;> rfl

theorem compute_mask_rank6 {α : Type} [DecidableEq α] [LT α] [DecidableRel (fun a b : α => a < b)]
    [LE α] [DecidableRel (fun a b : α => a ≤ b)] (CMP : Comparison)
    (x : Field α) (v : α) (m : Field Int) (d0 d1 d2 d3 d4 d5 : Nat)
    (hd : x.layout.dims = [d0, d1, d2, d3, d4, d5]) (hm : m.layout.rank = 6) :
    compute_mask CMP x v m
      = .ok (forEachIndex (indexSpace [d0, d1, d2, d3, d4, d5])
          (fun idx (m : Field Int) => m.set idx (set_mask CMP v (x.data idx))) m) := by
  have hr : x.layout.rank = 6 := FieldLayout.rank_of_dims _ _ hd
  simp only [compute_mask, hr, hd, Field.get_view_ok x 6 hr,
    Field.get_strided_view_ok x 6 hr, Field.get_view_ok m 6 hm, setMaskHelper,
    SetMaskHelper_run, forEachIndex_cons, forEachIndex_nil, parallel_for,
    List.getD_cons_zero, List.getD_cons_succ, forLoop_succ, forLoop_zero]
  cases x.contiguous <;> rfl

theorem compute_mask_entries {α : Type} [DecidableEq α] [LT α] [DecidableRel (fun a b : α => a < b)]
    [LE α] [DecidableRel (fun a b : α => a ≤ b)] (CMP : Comparison)
    (x : Field α) (v : α) (m : Field Int) (hr : x.layout.rank ≤ 6)
    (hm : m.layout.rank = x.layout.rank) :
    compute_mask CMP x v m
      = .ok { m with
              data := fun idx =>
                if idx ∈ indexSpace x.layout.dims then set_mask CMP v (x.data idx)
                else m.data idx } := by
  have hlen : x.layout.dims.length = x.layout.rank := by
    simp [FieldLayout.dims, FieldLayout.rank]
  rw [← hlen] at hr hm
  rw [← forEachIndex_set]
  match hd : x.layout.dims, hr, hm with
  | [], _, hm => exact compute_mask_rank0 CMP x v m hd hm
  | [d0], _, hm => exact compute_mask_rank1 CMP x v m d0 hd hm
  | [d0, d1], _, hm => exact compute_mask_rank2 CMP x v m d0 d1 hd hm
  | [d0, d1, d2], _, hm => exact compute_mask_rank3 CMP x v m d0 d1 d2 hd hm
  | [d0, d1, d2, d3], _, hm => exact compute_mask_rank4 CMP x v m d0 d1 d2 d3 hd hm
  | [d0, d1, d2, d3, d4], _, hm => exact compute_mask_rank5 CMP x v m d0 d1 d2 d3 d4 hd hm
  | [d0, d1, d2, d3, d4, d5], _, hm =>
    exact compute_mask_rank6 CMP x v m d0 d1 d2 d3 d4 d5 hd hm
  | _ :: _ :: _ :: _ :: _ :: _ :: _ :: _, h, _ => simp at h

/-! ## Masks: the claims -/

/-- Claim C8. For every source field `x` of rank 0 to 6, every threshold
`value` and every mask `m` of the same layout, `compute_mask` succeeds for each
of the six comparison kinds and sets every logical entry of the mask to 1 if the
entry of `x` compares to `value` under that kind (`==`, `!=`, `>`, `>=`, `<`,
`<=`) and to 0 otherwise, whatever the mask held before. -/
theorem compute_mask_spec {α : Type} [DecidableEq α] [LT α]
    [DecidableRel (fun a b : α => a < b)] [LE α] [DecidableRel (fun a b : α => a ≤ b)]
    (x : Field α) (value : α) (m : Field Int)
    (hr : x.layout.rank ≤ 6) (hm : m.layout = x.layout) :
    (∃ r, compute_mask .EQ x value m = .ok r ∧ r.layout = m.layout ∧
      ∀ idx, InBounds x.layout.dims idx →
        r.data idx = if x.data idx = value then 1 else 0) ∧
    (∃ r, compute_mask .NE x value m = .ok r ∧ r.layout = m.layout ∧
      ∀ idx, InBounds x.layout.dims idx →
        r.data idx = if x.data idx ≠ value then 1 else 0) ∧
    (∃ r, compute_mask .GT x value m = .ok r ∧ r.layout = m.layout ∧
      ∀ idx, InBounds x.layout.dims idx →
        r.data idx = if value < x.data idx then 1 else 0) ∧
    (∃ r, compute_mask .GE x value m = .ok r ∧ r.layout = m.layout ∧
      ∀ idx, InBounds x.layout.dims idx →
        r.data idx = if value ≤ x.data idx then 1 else 0) ∧
    (∃ r, compute_mask .LT x value m = .ok r ∧ r.layout = m.layout ∧
      ∀ idx, InBounds x.layout.dims idx →
        r.data idx = if x.data idx < value then 1 else 0) ∧
    (∃ r, compute_mask .LE x value m = .ok r ∧ r.layout = m.layout ∧
      ∀ idx, InBounds x.layout.dims idx →
        r.data idx = if x.data idx ≤ value then 1 else 0) := by
  have key : ∀ CMP : Comparison, ∃ r, compute_mask CMP x value m = .ok r ∧
      r.layout = m.layout ∧
      ∀ idx, InBounds x.layout.dims idx → r.data idx = set_mask CMP value (x.data idx) := by
    intro CMP
    refine ⟨_, compute_mask_entries CMP x value m hr (by rw [hm]), rfl, ?_⟩
    intro idx hidx
    have hmem : idx ∈ indexSpace x.layout.dims := (mem_indexSpace _ _).mpr hidx
    simp only [hmem, if_true]
  exact ⟨key .EQ, key .NE, key .GT, key .GE, key .LT, key .LE⟩

/-- Witness for C8: the mask of [[1,2],[3,4],[5,6]] for `> 3` is
[[0,0],[0,1],[1,1]], written over a mask that held 77 everywhere. -/
theorem compute_mask_spec_witness :
    ∃ r, compute_mask .GT exIn32 3 exMask32 = .ok r ∧
      r.data [0, 0] = 0 ∧ r.data [0, 1] = 0 ∧ r.data [1, 0] = 0 ∧
      r.data [1, 1] = 1 ∧ r.data [2, 0] = 1 ∧ r.data [2, 1] = 1 := by
  obtain ⟨r, h, _, hv⟩ := (compute_mask_spec exIn32 3 exMask32 (by decide) rfl).2.2.1
  have ib : ∀ i j, i < 3 → j < 2 → InBounds exIn32.layout.dims [i, j] :=
    fun i j hi hj => List.Forall₂.cons hi (List.Forall₂.cons hj List.Forall₂.nil)
  refine ⟨r, h, ?_, ?_, ?_, ?_, ?_, ?_⟩
  · rw [hv _ (ib 0 0 (by decide) (by decide))]; decide
  · rw [hv _ (ib 0 1 (by decide) (by decide))]; decide
  · rw [hv _ (ib 1 0 (by decide) (by decide))]; decide
  · rw [hv _ (ib 1 1 (by decide) (by decide))]; decide
  · rw [hv _ (ib 2 0 (by decide) (by decide))]; decide
  · rw [hv _ (ib 2 1 (by decide) (by decide))]; decide

/-- Claim C9. For every rank 0 to 6 and every comparison kind, `compute_mask`
run on a contiguous source field (read through `get_view`) and `compute_mask`
run on a strided source field (read through `get_strided_view`) whose
accessors return the same logical entries produce the same mask field. -/
theorem compute_mask_contiguous_strided {α : Type} [DecidableEq α] [LT α]
    [DecidableRel (fun a b : α => a < b)] [LE α] [DecidableRel (fun a b : α => a ≤ b)]
    (CMP : Comparison) (x1 x2 : Field α) (value : α) (m : Field Int) (v1 v2 : View α)
    (hl : x1.layout = x2.layout) (hr : x1.layout.rank ≤ 6)
    (hm : m.layout.rank = x1.layout.rank)
    (hc1 : x1.contiguous = true) (hc2 : x2.contiguous = false)
    (hv1 : x1.get_view x1.layout.rank = .ok v1)
    (hv2 : x2.get_strided_view x2.layout.rank = .ok v2)
    (hsame : ∀ idx, InBounds x1.layout.dims idx → v1 idx = v2 idx) :
    ∃ r, compute_mask CMP x1 value m = .ok r ∧ compute_mask CMP x2 value m = .ok r := by
  have e1 : v1 = x1.data := by
    rw [Field.get_view_ok x1 _ rfl] at hv1
    exact (Except.ok.inj hv1).symm
  have e2 : v2 = x2.data := by
    rw [Field.get_strided_view_ok x2 _ rfl] at hv2
    exact (Except.ok.inj hv2).symm
  subst e1 e2
  have hc : x1.contiguous ≠ x2.contiguous := by rw [hc1, hc2]; decide
  refine ⟨_, compute_mask_entries CMP x1 value m hr hm, ?_⟩
  rw [compute_mask_entries CMP x2 value m (by rw [← hl]; exact hr) (by rw [← hl]; exact hm)]
  congr 2
  funext idx
  rw [← hl]
  by_cases h : idx ∈ indexSpace x1.layout.dims
  · simp only [h, if_true]
    rw [hsame idx ((mem_indexSpace _ _).mp h)]
  · simp only [h, if_false]

/-- Witness for C9: the contiguous field [[1,2],[3,4],[5,6]] and its strided
copy give the same mask for `<= 4`. -/
theorem compute_mask_contiguous_strided_witness :
    ∃ r, compute_mask .LE exIn32 4 exMask32 = .ok r ∧
      compute_mask .LE exIn32s 4 exMask32 = .ok r :=
  compute_mask_contiguous_strided .LE exIn32 exIn32s 4 exMask32 exIn32.data exIn32s.data
    rfl (by decide) rfl rfl rfl rfl rfl (fun _ _ => rfl)

/-! ## Global maximum: the rank-specific loops -/

theorem field_max_rank1 {α : Type} [LT α] [DecidableRel (fun a b : α => a < b)] (lowest : α)
    (f : Field α) (d0 : Nat) (hd : f.layout.dims = [d0]) :
    field_max lowest f none
      = .ok (forEachIndex (indexSpace [d0]) (fun idx mx => std_max mx (f.data idx)) lowest) := by
  have hr : f.layout.rank = 1 := FieldLayout.rank_of_dims _ _ hd
  have h0 : f.layout.dim 0 = d0 := FieldLayout.dim_of_dims _ _ hd 0
  simp only [field_max, hr, h0, Field.get_strided_view_ok f 1 hr,
    forEachIndex_cons, forEachIndex_nil]
  rfl

theorem field_max_rank2 {α : Type} [LT α] [DecidableRel (fun a b : α => a < b)] (lowest : α)
    (f : Field α) (d0 d1 : Nat) (hd : f.layout.dims = [d0, d1]) :
    field_max lowest f none
      = .ok (forEachIndex (indexSpace [d0, d1]) (fun idx mx => std_max mx (f.data idx)) lowest) := by
  have hr : f.layout.rank = 2 := FieldLayout.rank_of_dims _ _ hd
  have h0 : f.layout.dim 0 = d0 := FieldLayout.dim_of_dims _ _ hd 0
  have h1 : f.layout.dim 1 = d1 := FieldLayout.dim_of_dims _ _ hd 1
  simp only [field_max, hr, h0, h1, Field.get_strided_view_ok f 2 hr,
    forEachIndex_cons, forEachIndex_nil]
  rfl

theorem field_max_rank3 {α : Type} [LT α] [DecidableRel (fun a b : α => a < b)] (lowest : α)
    (f : Field α) (d0 d1 d2 : Nat) (hd : f.layout.dims = [d0, d1, d2]) :
    field_max lowest f none
      = .ok (forEachIndex (indexSpace [d0, d1, d2]) (fun idx mx => std_max mx (f.data idx)) lowest) := by
  have hr : f.layout.rank = 3 := FieldLayout.rank_of_dims _ _ hd
  have h0 : f.layout.dim 0 = d0 := FieldLayout.dim_of_dims _ _ hd 0
  have h1 : f.layout.dim 1 = d1 := FieldLayout.dim_of_dims _ _ hd 1
  have h2 : f.layout.dim 2 = d2 := FieldLayout.dim_of_dims _ _ hd 2
  simp only [field_max, hr, h0, h1, h2, Field.get_strided_view_ok f 3 hr,
    forEachIndex_cons, forEachIndex_nil]
  rfl

theorem field_max_rank4 {α : Type} [LT α] [DecidableRel (fun a b : α => a < b)] (lowest : α)
    (f : Field α) (d0 d1 d2 d3 : Nat) (hd : f.layout.dims = [d0, d1, d2, d3]) :
    field_max lowest f none
      = .ok (forEachIndex (indexSpace [d0, d1, d2, d3]) (fun idx mx => std_max mx (f.data idx)) lowest) := by
  have hr : f.layout.rank = 4 := FieldLayout.rank_of_dims _ _ hd
  have h0 : f.layout.dim 0 = d0 := FieldLayout.dim_of_dims _ _ hd 0
  have h1 : f.layout.dim 1 = d1 := FieldLayout.dim_of_dims _ _ hd 1
  have h2 : f.layout.dim 2 = d2 := FieldLayout.dim_of_dims _ _ hd 2
  have h3 : f.layout.dim 3 = d3 := FieldLayout.dim_of_dims _ _ hd 3
  simp only [field_max, hr, h0, h1, h2, h3, Field.get_strided_view_ok f 4 hr,
    forEachIndex_cons, forEachIndex_nil]
  rfl

theorem field_max_rank5 {α : Type} [LT α] [DecidableRel (fun a b : α => a < b)] (lowest : α)
    (f : Field α) (d0 d1 d2 d3 d4 : Nat) (hd : f.layout.dims = [d0, d1, d2, d3, d4]) :
    field_max lowest f none
      = .ok (forEachIndex (indexSpace [d0, d1, d2, d3, d4]) (fun idx mx => std_max mx (f.data idx)) lowest) := by
  have hr : f.layout.rank = 5 := FieldLayout.rank_of_dims _ _ hd
  have h0 : f.layout.dim 0 = d0 := FieldLayout.dim_of_dims _ _ hd 0
  have h1 : f.layout.dim 1 = d1 := FieldLayout.dim_of_dims _ _ hd 1
  have h2 : f.layout.dim 2 = d2 := FieldLayout.dim_of_dims _ _ hd 2
  have h3 : f.layout.dim 3 = d3 := FieldLayout.dim_of_dims _ _ hd 3
  have h4 : f.layout.dim 4 = d4 := FieldLayout.dim_of_dims _ _ hd 4
  simp only [field_max, hr, h0, h1, h2, h3, h4, Field.get_strided_view_ok f 5 hr,
    forEachIndex_cons, forEachIndex_nil]
  rfl

theorem field_max_rank6 {α : Type} [LT α] [DecidableRel (fun a b : α => a < b)] (lowest : α)
    (f : Field α) (d0 d1 d2 d3 d4 d5 : Nat) (hd : f.layout.dims = [d0, d1, d2, d3, d4, d5]) :
    field_max lowest f none
      = .ok (forEachIndex (indexSpace [d0, d1, d2, d3, d4, d5]) (fun idx mx => std_max mx (f.data idx)) lowest) := by
  have hr : f.layout.rank = 6 := FieldLayout.rank_of_dims _ _ hd
  have h0 : f.layout.dim 0 = d0 := FieldLayout.dim_of_dims _ _ hd 0
  have h1 : f.layout.dim 1 = d1 := FieldLayout.dim_of_dims _ _ hd 1
  have h2 : f.layout.dim 2 = d2 := FieldLayout.dim_of_dims _ _ hd 2
  have h3 : f.layout.dim 3 = d3 := FieldLayout.dim_of_dims _ _ hd 3
  have h4 : f.layout.dim 4 = d4 := FieldLayout.dim_of_dims _ _ hd 4
  have h5 : f.layout.dim 5 = d5 := FieldLayout.dim_of_dims _ _ hd 5
  simp only [field_max, hr, h0, h1, h2, h3, h4, h5, Field.get_strided_view_ok f 6 hr,
    forEachIndex_cons, forEachIndex_nil]
  rfl

theorem field_max_local {α : Type} [LT α] [DecidableRel (fun a b : α => a < b)] (lowest : α) (f : Field α)
    (h1 : 1 ≤ f.layout.rank) (h6 : f.layout.rank ≤ 6) :
    field_max lowest f none
      = .ok (forEachIndex (indexSpace f.layout.dims)
          (fun idx mx => std_max mx (f.data idx)) lowest) := by
  have hlen : f.layout.dims.length = f.layout.rank := by
    simp [FieldLayout.dims, FieldLayout.rank]
  rw [← hlen] at h1 h6
  match hd : f.layout.dims, h1, h6 with
  | [], h, _ => simp at h
  | [d0], _, _ => exact field_max_rank1 lowest f d0 hd
  | [d0, d1], _, _ => exact field_max_rank2 lowest f d0 d1 hd
  | [d0, d1, d2], _, _ => exact field_max_rank3 lowest f d0 d1 d2 hd
  | [d0, d1, d2, d3], _, _ => exact field_max_rank4 lowest f d0 d1 d2 d3 hd
  | [d0, d1, d2, d3, d4], _, _ => exact field_max_rank5 lowest f d0 d1 d2 d3 d4 hd
  | [d0, d1, d2, d3, d4, d5], _, _ => exact field_max_rank6 lowest f d0 d1 d2 d3 d4 d5 hd
  | _ :: _ :: _ :: _ :: _ :: _ :: _ :: _, _, h => simp at h

theorem field_max_comm {α : Type} [LT α] [DecidableRel (fun a b : α => a < b)] (lowest : α) (f : Field α) (c : Comm α) :
    field_max lowest f (some c)
      = (field_max lowest f none) >>= fun mx => pure (c.all_reduce MPI_MAX mx) := by
  simp only [field_max]
  simp only [bind, Except.bind]
  split <;>
    first
      | rfl
      | (cases f.get_strided_view _ <;> rfl)

theorem foldl_std_max {α : Type} [LinearOrder α] (v : List Nat → α) (L : List (List Nat))
    (a : α) :
    a ≤ forEachIndex L (fun idx mx => std_max mx (v idx)) a ∧
    (∀ idx, idx ∈ L → v idx ≤ forEachIndex L (fun idx mx => std_max mx (v idx)) a) ∧
    (forEachIndex L (fun idx mx => std_max mx (v idx)) a = a ∨
      ∃ idx, idx ∈ L ∧ v idx = forEachIndex L (fun idx mx => std_max mx (v idx)) a) := by
  induction L generalizing a with
  | nil => simp [forEachIndex]
  | cons x L ih =>
    have hstep : forEachIndex (x :: L) (fun idx mx => std_max mx (v idx)) a
        = forEachIndex L (fun idx mx => std_max mx (v idx)) (std_max a (v x)) := rfl
    rw [hstep]
    obtain ⟨h1, h2, h3⟩ := ih (std_max a (v x))
    have ha : a ≤ std_max a (v x) := by
      unfold std_max; split
      · exact le_of_lt ‹_›
      · exact le_refl a
    have hx : v x ≤ std_max a (v x) := by
      unfold std_max; split
      · exact le_refl _
      · exact not_lt.mp ‹_›
    refine ⟨le_trans ha h1, ?_, ?_⟩
    · intro idx hidx
      rcases List.mem_cons.mp hidx with rfl | h
      · exact le_trans hx h1
      · exact h2 idx h
    · rcases h3 with h | ⟨idx, hidx, h⟩
      · by_cases hlt : a < v x
        · right
          refine ⟨x, List.mem_cons_self x L, ?_⟩
          rw [h]; unfold std_max; rw [if_pos hlt]
        · left
          rw [h]; unfold std_max; rw [if_neg hlt]
      · exact Or.inr ⟨idx, List.mem_cons_of_mem x hidx, h⟩

/-! ## Global maximum: the claim -/

/-- Claim C10. For every field of rank 1 to 6 with at least one logical entry,
over a totally ordered element type whose lowest representable value `lowest`
seeds the running maximum, `field_max(f, null)` succeeds, is the value of some
logical entry of `f` and is greater than or equal to every logical entry; with
a process group the result is the `MPI_MAX` collective applied to the local
maximum, and in a group run every process gets the `MPI_MAX` reduction of the
local maxima of all processes. -/
theorem field_max_spec {α : Type} [LinearOrder α] (lowest : α) (f : Field α)
    (h1 : 1 ≤ f.layout.rank) (h6 : f.layout.rank ≤ 6)
    (hne : ∃ idx, InBounds f.layout.dims idx)
    (hlow : ∀ idx, InBounds f.layout.dims idx → lowest ≤ f.data idx) :
    ∃ mx, field_max lowest f none = .ok mx ∧
      (∃ idx, InBounds f.layout.dims idx ∧ f.data idx = mx) ∧
      (∀ idx, InBounds f.layout.dims idx → f.data idx ≤ mx) ∧
      (∀ c : Comm α, field_max lowest f (some c) = .ok (c.all_reduce MPI_MAX mx)) ∧
      (∀ (procs : List (Field α)) (p : Nat),
        (∀ q, q ∈ procs → 1 ≤ q.layout.rank ∧ q.layout.rank ≤ 6) → p < procs.length →
        ∃ x xs, procs.mapM (fun q => field_max lowest q none) = .ok (x :: xs) ∧
          field_max_spmd lowest procs p = .ok (xs.foldl MPI_MAX x)) := by
  obtain ⟨_, hall, hex⟩ := foldl_std_max f.data (indexSpace f.layout.dims) lowest
  refine ⟨_, field_max_local lowest f h1 h6, ?_, ?_, ?_, ?_⟩
  · rcases hex with h | ⟨idx, hidx, h⟩
    · obtain ⟨idx0, h0⟩ := hne
      refine ⟨idx0, h0, ?_⟩
      apply le_antisymm
      · exact hall idx0 ((mem_indexSpace _ _).mpr h0)
      · rw [h]; exact hlow idx0 h0
    · exact ⟨idx, (mem_indexSpace _ _).mp hidx, h⟩
  · intro idx hidx
    exact hall idx ((mem_indexSpace _ _).mpr hidx)
  · intro c
    rw [field_max_comm, field_max_local lowest f h1 h6]
    rfl
  · intro procs p hq hp
    let loc : Field α → α := fun q =>
      forEachIndex (indexSpace q.layout.dims) (fun idx mx => std_max mx (q.data idx)) lowest
    have hloc : ∀ q, q ∈ procs → field_max lowest q none = .ok (loc q) :=
      fun q h => field_max_local lowest q (hq q h).1 (hq q h).2
    have hmap : procs.mapM (fun q => field_max lowest q none) = .ok (procs.map loc) :=
      mapM_ok_of_forall _ _ _ hloc
    have hget : procs.get? p = some (procs.get ⟨p, hp⟩) := by
      simp [List.getElem?_eq_getElem hp]
    have hpl : p < (procs.map loc).length := by rw [List.length_map]; exact hp
    have hcsp : (procs.map loc).get ⟨p, hpl⟩ = loc (procs.get ⟨p, hp⟩) := by simp
    match hpm : procs.map loc, hpl, hcsp with
    | [], h, _ => exact absurd h (Nat.not_lt_zero p)
    | x :: xs, hpl2, hcsp2 =>
      refine ⟨x, xs, by rw [hmap, hpm], ?_⟩
      simp only [field_max_spmd, hmap, hget]
      show field_max lowest _ (some (Comm.ofContribs (procs.map loc) p)) = _
      rw [field_max_comm, hloc _ (List.get_mem procs p hp)]
      show Except.ok (Comm.all_reduce (Comm.ofContribs (procs.map loc) p) MPI_MAX _) = _
      rw [hpm, ← hcsp2, Comm.all_reduce_ofContribs MPI_MAX x xs p hpl2]

/-- Witness for C10: the maximum of [[1,2],[3,4],[5,6]] over 32-bit integers
is 6. -/
theorem field_max_spec_witness : field_max int_lowest exIn32 none = .ok 6 := by
  have hlo : ∀ idx ∈ indexSpace exIn32.layout.dims, int_lowest ≤ exIn32.data idx := by decide
  have hle : ∀ idx ∈ indexSpace exIn32.layout.dims, exIn32.data idx ≤ 6 := by decide
  obtain ⟨mx, h, ⟨idx, hidx, hv⟩, hge, _⟩ := field_max_spec int_lowest exIn32
    (by decide) (by decide)
    ⟨[0, 0], List.Forall₂.cons (by decide) (List.Forall₂.cons (by decide) List.Forall₂.nil)⟩
    (fun idx hidx => hlo idx ((mem_indexSpace _ _).mpr hidx))
  rw [h]
  congr 1
  apply le_antisymm
  · rw [← hv]
    exact hle idx ((mem_indexSpace _ _).mpr hidx)
  · exact hge [2, 1]
      (List.Forall₂.cons (by decide) (List.Forall₂.cons (by decide) List.Forall₂.nil))

/-! ## Global minimum: the rank-specific loops -/

theorem field_min_rank1 {α : Type} [LT α] [DecidableRel (fun a b : α => a < b)] (largest : α)
    (f : Field α) (d0 : Nat) (hd : f.layout.dims = [d0]) :
    field_min largest f none
      = .ok (forEachIndex (indexSpace [d0]) (fun idx mn => std_min mn (f.data idx)) largest) := by
  have hr : f.layout.rank = 1 := FieldLayout.rank_of_dims _ _ hd
  have h0 : f.layout.dim 0 = d0 := FieldLayout.dim_of_dims _ _ hd 0
  simp only [field_min, hr, h0, Field.get_strided_view_ok f 1 hr,
    forEachIndex_cons, forEachIndex_nil]
  rfl

theorem field_min_rank2 {α : Type} [LT α] [DecidableRel (fun a b : α => a < b)] (largest : α)
    (f : Field α) (d0 d1 : Nat) (hd : f.layout.dims = [d0, d1]) :
    field_min largest f none
      = .ok (forEachIndex (indexSpace [d0, d1]) (fun idx mn => std_min mn (f.data idx)) largest) := by
  have hr : f.layout.rank = 2 := FieldLayout.rank_of_dims _ _ hd
  have h0 : f.layout.dim 0 = d0 := FieldLayout.dim_of_dims _ _ hd 0
  have h1 : f.layout.dim 1 = d1 := FieldLayout.dim_of_dims _ _ hd 1
  simp only [field_min, hr, h0, h1, Field.get_strided_view_ok f 2 hr,
    forEachIndex_cons, forEachIndex_nil]
  rfl

theorem field_min_rank3 {α : Type} [LT α] [DecidableRel (fun a b : α => a < b)] (largest : α)
    (f : Field α) (d0 d1 d2 : Nat) (hd : f.layout.dims = [d0, d1, d2]) :
    field_min largest f none
      = .ok (forEachIndex (indexSpace [d0, d1, d2]) (fun idx mn => std_min mn (f.data idx)) largest) := by
  have hr : f.layout.rank = 3 := FieldLayout.rank_of_dims _ _ hd
  have h0 : f.layout.dim 0 = d0 := FieldLayout.dim_of_dims _ _ hd 0
  have h1 : f.layout.dim 1 = d1 := FieldLayout.dim_of_dims _ _ hd 1
  have h2 : f.layout.dim 2 = d2 := FieldLayout.dim_of_dims _ _ hd 2
  simp only [field_min, hr, h0, h1, h2, Field.get_strided_view_ok f 3 hr,
    forEachIndex_cons, forEachIndex_nil]
  rfl

theorem field_min_rank4 {α : Type} [LT α] [DecidableRel (fun a b : α => a < b)] (largest : α)
    (f : Field α) (d0 d1 d2 d3 : Nat) (hd : f.layout.dims = [d0, d1, d2, d3]) :
    field_min largest f none
      = .ok (forEachIndex (indexSpace [d0, d1, d2, d3]) (fun idx mn => std_min mn (f.data idx)) largest) := by
  have hr : f.layout.rank = 4 := FieldLayout.rank_of_dims _ _ hd
  have h0 : f.layout.dim 0 = d0 := FieldLayout.dim_of_dims _ _ hd 0
  have h1 : f.layout.dim 1 = d1 := FieldLayout.dim_of_dims _ _ hd 1
  have h2 : f.layout.dim 2 = d2 := FieldLayout.dim_of_dims _ _ hd 2
  have h3 : f.layout.dim 3 = d3 := FieldLayout.dim_of_dims _ _ hd 3
  simp only [field_min, hr, h0, h1, h2, h3, Field.get_strided_view_ok f 4 hr,
    forEachIndex_cons, forEachIndex_nil]
  rfl

theorem field_min_rank5 {α : Type} [LT α] [DecidableRel (fun a b : α => a < b)] (largest : α)
    (f : Field α) (d0 d1 d2 d3 d4 : Nat) (hd : f.layout.dims = [d0, d1, d2, d3, d4]) :
    field_min largest f none
      = .ok (forEachIndex (indexSpace [d0, d1, d2, d3, d4]) (fun idx mn => std_min mn (f.data idx)) largest) := by
  have hr : f.layout.rank = 5 := FieldLayout.rank_of_dims _ _ hd
  have h0 : f.layout.dim 0 = d0 := FieldLayout.dim_of_dims _ _ hd 0
  have h1 : f.layout.dim 1 = d1 := FieldLayout.dim_of_dims _ _ hd 1
  have h2 : f.layout.dim 2 = d2 := FieldLayout.dim_of_dims _ _ hd 2
  have h3 : f.layout.dim 3 = d3 := FieldLayout.dim_of_dims _ _ hd 3
  have h4 : f.layout.dim 4 = d4 := FieldLayout.dim_of_dims _ _ hd 4
  simp only [field_min, hr, h0, h1, h2, h3, h4, Field.get_strided_view_ok f 5 hr,
    forEachIndex_cons, forEachIndex_nil]
  rfl

theorem field_min_rank6 {α : Type} [LT α] [DecidableRel (fun a b : α => a < b)] (largest : α)
    (f : Field α) (d0 d1 d2 d3 d4 d5 : Nat) (hd : f.layout.dims = [d0, d1, d2, d3, d4, d5]) :
    field_min largest f none
      = .ok (forEachIndex (indexSpace [d0, d1, d2, d3, d4, d5]) (fun idx mn => std_min mn (f.data idx)) largest) := by
  have hr : f.layout.rank = 6 := FieldLayout.rank_of_dims _ _ hd
  have h0 : f.layout.dim 0 = d0 := FieldLayout.dim_of_dims _ _ hd 0
  have h1 : f.layout.dim 1 = d1 := FieldLayout.dim_of_dims _ _ hd 1
  have h2 : f.layout.dim 2 = d2 := FieldLayout.dim_of_dims _ _ hd 2
  have h3 : f.layout.dim 3 = d3 := FieldLayout.dim_of_dims _ _ hd 3
  have h4 : f.layout.dim 4 = d4 := FieldLayout.dim_of_dims _ _ hd 4
  have h5 : f.layout.dim 5 = d5 := FieldLayout.dim_of_dims _ _ hd 5
  simp only [field_min, hr, h0, h1, h2, h3, h4, h5, Field.get_strided_view_ok f 6 hr,
    forEachIndex_cons, forEachIndex_nil]
  rfl

theorem field_min_local {α : Type} [LT α] [DecidableRel (fun a b : α => a < b)] (largest : α) (f : Field α)
    (h1 : 1 ≤ f.layout.rank) (h6 : f.layout.rank ≤ 6) :
    field_min largest f none
      = .ok (forEachIndex (indexSpace f.layout.dims)
          (fun idx mn => std_min mn (f.data idx)) largest) := by
  have hlen : f.layout.dims.length = f.layout.rank := by
    simp [FieldLayout.dims, FieldLayout.rank]
  rw [← hlen] at h1 h6
  match hd : f.layout.dims, h1, h6 with
  | [], h, _ => simp at h
  | [d0], _, _ => exact field_min_rank1 largest f d0 hd
  | [d0, d1], _, _ => exact field_min_rank2 largest f d0 d1 hd
  | [d0, d1, d2], _, _ => exact field_min_rank3 largest f d0 d1 d2 hd
  | [d0, d1, d2, d3], _, _ => exact field_min_rank4 largest f d0 d1 d2 d3 hd
  | [d0, d1, d2, d3, d4], _, _ => exact field_min_rank5 largest f d0 d1 d2 d3 d4 hd
  | [d0, d1, d2, d3, d4, d5], _, _ => exact field_min_rank6 largest f d0 d1 d2 d3 d4 d5 hd
  | _ :: _ :: _ :: _ :: _ :: _ :: _ :: _, _, h => simp at h

theorem field_min_comm {α : Type} [LT α] [DecidableRel (fun a b : α => a < b)] (largest : α) (f : Field α) (c : Comm α) :
    field_min largest f (some c)
      = (field_min largest f none) >>= fun mn => pure (c.all_reduce MPI_MIN mn) := by
  simp only [field_min]
  simp only [bind, Except.bind]
  split <;>
    first
      | rfl
      | (cases f.get_strided_view _ <;> rfl)

theorem foldl_std_min {α : Type} [LinearOrder α] (v : List Nat → α) (L : List (List Nat))
    (a : α) :
    forEachIndex L (fun idx mn => std_min mn (v idx)) a ≤ a ∧
    (∀ idx, idx ∈ L → forEachIndex L (fun idx mn => std_min mn (v idx)) a ≤ v idx) ∧
    (forEachIndex L (fun idx mn => std_min mn (v idx)) a = a ∨
      ∃ idx, idx ∈ L ∧ v idx = forEachIndex L (fun idx mn => std_min mn (v idx)) a) := by
  induction L generalizing a with
  | nil => simp [forEachIndex]
  | cons x L ih =>
    have hstep : forEachIndex (x :: L) (fun idx mn => std_min mn (v idx)) a
        = forEachIndex L (fun idx mn => std_min mn (v idx)) (std_min a (v x)) := rfl
    rw [hstep]
    obtain ⟨h1, h2, h3⟩ := ih (std_min a (v x))
    have ha : std_min a (v x) ≤ a := by
      unfold std_min; split
      · exact le_of_lt ‹_›
      · exact le_refl a
    have hx : std_min a (v x) ≤ v x := by
      unfold std_min; split
      · exact le_refl _
      · exact not_lt.mp ‹_›
    refine ⟨le_trans h1 ha, ?_, ?_⟩
    · intro idx hidx
      rcases List.mem_cons.mp hidx with rfl | h
      · exact le_trans h1 hx
      · exact h2 idx h
    · rcases h3 with h | ⟨idx, hidx, h⟩
      · by_cases hlt : v x < a
        · right
          refine ⟨x, List.mem_cons_self x L, ?_⟩
          rw [h]; unfold std_min; rw [if_pos hlt]
        · left
          rw [h]; unfold std_min; rw [if_neg hlt]
      · exact Or.inr ⟨idx, List.mem_cons_of_mem x hidx, h⟩

/-! ## Global minimum: the claim -/

/-- Claim C11. For every field of rank 1 to 6 with at least one logical entry,
over a totally ordered element type whose largest representable value
`largest` seeds the running minimum, `field_min(f, null)` succeeds, is the
value of some logical entry of `f` and is less than or equal to every logical
entry; with a process group the result is the `MPI_MIN` collective applied to
the local minimum, and in a group run every process gets the `MPI_MIN`
reduction of the local minima of all processes. -/
theorem field_min_spec {α : Type} [LinearOrder α] (largest : α) (f : Field α)
    (h1 : 1 ≤ f.layout.rank) (h6 : f.layout.rank ≤ 6)
    (hne : ∃ idx, InBounds f.layout.dims idx)
    (hhigh : ∀ idx, InBounds f.layout.dims idx → f.data idx ≤ largest) :
    ∃ mn, field_min largest f none = .ok mn ∧
      (∃ idx, InBounds f.layout.dims idx ∧ f.data idx = mn) ∧
      (∀ idx, InBounds f.layout.dims idx → mn ≤ f.data idx) ∧
      (∀ c : Comm α, field_min largest f (some c) = .ok (c.all_reduce MPI_MIN mn)) ∧
      (∀ (procs : List (Field α)) (p : Nat),
        (∀ q, q ∈ procs → 1 ≤ q.layout.rank ∧ q.layout.rank ≤ 6) → p < procs.length →
        ∃ x xs, procs.mapM (fun q => field_min largest q none) = .ok (x :: xs) ∧
          field_min_spmd largest procs p = .ok (xs.foldl MPI_MIN x)) := by
  obtain ⟨_, hall, hex⟩ := foldl_std_min f.data (indexSpace f.layout.dims) largest
  refine ⟨_, field_min_local largest f h1 h6, ?_, ?_, ?_, ?_⟩
  · rcases hex with h | ⟨idx, hidx, h⟩
    · obtain ⟨idx0, h0⟩ := hne
      refine ⟨idx0, h0, ?_⟩
      apply le_antisymm
      · rw [h]; exact hhigh idx0 h0
      · exact hall idx0 ((mem_indexSpace _ _).mpr h0)
    · exact ⟨idx, (mem_indexSpace _ _).mp hidx, h⟩
  · intro idx hidx
    exact hall idx ((mem_indexSpace _ _).mpr hidx)
  · intro c
    rw [field_min_comm, field_min_local largest f h1 h6]
    rfl
  · intro procs p hq hp
    let loc : Field α → α := fun q =>
      forEachIndex (indexSpace q.layout.dims) (fun idx mn => std_min mn (q.data idx)) largest
    have hloc : ∀ q, q ∈ procs → field_min largest q none = .ok (loc q) :=
      fun q h => field_min_local largest q (hq q h).1 (hq q h).2
    have hmap : procs.mapM (fun q => field_min largest q none) = .ok (procs.map loc) :=
      mapM_ok_of_forall _ _ _ hloc
    have hget : procs.get? p = some (procs.get ⟨p, hp⟩) := by
      simp [List.getElem?_eq_getElem hp]
    have hpl : p < (procs.map loc).length := by rw [List.length_map]; exact hp
    have hcsp : (procs.map loc).get ⟨p, hpl⟩ = loc (procs.get ⟨p, hp⟩) := by simp
    match hpm : procs.map loc, hpl, hcsp with
    | [], h, _ => exact absurd h (Nat.not_lt_zero p)
    | x :: xs, hpl2, hcsp2 =>
      refine ⟨x, xs, by rw [hmap, hpm], ?_⟩
      simp only [field_min_spmd, hmap, hget]
      show field_min largest _ (some (Comm.ofContribs (procs.map loc) p)) = _
      rw [field_min_comm, hloc _ (List.get_mem procs p hp)]
      show Except.ok (Comm.all_reduce (Comm.ofContribs (procs.map loc) p) MPI_MIN _) = _
      rw [hpm, ← hcsp2, Comm.all_reduce_ofContribs MPI_MIN x xs p hpl2]

/-- Witness for C11: the minimum of [[1,2],[3,4],[5,6]] over 32-bit integers
is 1. -/
theorem field_min_spec_witness : field_min int_largest exIn32 none = .ok 1 := by
  have hhi : ∀ idx ∈ indexSpace exIn32.layout.dims, exIn32.data idx ≤ int_largest := by decide
  have hge : ∀ idx ∈ indexSpace exIn32.layout.dims, 1 ≤ exIn32.data idx := by decide
  obtain ⟨mn, h, ⟨idx, hidx, hv⟩, hle, _⟩ := field_min_spec int_largest exIn32
    (by decide) (by decide)
    ⟨[0, 0], List.Forall₂.cons (by decide) (List.Forall₂.cons (by decide) List.Forall₂.nil)⟩
    (fun idx hidx => hhi idx ((mem_indexSpace _ _).mpr hidx))
  rw [h]
  congr 1
  apply le_antisymm
  · exact hle [0, 0]
      (List.Forall₂.cons (by decide) (List.Forall₂.cons (by decide) List.Forall₂.nil))
  · rw [← hv]
    exact hge idx ((mem_indexSpace _ _).mpr hidx)

/-! ## Global sum and Euclidean norm: the rank-specific loops -/

theorem kahan_fold_map {α β : Type} [Zero α] [Add α] [Sub α] (L : List β) (g : β → α) :
    kahan_fold (L.map g) = L.foldl (fun st x => kahan_step (g x) st) (0, 0) := by
  simp only [kahan_fold, List.foldl_map]

theorem kahan_fold_indexSpace {α : Type} [Zero α] [Add α] [Sub α] (dims : List Nat)
    (g : List Nat → α) :
    kahan_fold ((indexSpace dims).map g)
      = forEachIndex (indexSpace dims) (fun idx st => kahan_step (g idx) st) (0, 0) :=
  kahan_fold_map _ _

theorem field_sum_rank1 {α : Type} [Zero α] [Add α] [Sub α]
    (f : Field α) (d0 : Nat) (hd : f.layout.dims = [d0]) :
    field_sum f none
      = .ok ((kahan_fold ((indexSpace [d0]).map (fun idx => f.data idx))).1) := by
  have hr : f.layout.rank = 1 := FieldLayout.rank_of_dims _ _ hd
  have h0 : f.layout.dim 0 = d0 := FieldLayout.dim_of_dims _ _ hd 0
  simp only [field_sum, hr, h0, Field.get_strided_view_ok f 1 hr,
    kahan_fold_indexSpace, forEachIndex_cons, forEachIndex_nil]
  rfl

theorem field_sum_rank2 {α : Type} [Zero α] [Add α] [Sub α]
    (f : Field α) (d0 d1 : Nat) (hd : f.layout.dims = [d0, d1]) :
    field_sum f none
      = .ok ((kahan_fold ((indexSpace [d0, d1]).map (fun idx => f.data idx))).1) := by
  have hr : f.layout.rank = 2 := FieldLayout.rank_of_dims _ _ hd
  have h0 : f.layout.dim 0 = d0 := FieldLayout.dim_of_dims _ _ hd 0
  have h1 : f.layout.dim 1 = d1 := FieldLayout.dim_of_dims _ _ hd 1
  simp only [field_sum, hr, h0, h1, Field.get_strided_view_ok f 2 hr,
    kahan_fold_indexSpace, forEachIndex_cons, forEachIndex_nil]
  rfl

theorem field_sum_rank3 {α : Type} [Zero α] [Add α] [Sub α]
    (f : Field α) (d0 d1 d2 : Nat) (hd : f.layout.dims = [d0, d1, d2]) :
    field_sum f none
      = .ok ((kahan_fold ((indexSpace [d0, d1, d2]).map (fun idx => f.data idx))).1) := by
  have hr : f.layout.rank = 3 := FieldLayout.rank_of_dims _ _ hd
  have h0 : f.layout.dim 0 = d0 := FieldLayout.dim_of_dims _ _ hd 0
  have h1 : f.layout.dim 1 = d1 := FieldLayout.dim_of_dims _ _ hd 1
  have h2 : f.layout.dim 2 = d2 := FieldLayout.dim_of_dims _ _ hd 2
  simp only [field_sum, hr, h0, h1, h2, Field.get_strided_view_ok f 3 hr,
    kahan_fold_indexSpace, forEachIndex_cons, forEachIndex_nil]
  rfl

theorem field_sum_rank4 {α : Type} [Zero α] [Add α] [Sub α]
    (f : Field α) (d0 d1 d2 d3 : Nat) (hd : f.layout.dims = [d0, d1, d2, d3]) :
    field_sum f none
      = .ok ((kahan_fold ((indexSpace [d0, d1, d2, d3]).map (fun idx => f.data idx))).1) := by
  have hr : f.layout.rank = 4 := FieldLayout.rank_of_dims _ _ hd
  have h0 : f.layout.dim 0 = d0 := FieldLayout.dim_of_dims _ _ hd 0
  have h1 : f.layout.dim 1 = d1 := FieldLayout.dim_of_dims _ _ hd 1
  have h2 : f.layout.dim 2 = d2 := FieldLayout.dim_of_dims _ _ hd 2
  have h3 : f.layout.dim 3 = d3 := FieldLayout.dim_of_dims _ _ hd 3
  simp only [field_sum, hr, h0, h1, h2, h3, Field.get_strided_view_ok f 4 hr,
    kahan_fold_indexSpace, forEachIndex_cons, forEachIndex_nil]
  rfl

theorem field_sum_rank5 {α : Type} [Zero α] [Add α] [Sub α]
    (f : Field α) (d0 d1 d2 d3 d4 : Nat) (hd : f.layout.dims = [d0, d1, d2, d3, d4]) :
    field_sum f none
      = .ok ((kahan_fold ((indexSpace [d0, d1, d2, d3, d4]).map (fun idx => f.data idx))).1) := by
  have hr : f.layout.rank = 5 := FieldLayout.rank_of_dims _ _ hd
  have h0 : f.layout.dim 0 = d0 := FieldLayout.dim_of_dims _ _ hd 0
  have h1 : f.layout.dim 1 = d1 := FieldLayout.dim_of_dims _ _ hd 1
  have h2 : f.layout.dim 2 = d2 := FieldLayout.dim_of_dims _ _ hd 2
  have h3 : f.layout.dim 3 = d3 := FieldLayout.dim_of_dims _ _ hd 3
  have h4 : f.layout.dim 4 = d4 := FieldLayout.dim_of_dims _ _ hd 4
  simp only [field_sum, hr, h0, h1, h2, h3, h4, Field.get_strided_view_ok f 5 hr,
    kahan_fold_indexSpace, forEachIndex_cons, forEachIndex_nil]
  rfl

theorem field_sum_rank6 {α : Type} [Zero α] [Add α] [Sub α]
    (f : Field α) (d0 d1 d2 d3 d4 d5 : Nat) (hd : f.layout.dims = [d0, d1, d2, d3, d4, d5]) :
    field_sum f none
      = .ok ((kahan_fold ((indexSpace [d0, d1, d2, d3, d4, d5]).map (fun idx => f.data idx))).1) := by
  have hr : f.layout.rank = 6 := FieldLayout.rank_of_dims _ _ hd
  have h0 : f.layout.dim 0 = d0 := FieldLayout.dim_of_dims _ _ hd 0
  have h1 : f.layout.dim 1 = d1 := FieldLayout.dim_of_dims _ _ hd 1
  have h2 : f.layout.dim 2 = d2 := FieldLayout.dim_of_dims _ _ hd 2
  have h3 : f.layout.dim 3 = d3 := FieldLayout.dim_of_dims _ _ hd 3
  have h4 : f.layout.dim 4 = d4 := FieldLayout.dim_of_dims _ _ hd 4
  have h5 : f.layout.dim 5 = d5 := FieldLayout.dim_of_dims _ _ hd 5
  simp only [field_sum, hr, h0, h1, h2, h3, h4, h5, Field.get_strided_view_ok f 6 hr,
    kahan_fold_indexSpace, forEachIndex_cons, forEachIndex_nil]
  rfl

theorem field_sum_local {α : Type} [Zero α] [Add α] [Sub α] (f : Field α)
    (h1 : 1 ≤ f.layout.rank) (h6 : f.layout.rank ≤ 6) :
    field_sum f none
      = .ok ((kahan_fold ((indexSpace f.layout.dims).map (fun idx => f.data idx))).1) := by
  have hlen : f.layout.dims.length = f.layout.rank := by
    simp [FieldLayout.dims, FieldLayout.rank]
  rw [← hlen] at h1 h6
  match hd : f.layout.dims, h1, h6 with
  | [], h, _ => simp at h
  | [d0], _, _ => exact field_sum_rank1 f d0 hd
  | [d0, d1], _, _ => exact field_sum_rank2 f d0 d1 hd
  | [d0, d1, d2], _, _ => exact field_sum_rank3 f d0 d1 d2 hd
  | [d0, d1, d2, d3], _, _ => exact field_sum_rank4 f d0 d1 d2 d3 hd
  | [d0, d1, d2, d3, d4], _, _ => exact field_sum_rank5 f d0 d1 d2 d3 d4 hd
  | [d0, d1, d2, d3, d4, d5], _, _ => exact field_sum_rank6 f d0 d1 d2 d3 d4 d5 hd
  | _ :: _ :: _ :: _ :: _ :: _ :: _ :: _, _, h => simp at h

theorem frobenius_norm_rank1 {α : Type} [Zero α] [Add α] [Sub α] [Pow α Nat] (sqrt : α → α)
    (f : Field α) (d0 : Nat) (hd : f.layout.dims = [d0]) :
    frobenius_norm sqrt f none
      = .ok (sqrt (kahan_fold ((indexSpace [d0]).map (fun idx => std_pow (f.data idx) 2))).1) := by
  have hr : f.layout.rank = 1 := FieldLayout.rank_of_dims _ _ hd
  have h0 : f.layout.dim 0 = d0 := FieldLayout.dim_of_dims _ _ hd 0
  simp only [frobenius_norm, hr, h0, Field.get_strided_view_ok f 1 hr,
    kahan_fold_indexSpace, forEachIndex_cons, forEachIndex_nil]
  rfl

theorem frobenius_norm_rank2 {α : Type} [Zero α] [Add α] [Sub α] [Pow α Nat] (sqrt : α → α)
    (f : Field α) (d0 d1 : Nat) (hd : f.layout.dims = [d0, d1]) :
    frobenius_norm sqrt f none
      = .ok (sqrt (kahan_fold ((indexSpace [d0, d1]).map (fun idx => std_pow (f.data idx) 2))).1) := by
  have hr : f.layout.rank = 2 := FieldLayout.rank_of_dims _ _ hd
  have h0 : f.layout.dim 0 = d0 := FieldLayout.dim_of_dims _ _ hd 0
  have h1 : f.layout.dim 1 = d1 := FieldLayout.dim_of_dims _ _ hd 1
  simp only [frobenius_norm, hr, h0, h1, Field.get_strided_view_ok f 2 hr,
    kahan_fold_indexSpace, forEachIndex_cons, forEachIndex_nil]
  rfl

theorem frobenius_norm_rank3 {α : Type} [Zero α] [Add α] [Sub α] [Pow α Nat] (sqrt : α → α)
    (f : Field α) (d0 d1 d2 : Nat) (hd : f.layout.dims = [d0, d1, d2]) :
    frobenius_norm sqrt f none
      = .ok (sqrt (kahan_fold ((indexSpace [d0, d1, d2]).map (fun idx => std_pow (f.data idx) 2))).1) := by
  have hr : f.layout.rank = 3 := FieldLayout.rank_of_dims _ _ hd
  have h0 : f.layout.dim 0 = d0 := FieldLayout.dim_of_dims _ _ hd 0
  have h1 : f.layout.dim 1 = d1 := FieldLayout.dim_of_dims _ _ hd 1
  have h2 : f.layout.dim 2 = d2 := FieldLayout.dim_of_dims _ _ hd 2
  simp only [frobenius_norm, hr, h0, h1, h2, Field.get_strided_view_ok f 3 hr,
    kahan_fold_indexSpace, forEachIndex_cons, forEachIndex_nil]
  rfl

theorem frobenius_norm_rank4 {α : Type} [Zero α] [Add α] [Sub α] [Pow α Nat] (sqrt : α → α)
    (f : Field α) (d0 d1 d2 d3 : Nat) (hd : f.layout.dims = [d0, d1, d2, d3]) :
    frobenius_norm sqrt f none
      = .ok (sqrt (kahan_fold ((indexSpace [d0, d1, d2, d3]).map (fun idx => std_pow (f.data idx) 2))).1) := by
  have hr : f.layout.rank = 4 := FieldLayout.rank_of_dims _ _ hd
  have h0 : f.layout.dim 0 = d0 := FieldLayout.dim_of_dims _ _ hd 0
  have h1 : f.layout.dim 1 = d1 := FieldLayout.dim_of_dims _ _ hd 1
  have h2 : f.layout.dim 2 = d2 := FieldLayout.dim_of_dims _ _ hd 2
  have h3 : f.layout.dim 3 = d3 := FieldLayout.dim_of_dims _ _ hd 3
  simp only [frobenius_norm, hr, h0, h1, h2, h3, Field.get_strided_view_ok f 4 hr,
    kahan_fold_indexSpace, forEachIndex_cons, forEachIndex_nil]
  rfl

theorem frobenius_norm_rank5 {α : Type} [Zero α] [Add α] [Sub α] [Pow α Nat] (sqrt : α → α)
    (f : Field α) (d0 d1 d2 d3 d4 : Nat) (hd : f.layout.dims = [d0, d1, d2, d3, d4]) :
    frobenius_norm sqrt f none
      = .ok (sqrt (kahan_fold ((indexSpace [d0, d1, d2, d3, d4]).map (fun idx => std_pow (f.data idx) 2))).1) := by
  have hr : f.layout.rank = 5 := FieldLayout.rank_of_dims _ _ hd
  have h0 : f.layout.dim 0 = d0 := FieldLayout.dim_of_dims _ _ hd 0
  have h1 : f.layout.dim 1 = d1 := FieldLayout.dim_of_dims _ _ hd 1
  have h2 : f.layout.dim 2 = d2 := FieldLayout.dim_of_dims _ _ hd 2
  have h3 : f.layout.dim 3 = d3 := FieldLayout.dim_of_dims _ _ hd 3
  have h4 : f.layout.dim 4 = d4 := FieldLayout.dim_of_dims _ _ hd 4
  simp only [frobenius_norm, hr, h0, h1, h2, h3, h4, Field.get_strided_view_ok f 5 hr,
    kahan_fold_indexSpace, forEachIndex_cons, forEachIndex_nil]
  rfl

theorem frobenius_norm_rank6 {α : Type} [Zero α] [Add α] [Sub α] [Pow α Nat] (sqrt : α → α)
    (f : Field α) (d0 d1 d2 d3 d4 d5 : Nat) (hd : f.layout.dims = [d0, d1, d2, d3, d4, d5]) :
    frobenius_norm sqrt f none
      = .ok (sqrt (kahan_fold ((indexSpace [d0, d1, d2, d3, d4, d5]).map (fun idx => std_pow (f.data idx) 2))).1) := by
  have hr : f.layout.rank = 6 := FieldLayout.rank_of_dims _ _ hd
  have h0 : f.layout.dim 0 = d0 := FieldLayout.dim_of_dims _ _ hd 0
  have h1 : f.layout.dim 1 = d1 := FieldLayout.dim_of_dims _ _ hd 1
  have h2 : f.layout.dim 2 = d2 := FieldLayout.dim_of_dims _ _ hd 2
  have h3 : f.layout.dim 3 = d3 := FieldLayout.dim_of_dims _ _ hd 3
  have h4 : f.layout.dim 4 = d4 := FieldLayout.dim_of_dims _ _ hd 4
  have h5 : f.layout.dim 5 = d5 := FieldLayout.dim_of_dims _ _ hd 5
  simp only [frobenius_norm, hr, h0, h1, h2, h3, h4, h5, Field.get_strided_view_ok f 6 hr,
    kahan_fold_indexSpace, forEachIndex_cons, forEachIndex_nil]
  rfl

theorem frobenius_norm_local {α : Type} [Zero α] [Add α] [Sub α] [Pow α Nat] (sqrt : α → α) (f : Field α)
    (h1 : 1 ≤ f.layout.rank) (h6 : f.layout.rank ≤ 6) :
    frobenius_norm sqrt f none
      = .ok (sqrt (kahan_fold ((indexSpace f.layout.dims).map (fun idx => std_pow (f.data idx) 2))).1) := by
  have hlen : f.layout.dims.length = f.layout.rank := by
    simp [FieldLayout.dims, FieldLayout.rank]
  rw [← hlen] at h1 h6
  match hd : f.layout.dims, h1, h6 with
  | [], h, _ => simp at h
  | [d0], _, _ => exact frobenius_norm_rank1 sqrt f d0 hd
  | [d0, d1], _, _ => exact frobenius_norm_rank2 sqrt f d0 d1 hd
  | [d0, d1, d2], _, _ => exact frobenius_norm_rank3 sqrt f d0 d1 d2 hd
  | [d0, d1, d2, d3], _, _ => exact frobenius_norm_rank4 sqrt f d0 d1 d2 d3 hd
  | [d0, d1, d2, d3, d4], _, _ => exact frobenius_norm_rank5 sqrt f d0 d1 d2 d3 d4 hd
  | [d0, d1, d2, d3, d4, d5], _, _ => exact frobenius_norm_rank6 sqrt f d0 d1 d2 d3 d4 d5 hd
  | _ :: _ :: _ :: _ :: _ :: _ :: _ :: _, _, h => simp at h

theorem field_sum_comm {α : Type} [Zero α] [Add α] [Sub α] (f : Field α) (c : Comm α) :
    field_sum f (some c)
      = (field_sum f none) >>= fun sum => pure (c.all_reduce MPI_SUM1 sum) := by
  simp only [field_sum]
  simp only [bind, Except.bind]
  split <;>
    first
      | rfl
      | (cases f.get_strided_view _ <;> rfl)

theorem frobenius_norm_comm {α : Type} [Zero α] [Add α] [Sub α] [Pow α Nat] (sqrt : α → α)
    (f : Field α) (c : Comm α) :
    frobenius_norm sqrt f (some c)
      = (frobenius_norm (fun x => x) f none) >>= fun norm =>
          pure (sqrt (c.all_reduce MPI_SUM1 norm)) := by
  simp only [frobenius_norm]
  simp only [bind, Except.bind]
  split <;>
    first
      | rfl
      | (cases f.get_strided_view _ <;> rfl)

/-! ## Euclidean norm: the claim -/

/-- Claim C12. `frobenius_norm` takes the square root once, after the
collective: for a field of rank 1 to 6, with `S` the locally accumulated
(Kahan) sum of the squares of all logical entries, it returns `sqrt(S)` without
a group and `sqrt` of the `MPI_SUM` collective of `S` with a group; in a group
run every process gets `sqrt(S_1 + ... + S_P)`, the square root of the sum of
the local sums of squares. -/
theorem frobenius_norm_sqrt_once {α : Type} [Zero α] [Add α] [Sub α] [Pow α Nat]
    (sqrt : α → α) (f : Field α) (h1 : 1 ≤ f.layout.rank) (h6 : f.layout.rank ≤ 6) :
    ∃ S, S = (kahan_fold ((indexSpace f.layout.dims).map
          (fun idx => std_pow (f.data idx) 2))).1 ∧
      frobenius_norm sqrt f none = .ok (sqrt S) ∧
      (∀ c : Comm α, frobenius_norm sqrt f (some c) = .ok (sqrt (c.all_reduce MPI_SUM1 S))) ∧
      (∀ (procs : List (Field α)) (p : Nat),
        (∀ q, q ∈ procs → 1 ≤ q.layout.rank ∧ q.layout.rank ≤ 6) → p < procs.length →
        ∃ x xs, procs.map (fun q => (kahan_fold ((indexSpace q.layout.dims).map
              (fun idx => std_pow (q.data idx) 2))).1) = x :: xs ∧
          frobenius_norm_spmd sqrt procs p = .ok (sqrt (xs.foldl MPI_SUM1 x))) := by
  refine ⟨_, rfl, frobenius_norm_local sqrt f h1 h6, ?_, ?_⟩
  · intro c
    rw [frobenius_norm_comm, frobenius_norm_local (fun x => x) f h1 h6]
    rfl
  · intro procs p hq hp
    let loc : Field α → α := fun q =>
      (kahan_fold ((indexSpace q.layout.dims).map (fun idx => std_pow (q.data idx) 2))).1
    have hloc : ∀ q, q ∈ procs → frobenius_norm (fun x => x) q none = .ok (loc q) :=
      fun q h => frobenius_norm_local (fun x => x) q (hq q h).1 (hq q h).2
    have hmap : procs.mapM (fun q => frobenius_norm (fun x => x) q none)
        = .ok (procs.map loc) := mapM_ok_of_forall _ _ _ hloc
    have hget : procs.get? p = some (procs.get ⟨p, hp⟩) := by
      simp [List.getElem?_eq_getElem hp]
    have hpl : p < (procs.map loc).length := by rw [List.length_map]; exact hp
    have hcsp : (procs.map loc).get ⟨p, hpl⟩ = loc (procs.get ⟨p, hp⟩) := by simp
    match hpm : procs.map loc, hpl, hcsp with
    | [], h, _ => exact absurd h (Nat.not_lt_zero p)
    | x :: xs, hpl2, hcsp2 =>
      refine ⟨x, xs, rfl, ?_⟩
      simp only [frobenius_norm_spmd, hmap, hget]
      show frobenius_norm sqrt _ (some (Comm.ofContribs (procs.map loc) p)) = _
      rw [frobenius_norm_comm, hloc _ (List.get_mem procs p hp)]
      show Except.ok (sqrt (Comm.all_reduce (Comm.ofContribs (procs.map loc) p) MPI_SUM1 _)) = _
      rw [hpm, ← hcsp2, Comm.all_reduce_ofContribs MPI_SUM1 x xs p hpl2]

/-- Witness for C12: the norm of [3] alone is 3, and in a group of two
processes holding [3] and [4] the norm is sqrt(9+16) = 5, not 3+4. -/
theorem frobenius_norm_sqrt_once_witness :
    frobenius_norm int_sqrt exF3 none = .ok 3 ∧
      frobenius_norm_spmd int_sqrt [exF3, exF4] 0 = .ok 5 := by
  obtain ⟨S, hS, hn, _, hg⟩ := frobenius_norm_sqrt_once int_sqrt exF3 (by decide) (by decide)
  have hS9 : S = 9 := by rw [hS]; decide
  have s3 : int_sqrt 9 = 3 := by
    show Int.ofNat (Nat.sqrt (3 * 3)) = 3
    rw [Nat.sqrt_eq]; rfl
  have s5 : int_sqrt 25 = 5 := by
    show Int.ofNat (Nat.sqrt (5 * 5)) = 5
    rw [Nat.sqrt_eq]; rfl
  refine ⟨by rw [hn, hS9, s3], ?_⟩
  obtain ⟨x, xs, hx, hr⟩ := hg [exF3, exF4] 0
    (by
      intro q hq
      simp only [List.mem_cons, List.mem_singleton, List.not_mem_nil, or_false] at hq
      rcases hq with rfl | rfl <;> exact ⟨by decide, by decide⟩)
    (by decide)
  have hx2 : x :: xs = [9, 16] := by rw [← hx]; decide
  injection hx2 with hx3 hx4
  subst hx3 hx4
  rw [hr]
  show Except.ok (int_sqrt 25) = _
  rw [s5]

/-! ## Global sum in exact arithmetic and over a split column axis -/

theorem kahan_foldl_exact {α : Type} [AddCommGroup α] (l : List α) (a : α) :
    l.foldl (fun st t => kahan_step t st) (a, 0) = (a + l.sum, 0) := by
  induction l generalizing a with
  | nil => simp
  | cons t ts ih =>
    have hstep : kahan_step t (a, 0) = (a + t, 0) := by
      simp [kahan_step]
    rw [List.foldl_cons, hstep, ih, List.sum_cons, add_assoc]

theorem kahan_fold_exact {α : Type} [AddCommGroup α] (l : List α) :
    kahan_fold l = (l.sum, 0) := by
  rw [kahan_fold, kahan_foldl_exact, zero_add]

theorem indexSpace_sum_cons {α : Type} [AddCommMonoid α] (d : Nat) (ds : List Nat)
    (g : List Nat → α) :
    ((indexSpace (d :: ds)).map g).sum
      = ∑ i in Finset.range d, ((indexSpace ds).map (fun idx => g (i :: idx))).sum := by
  induction d with
  | zero => simp [indexSpace]
  | succ d ih =>
    have hsplit : indexSpace ((d + 1) :: ds)
        = indexSpace (d :: ds) ++ (indexSpace ds).map (fun idx => d :: idx) := by
      simp [indexSpace, List.range_succ, List.flatMap_append]
    rw [hsplit, List.map_append, List.sum_append, ih, Finset.sum_range_succ, List.map_map]
    rfl

theorem foldl_MPI_SUM1 {α : Type} [AddCommMonoid α] (x : α) (xs : List α) :
    xs.foldl MPI_SUM1 x = (x :: xs).sum := by
  induction xs generalizing x with
  | nil => simp
  | cons y ys ih =>
    rw [List.foldl_cons, ih]
    simp [MPI_SUM1, add_assoc]

theorem field_sum_exact {α : Type} [AddCommGroup α] (f : Field α)
    (h1 : 1 ≤ f.layout.rank) (h6 : f.layout.rank ≤ 6) :
    field_sum f none = .ok (((indexSpace f.layout.dims).map (fun idx => f.data idx)).sum) := by
  rw [field_sum_local f h1 h6, kahan_fold_exact]

/-- Claim C13. In exact arithmetic, for every splitting of a field of rank 1 to
6 along its leading axis into consecutive parts owned by the processes of a
group, the call of `field_sum` with the group made by any process `p` succeeds
and returns the value that `field_sum` of the unsplit field returns without a
group, which is the sum of all logical entries. -/
theorem field_sum_split_invariant {α : Type} [AddCommGroup α] (f : Field α)
    (ncols : Nat) (rest ns : List Nat) (hd : f.layout.dims = ncols :: rest)
    (hrest : rest.length ≤ 5) (hns : ns.sum = ncols) (p : Nat) (hp : p < ns.length) :
    ∃ r, field_sum_spmd ((blocks 0 ns).map (fun b => f.col_block b.1 b.2)) p = .ok r ∧
      field_sum f none = .ok r ∧
      r = ((indexSpace (ncols :: rest)).map (fun idx => f.data idx)).sum := by
  have hr : f.layout.rank = rest.length + 1 := by
    rw [FieldLayout.rank_of_dims _ _ hd]; rfl
  have hglob := field_sum_exact f (by omega) (by omega)
  rw [hd] at hglob
  let G : Nat → α := fun i => ((indexSpace rest).map (fun idx => f.data (i :: idx))).sum
  let loc : Nat × Nat → α := fun b => ∑ i in Finset.range b.2, G (b.1 + i)
  have hloc : ∀ b : Nat × Nat, field_sum (f.col_block b.1 b.2) none = .ok (loc b) := by
    intro b
    have hd2 : (f.col_block b.1 b.2).layout.dims = b.2 :: rest :=
      FieldLayout.with_leading_dims _ _ _ _ hd
    have hr2 : (f.col_block b.1 b.2).layout.rank = rest.length + 1 := by
      rw [FieldLayout.rank_of_dims _ _ hd2]; rfl
    rw [field_sum_exact _ (by omega) (by omega), hd2, indexSpace_sum_cons]
    rfl
  have hmap : ((blocks 0 ns).map (fun b => f.col_block b.1 b.2)).mapM
      (fun q => field_sum q none) = .ok ((blocks 0 ns).map loc) := by
    let locF : Field α → α := fun q =>
      match field_sum q none with
      | .ok o => o
      | .error _ => 0
    have h1 : ((blocks 0 ns).map (fun b => f.col_block b.1 b.2)).mapM
        (fun q => field_sum q none)
          = .ok (((blocks 0 ns).map (fun b => f.col_block b.1 b.2)).map locF) := by
      apply mapM_ok_of_forall
      intro q hq
      simp only [List.mem_map] at hq
      obtain ⟨b, _, rfl⟩ := hq
      simp only [locF, hloc b]
    rw [h1, List.map_map]
    congr 1
    apply List.map_congr_left
    intro b _
    simp only [Function.comp, locF, hloc b]
  have hlen : p < (blocks 0 ns).length := by rw [blocks_length]; exact hp
  have hget : ((blocks 0 ns).map (fun b => f.col_block b.1 b.2)).get? p
      = some (f.col_block ((blocks 0 ns).get ⟨p, hlen⟩).1 ((blocks 0 ns).get ⟨p, hlen⟩).2) := by
    simp [List.getElem?_eq_getElem hlen]
  have hpl : p < ((blocks 0 ns).map loc).length := by rw [List.length_map]; exact hlen
  have hcsp : ((blocks 0 ns).map loc).get ⟨p, hpl⟩ = loc ((blocks 0 ns).get ⟨p, hlen⟩) := by
    simp
  have htot : ((blocks 0 ns).map loc).sum
      = ((indexSpace (ncols :: rest)).map (fun idx => f.data idx)).sum := by
    rw [sum_blocks G ns 0, hns, indexSpace_sum_cons]
    simp only [Nat.zero_add]
  refine ⟨_, ?_, hglob, rfl⟩
  simp only [field_sum_spmd, hmap, hget]
  show field_sum _ (some (Comm.ofContribs ((blocks 0 ns).map loc) p)) = _
  rw [field_sum_comm, hloc]
  show Except.ok (Comm.all_reduce (Comm.ofContribs ((blocks 0 ns).map loc) p) MPI_SUM1 _) = _
  rw [← htot, ← hcsp]
  match hpm : (blocks 0 ns).map loc, hpl with
  | [], h => exact absurd h (Nat.not_lt_zero p)
  | x :: xs, hpl2 =>
    rw [Comm.all_reduce_ofContribs MPI_SUM1 x xs p hpl2, foldl_MPI_SUM1]

/-- Witness for C13: the field [[1,2],[3,4],[5,6]] split into the column blocks
of sizes 2 and 1 sums to 21 on both processes, as the unsplit field does. -/
theorem field_sum_split_invariant_witness :
    field_sum_spmd ((blocks 0 [2, 1]).map (fun b => exIn32.col_block b.1 b.2)) 0 = .ok 21 ∧
    field_sum_spmd ((blocks 0 [2, 1]).map (fun b => exIn32.col_block b.1 b.2)) 1 = .ok 21 ∧
    field_sum exIn32 none = .ok 21 := by
  have key : ∀ p, p < 2 →
      field_sum_spmd ((blocks 0 [2, 1]).map (fun b => exIn32.col_block b.1 b.2)) p = .ok 21 ∧
      field_sum exIn32 none = .ok 21 := by
    intro p hp
    obtain ⟨r, h1, h2, h3⟩ :=
      field_sum_split_invariant exIn32 3 [2] [2, 1] rfl (by decide) rfl p hp
    have h21 : r = 21 := by rw [h3]; decide
    rw [h1, h2, h21]
    exact ⟨rfl, rfl⟩
  exact ⟨(key 0 (by decide)).1, (key 1 (by decide)).1, (key 0 (by decide)).2⟩

/-! ## Unsupported ranks -/

/-- Claim C14. `frobenius_norm`, `field_sum`, `field_max` and `field_min` called
on a field whose rank is outside 1..6 (rank 0, or a rank above 6) report the
unsupported-rank error instead of a value, whether or not a process group is
given: no collective is issued on that path. -/
theorem statistics_unsupported_rank {α : Type} [Zero α] [Add α] [Sub α] [Pow α Nat]
    [LT α] [DecidableRel (fun a b : α => a < b)] (sqrt : α → α) (lowest largest : α)
    (f : Field α) (hr : f.layout.rank = 0 ∨ 6 < f.layout.rank) (comm : Option (Comm α)) :
    frobenius_norm sqrt f comm = .error "Error! Unsupported field rank.\n" ∧
    field_sum f comm = .error "Error! Unsupported field rank.\n" ∧
    field_max lowest f comm = .error "Error! Unsupported field rank.\n" ∧
    field_min largest f comm = .error "Error! Unsupported field rank.\n" := by
  rcases hr with h0 | h7
  · simp only [frobenius_norm, field_sum, field_max, field_min, h0]
    exact ⟨rfl, rfl, rfl, rfl⟩
  · obtain ⟨n, hn⟩ : ∃ n, f.layout.rank = n + 7 := ⟨f.layout.rank - 7, by omega⟩
    simp only [frobenius_norm, field_sum, field_max, field_min, hn]
    exact ⟨rfl, rfl, rfl, rfl⟩

/-- Witness for C14: the four statistics of a rank-0 field are errors. -/
theorem statistics_unsupported_rank_witness :
    frobenius_norm int_sqrt exOut0 none = .error "Error! Unsupported field rank.\n" ∧
    field_sum exOut0 none = .error "Error! Unsupported field rank.\n" ∧
    field_max int_lowest exOut0 none = .error "Error! Unsupported field rank.\n" ∧
    field_min int_largest exOut0 none = .error "Error! Unsupported field rank.\n" :=
  statistics_unsupported_rank int_sqrt int_lowest int_largest exOut0 (Or.inl rfl) none

/-- Claim C15. `horiz_contraction` and `vert_contraction` called with an input
field whose rank is not 1, 2 or 3 return an error and no output field, whether
or not a process group is given; when the weight is accepted by its accessor
(rank 1, or rank 1 or 2 for `vert_contraction`) the error is the
unsupported-rank error of the routine. -/
theorem contraction_unsupported_rank {α : Type} [Zero α] [Add α] [Mul α]
    (f_out f_in weight : Field α) (hr : f_in.layout.rank = 0 ∨ 3 < f_in.layout.rank)
    (comm : Option (Comm (View α))) :
    (∃ e, horiz_contraction f_out f_in weight comm = .error e) ∧
    (weight.layout.rank = 1 →
      horiz_contraction f_out f_in weight comm = .error "Error! Unsupported field rank.\n") ∧
    (∃ e, vert_contraction f_out f_in weight = .error e) ∧
    (weight.layout.rank = 1 ∨ weight.layout.rank = 2 →
      vert_contraction f_out f_in weight
        = .error "Error! Unsupported field rank in vert_contraction.\n") := by
  have hh : weight.layout.rank = 1 →
      horiz_contraction f_out f_in weight comm = .error "Error! Unsupported field rank.\n" := by
    intro hw
    rcases hr with h0 | h4
    · simp only [horiz_contraction, Field.get_view_ok _ _ hw, h0]
      rfl
    · obtain ⟨n, hn⟩ : ∃ n, f_in.layout.rank = n + 4 := ⟨f_in.layout.rank - 4, by omega⟩
      simp only [horiz_contraction, Field.get_view_ok _ _ hw, hn]
      rfl
  have hv : weight.layout.rank = 1 ∨ weight.layout.rank = 2 →
      vert_contraction f_out f_in weight
        = .error "Error! Unsupported field rank in vert_contraction.\n" := by
    intro hw
    rcases hw with hw | hw <;> rcases hr with h0 | h4
    · simp only [vert_contraction, Field.get_view_ok _ _ hw, hw, h0]
      rfl
    · obtain ⟨n, hn⟩ : ∃ n, f_in.layout.rank = n + 4 := ⟨f_in.layout.rank - 4, by omega⟩
      simp only [vert_contraction, Field.get_view_ok _ _ hw, hw, hn]
      rfl
    · simp only [vert_contraction, Field.get_view_ok _ _ hw, hw, h0]
      rfl
    · obtain ⟨n, hn⟩ : ∃ n, f_in.layout.rank = n + 4 := ⟨f_in.layout.rank - 4, by omega⟩
      simp only [vert_contraction, Field.get_view_ok _ _ hw, hw, hn]
      rfl
  refine ⟨?_, hh, ?_, hv⟩
  · by_cases hw : weight.layout.rank = 1
    · exact ⟨_, hh hw⟩
    · refine ⟨"Error! Input view type rank does not match the field rank.\n", ?_⟩
      simp only [horiz_contraction, Field.get_view, if_neg hw]
      rfl
  · by_cases hw1 : weight.layout.rank = 1
    · exact ⟨_, hv (Or.inl hw1)⟩
    · by_cases hw2 : weight.layout.rank = 2
      · exact ⟨_, hv (Or.inr hw2)⟩
      · refine ⟨"Error! Input view type rank does not match the field rank.\n", ?_⟩
        simp only [vert_contraction, Field.get_view, if_neg hw2, decide_eq_false hw1]
        rfl

/-- Witness for C15: contracting a rank-0 input is the unsupported-rank error of
each routine. -/
theorem contraction_unsupported_rank_witness :
    horiz_contraction exOut0 exOut0 exW3 none = .error "Error! Unsupported field rank.\n" ∧
    vert_contraction exOut0 exOut0 exW3
      = .error "Error! Unsupported field rank in vert_contraction.\n" :=
  ⟨(contraction_unsupported_rank exOut0 exOut0 exW3 (Or.inl rfl) none).2.1 rfl,
    (contraction_unsupported_rank exOut0 exOut0 exW3 (Or.inl rfl) none).2.2.2 (Or.inl rfl)⟩

/-! ## Randomization: the rank-specific loops -/

theorem randomize_rank0 {α ε : Type} (f : Field α) (e : ε) (pdf : ε → α × ε)
    (hd : f.layout.dims = []) :
    randomize f e pdf
      = .ok (forEachIndex (indexSpace [])
          (fun idx (st : Field α × ε) => (st.1.set idx (pdf st.2).1, (pdf st.2).2)) (f, e)) := by
  have hr : f.layout.rank = 0 := FieldLayout.rank_of_dims _ _ hd
  simp only [randomize, hr, Field.get_strided_view_ok f 0 hr,
    forEachIndex_cons, forEachIndex_nil]
  rfl

theorem randomize_rank1 {α ε : Type} (f : Field α) (e : ε) (pdf : ε → α × ε) (d0 : Nat)
    (hd : f.layout.dims = [d0]) :
    randomize f e pdf
      = .ok (forEachIndex (indexSpace [d0])
          (fun idx (st : Field α × ε) => (st.1.set idx (pdf st.2).1, (pdf st.2).2)) (f, e)) := by
  have hr : f.layout.rank = 1 := FieldLayout.rank_of_dims _ _ hd
  have h0 : f.layout.dim 0 = d0 := FieldLayout.dim_of_dims _ _ hd 0
  simp only [randomize, hr, h0, Field.get_strided_view_ok f 1 hr,
    forEachIndex_cons, forEachIndex_nil]
  rfl

theorem randomize_rank2 {α ε : Type} (f : Field α) (e : ε) (pdf : ε → α × ε) (d0 d1 : Nat)
    (hd : f.layout.dims = [d0, d1]) :
    randomize f e pdf
      = .ok (forEachIndex (indexSpace [d0, d1])
          (fun idx (st : Field α × ε) => (st.1.set idx (pdf st.2).1, (pdf st.2).2)) (f, e)) := by
  have hr : f.layout.rank = 2 := FieldLayout.rank_of_dims _ _ hd
  have h0 : f.layout.dim 0 = d0 := FieldLayout.dim_of_dims _ _ hd 0
  have h1 : f.layout.dim 1 = d1 := FieldLayout.dim_of_dims _ _ hd 1
  simp only [randomize, hr, h0, h1, Field.get_strided_view_ok f 2 hr,
    forEachIndex_cons, forEachIndex_nil]
  rfl

theorem randomize_rank3 {α ε : Type} (f : Field α) (e : ε) (pdf : ε → α × ε) (d0 d1 d2 : Nat)
    (hd : f.layout.dims = [d0, d1, d2]) :
    randomize f e pdf
      = .ok (forEachIndex (indexSpace [d0, d1, d2])
          (fun idx (st : Field α × ε) => (st.1.set idx (pdf st.2).1, (pdf st.2).2)) (f, e)) := by
  have hr : f.layout.rank = 3 := FieldLayout.rank_of_dims _ _ hd
  have h0 : f.layout.dim 0 = d0 := FieldLayout.dim_of_dims _ _ hd 0
  have h1 : f.layout.dim 1 = d1 := FieldLayout.dim_of_dims _ _ hd 1
  have h2 : f.layout.dim 2 = d2 := FieldLayout.dim_of_dims _ _ hd 2
  simp only [randomize, hr, h0, h1, h2, Field.get_strided_view_ok f 3 hr,
    forEachIndex_cons, forEachIndex_nil]
  rfl

theorem randomize_rank4 {α ε : Type} (f : Field α) (e : ε) (pdf : ε → α × ε) (d0 d1 d2 d3 : Nat)
    (hd : f.layout.dims = [d0, d1, d2, d3]) :
    randomize f e pdf
      = .ok (forEachIndex (indexSpace [d0, d1, d2, d3])
          (fun idx (st : Field α × ε) => (st.1.set idx (pdf st.2).1, (pdf st.2).2)) (f, e)) := by
  have hr : f.layout.rank = 4 := FieldLayout.rank_of_dims _ _ hd
  have h0 : f.layout.dim 0 = d0 := FieldLayout.dim_of_dims _ _ hd 0
  have h1 : f.layout.dim 1 = d1 := FieldLayout.dim_of_dims _ _ hd 1
  have h2 : f.layout.dim 2 = d2 := FieldLayout.dim_of_dims _ _ hd 2
  have h3 : f.layout.dim 3 = d3 := FieldLayout.dim_of_dims _ _ hd 3
  simp only [randomize, hr, h0, h1, h2, h3, Field.get_strided_view_ok f 4 hr,
    forEachIndex_cons, forEachIndex_nil]
  rfl

theorem randomize_rank5 {α ε : Type} (f : Field α) (e : ε) (pdf : ε → α × ε) (d0 d1 d2 d3 d4 : Nat)
    (hd : f.layout.dims = [d0, d1, d2, d3, d4]) :
    randomize f e pdf
      = .ok (forEachIndex (indexSpace [d0, d1, d2, d3, d4])
          (fun idx (st : Field α × ε) => (st.1.set idx (pdf st.2).1, (pdf st.2).2)) (f, e)) := by
  have hr : f.layout.rank = 5 := FieldLayout.rank_of_dims _ _ hd
  have h0 : f.layout.dim 0 = d0 := FieldLayout.dim_of_dims _ _ hd 0
  have h1 : f.layout.dim 1 = d1 := FieldLayout.dim_of_dims _ _ hd 1
  have h2 : f.layout.dim 2 = d2 := FieldLayout.dim_of_dims _ _ hd 2
  have h3 : f.layout.dim 3 = d3 := FieldLayout.dim_of_dims _ _ hd 3
  have h4 : f.layout.dim 4 = d4 := FieldLayout.dim_of_dims _ _ hd 4
  simp only [randomize, hr, h0, h1, h2, h3, h4, Field.get_strided_view_ok f 5 hr,
    forEachIndex_cons, forEachIndex_nil]
  rfl

theorem randomize_rank6 {α ε : Type} (f : Field α) (e : ε) (pdf : ε → α × ε) (d0 d1 d2 d3 d4 d5 : Nat)
    (hd : f.layout.dims = [d0, d1, d2, d3, d4, d5]) :
    randomize f e pdf
      = .ok (forEachIndex (indexSpace [d0, d1, d2, d3, d4, d5])
          (fun idx (st : Field α × ε) => (st.1.set idx (pdf st.2).1, (pdf st.2).2)) (f, e)) := by
  have hr : f.layout.rank = 6 := FieldLayout.rank_of_dims _ _ hd
  have h0 : f.layout.dim 0 = d0 := FieldLayout.dim_of_dims _ _ hd 0
  have h1 : f.layout.dim 1 = d1 := FieldLayout.dim_of_dims _ _ hd 1
  have h2 : f.layout.dim 2 = d2 := FieldLayout.dim_of_dims _ _ hd 2
  have h3 : f.layout.dim 3 = d3 := FieldLayout.dim_of_dims _ _ hd 3
  have h4 : f.layout.dim 4 = d4 := FieldLayout.dim_of_dims _ _ hd 4
  have h5 : f.layout.dim 5 = d5 := FieldLayout.dim_of_dims _ _ hd 5
  simp only [randomize, hr, h0, h1, h2, h3, h4, h5, Field.get_strided_view_ok f 6 hr,
    forEachIndex_cons, forEachIndex_nil]
  rfl

theorem randomize_local {α ε : Type} (f : Field α) (e : ε) (pdf : ε → α × ε)
    (h6 : f.layout.rank ≤ 6) :
    randomize f e pdf
      = .ok (forEachIndex (indexSpace f.layout.dims)
          (fun idx (st : Field α × ε) => (st.1.set idx (pdf st.2).1, (pdf st.2).2)) (f, e)) := by
  have hlen : f.layout.dims.length = f.layout.rank := by
    simp [FieldLayout.dims, FieldLayout.rank]
  rw [← hlen] at h6
  match hd : f.layout.dims, h6 with
  | [], _ => exact randomize_rank0 f e pdf hd
  | [d0], _ => exact randomize_rank1 f e pdf d0 hd
  | [d0, d1], _ => exact randomize_rank2 f e pdf d0 d1 hd
  | [d0, d1, d2], _ => exact randomize_rank3 f e pdf d0 d1 d2 hd
  | [d0, d1, d2, d3], _ => exact randomize_rank4 f e pdf d0 d1 d2 d3 hd
  | [d0, d1, d2, d3, d4], _ => exact randomize_rank5 f e pdf d0 d1 d2 d3 d4 hd
  | [d0, d1, d2, d3, d4, d5], _ => exact randomize_rank6 f e pdf d0 d1 d2 d3 d4 d5 hd
  | _ :: _ :: _ :: _ :: _ :: _ :: _ :: _, h => simp at h

/-! ## Row-major enumeration of an index space -/

theorem indexSpace_succ (d : Nat) (ds : List Nat) :
    indexSpace ((d + 1) :: ds)
      = indexSpace (d :: ds) ++ (indexSpace ds).map (fun idx => d :: idx) := by
  simp [indexSpace, List.range_succ, List.flatMap_append]

theorem indexSpace_length (dims : List Nat) : (indexSpace dims).length = dims.prod := by
  induction dims with
  | nil => rfl
  | cons d ds ih =>
    induction d with
    | zero => simp [indexSpace]
    | succ d ihd =>
      rw [indexSpace_succ, List.length_append, ihd, List.length_map, ih]
      simp only [List.prod_cons]
      ring

theorem indexSpace_nodup (dims : List Nat) : (indexSpace dims).Nodup := by
  induction dims with
  | nil => simp [indexSpace]
  | cons d ds ih =>
    induction d with
    | zero => simp [indexSpace]
    | succ d ihd =>
      rw [indexSpace_succ]
      refine List.Nodup.append ihd (List.Nodup.map ?_ ih) ?_
      · intro a b h
        exact (List.cons.inj h).2
      · intro idx h1 h2
        have hb := (mem_indexSpace _ _).mp h1
        obtain ⟨r, _, rfl⟩ := List.mem_map.mp h2
        cases hb with
        | cons hlt _ => exact absurd hlt (Nat.lt_irrefl d)

theorem flatIndex_lt (dims idx : List Nat) (h : InBounds dims idx) :
    flatIndex dims idx < dims.prod := by
  induction dims generalizing idx with
  | nil => cases h; simp [flatIndex]
  | cons d ds ih =>
    cases h with
    | cons hi hr =>
      rename_i i is
      have := ih is hr
      simp only [flatIndex, List.prod_cons]
      calc i * ds.prod + flatIndex ds is < i * ds.prod + ds.prod := by omega
        _ = (i + 1) * ds.prod := by ring
        _ ≤ d * ds.prod := Nat.mul_le_mul_right _ hi

theorem indexSpace_getElem?_block (d : Nat) (ds : List Nat) (i k : Nat) (hi : i < d)
    (hk : k < ds.prod) :
    (indexSpace (d :: ds))[i * ds.prod + k]? = ((indexSpace ds)[k]?).map (fun idx => i :: idx) := by
  induction d with
  | zero => exact absurd hi (Nat.not_lt_zero i)
  | succ d ihd =>
    rw [indexSpace_succ]
    have hlen : (indexSpace (d :: ds)).length = d * ds.prod := by
      rw [indexSpace_length, List.prod_cons]
    rcases Nat.lt_succ_iff_lt_or_eq.mp hi with hlt | rfl
    · have hb : i * ds.prod + k < (indexSpace (d :: ds)).length := by
        rw [hlen]
        calc i * ds.prod + k < i * ds.prod + ds.prod := by omega
          _ = (i + 1) * ds.prod := by ring
          _ ≤ d * ds.prod := Nat.mul_le_mul_right _ hlt
      rw [List.getElem?_append_left hb]
      exact ihd hlt
    · have hb : (indexSpace (i :: ds)).length ≤ i * ds.prod + k := by
        rw [hlen]; omega
      rw [List.getElem?_append_right hb, hlen, Nat.add_sub_cancel_left, List.getElem?_map]

theorem indexSpace_getElem?_flatIndex (dims idx : List Nat) (h : InBounds dims idx) :
    (indexSpace dims)[flatIndex dims idx]? = some idx := by
  induction dims generalizing idx with
  | nil => cases h; rfl
  | cons d ds ih =>
    cases h with
    | cons hi hr =>
      rename_i i is
      simp only [flatIndex]
      rw [indexSpace_getElem?_block d ds i _ hi (flatIndex_lt ds is hr), ih is hr]
      rfl

theorem flatIndex_injective (dims idx1 idx2 : List Nat) (h1 : InBounds dims idx1)
    (h2 : InBounds dims idx2) (h : flatIndex dims idx1 = flatIndex dims idx2) : idx1 = idx2 := by
  have e1 := indexSpace_getElem?_flatIndex dims idx1 h1
  have e2 := indexSpace_getElem?_flatIndex dims idx2 h2
  rw [h, e2] at e1
  exact (Option.some.inj e1).symm

theorem flatIndex_surjective (dims : List Nat) (n : Nat) (hn : n < dims.prod) :
    ∃ idx, InBounds dims idx ∧ flatIndex dims idx = n := by
  have hn2 : n < (indexSpace dims).length := by rw [indexSpace_length]; exact hn
  have hmem : (indexSpace dims)[n] ∈ indexSpace dims := List.getElem_mem hn2
  have hb := (mem_indexSpace _ _).mp hmem
  refine ⟨(indexSpace dims)[n], hb, ?_⟩
  have e := indexSpace_getElem?_flatIndex dims _ hb
  obtain ⟨hlt, he⟩ := List.getElem?_eq_some_iff.mp e
  exact (List.Nodup.getElem_inj_iff (indexSpace_nodup dims)).mp he

/-! ## Drawing one sample per index -/

theorem advance_shift {α ε : Type} (pdf : ε → α × ε) (e : ε) (n : Nat) :
    advance pdf (pdf e).2 n = advance pdf e (n + 1) := by
  induction n with
  | zero => rfl
  | succ n ih =>
    show (pdf (advance pdf (pdf e).2 n)).2 = (pdf (advance pdf e (n + 1))).2
    rw [ih]

theorem sample_shift {α ε : Type} (pdf : ε → α × ε) (e : ε) (n : Nat) :
    sample pdf (pdf e).2 n = sample pdf e (n + 1) := by
  simp only [sample, advance_shift]

theorem draw_fold {α ε : Type} (pdf : ε → α × ε) (L : List (List Nat)) (f : Field α) (e : ε) :
    (forEachIndex L (fun idx (st : Field α × ε) =>
        (st.1.set idx (pdf st.2).1, (pdf st.2).2)) (f, e)).2 = advance pdf e L.length ∧
    (forEachIndex L (fun idx (st : Field α × ε) =>
        (st.1.set idx (pdf st.2).1, (pdf st.2).2)) (f, e)).1.layout = f.layout ∧
    (∀ idx, idx ∉ L → (forEachIndex L (fun idx (st : Field α × ε) =>
        (st.1.set idx (pdf st.2).1, (pdf st.2).2)) (f, e)).1.data idx = f.data idx) ∧
    (L.Nodup → ∀ n idx, L[n]? = some idx → (forEachIndex L (fun idx (st : Field α × ε) =>
        (st.1.set idx (pdf st.2).1, (pdf st.2).2)) (f, e)).1.data idx = sample pdf e n) := by
  induction L generalizing f e with
  | nil =>
    refine ⟨rfl, rfl, fun _ _ => rfl, ?_⟩
    intro _ n idx h
    simp at h
  | cons x L ih =>
    have hstep : forEachIndex (x :: L) (fun idx (st : Field α × ε) =>
          (st.1.set idx (pdf st.2).1, (pdf st.2).2)) (f, e)
        = forEachIndex L (fun idx (st : Field α × ε) =>
          (st.1.set idx (pdf st.2).1, (pdf st.2).2)) (f.set x (pdf e).1, (pdf e).2) := rfl
    rw [hstep]
    obtain ⟨h1, h2, h3, h4⟩ := ih (f.set x (pdf e).1) (pdf e).2
    refine ⟨?_, ?_, ?_, ?_⟩
    · rw [h1, advance_shift]; rfl
    · rw [h2]; rfl
    · intro idx hidx
      have hx : idx ≠ x := fun h => hidx (h ▸ List.mem_cons_self _ _)
      have hL : idx ∉ L := fun h => hidx (List.mem_cons_of_mem _ h)
      rw [h3 idx hL]
      simp [Field.set, Function.update_noteq hx]
    · intro hnd n idx hget
      have hnd2 := List.nodup_cons.mp hnd
      cases n with
      | zero =>
        simp only [List.getElem?_cons_zero, Option.some.injEq] at hget
        subst hget
        rw [h3 x hnd2.1]
        simp [Field.set, sample, advance]
      | succ m =>
        simp only [List.getElem?_cons_succ] at hget
        rw [h4 hnd2.2 m idx hget, sample_shift]

/-! ## Randomization: the claim -/

/-- Claim C16. For every field of rank 0 to 6 with extents `dims`, `randomize`
succeeds, advances the engine by exactly `dims.prod` draws (one for rank 0), and
stores in every logical entry the sample whose number (counted from 0) is the
row-major flat index of the entry; the flat index is a bijection between the
logical entries and the draw numbers below `dims.prod`, so every logical entry
is overwritten and every sample drawn is stored. -/
theorem randomize_spec {α ε : Type} (f : Field α) (e : ε) (pdf : ε → α × ε)
    (h6 : f.layout.rank ≤ 6) :
    ∃ r, randomize f e pdf = .ok r ∧
      r.2 = advance pdf e f.layout.dims.prod ∧
      r.1.layout = f.layout ∧
      (∀ idx, InBounds f.layout.dims idx →
        flatIndex f.layout.dims idx < f.layout.dims.prod ∧
        r.1.data idx = sample pdf e (flatIndex f.layout.dims idx)) ∧
      (∀ n, n < f.layout.dims.prod →
        ∃ idx, InBounds f.layout.dims idx ∧ flatIndex f.layout.dims idx = n) ∧
      (∀ idx1 idx2, InBounds f.layout.dims idx1 → InBounds f.layout.dims idx2 →
        flatIndex f.layout.dims idx1 = flatIndex f.layout.dims idx2 → idx1 = idx2) ∧
      (∀ idx, ¬ InBounds f.layout.dims idx → r.1.data idx = f.data idx) := by
  obtain ⟨h1, h2, h3, h4⟩ := draw_fold pdf (indexSpace f.layout.dims) f e
  refine ⟨_, randomize_local f e pdf h6, ?_, h2, ?_, ?_, ?_, ?_⟩
  · rw [h1, indexSpace_length]
  · intro idx hidx
    exact ⟨flatIndex_lt _ _ hidx,
      h4 (indexSpace_nodup _) _ idx (indexSpace_getElem?_flatIndex _ idx hidx)⟩
  · exact fun n hn => flatIndex_surjective _ n hn
  · exact fun a b ha hb h => flatIndex_injective _ a b ha hb h
  · intro idx hidx
    exact h3 idx (fun hm => hidx ((mem_indexSpace _ _).mp hm))

/-- Witness for C16: with the counting engine started at 0, whose `n`-th sample
is `n + 2`, the field of layout (COL=3, LEV=2) becomes [[2,3],[4,5],[6,7]] and
the engine has made 6 draws. -/
theorem randomize_spec_witness :
    ∃ r, randomize exIn32 0 exPdf = .ok r ∧ r.2 = 6 ∧
      r.1.data [0, 0] = 2 ∧ r.1.data [0, 1] = 3 ∧ r.1.data [1, 0] = 4 ∧
      r.1.data [1, 1] = 5 ∧ r.1.data [2, 0] = 6 ∧ r.1.data [2, 1] = 7 := by
  obtain ⟨r, h, he, _, hv, _⟩ := randomize_spec exIn32 0 exPdf (by decide)
  have ib : ∀ i j, i < 3 → j < 2 → InBounds exIn32.layout.dims [i, j] :=
    fun i j hi hj => List.Forall₂.cons hi (List.Forall₂.cons hj List.Forall₂.nil)
  refine ⟨r, h, ?_, ?_, ?_, ?_, ?_, ?_, ?_⟩
  · rw [he]; rfl
  · rw [(hv _ (ib 0 0 (by decide) (by decide))).2]; rfl
  · rw [(hv _ (ib 0 1 (by decide) (by decide))).2]; rfl
  · rw [(hv _ (ib 1 0 (by decide) (by decide))).2]; rfl
  · rw [(hv _ (ib 1 1 (by decide) (by decide))).2]; rfl
  · rw [(hv _ (ib 2 0 (by decide) (by decide))).2]; rfl
  · rw [(hv _ (ib 2 1 (by decide) (by decide))).2]; rfl

/-! ## Lemmas on perturbation -/

theorem forLoopE_zero {σ : Type} (body : Nat → σ → Except String σ) (s : σ) :
    forLoopE 0 body s = .ok s := rfl

theorem forLoopE_succ {σ : Type} (n : Nat) (body : Nat → σ → Except String σ) (s : σ) :
    forLoopE (n + 1) body s = (forLoopE n body s >>= body n) := by
  simp only [forLoopE, List.range_succ, List.foldlM_append, List.foldlM_cons, List.foldlM_nil,
    bind_pure]

theorem forLoopE_induction {σ : Type} (n : Nat) (body : Nat → σ → Except String σ)
    (Inv : Nat → σ → Prop) (s0 : σ) (h0 : Inv 0 s0)
    (hstep : ∀ i s, i < n → Inv i s → ∃ s', body i s = .ok s' ∧ Inv (i + 1) s') :
    ∃ s', forLoopE n body s0 = .ok s' ∧ Inv n s' := by
  induction n with
  | zero => exact ⟨s0, rfl, h0⟩
  | succ n ih =>
    obtain ⟨s1, h1, hi1⟩ := ih (fun i s hi => hstep i s (Nat.lt_succ_of_lt hi))
    obtain ⟨s2, h2, hi2⟩ := hstep n s1 (Nat.lt_succ_self n) hi1
    refine ⟨s2, ?_, hi2⟩
    rw [forLoopE_succ, h1]
    exact h2

theorem forLoopE_rel {σ τ : Type} (n : Nat) (b1 : Nat → σ → Except String σ)
    (b2 : Nat → τ → Except String τ) (R : σ → τ → Prop) (s : σ) (t : τ) (h0 : R s t)
    (hstep : ∀ i a b, i < n → R a b →
      ∃ a' b', b1 i a = .ok a' ∧ b2 i b = .ok b' ∧ R a' b') :
    ∃ a' b', forLoopE n b1 s = .ok a' ∧ forLoopE n b2 t = .ok b' ∧ R a' b' := by
  induction n with
  | zero => exact ⟨s, t, rfl, rfl, h0⟩
  | succ n ih =>
    obtain ⟨a1, b1', h1, h2, hr⟩ := ih (fun i a b hi => hstep i a b (Nat.lt_succ_of_lt hi))
    obtain ⟨a2, b2', h3, h4, hr2⟩ := hstep n a1 b1' (Nat.lt_succ_self n) hr
    refine ⟨a2, b2', ?_, ?_, hr2⟩
    · rw [forLoopE_succ, h1]; exact h3
    · rw [forLoopE_succ, h2]; exact h4

theorem insertAt_eraseIdx (idx : List Nat) (i k : Nat) (h : idx.get? i = some k) :
    insertAt i k (idx.eraseIdx i) = idx := by
  induction idx generalizing i with
  | nil => simp at h
  | cons a idx ih =>
    cases i with
    | zero =>
      simp only [List.get?_cons_zero, Option.some.injEq] at h
      subst h
      rfl
    | succ i =>
      simp only [List.get?_cons_succ] at h
      show a :: insertAt i k (idx.eraseIdx i) = a :: idx
      rw [ih i h]

theorem advance_add {α ε : Type} (pdf : ε → α × ε) (e : ε) (n m : Nat) :
    advance pdf (advance pdf e n) m = advance pdf e (n + m) := by
  induction m with
  | zero => rfl
  | succ m ih =>
    show (pdf (advance pdf (advance pdf e n) m)).2 = (pdf (advance pdf e (n + m))).2
    rw [ih]

theorem sample_add {α ε : Type} (pdf : ε → α × ε) (e : ε) (n m : Nat) :
    sample pdf (advance pdf e n) m = sample pdf e (n + m) := by
  simp only [sample, advance_add]

theorem randomize_ok {α ε : Type} (f : Field α) (e : ε) (pdf : ε → α × ε)
    (h6 : f.layout.rank ≤ 6) :
    ∃ r, randomize f e pdf = .ok r ∧
      r.2 = advance pdf e f.layout.dims.prod ∧
      r.1.layout = f.layout ∧
      (∀ idx, InBounds f.layout.dims idx →
        r.1.data idx = sample pdf e (flatIndex f.layout.dims idx)) ∧
      (∀ idx, ¬ InBounds f.layout.dims idx → r.1.data idx = f.data idx) := by
  obtain ⟨h1, h2, h3, h4⟩ := draw_fold pdf (indexSpace f.layout.dims) f e
  refine ⟨_, randomize_local f e pdf h6, ?_, h2, ?_, ?_⟩
  · rw [h1, indexSpace_length]
  · intro idx hidx
    exact h4 (indexSpace_nodup _) _ idx (indexSpace_getElem?_flatIndex _ idx hidx)
  · intro idx hidx
    exact h3 idx (fun hm => hidx ((mem_indexSpace _ _).mp hm))

theorem draw_fold_identity {α ε : Type} (pdf : ε → α × ε) (L : List (List Nat)) (f : Field α)
    (e : ε) :
    (forEachIndex L (fun idx (st : Field α × ε) =>
        (st.1.set idx (pdf st.2).1, (pdf st.2).2)) (f, e)).1.name = f.name ∧
    (forEachIndex L (fun idx (st : Field α × ε) =>
        (st.1.set idx (pdf st.2).1, (pdf st.2).2)) (f, e)).1.contiguous = f.contiguous := by
  induction L generalizing f e with
  | nil => exact ⟨rfl, rfl⟩
  | cons x L ih =>
    have hstep : forEachIndex (x :: L) (fun idx (st : Field α × ε) =>
          (st.1.set idx (pdf st.2).1, (pdf st.2).2)) (f, e)
        = forEachIndex L (fun idx (st : Field α × ε) =>
          (st.1.set idx (pdf st.2).1, (pdf st.2).2)) (f.set x (pdf e).1, (pdf e).2) := rfl
    rw [hstep]
    exact ih (f.set x (pdf e).1) (pdf e).2

theorem forLoopE_id {σ : Type} (n : Nat) (body : Nat → σ → Except String σ) (s : σ)
    (h : ∀ i t, body i t = .ok t) : forLoopE n body s = .ok s := by
  induction n with
  | zero => rfl
  | succ n ih => rw [forLoopE_succ, ih]; exact h n s

theorem perturb_col_lev_false {α ε : Type} [Mul α] (pdf : ε → α × ε) (level_mask : Nat → Bool)
    (hmask : ∀ l, level_mask l = false) (icol ilev : Nat) (st : PerturbState α ε) :
    perturb_col_lev pdf level_mask icol ilev st = .ok st := by
  simp only [perturb_col_lev, hmask]
  rfl

theorem perturb_lev_false {α ε : Type} [Mul α] (pdf : ε → α × ε) (level_mask : Nat → Bool)
    (hmask : ∀ l, level_mask l = false) (ilev : Nat) (st : PerturbState α ε) :
    perturb_lev pdf level_mask ilev st = .ok st := by
  simp only [perturb_lev, hmask]
  rfl

theorem perturb_with_col {α ε : Type} [Zero α] [Mul α] (f : Field α) (e : ε)
    (seed : ε → Nat → ε) (pdf : ε → α × ε) (base_seed : Nat) (level_mask : Nat → Bool)
    (dof_gids : Field Int) (hcol : f.layout.has_tag .COL = true)
    (hg : dof_gids.layout.rank = 1) :
    perturb f e seed pdf base_seed level_mask dof_gids
      = (forLoopE (f.layout.dims.headD 0)
          (perturb_col seed pdf base_seed level_mask dof_gids.data (f.layout.has_tag .LEV)
            f.layout)
          { f := f, engine := e,
            perturb_f := Field.allocate "perturb_field"
              (f.layout.clone.strip_dims [.COL, .LEV]) }
          >>= fun st => pure (st.f, st.engine)) := by
  simp only [perturb, hcol, if_true, Field.get_strided_view_ok _ _ hg]
  rfl

theorem perturb_with_lev {α ε : Type} [Zero α] [Mul α] (f : Field α) (e : ε)
    (seed : ε → Nat → ε) (pdf : ε → α × ε) (base_seed : Nat) (level_mask : Nat → Bool)
    (dof_gids : Field Int) (hcol : f.layout.has_tag .COL = false)
    (hlev : f.layout.has_tag .LEV = true) :
    perturb f e seed pdf base_seed level_mask dof_gids
      = (forLoopE (f.layout.dims.getLastD 0) (perturb_lev pdf level_mask)
          { f := f, engine := seed e base_seed,
            perturb_f := Field.allocate "perturb_field" (f.layout.clone.strip_dim .LEV) }
          >>= fun st => pure (st.f, st.engine)) := by
  simp only [perturb, hcol, hlev, if_true, Bool.false_eq_true, if_false]

theorem perturb_plain {α ε : Type} [Zero α] [Mul α] (f : Field α) (e : ε)
    (seed : ε → Nat → ε) (pdf : ε → α × ε) (base_seed : Nat) (level_mask : Nat → Bool)
    (dof_gids : Field Int) (hcol : f.layout.has_tag .COL = false)
    (hlev : f.layout.has_tag .LEV = false) :
    perturb f e seed pdf base_seed level_mask dof_gids
      = (randomize (Field.allocate "perturb_field" (f.layout.clone.strip_dim .LEV))
            (seed e base_seed) pdf
          >>= fun r => pure (f.scale r.1, r.2)) := by
  simp only [perturb, hcol, hlev, Bool.false_eq_true, if_false]

/-! ## Perturbation with no level selected -/

/-- Claim C18, counterexample. The field of layout (COL=2, CMP=2) holding
[[1,2],[3,4]] has no level axis: `perturb` with a mask that is false at every
level succeeds and multiplies column 0 by the samples drawn after the reseed to
0 + 10, so the entry at [0,0] goes from 1 to 12. The level mask is consulted
only inside the level loop, which a field without a level axis never enters. -/
theorem perturb_all_false_mask_changes_field :
    ∃ r, perturb exColCmp 0 exSeed exPdf 0 (fun _ => false) exGids2 = .ok r ∧
      r.1.data [0, 0] = 12 ∧ exColCmp.data [0, 0] = 1 := by
  exact ⟨_, rfl, rfl, rfl⟩

/-- Claim C18, amended. For every field that has a level axis (with or without
a column axis, the global-id field being of rank 1 when there is one), `perturb`
called with a mask that is false at every level succeeds and returns the field
unchanged. -/
theorem perturb_all_false_mask {α ε : Type} [Zero α] [Mul α] (f : Field α) (e : ε)
    (seed : ε → Nat → ε) (pdf : ε → α × ε) (base_seed : Nat) (level_mask : Nat → Bool)
    (dof_gids : Field Int)
    (hlev : f.layout.has_tag .LEV = true)
    (hg : f.layout.has_tag .COL = true → dof_gids.layout.rank = 1)
    (hmask : ∀ l, level_mask l = false) :
    ∃ r, perturb f e seed pdf base_seed level_mask dof_gids = .ok r ∧ r.1 = f := by
  cases hcol : f.layout.has_tag .COL
  case true =>
    obtain ⟨st, hst, hinv⟩ := forLoopE_induction (f.layout.dims.headD 0)
      (perturb_col seed pdf base_seed level_mask dof_gids.data true f.layout)
      (fun _ st => st.f = f)
      { f := f, engine := e,
        perturb_f := Field.allocate "perturb_field" (f.layout.clone.strip_dims [.COL, .LEV]) }
      rfl
      (by
        intro i s _ hs
        refine ⟨{ s with engine := seed s.engine (new_seed base_seed (dof_gids.data [i])) },
          ?_, hs⟩
        simp only [perturb_col, if_true]
        exact forLoopE_id _ _ _ (perturb_col_lev_false pdf level_mask hmask i))
    refine ⟨(st.f, st.engine), ?_, hinv⟩
    rw [perturb_with_col f e seed pdf base_seed level_mask dof_gids hcol (hg hcol), hlev, hst]
    rfl
  case false =>
    refine ⟨(f, seed e base_seed), ?_, rfl⟩
    rw [perturb_with_lev f e seed pdf base_seed level_mask dof_gids hcol hlev,
      forLoopE_id _ _ _ (perturb_lev_false pdf level_mask hmask)]
    rfl

/-- Witness for C18 (amended): the field [[1,2],[3,4],[5,6]] of layout
(COL=3, LEV=2) is returned unchanged under the all-false mask. -/
theorem perturb_all_false_mask_witness :
    exIn32.layout.has_tag .LEV = true ∧
    ∃ r, perturb exIn32 0 exSeed exPdf 7 (fun _ => false) exGids3 = .ok r ∧ r.1 = exIn32 :=
  ⟨by decide, perturb_all_false_mask exIn32 0 exSeed exPdf 7 (fun _ => false) exGids3
    (by decide) (fun _ => by decide) (fun _ => rfl)⟩

/-! ## Entrywise action of the perturbation steps -/

theorem FieldLayout.strip_dims_rank_le (l : FieldLayout) (ts : List FieldTag) :
    (l.strip_dims ts).rank ≤ l.rank := by
  simp only [FieldLayout.strip_dims, FieldLayout.rank]
  exact List.length_filter_le _ _

theorem pw_scale {α : Type} [Mul α] (x : Field α) : PointwiseOp (fun s : Field α => s.scale x) := by
  intro f g idx hl hd
  simp only [Field.scale, hl, hd]

theorem pw_update {α : Type} (j : FieldLayout → Nat) (k : Nat) (T : Field α → Field α)
    (hT : PointwiseOp T) :
    PointwiseOp (fun f : Field α => f.update_subfield (j f.layout) k T) := by
  intro f g idx hl hd
  simp only [Field.update_subfield, Field.put_subfield, hl]
  by_cases h : idx.get? (j g.layout) = some k
  · rw [if_pos h, if_pos h]
    apply hT
    · simp only [Field.subfield, hl]
    · simp only [Field.subfield, insertAt_eraseIdx idx _ k h, hd]
  · rw [if_neg h, if_neg h, hd]

theorem pw_update_col {α : Type} (T : Field α → Field α) (hT : PointwiseOp T)
    (F G : Field α) (n1 n2 : Nat) (tr : List (FieldTag × Nat)) (c c' : Nat) (y : List Nat)
    (hF : F.layout.descriptors = (.COL, n1) :: tr)
    (hG : G.layout.descriptors = (.COL, n2) :: tr)
    (hd : F.data (c :: y) = G.data (c' :: y)) :
    (F.update_subfield (F.layout.dim_idx .COL) c T).data (c :: y)
      = (G.update_subfield (G.layout.dim_idx .COL) c' T).data (c' :: y) := by
  have hF0 : F.layout.dim_idx .COL = 0 := by
    simp [FieldLayout.dim_idx, FieldLayout.tags, hF]
  have hG0 : G.layout.dim_idx .COL = 0 := by
    simp [FieldLayout.dim_idx, FieldLayout.tags, hG]
  rw [hF0, hG0]
  show (if (c :: y).get? 0 = some c then (T (F.subfield 0 c)).data ((c :: y).eraseIdx 0)
      else F.data (c :: y))
    = (if (c' :: y).get? 0 = some c' then (T (G.subfield 0 c')).data ((c' :: y).eraseIdx 0)
      else G.data (c' :: y))
  rw [if_pos (show (c :: y).get? 0 = some c from rfl),
    if_pos (show (c' :: y).get? 0 = some c' from rfl)]
  apply hT
  · simp only [Field.subfield, FieldLayout.strip_idx, hF, hG, List.eraseIdx_cons_zero]
  · exact hd

theorem update_col_other {α : Type} (T : Field α → Field α) (F : Field α) (n : Nat)
    (tr : List (FieldTag × Nat)) (c i : Nat) (y : List Nat)
    (hF : F.layout.descriptors = (.COL, n) :: tr) (hne : i ≠ c) :
    (F.update_subfield (F.layout.dim_idx .COL) i T).data (c :: y) = F.data (c :: y) := by
  have hF0 : F.layout.dim_idx .COL = 0 := by
    simp [FieldLayout.dim_idx, FieldLayout.tags, hF]
  rw [hF0]
  show (if (c :: y).get? 0 = some i then _ else F.data (c :: y)) = _
  rw [if_neg]
  simp only [List.get?_cons_zero, Option.some.injEq]
  exact fun h => hne h.symm

theorem Field.ext_fields {α : Type} (p q : Field α) (h1 : p.name = q.name)
    (h2 : p.layout = q.layout) (h3 : p.contiguous = q.contiguous) (h4 : p.data = q.data) :
    p = q := by
  cases p; cases q
  simp only at h1 h2 h3 h4
  subst h1 h2 h3 h4
  rfl

theorem randomize_congr {α ε : Type} (p q : Field α) (e : ε) (pdf : ε → α × ε)
    (h6 : p.layout.rank ≤ 6) (h : SameFrame p q) :
    randomize p e pdf = randomize q e pdf := by
  obtain ⟨hn, hl, hc, hd⟩ := h
  have h6q : q.layout.rank ≤ 6 := hl ▸ h6
  rw [randomize_local p e pdf h6, randomize_local q e pdf h6q]
  obtain ⟨a1, a2, a3, a4⟩ := draw_fold pdf (indexSpace p.layout.dims) p e
  obtain ⟨b1, b2, b3, b4⟩ := draw_fold pdf (indexSpace q.layout.dims) q e
  obtain ⟨a5, a6⟩ := draw_fold_identity pdf (indexSpace p.layout.dims) p e
  obtain ⟨b5, b6⟩ := draw_fold_identity pdf (indexSpace q.layout.dims) q e
  congr 1
  apply Prod.ext
  · apply Field.ext_fields
    · rw [a5, b5, hn]
    · rw [a2, b2, hl]
    · rw [a6, b6, hc]
    · funext idx
      by_cases hin : InBounds p.layout.dims idx
      · rw [a4 (indexSpace_nodup _) _ idx (indexSpace_getElem?_flatIndex _ idx hin)]
        have hin2 : InBounds q.layout.dims idx := hl ▸ hin
        rw [b4 (indexSpace_nodup _) _ idx (indexSpace_getElem?_flatIndex _ idx hin2), hl]
      · have hin2 : ¬ InBounds q.layout.dims idx := hl ▸ hin
        rw [a3 idx (fun hm => hin ((mem_indexSpace _ _).mp hm)),
          b3 idx (fun hm => hin2 ((mem_indexSpace _ _).mp hm))]
        exact hd idx hin
  · rw [a1, b1, hl]

theorem randomize_sameFrame {α ε : Type} (p : Field α) (e : ε) (pdf : ε → α × ε)
    (r : Field α × ε) (h : randomize p e pdf = .ok r) (h6 : p.layout.rank ≤ 6) :
    SameFrame r.1 p := by
  rw [randomize_local p e pdf h6] at h
  have hr := Except.ok.inj h
  obtain ⟨a1, a2, a3, a4⟩ := draw_fold pdf (indexSpace p.layout.dims) p e
  obtain ⟨a5, a6⟩ := draw_fold_identity pdf (indexSpace p.layout.dims) p e
  rw [hr] at a2 a3 a5 a6
  refine ⟨a5, a2, a6, ?_⟩
  intro idx hin
  rw [a2] at hin
  exact a3 idx (fun hm => hin ((mem_indexSpace _ _).mp hm))

theorem SameFrame.refl {α : Type} (p : Field α) : SameFrame p p :=
  ⟨rfl, rfl, rfl, fun _ _ => rfl⟩

theorem SameFrame.symm {α : Type} {p q : Field α} (h : SameFrame p q) : SameFrame q p :=
  ⟨h.1.symm, h.2.1.symm, h.2.2.1.symm, fun idx hin => (h.2.2.2 idx (h.2.1 ▸ hin)).symm⟩

theorem SameFrame.trans {α : Type} {p q r : Field α} (h1 : SameFrame p q) (h2 : SameFrame q r) :
    SameFrame p r :=
  ⟨h1.1.trans h2.1, h1.2.1.trans h2.2.1, h1.2.2.1.trans h2.2.2.1,
    fun idx hin => (h1.2.2.2 idx hin).trans (h2.2.2.2 idx (h1.2.1 ▸ hin))⟩

/-- Two runs of the level step of a column, on states whose engines agree and
whose work fields agree in their frame, succeed together and keep two observed
entries equal when the scaled sub-view update does. -/
theorem perturb_col_lev_rel {α ε : Type} [Mul α] (pdf : ε → α × ε) (level_mask : Nat → Bool)
    (c1 c2 ilev : Nat) (i1 i2 : List Nat) (LR : FieldLayout → FieldLayout → Prop)
    (hop : ∀ F G x : Field α, LR F.layout G.layout → F.data i1 = G.data i2 →
      (F.update_subfield (F.layout.dim_idx .COL) c1 (fun s1 =>
          s1.update_subfield (s1.layout.dim_idx .LEV) ilev (fun s2 => s2.scale x))).data i1
        = (G.update_subfield (G.layout.dim_idx .COL) c2 (fun s1 =>
          s1.update_subfield (s1.layout.dim_idx .LEV) ilev (fun s2 => s2.scale x))).data i2)
    (s t : PerturbState α ε) (hl : LR s.f.layout t.f.layout) (hd : s.f.data i1 = t.f.data i2)
    (hp : SameFrame s.perturb_f t.perturb_f) (he : s.engine = t.engine)
    (h6 : s.perturb_f.layout.rank ≤ 6) :
    ∃ s' t', perturb_col_lev pdf level_mask c1 ilev s = .ok s' ∧
      perturb_col_lev pdf level_mask c2 ilev t = .ok t' ∧
      s'.f.layout = s.f.layout ∧ t'.f.layout = t.f.layout ∧
      s'.f.data i1 = t'.f.data i2 ∧ SameFrame s'.perturb_f t'.perturb_f ∧
      s'.engine = t'.engine ∧ s'.perturb_f.layout = s.perturb_f.layout := by
  cases hm : level_mask ilev
  case false =>
    refine ⟨s, t, ?_, ?_, rfl, rfl, hd, hp, he, rfl⟩
    · simp only [perturb_col_lev, hm]; rfl
    · simp only [perturb_col_lev, hm]; rfl
  case true =>
    obtain ⟨r, hr, -, hrl, -, -⟩ := randomize_ok s.perturb_f s.engine pdf h6
    have hr2 : randomize t.perturb_f t.engine pdf = .ok r := by
      rw [← he, ← randomize_congr _ _ _ _ h6 hp]; exact hr
    refine ⟨{ f := s.f.update_subfield (s.f.layout.dim_idx .COL) c1 (fun s1 =>
                  s1.update_subfield (s1.layout.dim_idx .LEV) ilev (fun s2 => s2.scale r.1)),
              engine := r.2, perturb_f := r.1 },
            { f := t.f.update_subfield (t.f.layout.dim_idx .COL) c2 (fun s1 =>
                  s1.update_subfield (s1.layout.dim_idx .LEV) ilev (fun s2 => s2.scale r.1)),
              engine := r.2, perturb_f := r.1 },
            ?_, ?_, ?_, ?_, hop s.f t.f r.1 hl hd, SameFrame.refl r.1, rfl, hrl⟩
    · simp only [perturb_col_lev, hm, hr]; rfl
    · simp only [perturb_col_lev, hm, hr2]; rfl
    · rfl
    · rfl

theorem perturb_lev_rel {α ε : Type} [Mul α] (pdf : ε → α × ε) (level_mask : Nat → Bool)
    (ilev : Nat) (i1 i2 : List Nat) (LR : FieldLayout → FieldLayout → Prop)
    (hop : ∀ F G x : Field α, LR F.layout G.layout → F.data i1 = G.data i2 →
      (F.update_subfield (F.layout.dim_idx .LEV) ilev (fun s1 => s1.scale x)).data i1
        = (G.update_subfield (G.layout.dim_idx .LEV) ilev (fun s1 => s1.scale x)).data i2)
    (s t : PerturbState α ε) (hl : LR s.f.layout t.f.layout) (hd : s.f.data i1 = t.f.data i2)
    (hp : SameFrame s.perturb_f t.perturb_f) (he : s.engine = t.engine)
    (h6 : s.perturb_f.layout.rank ≤ 6) :
    ∃ s' t', perturb_lev pdf level_mask ilev s = .ok s' ∧
      perturb_lev pdf level_mask ilev t = .ok t' ∧
      s'.f.layout = s.f.layout ∧ t'.f.layout = t.f.layout ∧
      s'.f.data i1 = t'.f.data i2 ∧ SameFrame s'.perturb_f t'.perturb_f ∧
      s'.engine = t'.engine ∧ s'.perturb_f.layout = s.perturb_f.layout := by
  cases hm : level_mask ilev
  case false =>
    refine ⟨s, t, ?_, ?_, rfl, rfl, hd, hp, he, rfl⟩
    · simp only [perturb_lev, hm]; rfl
    · simp only [perturb_lev, hm]; rfl
  case true =>
    obtain ⟨r, hr, -, hrl, -, -⟩ := randomize_ok s.perturb_f s.engine pdf h6
    have hr2 : randomize t.perturb_f t.engine pdf = .ok r := by
      rw [← he, ← randomize_congr _ _ _ _ h6 hp]; exact hr
    refine ⟨{ f := s.f.update_subfield (s.f.layout.dim_idx .LEV) ilev (fun s1 =>
                  s1.scale r.1),
              engine := r.2, perturb_f := r.1 },
            { f := t.f.update_subfield (t.f.layout.dim_idx .LEV) ilev (fun s1 =>
                  s1.scale r.1),
              engine := r.2, perturb_f := r.1 },
            ?_, ?_, ?_, ?_, hop s.f t.f r.1 hl hd, SameFrame.refl r.1, rfl, hrl⟩
    · simp only [perturb_lev, hm, hr]; rfl
    · simp only [perturb_lev, hm, hr2]; rfl
    · rfl
    · rfl

theorem perturb_col_rel {α ε : Type} [Mul α] (seed : ε → Nat → ε) (pdf : ε → α × ε)
    (base_seed : Nat) (level_mask : Nat → Bool) (gids1 gids2 : View Int) (has_lev : Bool)
    (fl1 fl2 : FieldLayout) (c1 c2 : Nat) (i1 i2 : List Nat)
    (LR : FieldLayout → FieldLayout → Prop)
    (hseed : ∀ a b s, seed a s = seed b s) (hgid : gids1 [c1] = gids2 [c2])
    (hlast : has_lev = true → fl1.dims.getLastD 0 = fl2.dims.getLastD 0)
    (hop2 : ∀ ilev (F G x : Field α), LR F.layout G.layout → F.data i1 = G.data i2 →
      (F.update_subfield (F.layout.dim_idx .COL) c1 (fun s1 =>
          s1.update_subfield (s1.layout.dim_idx .LEV) ilev (fun s2 => s2.scale x))).data i1
        = (G.update_subfield (G.layout.dim_idx .COL) c2 (fun s1 =>
          s1.update_subfield (s1.layout.dim_idx .LEV) ilev (fun s2 => s2.scale x))).data i2)
    (hop1 : ∀ F G x : Field α, LR F.layout G.layout → F.data i1 = G.data i2 →
      (F.update_subfield (F.layout.dim_idx .COL) c1 (fun s1 => s1.scale x)).data i1
        = (G.update_subfield (G.layout.dim_idx .COL) c2 (fun s1 => s1.scale x)).data i2)
    (s t : PerturbState α ε) (hl : LR s.f.layout t.f.layout) (hd : s.f.data i1 = t.f.data i2)
    (hp : SameFrame s.perturb_f t.perturb_f) (h6 : s.perturb_f.layout.rank ≤ 6) :
    ∃ s' t', perturb_col seed pdf base_seed level_mask gids1 has_lev fl1 c1 s = .ok s' ∧
      perturb_col seed pdf base_seed level_mask gids2 has_lev fl2 c2 t = .ok t' ∧
      s'.f.layout = s.f.layout ∧ t'.f.layout = t.f.layout ∧
      s'.f.data i1 = t'.f.data i2 ∧ SameFrame s'.perturb_f t'.perturb_f ∧
      s'.perturb_f.layout = s.perturb_f.layout := by
  have hs : seed s.engine (new_seed base_seed (gids1 [c1]))
      = seed t.engine (new_seed base_seed (gids2 [c2])) := by
    rw [hgid]; exact hseed _ _ _
  cases has_lev
  case true =>
    obtain ⟨s', t', h1, h2, h3⟩ := forLoopE_rel (fl1.dims.getLastD 0)
      (perturb_col_lev pdf level_mask c1) (perturb_col_lev pdf level_mask c2)
      (fun a b => a.f.layout = s.f.layout ∧ b.f.layout = t.f.layout ∧
        a.f.data i1 = b.f.data i2 ∧ SameFrame a.perturb_f b.perturb_f ∧
        a.engine = b.engine ∧ a.perturb_f.layout = s.perturb_f.layout)
      { s with engine := seed s.engine (new_seed base_seed (gids1 [c1])) }
      { t with engine := seed t.engine (new_seed base_seed (gids2 [c2])) }
      ⟨rfl, rfl, hd, hp, hs, rfl⟩
      (by
        intro i a b _ hab
        obtain ⟨ha1, hb1, hd1, hp1, he1, hpl⟩ := hab
        obtain ⟨a', b', k1, k2, k3, k4, k5, k6, k7, k8⟩ :=
          perturb_col_lev_rel pdf level_mask c1 c2 i i1 i2 LR (hop2 i) a b
            (by rw [ha1, hb1]; exact hl) hd1 hp1 he1 (by rw [hpl]; exact h6)
        exact ⟨a', b', k1, k2, k3.trans ha1, k4.trans hb1, k5, k6, k7, k8.trans hpl⟩)
    refine ⟨s', t', ?_, ?_, h3.1, h3.2.1, h3.2.2.1, h3.2.2.2.1, h3.2.2.2.2.2⟩
    · simp only [perturb_col, if_true]; exact h1
    · simp only [perturb_col, if_true, ← hlast rfl]; exact h2
  case false =>
    obtain ⟨r, hr, -, hrl, -, -⟩ := randomize_ok s.perturb_f
      (seed s.engine (new_seed base_seed (gids1 [c1]))) pdf h6
    have hr2 : randomize t.perturb_f (seed t.engine (new_seed base_seed (gids2 [c2]))) pdf
        = .ok r := by
      rw [← hs, ← randomize_congr _ _ _ _ h6 hp]; exact hr
    refine ⟨{ f := s.f.update_subfield (s.f.layout.dim_idx .COL) c1 (fun s1 =>
                  s1.scale r.1),
              engine := r.2, perturb_f := r.1 },
            { f := t.f.update_subfield (t.f.layout.dim_idx .COL) c2 (fun s1 =>
                  s1.scale r.1),
              engine := r.2, perturb_f := r.1 },
            ?_, ?_, ?_, ?_, hop1 s.f t.f r.1 hl hd, SameFrame.refl r.1, hrl⟩
    · simp only [perturb_col, Bool.false_eq_true, if_false, hr]; rfl
    · simp only [perturb_col, Bool.false_eq_true, if_false, hr2]; rfl
    · rfl
    · rfl

/-- Two runs of `perturb` on fields of the same layout, from any two engine
states, succeed together and leave equal entries at every index where the two
fields held equal entries. -/
theorem perturb_same_layout_rel {α ε : Type} [Zero α] [Mul α] (f g : Field α) (e1 e2 : ε)
    (seed : ε → Nat → ε) (pdf : ε → α × ε) (base_seed : Nat) (level_mask : Nat → Bool)
    (dof_gids : Field Int) (idx : List Nat)
    (hseed : ∀ a b s, seed a s = seed b s)
    (hl : f.layout = g.layout) (h6 : f.layout.rank ≤ 6)
    (hg : f.layout.has_tag .COL = true → dof_gids.layout.rank = 1)
    (hd : f.data idx = g.data idx) :
    ∃ r1 r2, perturb f e1 seed pdf base_seed level_mask dof_gids = .ok r1 ∧
      perturb g e2 seed pdf base_seed level_mask dof_gids = .ok r2 ∧
      r1.1.layout = f.layout ∧ r2.1.layout = g.layout ∧ r1.1.data idx = r2.1.data idx := by
  cases hcol : f.layout.has_tag .COL
  case true =>
    have hcolg : g.layout.has_tag .COL = true := hl ▸ hcol
    rw [perturb_with_col f e1 seed pdf base_seed level_mask dof_gids hcol (hg hcol),
      perturb_with_col g e2 seed pdf base_seed level_mask dof_gids hcolg (hg hcol), ← hl]
    obtain ⟨s', t', h1, h2, h3⟩ := forLoopE_rel (f.layout.dims.headD 0)
      (perturb_col seed pdf base_seed level_mask dof_gids.data (f.layout.has_tag .LEV) f.layout)
      (perturb_col seed pdf base_seed level_mask dof_gids.data (f.layout.has_tag .LEV) f.layout)
      (fun a b => a.f.layout = f.layout ∧ b.f.layout = f.layout ∧
        a.f.data idx = b.f.data idx ∧ SameFrame a.perturb_f b.perturb_f ∧
        a.perturb_f.layout.rank ≤ 6)
      { f := f, engine := e1,
        perturb_f := Field.allocate "perturb_field" (f.layout.clone.strip_dims [.COL, .LEV]) }
      { f := g, engine := e2,
        perturb_f := Field.allocate "perturb_field" (f.layout.clone.strip_dims [.COL, .LEV]) }
      ⟨rfl, hl.symm, hd, SameFrame.refl _,
        le_trans (FieldLayout.strip_dims_rank_le _ _) h6⟩
      (by
        intro i a b _ hab
        obtain ⟨ha1, hb1, hd1, hp1, hr1⟩ := hab
        obtain ⟨a', b', k1, k2, k3, k4, k5, k6, k7⟩ :=
          perturb_col_rel seed pdf base_seed level_mask dof_gids.data dof_gids.data
            (f.layout.has_tag .LEV) f.layout f.layout i i idx idx (fun l1 l2 => l1 = l2)
            hseed rfl (fun _ => rfl)
            (fun ilev F G x hLR hdat =>
              pw_update (fun l => l.dim_idx .COL) i _
                (pw_update (fun l => l.dim_idx .LEV) ilev _ (pw_scale x)) F G idx hLR hdat)
            (fun F G x hLR hdat =>
              pw_update (fun l => l.dim_idx .COL) i _ (pw_scale x) F G idx hLR hdat)
            a b (by rw [ha1, hb1]) hd1 hp1 hr1
        exact ⟨a', b', k1, k2, k3.trans ha1, k4.trans hb1, k5, k6, by rw [k7]; exact hr1⟩)
    refine ⟨(s'.f, s'.engine), (t'.f, t'.engine), ?_, ?_, h3.1, h3.2.1, h3.2.2.1⟩
    · rw [h1]; rfl
    · rw [h2]; rfl
  case false =>
    have hcolg : g.layout.has_tag .COL = false := hl ▸ hcol
    cases hlev : f.layout.has_tag .LEV
    case true =>
      have hlevg : g.layout.has_tag .LEV = true := hl ▸ hlev
      rw [perturb_with_lev f e1 seed pdf base_seed level_mask dof_gids hcol hlev,
        perturb_with_lev g e2 seed pdf base_seed level_mask dof_gids hcolg hlevg, ← hl]
      obtain ⟨s', t', h1, h2, h3⟩ := forLoopE_rel (f.layout.dims.getLastD 0)
        (perturb_lev pdf level_mask) (perturb_lev pdf level_mask)
        (fun a b => a.f.layout = f.layout ∧ b.f.layout = f.layout ∧
          a.f.data idx = b.f.data idx ∧ SameFrame a.perturb_f b.perturb_f ∧
          a.engine = b.engine ∧ a.perturb_f.layout.rank ≤ 6)
        { f := f, engine := seed e1 base_seed,
          perturb_f := Field.allocate "perturb_field" (f.layout.clone.strip_dim .LEV) }
        { f := g, engine := seed e2 base_seed,
          perturb_f := Field.allocate "perturb_field" (f.layout.clone.strip_dim .LEV) }
        ⟨rfl, hl.symm, hd, SameFrame.refl _, hseed _ _ _,
          le_trans (FieldLayout.strip_dims_rank_le _ _) h6⟩
        (by
          intro i a b _ hab
          obtain ⟨ha1, hb1, hd1, hp1, he1, hr1⟩ := hab
          obtain ⟨a', b', k1, k2, k3, k4, k5, k6, k7, k8⟩ :=
            perturb_lev_rel pdf level_mask i idx idx (fun l1 l2 => l1 = l2)
              (fun F G x hLR hdat =>
                pw_update (fun l => l.dim_idx .LEV) i _ (pw_scale x) F G idx hLR hdat)
              a b (by rw [ha1, hb1]) hd1 hp1 he1 hr1
          exact ⟨a', b', k1, k2, k3.trans ha1, k4.trans hb1, k5, k6, k7,
            by rw [k8]; exact hr1⟩)
      refine ⟨(s'.f, s'.engine), (t'.f, t'.engine), ?_, ?_, h3.1, h3.2.1, h3.2.2.1⟩
      · rw [h1]; rfl
      · rw [h2]; rfl
    case false =>
      have hlevg : g.layout.has_tag .LEV = false := hl ▸ hlev
      rw [perturb_plain f e1 seed pdf base_seed level_mask dof_gids hcol hlev,
        perturb_plain g e2 seed pdf base_seed level_mask dof_gids hcolg hlevg, ← hl,
        hseed e2 e1 base_seed]
      obtain ⟨r, hr, -⟩ := randomize_ok
        (Field.allocate "perturb_field" (f.layout.clone.strip_dim .LEV) : Field α)
        (seed e1 base_seed) pdf (le_trans (FieldLayout.strip_dims_rank_le _ _) h6)
      refine ⟨(f.scale r.1, r.2), (g.scale r.1, r.2), ?_, ?_, rfl, hl.symm,
        pw_scale r.1 f g idx hl hd⟩
      · rw [hr]; rfl
      · rw [hr]; rfl

/-! ## Determinism of the perturbation -/

/-- Claim C19. `perturb` is deterministic in its seed. Take any reseeding
`seed` that determines the state of the random source (the state after
`engine.seed(s)` does not depend on the state before), and two fields of the
same layout (rank at most 6, the global-id field being of rank 1 when there is
a column axis) holding the same logical entries. Two invocations with the same
`base_seed`, `dof_gids`, `level_mask` and `pdf`, started from any two engine
states `e1` and `e2`, both succeed and return fields holding the same logical
entries. -/
theorem perturb_deterministic {α ε : Type} [Zero α] [Mul α] (f g : Field α) (e1 e2 : ε)
    (seed : ε → Nat → ε) (pdf : ε → α × ε) (base_seed : Nat) (level_mask : Nat → Bool)
    (dof_gids : Field Int)
    (hseed : ∀ a b s, seed a s = seed b s)
    (hl : f.layout = g.layout) (h6 : f.layout.rank ≤ 6)
    (hg : f.layout.has_tag .COL = true → dof_gids.layout.rank = 1)
    (hv : ∀ idx, InBounds f.layout.dims idx → f.data idx = g.data idx) :
    ∃ r1 r2, perturb f e1 seed pdf base_seed level_mask dof_gids = .ok r1 ∧
      perturb g e2 seed pdf base_seed level_mask dof_gids = .ok r2 ∧
      r1.1.layout = f.layout ∧ r2.1.layout = g.layout ∧
      ∀ idx, InBounds f.layout.dims idx → r1.1.data idx = r2.1.data idx := by
  obtain ⟨r1, -, h1, -, hl1, -, -⟩ := perturb_same_layout_rel f f e1 e1 seed pdf base_seed
    level_mask dof_gids [] hseed rfl h6 hg rfl
  obtain ⟨-, r2, -, h2, -, hl2, -⟩ := perturb_same_layout_rel g g e2 e2 seed pdf base_seed
    level_mask dof_gids [] hseed rfl (hl ▸ h6) (hl ▸ hg) rfl
  refine ⟨r1, r2, h1, h2, hl1, hl2, ?_⟩
  intro idx hin
  obtain ⟨q1, q2, k1, k2, -, -, k⟩ := perturb_same_layout_rel f g e1 e2 seed pdf base_seed
    level_mask dof_gids idx hseed hl h6 hg (hv idx hin)
  rw [h1] at k1
  rw [h2] at k2
  rw [Except.ok.inj k1, Except.ok.inj k2]
  exact k

/-- Witness for C19: the field [[1,2],[3,4],[5,6]] of layout (COL=3, LEV=2),
perturbed once from the engine state 0 and once from the engine state 99. -/
theorem perturb_deterministic_witness :
    ∃ r1 r2, perturb exIn32 0 exSeed exPdf 7 (fun l => decide (l = 1)) exGids3 = .ok r1 ∧
      perturb exIn32 99 exSeed exPdf 7 (fun l => decide (l = 1)) exGids3 = .ok r2 ∧
      r1.1.layout = exIn32.layout ∧ r2.1.layout = exIn32.layout ∧
      ∀ idx, InBounds exIn32.layout.dims idx → r1.1.data idx = r2.1.data idx :=
  perturb_deterministic exIn32 exIn32 0 99 exSeed exPdf 7 (fun l => decide (l = 1)) exGids3
    (fun _ _ _ => rfl) rfl (by decide) (fun _ => by decide) (fun _ _ => rfl)

/-! ## Independence of the columns -/

theorem forLoopE_focus {σ β : Type} (n : Nat) (body : Nat → σ → Except String σ)
    (P : σ → Prop) (obs : σ → β) (c : Nat) (hc : c < n) (s0 : σ) (hP0 : P s0)
    (hstep : ∀ i s, i < n → P s → ∃ s', body i s = .ok s' ∧ P s' ∧ (i ≠ c → obs s' = obs s)) :
    ∃ sc sc' sf, P sc ∧ obs sc = obs s0 ∧ body c sc = .ok sc' ∧
      forLoopE n body s0 = .ok sf ∧ obs sf = obs sc' := by
  obtain ⟨sf, hsf, -, -, h3⟩ := forLoopE_induction n body
    (fun k s => P s ∧ (k ≤ c → obs s = obs s0) ∧
      (c < k → ∃ sc sc', P sc ∧ obs sc = obs s0 ∧ body c sc = .ok sc' ∧ obs s = obs sc'))
    s0 ⟨hP0, fun _ => rfl, fun h => absurd h (Nat.not_lt_zero c)⟩
    (by
      intro i s hi hinv
      obtain ⟨hP, hle, hgt⟩ := hinv
      obtain ⟨s', hs', hP', hobs⟩ := hstep i s hi hP
      refine ⟨s', hs', hP', ?_, ?_⟩
      · intro h
        have hne : i ≠ c := by omega
        rw [hobs hne]
        exact hle (by omega)
      · intro h
        by_cases hic : i = c
        · subst hic
          exact ⟨s, s', hP, hle (Nat.le_refl _), hs', rfl⟩
        · obtain ⟨sc, sc', k1, k2, k3, k4⟩ := hgt (by omega)
          exact ⟨sc, sc', k1, k2, k3, (hobs hic).trans k4⟩)
  obtain ⟨sc, sc', k1, k2, k3, k4⟩ := h3 hc
  exact ⟨sc, sc', sf, k1, k2, k3, hsf, k4⟩

theorem perturb_col_lev_keeps {α ε : Type} [Mul α] (pdf : ε → α × ε) (level_mask : Nat → Bool)
    (i ilev : Nat) (s : PerturbState α ε) (h6 : s.perturb_f.layout.rank ≤ 6) :
    ∃ s', perturb_col_lev pdf level_mask i ilev s = .ok s' ∧ s'.f.layout = s.f.layout ∧
      SameFrame s'.perturb_f s.perturb_f ∧
      ∀ idx, (∀ (F : Field α) T, F.layout = s.f.layout →
          (F.update_subfield (F.layout.dim_idx .COL) i T).data idx = F.data idx) →
        s'.f.data idx = s.f.data idx := by
  cases hm : level_mask ilev
  case false =>
    refine ⟨s, ?_, rfl, SameFrame.refl _, fun _ _ => rfl⟩
    simp only [perturb_col_lev, hm]; rfl
  case true =>
    obtain ⟨r, hr, -⟩ := randomize_ok s.perturb_f s.engine pdf h6
    refine ⟨{ f := s.f.update_subfield (s.f.layout.dim_idx .COL) i (fun s1 =>
                  s1.update_subfield (s1.layout.dim_idx .LEV) ilev (fun s2 => s2.scale r.1)),
              engine := r.2, perturb_f := r.1 }, ?_, rfl,
            randomize_sameFrame _ _ _ r hr h6,
            fun idx hfr => hfr s.f (fun s1 =>
              s1.update_subfield (s1.layout.dim_idx .LEV) ilev (fun s2 => s2.scale r.1)) rfl⟩
    simp only [perturb_col_lev, hm, hr]; rfl

theorem perturb_col_keeps {α ε : Type} [Mul α] (seed : ε → Nat → ε) (pdf : ε → α × ε)
    (base_seed : Nat) (level_mask : Nat → Bool) (gids : View Int) (has_lev : Bool)
    (fl : FieldLayout) (i : Nat) (s : PerturbState α ε) (h6 : s.perturb_f.layout.rank ≤ 6) :
    ∃ s', perturb_col seed pdf base_seed level_mask gids has_lev fl i s = .ok s' ∧
      s'.f.layout = s.f.layout ∧ SameFrame s'.perturb_f s.perturb_f ∧
      ∀ idx, (∀ (F : Field α) T, F.layout = s.f.layout →
          (F.update_subfield (F.layout.dim_idx .COL) i T).data idx = F.data idx) →
        s'.f.data idx = s.f.data idx := by
  cases has_lev
  case true =>
    obtain ⟨s', h1, h2, h3, h4⟩ := forLoopE_induction (fl.dims.getLastD 0)
      (perturb_col_lev pdf level_mask i)
      (fun _ a => a.f.layout = s.f.layout ∧ SameFrame a.perturb_f s.perturb_f ∧
        ∀ idx, (∀ (F : Field α) T, F.layout = s.f.layout →
            (F.update_subfield (F.layout.dim_idx .COL) i T).data idx = F.data idx) →
          a.f.data idx = s.f.data idx)
      { s with engine := seed s.engine (new_seed base_seed (gids [i])) }
      ⟨rfl, SameFrame.refl _, fun _ _ => rfl⟩
      (by
        intro ilev a _ hinv
        obtain ⟨ha1, ha2, ha3⟩ := hinv
        obtain ⟨a', k1, k2, k3, k4⟩ := perturb_col_lev_keeps pdf level_mask i ilev a
          (by rw [ha2.2.1]; exact h6)
        refine ⟨a', k1, k2.trans ha1, k3.trans ha2, ?_⟩
        intro idx hfr
        rw [k4 idx (fun F T hF => hfr F T (hF.trans ha1)), ha3 idx hfr])
    refine ⟨s', ?_, h2, h3, h4⟩
    simp only [perturb_col, if_true]; exact h1
  case false =>
    obtain ⟨r, hr, -⟩ := randomize_ok s.perturb_f
      (seed s.engine (new_seed base_seed (gids [i]))) pdf h6
    refine ⟨{ f := s.f.update_subfield (s.f.layout.dim_idx .COL) i (fun s1 => s1.scale r.1),
              engine := r.2, perturb_f := r.1 }, ?_, rfl,
            randomize_sameFrame _ _ _ r hr h6,
            fun idx hfr => hfr s.f (fun s1 => s1.scale r.1) rfl⟩
    simp only [perturb_col, Bool.false_eq_true, if_false, hr]; rfl

theorem col_leading_has_col (l : FieldLayout) (n : Nat) (tr : List (FieldTag × Nat))
    (h : l.descriptors = (.COL, n) :: tr) : l.has_tag .COL = true := by
  simp [FieldLayout.has_tag, FieldLayout.tags, h]

theorem col_leading_front (l : FieldLayout) (n : Nat) (tr : List (FieldTag × Nat))
    (h : l.descriptors = (.COL, n) :: tr) : l.dims.headD 0 = n := by
  simp [FieldLayout.dims, h]

theorem col_leading_strip (l : FieldLayout) (n : Nat) (tr : List (FieldTag × Nat))
    (h : l.descriptors = (.COL, n) :: tr) :
    l.clone.strip_dims [.COL, .LEV] = (⟨tr⟩ : FieldLayout).strip_dims [.COL, .LEV] := by
  simp [FieldLayout.clone, FieldLayout.strip_dims, h]

theorem col_leading_has_lev (l : FieldLayout) (n : Nat) (tr : List (FieldTag × Nat))
    (h : l.descriptors = (.COL, n) :: tr) :
    l.has_tag .LEV = (⟨tr⟩ : FieldLayout).has_tag .LEV := by
  simp [FieldLayout.has_tag, FieldLayout.tags, h]

theorem col_leading_back (l : FieldLayout) (n : Nat) (tr : List (FieldTag × Nat))
    (h : l.descriptors = (.COL, n) :: tr) (hlev : l.has_tag .LEV = true) :
    l.dims.getLastD 0 = (⟨tr⟩ : FieldLayout).dims.getLastD 0 := by
  cases tr with
  | nil => simp [FieldLayout.has_tag, FieldLayout.tags, h] at hlev
  | cons a tr => simp [FieldLayout.dims, h]

/-- The column loop of `perturb` seen from one column `c`: the run succeeds,
and the entries it leaves in column `c` are those left by the pass for column
`c`, started from a state that holds the original entries of column `c`. -/
theorem perturb_col_focus {α ε : Type} [Zero α] [Mul α] (f : Field α) (e : ε)
    (seed : ε → Nat → ε) (pdf : ε → α × ε) (base_seed : Nat) (level_mask : Nat → Bool)
    (dof_gids : Field Int) (n : Nat) (tr : List (FieldTag × Nat)) (c : Nat) (y : List Nat)
    (hf : f.layout.descriptors = (.COL, n) :: tr) (h6 : f.layout.rank ≤ 6)
    (hg : dof_gids.layout.rank = 1) (hc : c < n) :
    ∃ sc sc' r, sc.f.layout = f.layout ∧
      SameFrame sc.perturb_f (Field.allocate "perturb_field"
        ((⟨tr⟩ : FieldLayout).strip_dims [.COL, .LEV])) ∧
      sc.f.data (c :: y) = f.data (c :: y) ∧
      perturb_col seed pdf base_seed level_mask dof_gids.data (f.layout.has_tag .LEV) f.layout
        c sc = .ok sc' ∧
      perturb f e seed pdf base_seed level_mask dof_gids = .ok r ∧
      r.1.data (c :: y) = sc'.f.data (c :: y) := by
  have h6p : ((⟨tr⟩ : FieldLayout).strip_dims [.COL, .LEV]).rank ≤ 6 := by
    rw [← col_leading_strip f.layout n tr hf]
    exact le_trans (FieldLayout.strip_dims_rank_le _ _) h6
  rw [perturb_with_col f e seed pdf base_seed level_mask dof_gids
    (col_leading_has_col _ n tr hf) hg, col_leading_front _ n tr hf,
    col_leading_strip _ n tr hf]
  obtain ⟨sc, sc', sf, k1, k2, k3, k4, k5⟩ := forLoopE_focus n
    (perturb_col seed pdf base_seed level_mask dof_gids.data (f.layout.has_tag .LEV) f.layout)
    (fun s => s.f.layout = f.layout ∧
      SameFrame s.perturb_f (Field.allocate "perturb_field"
        ((⟨tr⟩ : FieldLayout).strip_dims [.COL, .LEV])))
    (fun s => s.f.data (c :: y)) c hc
    { f := f, engine := e,
      perturb_f := Field.allocate "perturb_field"
        ((⟨tr⟩ : FieldLayout).strip_dims [.COL, .LEV]) }
    ⟨rfl, SameFrame.refl _⟩
    (by
      intro i s _ hP
      obtain ⟨hP1, hP2⟩ := hP
      obtain ⟨s', q1, q2, q3, q4⟩ := perturb_col_keeps seed pdf base_seed level_mask
        dof_gids.data (f.layout.has_tag .LEV) f.layout i s (by rw [hP2.2.1]; exact h6p)
      refine ⟨s', q1, ⟨q2.trans hP1, q3.trans hP2⟩, ?_⟩
      intro hne
      exact q4 (c :: y) (fun F T hF =>
        update_col_other T F n tr c i y (by rw [hF, hP1]; exact hf) hne))
  refine ⟨sc, sc', (sf.f, sf.engine), k1.1, k1.2, k2, k3, ?_, k5⟩
  rw [k4]; rfl

/-- Claim C20. The perturbation of a column does not depend on which process
owns it or on where it sits locally. Take any reseeding `seed` that determines
the state of the random source, and two fields whose leading axis is COL, with
`n1` and `n2` columns and the same trailing axes `tr` (rank at most 6, their
global-id fields of rank 1). If local column `c` of the first and local column
`c'` of the second hold the same entries and have the same global id, then
`perturb` with the same `base_seed`, `level_mask` and `pdf` succeeds on both,
from any two engine states, and afterwards the two columns hold the same
entries, whatever the other columns hold. -/
theorem perturb_column_independent {α ε : Type} [Zero α] [Mul α] (f g : Field α) (e1 e2 : ε)
    (seed : ε → Nat → ε) (pdf : ε → α × ε) (base_seed : Nat) (level_mask : Nat → Bool)
    (gids1 gids2 : Field Int) (n1 n2 : Nat) (tr : List (FieldTag × Nat)) (c c' : Nat)
    (hseed : ∀ a b s, seed a s = seed b s)
    (hf : f.layout.descriptors = (.COL, n1) :: tr)
    (hgl : g.layout.descriptors = (.COL, n2) :: tr)
    (h6 : tr.length ≤ 5)
    (hg1 : gids1.layout.rank = 1) (hg2 : gids2.layout.rank = 1)
    (hc : c < n1) (hc' : c' < n2)
    (hgid : gids1.data [c] = gids2.data [c'])
    (hv : ∀ y, InBounds (tr.map Prod.snd) y → f.data (c :: y) = g.data (c' :: y)) :
    ∃ r1 r2, perturb f e1 seed pdf base_seed level_mask gids1 = .ok r1 ∧
      perturb g e2 seed pdf base_seed level_mask gids2 = .ok r2 ∧
      ∀ y, InBounds (tr.map Prod.snd) y → r1.1.data (c :: y) = r2.1.data (c' :: y) := by
  have h6f : f.layout.rank ≤ 6 := by
    simp only [FieldLayout.rank, hf, List.length_cons]; omega
  have h6g : g.layout.rank ≤ 6 := by
    simp only [FieldLayout.rank, hgl, List.length_cons]; omega
  have h6p : ((⟨tr⟩ : FieldLayout).strip_dims [.COL, .LEV]).rank ≤ 6 := by
    rw [← col_leading_strip f.layout n1 tr hf]
    exact le_trans (FieldLayout.strip_dims_rank_le _ _) h6f
  have hlev : g.layout.has_tag .LEV = f.layout.has_tag .LEV := by
    rw [col_leading_has_lev _ n1 tr hf, col_leading_has_lev _ n2 tr hgl]
  obtain ⟨-, -, r1, -, -, -, -, h1, -⟩ := perturb_col_focus f e1 seed pdf base_seed level_mask
    gids1 n1 tr c [] hf h6f hg1 hc
  obtain ⟨-, -, r2, -, -, -, -, h2, -⟩ := perturb_col_focus g e2 seed pdf base_seed level_mask
    gids2 n2 tr c' [] hgl h6g hg2 hc'
  refine ⟨r1, r2, h1, h2, ?_⟩
  intro y hy
  obtain ⟨sc, sc', q1, a1, a2, a3, a4, a5, a6⟩ := perturb_col_focus f e1 seed pdf base_seed
    level_mask gids1 n1 tr c y hf h6f hg1 hc
  obtain ⟨tc, tc', q2, b1, b2, b3, b4, b5, b6⟩ := perturb_col_focus g e2 seed pdf base_seed
    level_mask gids2 n2 tr c' y hgl h6g hg2 hc'
  rw [h1] at a5
  rw [h2] at b5
  rw [Except.ok.inj a5, a6, Except.ok.inj b5, b6]
  rw [hlev] at b4
  obtain ⟨s', t', k1, k2, -, -, k5, -, -⟩ := perturb_col_rel seed pdf base_seed level_mask
    gids1.data gids2.data (f.layout.has_tag .LEV) f.layout g.layout c c' (c :: y) (c' :: y)
    (fun l1 l2 => l1 = f.layout ∧ l2 = g.layout) hseed hgid
    (fun hl => by
      rw [col_leading_back _ n1 tr hf hl, col_leading_back _ n2 tr hgl (hlev.trans hl)])
    (fun ilev F G x hLR hdat =>
      pw_update_col _ (pw_update (fun l => l.dim_idx .LEV) ilev _ (pw_scale x)) F G n1 n2 tr
        c c' y (by rw [hLR.1]; exact hf) (by rw [hLR.2]; exact hgl) hdat)
    (fun F G x hLR hdat =>
      pw_update_col _ (pw_scale x) F G n1 n2 tr c c' y
        (by rw [hLR.1]; exact hf) (by rw [hLR.2]; exact hgl) hdat)
    sc tc ⟨a1, b1⟩ (by rw [a3, b3]; exact hv y hy) (a2.trans b2.symm)
    (by rw [a2.2.1]; exact h6p)
  rw [a4] at k1
  rw [b4] at k2
  rw [Except.ok.inj k1, Except.ok.inj k2]
  exact k5

/-- Witness for C20: column 2 of the field [[1,2],[3,4],[5,6]] (global id 12,
on a process owning three columns) and column 0 of the field [[5,6]] (global id
12, on a process owning that column alone) are perturbed alike. -/
theorem perturb_column_independent_witness :
    ∃ r1 r2, perturb exIn32 0 exSeed exPdf 7 (fun l => decide (l = 1)) exGids3 = .ok r1 ∧
      perturb exCol12 99 exSeed exPdf 7 (fun l => decide (l = 1)) exGid12 = .ok r2 ∧
      ∀ y, InBounds [2] y → r1.1.data (2 :: y) = r2.1.data (0 :: y) :=
  perturb_column_independent exIn32 exCol12 0 99 exSeed exPdf 7 (fun l => decide (l = 1))
    exGids3 exGid12 3 1 [(.LEV, 2)] 2 0 (fun _ _ _ => rfl) rfl rfl (by decide) rfl rfl
    (by decide) (by decide) rfl
    (fun y hy => (by decide : ∀ y ∈ indexSpace [2], exIn32.data (2 :: y) = exCol12.data (0 :: y))
      y ((mem_indexSpace _ _).mpr hy))

/-! ## Perturbation of a field with leading columns and trailing levels -/

theorem insertAt_length (x : List Nat) (a : Nat) : insertAt x.length a x = x ++ [a] := by
  induction x with
  | nil => rfl
  | cons i x ih =>
    show i :: insertAt x.length a x = i :: (x ++ [a])
    rw [ih]

theorem get?_append_length (x : List Nat) (a : Nat) : (x ++ [a]).get? x.length = some a := by
  simp

theorem eraseIdx_append_length {β : Type} (x : List β) (a : β) :
    (x ++ [a]).eraseIdx x.length = x := by
  induction x with
  | nil => rfl
  | cons i x ih =>
    show i :: (x ++ [a]).eraseIdx x.length = i :: x
    rw [ih]

theorem true_levels_succ (level_mask : Nat → Bool) (l : Nat) :
    true_levels level_mask (l + 1)
      = true_levels level_mask l + (if level_mask l = true then 1 else 0) := by
  simp only [true_levels, List.range_succ, List.filter_append, List.length_append]
  cases h : level_mask l <;> simp [List.filter, h]

theorem col_lev_has_lev (l : FieldLayout) (n nl : Nat) (mid : List (FieldTag × Nat))
    (h : l.descriptors = (.COL, n) :: mid ++ [(.LEV, nl)]) : l.has_tag .LEV = true := by
  simp [FieldLayout.has_tag, FieldLayout.tags, h]

theorem col_lev_back (l : FieldLayout) (n nl : Nat) (mid : List (FieldTag × Nat))
    (h : l.descriptors = (.COL, n) :: mid ++ [(.LEV, nl)]) : l.dims.getLastD 0 = nl := by
  have hd : l.dims = (n :: mid.map Prod.snd) ++ [nl] := by simp [FieldLayout.dims, h]
  rw [hd, List.getLastD_concat]

theorem col_lev_strip (l : FieldLayout) (n nl : Nat) (mid : List (FieldTag × Nat))
    (h : l.descriptors = (.COL, n) :: mid ++ [(.LEV, nl)])
    (hmid : ∀ d ∈ mid, d.1 ≠ .COL ∧ d.1 ≠ .LEV) :
    l.clone.strip_dims [.COL, .LEV] = ⟨mid⟩ := by
  have hfil : mid.filter (fun d => !([FieldTag.COL, FieldTag.LEV].contains d.1)) = mid := by
    rw [List.filter_eq_self]
    intro d hd
    obtain ⟨h1, h2⟩ := hmid d hd
    cases hd1 : d.1 <;> simp_all
  simp only [FieldLayout.clone, FieldLayout.strip_dims, h]
  congr 1
  show List.filter _ ((FieldTag.COL, n) :: (mid ++ [(FieldTag.LEV, nl)])) = mid
  rw [List.filter_cons_of_neg (by simp), List.filter_append, hfil]
  simp

theorem lev_trailing_idx (mid : List (FieldTag × Nat)) (nl : Nat)
    (hmid : ∀ d ∈ mid, d.1 ≠ .COL ∧ d.1 ≠ .LEV) :
    (⟨mid ++ [(.LEV, nl)]⟩ : FieldLayout).dim_idx .LEV = mid.length := by
  simp only [FieldLayout.dim_idx, FieldLayout.tags, List.map_append, List.map_cons, List.map_nil]
  induction mid with
  | nil => rfl
  | cons d mid ih =>
    have hd := (hmid d (List.mem_cons_self _ _)).2
    have ih2 := ih (fun x hx => hmid x (List.mem_cons_of_mem _ hx))
    simp only [List.map_cons, List.cons_append, List.length_cons]
    rw [List.indexOf_cons_ne _ (fun h => hd h), ih2]

theorem update_col_lev_entry {α : Type} [Mul α] (F pf : Field α) (n nl : Nat)
    (mid : List (FieldTag × Nat)) (c l c' l' : Nat) (x : List Nat)
    (hF : F.layout.descriptors = (.COL, n) :: mid ++ [(.LEV, nl)])
    (hmid : ∀ d ∈ mid, d.1 ≠ .COL ∧ d.1 ≠ .LEV)
    (hx : InBounds (mid.map Prod.snd) x) :
    (F.update_subfield (F.layout.dim_idx .COL) c (fun s1 =>
        s1.update_subfield (s1.layout.dim_idx .LEV) l (fun s2 => s2.scale pf))).data
        (c' :: x ++ [l'])
      = if c' = c ∧ l' = l then F.data (c' :: x ++ [l']) * pf.data x
        else F.data (c' :: x ++ [l']) := by
  have hF0 : F.layout.dim_idx .COL = 0 := by
    simp [FieldLayout.dim_idx, FieldLayout.tags, hF]
  have hxl : x.length = mid.length := by
    have := InBounds.length_eq hx
    simpa using this
  have hs1 : (F.subfield 0 c).layout = ⟨mid ++ [(.LEV, nl)]⟩ := by
    simp [Field.subfield, FieldLayout.strip_idx, hF]
  have hj : (F.subfield 0 c).layout.dim_idx .LEV = x.length := by
    rw [hs1, lev_trailing_idx mid nl hmid, hxl]
  have hs2 : ((F.subfield 0 c).subfield x.length l).layout.dims = mid.map Prod.snd := by
    show (FieldLayout.strip_idx (F.subfield 0 c).layout x.length).dims = _
    rw [hs1, hxl]
    simp [FieldLayout.strip_idx, FieldLayout.dims, eraseIdx_append_length]
  rw [hF0]
  show (if (c' :: x ++ [l']).get? 0 = some c then
      ((F.subfield 0 c).update_subfield ((F.subfield 0 c).layout.dim_idx .LEV) l
        (fun s2 => s2.scale pf)).data ((c' :: x ++ [l']).eraseIdx 0)
    else F.data (c' :: x ++ [l'])) = _
  by_cases hc : c' = c
  · subst hc
    rw [if_pos (show (c' :: x ++ [l']).get? 0 = some c' from rfl), hj]
    show (if (x ++ [l']).get? x.length = some l then
        (((F.subfield 0 c').subfield x.length l).scale pf).data ((x ++ [l']).eraseIdx x.length)
      else (F.subfield 0 c').data (x ++ [l'])) = _
    rw [get?_append_length, eraseIdx_append_length]
    by_cases hl : l' = l
    · subst hl
      rw [if_pos rfl, if_pos ⟨rfl, rfl⟩]
      show (if x ∈ indexSpace ((F.subfield 0 c').subfield x.length l').layout.dims then
          ((F.subfield 0 c').subfield x.length l').data x * pf.data x
        else ((F.subfield 0 c').subfield x.length l').data x) = _
      rw [hs2, if_pos ((mem_indexSpace _ _).mpr hx)]
      show F.data (insertAt 0 c' (insertAt x.length l' x)) * pf.data x = _
      rw [insertAt_length]
      rfl
    · rw [if_neg (fun h => hl (Option.some.inj h)), if_neg (fun h => hl h.2)]
      rfl
  · rw [if_neg, if_neg (fun h => hc h.1)]
    simp only [List.cons_append, List.get?_cons_zero, Option.some.injEq]
    exact hc

/-- The level loop of one column, for a field with leading columns and
trailing levels: it succeeds, advances the engine by one reduced field per
selected level, and multiplies the entries of column `c` at each selected level
by the samples drawn for that level. -/
theorem perturb_col_lev_loop {α ε : Type} [Mul α] (pdf : ε → α × ε) (level_mask : Nat → Bool)
    (c nlevs n : Nat) (mid : List (FieldTag × Nat)) (s0 : PerturbState α ε)
    (hF : s0.f.layout.descriptors = (.COL, n) :: mid ++ [(.LEV, nlevs)])
    (hmid : ∀ d ∈ mid, d.1 ≠ .COL ∧ d.1 ≠ .LEV)
    (hp : s0.perturb_f.layout = ⟨mid⟩) (h6 : mid.length ≤ 6) :
    ∃ s', forLoopE nlevs (perturb_col_lev pdf level_mask c) s0 = .ok s' ∧
      s'.f.layout = s0.f.layout ∧ s'.perturb_f.layout = ⟨mid⟩ ∧
      s'.engine = advance pdf s0.engine
        (true_levels level_mask nlevs * (mid.map Prod.snd).prod) ∧
      ∀ c' x l, InBounds (mid.map Prod.snd) x → l < nlevs →
        s'.f.data (c' :: x ++ [l])
          = if c' = c ∧ level_mask l = true then
              s0.f.data (c' :: x ++ [l]) * sample pdf s0.engine
                (true_levels level_mask l * (mid.map Prod.snd).prod
                  + flatIndex (mid.map Prod.snd) x)
            else s0.f.data (c' :: x ++ [l]) := by
  obtain ⟨s', h1, h2, h3, h4, h5⟩ := forLoopE_induction nlevs
    (perturb_col_lev pdf level_mask c)
    (fun L a => a.f.layout = s0.f.layout ∧ a.perturb_f.layout = ⟨mid⟩ ∧
      a.engine = advance pdf s0.engine (true_levels level_mask L * (mid.map Prod.snd).prod) ∧
      ∀ c' x l, InBounds (mid.map Prod.snd) x →
        a.f.data (c' :: x ++ [l])
          = if c' = c ∧ l < L ∧ level_mask l = true then
              s0.f.data (c' :: x ++ [l]) * sample pdf s0.engine
                (true_levels level_mask l * (mid.map Prod.snd).prod
                  + flatIndex (mid.map Prod.snd) x)
            else s0.f.data (c' :: x ++ [l]))
    s0
    ⟨rfl, hp, by simp [true_levels, advance], fun c' x l _ => by
      rw [if_neg (fun h => Nat.not_lt_zero l h.2.1)]⟩
    (by
      intro L a _ hinv
      obtain ⟨ha1, ha2, ha3, ha4⟩ := hinv
      cases hm : level_mask L
      case false =>
        refine ⟨a, ?_, ha1, ha2, ?_, ?_⟩
        · simp only [perturb_col_lev, hm]; rfl
        · rw [ha3, true_levels_succ, hm]; simp
        · intro c' x l hx
          rw [ha4 c' x l hx]
          by_cases h2 : c' = c ∧ l < L ∧ level_mask l = true
          · rw [if_pos h2, if_pos ⟨h2.1, Nat.lt_succ_of_lt h2.2.1, h2.2.2⟩]
          · rw [if_neg h2, if_neg]
            intro h3
            apply h2
            refine ⟨h3.1, ?_, h3.2.2⟩
            have hne : l ≠ L := fun h => by
              have := h3.2.2
              rw [h, hm] at this
              exact Bool.false_ne_true this
            have := h3.2.1
            omega
      case true =>
        have hrank : a.perturb_f.layout.rank ≤ 6 := by rw [ha2]; exact h6
        obtain ⟨r, hr, hr2, hrl, hr4, -⟩ := randomize_ok a.perturb_f a.engine pdf hrank
        have hdims : a.perturb_f.layout.dims = mid.map Prod.snd := by rw [ha2]; rfl
        refine ⟨{ f := a.f.update_subfield (a.f.layout.dim_idx .COL) c (fun s1 =>
                      s1.update_subfield (s1.layout.dim_idx .LEV) L (fun s2 => s2.scale r.1)),
                  engine := r.2, perturb_f := r.1 }, ?_, ha1, hrl.trans ha2, ?_, ?_⟩
        · simp only [perturb_col_lev, hm, hr]; rfl
        · show r.2 = _
          rw [hr2, ha3, advance_add, hdims, true_levels_succ, hm, if_pos rfl, Nat.add_mul,
            Nat.one_mul]
        · intro c' x l hx
          show (a.f.update_subfield (a.f.layout.dim_idx .COL) c (fun s1 =>
              s1.update_subfield (s1.layout.dim_idx .LEV) L (fun s2 => s2.scale r.1))).data
              (c' :: x ++ [l]) = _
          rw [update_col_lev_entry a.f r.1 n nlevs mid c L c' l x (by rw [ha1]; exact hF)
            hmid hx, ha4 c' x l hx]
          by_cases h1 : c' = c ∧ l = L
          · rw [if_pos h1,
              if_neg (fun h => absurd h.2.1 (by rw [h1.2]; exact Nat.lt_irrefl L)),
              if_pos ⟨h1.1, by rw [h1.2]; exact Nat.lt_succ_self L, by rw [h1.2]; exact hm⟩,
              hr4 x (by rw [hdims]; exact hx), ha3, sample_add, hdims, h1.2]
          · rw [if_neg h1]
            by_cases h2 : c' = c ∧ l < L ∧ level_mask l = true
            · rw [if_pos h2, if_pos ⟨h2.1, Nat.lt_succ_of_lt h2.2.1, h2.2.2⟩]
            · rw [if_neg h2, if_neg]
              intro h3
              apply h2
              refine ⟨h3.1, ?_, h3.2.2⟩
              have hne : l ≠ L := fun h => h1 ⟨h3.1, h⟩
              have := h3.2.1
              omega)
  refine ⟨s', h1, h2, h3, h4, ?_⟩
  intro c' x l hx hl
  rw [h5 c' x l hx]
  by_cases h2 : c' = c ∧ level_mask l = true
  · rw [if_pos h2, if_pos ⟨h2.1, hl, h2.2⟩]
  · rw [if_neg h2, if_neg (fun h => h2 ⟨h.1, h.2.2⟩)]

/-- Claim C17. For a field `f` of rank at most 6 whose layout is COL, then the
axes `mid` (none of them COL or LEV), then LEV, and a global-id field of rank 1,
`perturb` succeeds and keeps the layout. For each local column `c` the engine
is reseeded with `new_seed base_seed gids[c]`; writing `s` for the samples drawn
after that reseed, `S` for the product of the extents of `mid` and `r` for the
number of selected levels below `l`, the entry at `(c, x, l)` becomes
`f[c,x,l] * s[r*S + flat(x)]` if `level_mask l` holds and keeps its value
otherwise. The engine ends in the state reached after the last column. -/
theorem perturb_col_lev_spec {α ε : Type} [Zero α] [Mul α] (f : Field α) (e : ε)
    (seed : ε → Nat → ε) (pdf : ε → α × ε) (base_seed : Nat) (level_mask : Nat → Bool)
    (dof_gids : Field Int) (ncols nlevs : Nat) (mid : List (FieldTag × Nat))
    (hf : f.layout.descriptors = (.COL, ncols) :: mid ++ [(.LEV, nlevs)])
    (hmid : ∀ d ∈ mid, d.1 ≠ .COL ∧ d.1 ≠ .LEV)
    (h6 : f.layout.rank ≤ 6) (hg : dof_gids.layout.rank = 1) :
    ∃ r, perturb f e seed pdf base_seed level_mask dof_gids = .ok r ∧
      r.1.layout = f.layout ∧
      r.2 = engine_at seed pdf base_seed dof_gids.data
        (true_levels level_mask nlevs * (mid.map Prod.snd).prod) e ncols ∧
      ∀ c x l, c < ncols → InBounds (mid.map Prod.snd) x → l < nlevs →
        r.1.data (c :: x ++ [l])
          = if level_mask l = true then
              f.data (c :: x ++ [l]) * sample pdf
                (seed (engine_at seed pdf base_seed dof_gids.data
                    (true_levels level_mask nlevs * (mid.map Prod.snd).prod) e c)
                  (new_seed base_seed (dof_gids.data [c])))
                (true_levels level_mask l * (mid.map Prod.snd).prod
                  + flatIndex (mid.map Prod.snd) x)
            else f.data (c :: x ++ [l]) := by
  have hmid6 : mid.length ≤ 6 := by
    have : f.layout.rank = mid.length + 2 := by
      simp [FieldLayout.rank, hf]
    omega
  rw [perturb_with_col f e seed pdf base_seed level_mask dof_gids
    (col_leading_has_col _ ncols _ hf) hg, col_leading_front _ ncols _ hf,
    col_lev_has_lev _ ncols nlevs mid hf, col_lev_strip _ ncols nlevs mid hf hmid]
  obtain ⟨s', h1, h2, h3, h4, h5⟩ := forLoopE_induction ncols
    (perturb_col seed pdf base_seed level_mask dof_gids.data true f.layout)
    (fun C a => a.f.layout = f.layout ∧ a.perturb_f.layout = ⟨mid⟩ ∧
      a.engine = engine_at seed pdf base_seed dof_gids.data
        (true_levels level_mask nlevs * (mid.map Prod.snd).prod) e C ∧
      ∀ c x l, InBounds (mid.map Prod.snd) x → l < nlevs →
        a.f.data (c :: x ++ [l])
          = if c < C ∧ level_mask l = true then
              f.data (c :: x ++ [l]) * sample pdf
                (seed (engine_at seed pdf base_seed dof_gids.data
                    (true_levels level_mask nlevs * (mid.map Prod.snd).prod) e c)
                  (new_seed base_seed (dof_gids.data [c])))
                (true_levels level_mask l * (mid.map Prod.snd).prod
                  + flatIndex (mid.map Prod.snd) x)
            else f.data (c :: x ++ [l]))
    { f := f, engine := e, perturb_f := Field.allocate "perturb_field" ⟨mid⟩ }
    ⟨rfl, rfl, rfl, fun c x l _ _ => by rw [if_neg (fun h => Nat.not_lt_zero c h.1)]⟩
    (by
      intro C a _ hinv
      obtain ⟨ha1, ha2, ha3, ha4⟩ := hinv
      obtain ⟨s', k1, k2, k3, k4, k5⟩ := perturb_col_lev_loop pdf level_mask C nlevs ncols mid
        { a with engine := seed a.engine (new_seed base_seed (dof_gids.data [C])) }
        (by rw [ha1]; exact hf) hmid ha2 hmid6
      refine ⟨s', ?_, k2.trans ha1, k3, ?_, ?_⟩
      · simp only [perturb_col, if_true, col_lev_back _ ncols nlevs mid hf]
        exact k1
      · rw [k4, ha3]; rfl
      · intro c x l hx hl
        rw [k5 c x l hx hl]
        show (if c = C ∧ level_mask l = true then
            a.f.data (c :: x ++ [l]) * sample pdf
              (seed a.engine (new_seed base_seed (dof_gids.data [C]))) _
          else a.f.data (c :: x ++ [l])) = _
        rw [ha4 c x l hx hl, ha3]
        by_cases h1 : c = C ∧ level_mask l = true
        · rw [if_pos h1, if_neg (fun h => absurd h.1 (by rw [h1.1]; exact Nat.lt_irrefl C)),
            if_pos ⟨by rw [h1.1]; exact Nat.lt_succ_self C, h1.2⟩, h1.1]
        · rw [if_neg h1]
          by_cases h2 : c < C ∧ level_mask l = true
          · rw [if_pos h2, if_pos ⟨Nat.lt_succ_of_lt h2.1, h2.2⟩]
          · rw [if_neg h2, if_neg]
            intro h3
            apply h2
            refine ⟨?_, h3.2⟩
            have hne : c ≠ C := fun h => h1 ⟨h, h3.2⟩
            have := h3.1
            omega)
  refine ⟨(s'.f, s'.engine), ?_, h2, h4, ?_⟩
  · rw [h1]; rfl
  · intro c x l hc hx hl
    show s'.f.data (c :: x ++ [l]) = _
    rw [h5 c x l hx hl]
    by_cases h2 : level_mask l = true
    · rw [if_pos ⟨hc, h2⟩, if_pos h2]
    · rw [if_neg (fun h => h2 h.2), if_neg h2]

/-- Witness for C17: the field of layout (COL=2, CMP=2, LEV=3) with entries
`100*c + 10*x + l + 1`, global ids 10 and 11, base seed 7 and the counting
engine (after a reseed to `s` the samples are `s+2, s+3, ...`), levels 0 and 2
selected. Column 0 uses the samples 19, 20 at level 0 and 21, 22 at level 2;
column 1 uses 20, 21 and 22, 23; level 1 is untouched. -/
theorem perturb_col_lev_spec_witness :
    ∃ r, perturb exColCmpLev 0 exSeed exPdf 7 exLevelMask exGids2 = .ok r ∧
      r.1.data [0, 0, 0] = 1 * 19 ∧ r.1.data [0, 1, 0] = 11 * 20 ∧
      r.1.data [0, 0, 2] = 3 * 21 ∧ r.1.data [0, 1, 2] = 13 * 22 ∧
      r.1.data [0, 1, 1] = 12 ∧
      r.1.data [1, 0, 0] = 101 * 20 ∧ r.1.data [1, 1, 2] = 113 * 23 ∧
      r.1.data [1, 0, 1] = 102 := by
  obtain ⟨r, h, -, -, hv⟩ := perturb_col_lev_spec exColCmpLev 0 exSeed exPdf 7 exLevelMask
    exGids2 2 3 [(.CMP, 2)] rfl (by decide) (by decide) rfl
  have ib : ∀ i, i < 2 → InBounds ([(FieldTag.CMP, 2)].map Prod.snd) [i] :=
    fun i hi => List.Forall₂.cons hi List.Forall₂.nil
  refine ⟨r, h, ?_, ?_, ?_, ?_, ?_, ?_, ?_, ?_⟩
  · exact (hv 0 [0] 0 (by decide) (ib 0 (by decide)) (by decide)).trans rfl
  · exact (hv 0 [1] 0 (by decide) (ib 1 (by decide)) (by decide)).trans rfl
  · exact (hv 0 [0] 2 (by decide) (ib 0 (by decide)) (by decide)).trans rfl
  · exact (hv 0 [1] 2 (by decide) (ib 1 (by decide)) (by decide)).trans rfl
  · exact (hv 0 [1] 1 (by decide) (ib 1 (by decide)) (by decide)).trans rfl
  · exact (hv 1 [0] 0 (by decide) (ib 0 (by decide)) (by decide)).trans rfl
  · exact (hv 1 [1] 2 (by decide) (ib 1 (by decide)) (by decide)).trans rfl
  · exact (hv 1 [0] 1 (by decide) (ib 0 (by decide)) (by decide)).trans rfl

/-! ## The engine through `perturb` -/

theorem perturb_col_lev_engine {α ε : Type} [Mul α] (pdf : ε → α × ε)
    (level_mask : Nat → Bool) (c n : Nat) (s0 : PerturbState α ε)
    (h6 : s0.perturb_f.layout.rank ≤ 6) :
    ∃ s', forLoopE n (perturb_col_lev pdf level_mask c) s0 = .ok s' ∧
      s'.engine = advance pdf s0.engine
        (true_levels level_mask n * s0.perturb_f.layout.dims.prod) ∧
      s'.perturb_f.layout = s0.perturb_f.layout ∧ s'.f.layout = s0.f.layout := by
  refine forLoopE_induction n (perturb_col_lev pdf level_mask c)
    (fun L a => a.engine = advance pdf s0.engine
        (true_levels level_mask L * s0.perturb_f.layout.dims.prod) ∧
      a.perturb_f.layout = s0.perturb_f.layout ∧ a.f.layout = s0.f.layout)
    s0 ⟨by simp [true_levels, advance], rfl, rfl⟩ ?_
  intro L a _ hinv
  obtain ⟨ha1, ha2, ha3⟩ := hinv
  cases hm : level_mask L
  case false =>
    refine ⟨a, ?_, ?_, ha2, ha3⟩
    · simp only [perturb_col_lev, hm]; rfl
    · rw [ha1, true_levels_succ, hm]; simp
  case true =>
    obtain ⟨r, hr, hr2, hrl, -, -⟩ := randomize_ok a.perturb_f a.engine pdf
      (by rw [ha2]; exact h6)
    refine ⟨{ f := a.f.update_subfield (a.f.layout.dim_idx .COL) c (fun s1 =>
                  s1.update_subfield (s1.layout.dim_idx .LEV) L (fun s2 => s2.scale r.1)),
              engine := r.2, perturb_f := r.1 }, ?_, ?_, hrl.trans ha2, ha3⟩
    · simp only [perturb_col_lev, hm, hr]; rfl
    · show r.2 = _
      rw [hr2, ha1, advance_add, ha2, true_levels_succ, hm, if_pos rfl, Nat.add_mul,
        Nat.one_mul]

theorem perturb_lev_engine {α ε : Type} [Mul α] (pdf : ε → α × ε)
    (level_mask : Nat → Bool) (n : Nat) (s0 : PerturbState α ε)
    (h6 : s0.perturb_f.layout.rank ≤ 6) :
    ∃ s', forLoopE n (perturb_lev pdf level_mask) s0 = .ok s' ∧
      s'.engine = advance pdf s0.engine
        (true_levels level_mask n * s0.perturb_f.layout.dims.prod) ∧
      s'.perturb_f.layout = s0.perturb_f.layout ∧ s'.f.layout = s0.f.layout := by
  refine forLoopE_induction n (perturb_lev pdf level_mask)
    (fun L a => a.engine = advance pdf s0.engine
        (true_levels level_mask L * s0.perturb_f.layout.dims.prod) ∧
      a.perturb_f.layout = s0.perturb_f.layout ∧ a.f.layout = s0.f.layout)
    s0 ⟨by simp [true_levels, advance], rfl, rfl⟩ ?_
  intro L a _ hinv
  obtain ⟨ha1, ha2, ha3⟩ := hinv
  cases hm : level_mask L
  case false =>
    refine ⟨a, ?_, ?_, ha2, ha3⟩
    · simp only [perturb_lev, hm]; rfl
    · rw [ha1, true_levels_succ, hm]; simp
  case true =>
    obtain ⟨r, hr, hr2, hrl, -, -⟩ := randomize_ok a.perturb_f a.engine pdf
      (by rw [ha2]; exact h6)
    refine ⟨{ f := a.f.update_subfield (a.f.layout.dim_idx .LEV) L (fun s1 => s1.scale r.1),
              engine := r.2, perturb_f := r.1 }, ?_, ?_, hrl.trans ha2, ha3⟩
    · simp only [perturb_lev, hm, hr]; rfl
    · show r.2 = _
      rw [hr2, ha1, advance_add, ha2, true_levels_succ, hm, if_pos rfl, Nat.add_mul,
        Nat.one_mul]

theorem perturb_col_engine {α ε : Type} [Mul α] (seed : ε → Nat → ε) (pdf : ε → α × ε)
    (base_seed : Nat) (level_mask : Nat → Bool) (gids : View Int) (has_lev : Bool)
    (fl : FieldLayout) (c : Nat) (s : PerturbState α ε) (h6 : s.perturb_f.layout.rank ≤ 6) :
    ∃ s', perturb_col seed pdf base_seed level_mask gids has_lev fl c s = .ok s' ∧
      s'.engine = advance pdf (seed s.engine (new_seed base_seed (gids [c])))
        ((if has_lev = true then true_levels level_mask (fl.dims.getLastD 0) else 1)
          * s.perturb_f.layout.dims.prod) ∧
      s'.perturb_f.layout = s.perturb_f.layout ∧ s'.f.layout = s.f.layout := by
  cases has_lev
  case true =>
    obtain ⟨s', h1, h2, h3, h4⟩ := perturb_col_lev_engine pdf level_mask c
      (fl.dims.getLastD 0)
      { s with engine := seed s.engine (new_seed base_seed (gids [c])) } h6
    refine ⟨s', ?_, ?_, h3, h4⟩
    · simp only [perturb_col, if_true]; exact h1
    · rw [h2, if_pos rfl]
  case false =>
    obtain ⟨r, hr, hr2, hrl, -, -⟩ := randomize_ok s.perturb_f
      (seed s.engine (new_seed base_seed (gids [c]))) pdf h6
    refine ⟨{ f := s.f.update_subfield (s.f.layout.dim_idx .COL) c (fun s1 => s1.scale r.1),
              engine := r.2, perturb_f := r.1 }, ?_, ?_, hrl, rfl⟩
    · simp only [perturb_col, Bool.false_eq_true, if_false, hr]; rfl
    · show r.2 = _
      rw [hr2, if_neg Bool.false_ne_true, Nat.one_mul]

/-- The engine after `perturb` on a field with a column axis: every pass of the
column loop reseeds it and then draws the same number of samples. -/
theorem perturb_engine_with_col {α ε : Type} [Zero α] [Mul α] (f : Field α) (e : ε)
    (seed : ε → Nat → ε) (pdf : ε → α × ε) (base_seed : Nat) (level_mask : Nat → Bool)
    (dof_gids : Field Int) (hcol : f.layout.has_tag .COL = true) (h6 : f.layout.rank ≤ 6)
    (hg : dof_gids.layout.rank = 1) :
    ∃ r, perturb f e seed pdf base_seed level_mask dof_gids = .ok r ∧
      r.2 = engine_at seed pdf base_seed dof_gids.data (column_draws f.layout level_mask) e
        (f.layout.dims.headD 0) := by
  rw [perturb_with_col f e seed pdf base_seed level_mask dof_gids hcol hg]
  obtain ⟨s', h1, h2, -⟩ := forLoopE_induction (f.layout.dims.headD 0)
    (perturb_col seed pdf base_seed level_mask dof_gids.data (f.layout.has_tag .LEV) f.layout)
    (fun C a => a.engine = engine_at seed pdf base_seed dof_gids.data
        (column_draws f.layout level_mask) e C ∧
      a.perturb_f.layout = f.layout.strip_dims [.COL, .LEV])
    { f := f, engine := e,
      perturb_f := Field.allocate "perturb_field" (f.layout.clone.strip_dims [.COL, .LEV]) }
    ⟨rfl, rfl⟩
    (by
      intro C a _ hinv
      obtain ⟨ha1, ha2⟩ := hinv
      obtain ⟨s', k1, k2, k3, -⟩ := perturb_col_engine seed pdf base_seed level_mask
        dof_gids.data (f.layout.has_tag .LEV) f.layout C a
        (by rw [ha2]; exact le_trans (FieldLayout.strip_dims_rank_le _ _) h6)
      refine ⟨s', k1, ?_, k3.trans ha2⟩
      rw [k2, ha1, ha2]
      rfl)
  refine ⟨(s'.f, s'.engine), ?_, h2⟩
  rw [h1]; rfl

theorem advance_logged {α ε : Type} (pdf : ε → α × ε) (e : ε) (log : List EngineEvent)
    (n : Nat) :
    advance (logged_pdf pdf) (e, log) n
      = (advance pdf e n, log ++ List.replicate n EngineEvent.draw) := by
  induction n with
  | zero => simp [advance]
  | succ n ih =>
    show (logged_pdf pdf (advance (logged_pdf pdf) (e, log) n)).2 = _
    rw [ih]
    simp [logged_pdf, advance, List.replicate_succ']

theorem sample_logged {α ε : Type} (pdf : ε → α × ε) (e : ε) (log : List EngineEvent)
    (n : Nat) :
    sample (logged_pdf pdf) (e, log) n = sample pdf e n := by
  simp only [sample, advance_logged, logged_pdf]

theorem engine_at_logged {α ε : Type} (seed : ε → Nat → ε) (pdf : ε → α × ε)
    (base_seed : Nat) (gids : View Int) (draws : Nat) (e : ε) (log : List EngineEvent)
    (n : Nat) :
    engine_at (logged_seed seed) (logged_pdf pdf) base_seed gids draws (e, log) n
      = (engine_at seed pdf base_seed gids draws e n,
          log ++ (List.range n).flatMap (column_events base_seed gids draws)) := by
  induction n with
  | zero => simp [engine_at]
  | succ n ih =>
    show advance (logged_pdf pdf) (logged_seed seed
        (engine_at (logged_seed seed) (logged_pdf pdf) base_seed gids draws (e, log) n)
        (new_seed base_seed (gids [n]))) draws = _
    rw [ih]
    simp only [logged_seed, advance_logged, List.range_succ, List.flatMap_append,
      List.flatMap_cons, List.flatMap_nil, List.append_nil, column_events, engine_at,
      List.append_assoc, List.singleton_append]

theorem reseeds_of_columns (base_seed : Nat) (gids : View Int) (draws n : Nat) :
    (((List.range n).flatMap (column_events base_seed gids draws)).filter
      (fun ev => decide (ev ≠ EngineEvent.draw))).length = n := by
  induction n with
  | zero => rfl
  | succ n ih =>
    rw [List.range_succ, List.flatMap_append, List.filter_append, List.length_append, ih]
    simp [column_events, List.filter_cons, List.filter_replicate]

/-! ## Reseeding once per column -/

/-- The column axis leading. For a field of rank at most 6 whose leading axis is
the column axis, of `ncols` local columns, and a global-id field of rank 1, the
requests `perturb` makes to the engine are, column by column in increasing
order, one reseed followed by the samples of that column: the engine is
reseeded exactly `ncols` times, before any sample of the column is drawn, and
the seed of column `c` is `(base_seed + dof_gids[c]) mod 2^32`, a function of
the global id and not of `c`. -/
theorem perturb_reseeds_per_column {α ε : Type} [Zero α] [Mul α] (f : Field α) (e : ε)
    (seed : ε → Nat → ε) (pdf : ε → α × ε) (base_seed : Nat) (level_mask : Nat → Bool)
    (dof_gids : Field Int) (ncols : Nat) (tr : List (FieldTag × Nat))
    (hf : f.layout.descriptors = (.COL, ncols) :: tr) (h6 : f.layout.rank ≤ 6)
    (hg : dof_gids.layout.rank = 1) :
    ∃ r, perturb f (e, []) (logged_seed seed) (logged_pdf pdf) base_seed level_mask dof_gids
        = .ok r ∧
      r.2.2 = (List.range ncols).flatMap (fun c =>
        EngineEvent.reseed ((((base_seed : Int) + dof_gids.data [c]) % 4294967296).toNat)
          :: List.replicate (column_draws f.layout level_mask) EngineEvent.draw) ∧
      (r.2.2.filter (fun ev => decide (ev ≠ EngineEvent.draw))).length = ncols := by
  obtain ⟨r, h1, h2⟩ := perturb_engine_with_col f (e, ([] : List EngineEvent))
    (logged_seed seed) (logged_pdf pdf) base_seed level_mask dof_gids
    (col_leading_has_col _ ncols tr hf) h6 hg
  rw [engine_at_logged, col_leading_front _ ncols tr hf] at h2
  have hlog : r.2.2 = (List.range ncols).flatMap
      (column_events base_seed dof_gids.data (column_draws f.layout level_mask)) := by
    rw [h2]; rfl
  refine ⟨r, h1, hlog, ?_⟩
  rw [hlog]
  exact reseeds_of_columns base_seed dof_gids.data _ ncols

/-- The column axis leading, an instance: the field of layout (COL=2, CMP=2,
LEV=3) with global ids 10 and 11, base seed 7 and levels 0 and 2 selected: a reseed to 17,
four samples, a reseed to 18, four samples. -/
theorem perturb_reseeds_per_column_witness :
    ∃ r, perturb exColCmpLev ((0 : Nat), []) (logged_seed exSeed) (logged_pdf exPdf) 7
        exLevelMask exGids2 = .ok r ∧
      r.2.2 = [EngineEvent.reseed 17, EngineEvent.draw, EngineEvent.draw, EngineEvent.draw,
               EngineEvent.draw, EngineEvent.reseed 18, EngineEvent.draw, EngineEvent.draw,
               EngineEvent.draw, EngineEvent.draw] ∧
      (r.2.2.filter (fun ev => decide (ev ≠ EngineEvent.draw))).length = 2 := by
  obtain ⟨r, h1, h2, h3⟩ := perturb_reseeds_per_column exColCmpLev (0 : Nat) exSeed exPdf 7
    exLevelMask exGids2 2 [(.CMP, 2), (.LEV, 3)] rfl (by decide) rfl
  exact ⟨r, h1, h2.trans rfl, h3⟩

/-! ## Perturbation of a field without a column axis -/

theorem no_col_mid (l : FieldLayout) (mid : List (FieldTag × Nat)) (nl : Nat)
    (h : l.descriptors = mid ++ [(.LEV, nl)]) (hcol : l.has_tag .COL = false)
    (hmid : ∀ d ∈ mid, d.1 ≠ .LEV) : ∀ d ∈ mid, d.1 ≠ .COL ∧ d.1 ≠ .LEV := by
  intro d hd
  refine ⟨?_, hmid d hd⟩
  intro hc
  have : FieldTag.COL ∈ l.tags := by
    simp only [FieldLayout.tags, h, List.map_append, List.mem_append, List.mem_map]
    exact Or.inl ⟨d, hd, hc⟩
  simp [FieldLayout.has_tag] at hcol
  exact hcol this

theorem lev_trailing_has_lev (l : FieldLayout) (mid : List (FieldTag × Nat)) (nl : Nat)
    (h : l.descriptors = mid ++ [(.LEV, nl)]) : l.has_tag .LEV = true := by
  simp [FieldLayout.has_tag, FieldLayout.tags, h]

theorem lev_trailing_back (l : FieldLayout) (mid : List (FieldTag × Nat)) (nl : Nat)
    (h : l.descriptors = mid ++ [(.LEV, nl)]) : l.dims.getLastD 0 = nl := by
  have hd : l.dims = mid.map Prod.snd ++ [nl] := by simp [FieldLayout.dims, h]
  rw [hd, List.getLastD_concat]

theorem lev_trailing_strip (l : FieldLayout) (mid : List (FieldTag × Nat)) (nl : Nat)
    (h : l.descriptors = mid ++ [(.LEV, nl)]) (hmid : ∀ d ∈ mid, d.1 ≠ .LEV) :
    l.clone.strip_dim .LEV = ⟨mid⟩ := by
  have hfil : mid.filter (fun d => !([FieldTag.LEV].contains d.1)) = mid := by
    rw [List.filter_eq_self]
    intro d hd
    have h2 := hmid d hd
    cases hd1 : d.1 <;> simp_all
  simp only [FieldLayout.clone, FieldLayout.strip_dim, FieldLayout.strip_dims, h]
  congr 1
  rw [List.filter_append, hfil]
  simp

theorem update_lev_entry {α : Type} [Mul α] (F pf : Field α) (nl : Nat)
    (mid : List (FieldTag × Nat)) (l l' : Nat) (x : List Nat)
    (hF : F.layout.descriptors = mid ++ [(.LEV, nl)])
    (hmid : ∀ d ∈ mid, d.1 ≠ .COL ∧ d.1 ≠ .LEV)
    (hx : InBounds (mid.map Prod.snd) x) :
    (F.update_subfield (F.layout.dim_idx .LEV) l (fun s1 => s1.scale pf)).data (x ++ [l'])
      = if l' = l then F.data (x ++ [l']) * pf.data x else F.data (x ++ [l']) := by
  have hxl : x.length = mid.length := by
    have := InBounds.length_eq hx
    simpa using this
  have hFl : F.layout = ⟨mid ++ [(.LEV, nl)]⟩ := by
    cases hh : F.layout
    rw [hh] at hF
    simp only at hF
    rw [hF]
  have hj : F.layout.dim_idx .LEV = x.length := by
    rw [hFl, lev_trailing_idx mid nl hmid, hxl]
  have hs2 : (F.subfield x.length l).layout.dims = mid.map Prod.snd := by
    show (FieldLayout.strip_idx F.layout x.length).dims = _
    rw [hFl, hxl]
    simp [FieldLayout.strip_idx, FieldLayout.dims, eraseIdx_append_length]
  rw [hj]
  show (if (x ++ [l']).get? x.length = some l then
      ((F.subfield x.length l).scale pf).data ((x ++ [l']).eraseIdx x.length)
    else F.data (x ++ [l'])) = _
  rw [get?_append_length, eraseIdx_append_length]
  by_cases hl : l' = l
  · subst hl
    rw [if_pos rfl, if_pos rfl]
    show (if x ∈ indexSpace (F.subfield x.length l').layout.dims then
        (F.subfield x.length l').data x * pf.data x
      else (F.subfield x.length l').data x) = _
    rw [hs2, if_pos ((mem_indexSpace _ _).mpr hx)]
    show F.data (insertAt x.length l' x) * pf.data x = _
    rw [insertAt_length]
  · rw [if_neg (fun h => hl (Option.some.inj h)), if_neg hl]

/-- The level loop of `perturb` for a field without a column axis whose
trailing axis is the level axis: it succeeds, advances the engine by one
reduced field per selected level, and multiplies the entries of each selected
level by the samples drawn for that level. -/
theorem perturb_lev_loop {α ε : Type} [Mul α] (pdf : ε → α × ε) (level_mask : Nat → Bool)
    (nlevs : Nat) (mid : List (FieldTag × Nat)) (s0 : PerturbState α ε)
    (hF : s0.f.layout.descriptors = mid ++ [(.LEV, nlevs)])
    (hmid : ∀ d ∈ mid, d.1 ≠ .COL ∧ d.1 ≠ .LEV)
    (hp : s0.perturb_f.layout = ⟨mid⟩) (h6 : mid.length ≤ 6) :
    ∃ s', forLoopE nlevs (perturb_lev pdf level_mask) s0 = .ok s' ∧
      s'.f.layout = s0.f.layout ∧
      s'.engine = advance pdf s0.engine
        (true_levels level_mask nlevs * (mid.map Prod.snd).prod) ∧
      ∀ x l, InBounds (mid.map Prod.snd) x → l < nlevs →
        s'.f.data (x ++ [l])
          = if level_mask l = true then
              s0.f.data (x ++ [l]) * sample pdf s0.engine
                (true_levels level_mask l * (mid.map Prod.snd).prod
                  + flatIndex (mid.map Prod.snd) x)
            else s0.f.data (x ++ [l]) := by
  obtain ⟨s', h1, h2, -, h4, h5⟩ := forLoopE_induction nlevs
    (perturb_lev pdf level_mask)
    (fun L a => a.f.layout = s0.f.layout ∧ a.perturb_f.layout = ⟨mid⟩ ∧
      a.engine = advance pdf s0.engine (true_levels level_mask L * (mid.map Prod.snd).prod) ∧
      ∀ x l, InBounds (mid.map Prod.snd) x →
        a.f.data (x ++ [l])
          = if l < L ∧ level_mask l = true then
              s0.f.data (x ++ [l]) * sample pdf s0.engine
                (true_levels level_mask l * (mid.map Prod.snd).prod
                  + flatIndex (mid.map Prod.snd) x)
            else s0.f.data (x ++ [l]))
    s0
    ⟨rfl, hp, by simp [true_levels, advance], fun x l _ => by
      rw [if_neg (fun h => Nat.not_lt_zero l h.1)]⟩
    (by
      intro L a _ hinv
      obtain ⟨ha1, ha2, ha3, ha4⟩ := hinv
      cases hm : level_mask L
      case false =>
        refine ⟨a, ?_, ha1, ha2, ?_, ?_⟩
        · simp only [perturb_lev, hm]; rfl
        · rw [ha3, true_levels_succ, hm]; simp
        · intro x l hx
          rw [ha4 x l hx]
          by_cases h2 : l < L ∧ level_mask l = true
          · rw [if_pos h2, if_pos ⟨Nat.lt_succ_of_lt h2.1, h2.2⟩]
          · rw [if_neg h2, if_neg]
            intro h3
            apply h2
            refine ⟨?_, h3.2⟩
            have hne : l ≠ L := fun h => by
              have := h3.2
              rw [h, hm] at this
              exact Bool.false_ne_true this
            have := h3.1
            omega
      case true =>
        have hrank : a.perturb_f.layout.rank ≤ 6 := by rw [ha2]; exact h6
        obtain ⟨r, hr, hr2, hrl, hr4, -⟩ := randomize_ok a.perturb_f a.engine pdf hrank
        have hdims : a.perturb_f.layout.dims = mid.map Prod.snd := by rw [ha2]; rfl
        refine ⟨{ f := a.f.update_subfield (a.f.layout.dim_idx .LEV) L (fun s1 =>
                      s1.scale r.1),
                  engine := r.2, perturb_f := r.1 }, ?_, ha1, hrl.trans ha2, ?_, ?_⟩
        · simp only [perturb_lev, hm, hr]; rfl
        · show r.2 = _
          rw [hr2, ha3, advance_add, hdims, true_levels_succ, hm, if_pos rfl, Nat.add_mul,
            Nat.one_mul]
        · intro x l hx
          show (a.f.update_subfield (a.f.layout.dim_idx .LEV) L (fun s1 =>
              s1.scale r.1)).data (x ++ [l]) = _
          rw [update_lev_entry a.f r.1 nlevs mid L l x (by rw [ha1]; exact hF) hmid hx,
            ha4 x l hx]
          by_cases h1 : l = L
          · rw [if_pos h1,
              if_neg (fun h => absurd h.1 (by rw [h1]; exact Nat.lt_irrefl L)),
              if_pos ⟨by rw [h1]; exact Nat.lt_succ_self L, by rw [h1]; exact hm⟩,
              hr4 x (by rw [hdims]; exact hx), ha3, sample_add, hdims, h1]
          · rw [if_neg h1]
            by_cases h2 : l < L ∧ level_mask l = true
            · rw [if_pos h2, if_pos ⟨Nat.lt_succ_of_lt h2.1, h2.2⟩]
            · rw [if_neg h2, if_neg]
              intro h3
              apply h2
              refine ⟨?_, h3.2⟩
              have := h3.1
              omega)
  refine ⟨s', h1, h2, h4, ?_⟩
  intro x l hx hl
  rw [h5 x l hx]
  by_cases h2 : level_mask l = true
  · rw [if_pos h2, if_pos ⟨hl, h2⟩]
  · rw [if_neg h2, if_neg (fun h => h2 h.2)]

theorem strip_dim_absent (l : FieldLayout) (hlev : l.has_tag .LEV = false) :
    l.clone.strip_dim .LEV = l := by
  have hfil : l.descriptors.filter (fun d => !([FieldTag.LEV].contains d.1))
      = l.descriptors := by
    rw [List.filter_eq_self]
    intro d hd
    have hne : d.1 ≠ FieldTag.LEV := by
      intro hc
      have : FieldTag.LEV ∈ l.tags := by
        simp only [FieldLayout.tags, List.mem_map]
        exact ⟨d, hd, hc⟩
      simp [FieldLayout.has_tag] at hlev
      exact hlev this
    cases hd1 : d.1 <;> simp_all
  cases l
  simp only [FieldLayout.clone, FieldLayout.strip_dim, FieldLayout.strip_dims] at *
  rw [hfil]

/-- Claim C22. For a field `f` of rank at most 6 without a column axis, run
`perturb` with an engine that records the requests made to it. If the layout
of `f` is the axes `mid` (none of them LEV) followed by LEV, the requests are
one reseed to `base_seed` followed by one reduced field of samples (`S`, the
product of the extents of `mid`) per selected level, and the entry at `(x, l)`
becomes `f[x,l] * s[r*S + flat(x)]` when `level_mask l` holds (`s` the samples
drawn after the reseed, `r` the number of selected levels below `l`) and keeps
its value otherwise. If `f` has no level axis either, `perturb` succeeds, the
requests are one reseed to `base_seed` followed by one sample per entry, and
every entry becomes `f[x] * s[flat(x)]`. -/
theorem perturb_no_col_spec {α ε : Type} [Zero α] [Mul α] (f : Field α) (e : ε)
    (seed : ε → Nat → ε) (pdf : ε → α × ε) (base_seed : Nat) (level_mask : Nat → Bool)
    (dof_gids : Field Int) (hcol : f.layout.has_tag .COL = false) (h6 : f.layout.rank ≤ 6) :
    (∀ nlevs mid, f.layout.descriptors = mid ++ [(.LEV, nlevs)] → (∀ d ∈ mid, d.1 ≠ .LEV) →
      ∃ r, perturb f (e, []) (logged_seed seed) (logged_pdf pdf) base_seed level_mask
          dof_gids = .ok r ∧
        r.1.layout = f.layout ∧
        r.2.2 = EngineEvent.reseed base_seed :: List.replicate
          (true_levels level_mask nlevs * (mid.map Prod.snd).prod) EngineEvent.draw ∧
        ∀ x l, InBounds (mid.map Prod.snd) x → l < nlevs →
          r.1.data (x ++ [l])
            = if level_mask l = true then
                f.data (x ++ [l]) * sample pdf (seed e base_seed)
                  (true_levels level_mask l * (mid.map Prod.snd).prod
                    + flatIndex (mid.map Prod.snd) x)
              else f.data (x ++ [l])) ∧
    (f.layout.has_tag .LEV = false →
      ∃ r, perturb f (e, []) (logged_seed seed) (logged_pdf pdf) base_seed level_mask
          dof_gids = .ok r ∧
        r.1.layout = f.layout ∧
        r.2.2 = EngineEvent.reseed base_seed
          :: List.replicate f.layout.dims.prod EngineEvent.draw ∧
        ∀ x, InBounds f.layout.dims x →
          r.1.data x = f.data x * sample pdf (seed e base_seed) (flatIndex f.layout.dims x)) := by
  constructor
  · intro nlevs mid hf hmid
    have hmid2 := no_col_mid f.layout mid nlevs hf hcol hmid
    have hmid6 : mid.length ≤ 6 := by
      have : f.layout.rank = mid.length + 1 := by simp [FieldLayout.rank, hf]
      omega
    rw [perturb_with_lev f _ _ _ base_seed level_mask dof_gids hcol
      (lev_trailing_has_lev _ mid nlevs hf), lev_trailing_back _ mid nlevs hf,
      lev_trailing_strip _ mid nlevs hf hmid]
    obtain ⟨s', h1, h2, h3, h4⟩ := perturb_lev_loop (logged_pdf pdf) level_mask nlevs mid
      { f := f, engine := logged_seed seed (e, []) base_seed,
        perturb_f := Field.allocate "perturb_field" ⟨mid⟩ }
      hf hmid2 rfl hmid6
    refine ⟨(s'.f, s'.engine), ?_, h2, ?_, ?_⟩
    · rw [h1]; rfl
    · show s'.engine.2 = _
      rw [h3]
      simp only [logged_seed, advance_logged, List.nil_append, List.singleton_append]
    · intro x l hx hl
      show s'.f.data (x ++ [l]) = _
      rw [h4 x l hx hl]
      simp only [logged_seed, sample_logged]
  · intro hlev
    have h6p : (Field.allocate "perturb_field" f.layout : Field α).layout.rank ≤ 6 := h6
    rw [perturb_plain f _ _ _ base_seed level_mask dof_gids hcol hlev,
      strip_dim_absent _ hlev]
    obtain ⟨r, hr, hr2, -, hr4, -⟩ := randomize_ok
      (Field.allocate "perturb_field" f.layout : Field α)
      (logged_seed seed (e, []) base_seed) (logged_pdf pdf) h6p
    refine ⟨(f.scale r.1, r.2), ?_, rfl, ?_, ?_⟩
    · rw [hr]; rfl
    · show r.2.2 = _
      rw [hr2]
      simp only [logged_seed, advance_logged, List.nil_append, List.singleton_append]
      rfl
    · intro x hx
      show (if x ∈ indexSpace f.layout.dims then f.data x * r.1.data x else f.data x) = _
      rw [if_pos ((mem_indexSpace _ _).mpr hx), hr4 x hx]
      simp only [logged_seed, sample_logged]
      rfl

/-- Witness for C22: with base seed 7 and the counting engine (samples 9, 10,
11, 12 after the reseed), the field of layout (CMP=2, LEV=3) with levels 0 and
2 selected, and the field [1,2,3] of layout (CMP=3). -/
theorem perturb_no_col_spec_witness :
    (∃ r, perturb exCmpLev ((0 : Nat), []) (logged_seed exSeed) (logged_pdf exPdf) 7
        exLevelMask exGids2 = .ok r ∧
      r.2.2 = [EngineEvent.reseed 7, EngineEvent.draw, EngineEvent.draw, EngineEvent.draw,
               EngineEvent.draw] ∧
      r.1.data [0, 0] = 1 * 9 ∧ r.1.data [1, 0] = 11 * 10 ∧ r.1.data [0, 1] = 2 ∧
      r.1.data [0, 2] = 3 * 11 ∧ r.1.data [1, 2] = 13 * 12) ∧
    (∃ r, perturb exCmp3 ((0 : Nat), []) (logged_seed exSeed) (logged_pdf exPdf) 7
        exLevelMask exGids2 = .ok r ∧
      r.2.2 = [EngineEvent.reseed 7, EngineEvent.draw, EngineEvent.draw, EngineEvent.draw] ∧
      r.1.data [0] = 1 * 9 ∧ r.1.data [1] = 2 * 10 ∧ r.1.data [2] = 3 * 11) := by
  obtain ⟨r, h, -, hlog, hv⟩ := (perturb_no_col_spec exCmpLev (0 : Nat) exSeed exPdf 7
    exLevelMask exGids2 (by decide) (by decide)).1 3 [(.CMP, 2)] rfl (by decide)
  obtain ⟨q, k, -, klog, kv⟩ := (perturb_no_col_spec exCmp3 (0 : Nat) exSeed exPdf 7
    exLevelMask exGids2 (by decide) (by decide)).2 (by decide)
  have ib : ∀ i, i < 2 → InBounds ([(FieldTag.CMP, 2)].map Prod.snd) [i] :=
    fun i hi => List.Forall₂.cons hi List.Forall₂.nil
  have ib3 : ∀ i, i < 3 → InBounds exCmp3.layout.dims [i] :=
    fun i hi => List.Forall₂.cons hi List.Forall₂.nil
  refine ⟨⟨r, h, hlog.trans rfl, ?_, ?_, ?_, ?_, ?_⟩, ⟨q, k, klog.trans rfl, ?_, ?_, ?_⟩⟩
  · exact (hv [0] 0 (ib 0 (by decide)) (by decide)).trans rfl
  · exact (hv [1] 0 (ib 1 (by decide)) (by decide)).trans rfl
  · exact (hv [0] 1 (ib 0 (by decide)) (by decide)).trans rfl
  · exact (hv [0] 2 (ib 0 (by decide)) (by decide)).trans rfl
  · exact (hv [1] 2 (ib 1 (by decide)) (by decide)).trans rfl
  · exact (kv [0] (ib3 0 (by decide))).trans rfl
  · exact (kv [1] (ib3 1 (by decide))).trans rfl
  · exact (kv [2] (ib3 2 (by decide))).trans rfl

/-! ## Round trips of the contractions -/

/-- Claim C26. In exact rational arithmetic, for an input of rank 1, 2 or 3
with `N` columns and a rank-1 weight equal to `1/N` at every column,
`horiz_contraction` without a group succeeds and writes the column mean:
`out[idx] = (Σ_{i<N} in[i,idx]) / N` at every index `idx` of the trailing axes. -/
theorem horiz_contraction_mean (f_out f_in weight : Field ℚ) (N : Nat) (rest : List Nat)
    (hw : weight.layout.rank = 1) (hin : f_in.layout.dims = N :: rest)
    (hrest : rest.length ≤ 2) (hout : f_out.layout.dims = rest)
    (hwv : ∀ i, i < N → weight.data [i] = 1 / (N : ℚ)) :
    ∃ out, horiz_contraction f_out f_in weight none = .ok out ∧
      ∀ idx, InBounds rest idx →
        out.data idx = (∑ i in Finset.range N, f_in.data (i :: idx)) / (N : ℚ) := by
  obtain ⟨out, h, -, hv⟩ := horiz_contraction_entry f_out f_in weight N rest hw hin hrest hout
  refine ⟨out, h, ?_⟩
  intro idx hidx
  rw [hv idx hidx, Finset.sum_div]
  apply Finset.sum_congr rfl
  intro i hi
  rw [hwv i (Finset.mem_range.mp hi)]
  ring

/-- Witness for C26: the column means of [[1,2],[3,4],[5,6]] under the weight
1/3 are 3 and 4. -/
theorem horiz_contraction_mean_witness :
    ∃ out, horiz_contraction exOutQ exInQ exWQ none = .ok out ∧
      out.data [0] = 3 ∧ out.data [1] = 4 := by
  obtain ⟨out, h, hv⟩ := horiz_contraction_mean exOutQ exInQ exWQ 3 [2] rfl rfl (by decide)
    rfl (fun _ _ => by simp [exWQ])
  have ib : ∀ j, j < 2 → InBounds [2] [j] :=
    fun j hj => List.Forall₂.cons hj List.Forall₂.nil
  refine ⟨out, h, ?_, ?_⟩
  · rw [hv [0] (ib 0 (by decide))]
    simp [Finset.sum_range_succ, exInQ]
    norm_num
  · rw [hv [1] (ib 1 (by decide))]
    simp [Finset.sum_range_succ, exInQ]
    norm_num

theorem sum_indicator {α : Type} [NonAssocSemiring α] (n k0 : Nat) (hk : k0 < n)
    (w g : Nat → α) (hw : ∀ k, k < n → w k = if k = k0 then 1 else 0) :
    ∑ k in Finset.range n, w k * g k = g k0 := by
  rw [Finset.sum_eq_single k0]
  · rw [hw k0 hk, if_pos rfl, one_mul]
  · intro k hkn hne
    rw [hw k (Finset.mem_range.mp hkn), if_neg hne, zero_mul]
  · intro h
    exact absurd (Finset.mem_range.mpr hk) h

/-- Claim C27. For an input of rank 1, 2 or 3 whose trailing axis has `nlevs`
levels and a rank-1 weight that is 1 at the level `k0` and 0 at every other
level, `vert_contraction` succeeds and extracts level `k0` unchanged:
`out = in[k0]` (rank 1), `out[i] = in[i,k0]` for every `i` (rank 2),
`out[i,j] = in[i,j,k0]` for every `(i,j)` (rank 3). -/
theorem vert_contraction_extracts_level {α : Type} [NonAssocSemiring α]
    (f_out f_in weight : Field α) (nlevs k0 : Nat) (hw : weight.layout.rank = 1)
    (hk0 : k0 < nlevs)
    (hwv : ∀ k, k < nlevs → weight.data [k] = if k = k0 then 1 else 0) :
    (f_in.layout.dims = [nlevs] → f_out.layout.rank = 0 →
      ∃ out, vert_contraction f_out f_in weight = .ok out ∧
        out.data [] = f_in.data [k0]) ∧
    (∀ d0, f_in.layout.dims = [d0, nlevs] → f_out.layout.rank = 1 →
      ∃ out, vert_contraction f_out f_in weight = .ok out ∧
        ∀ i, i < d0 → out.data [i] = f_in.data [i, k0]) ∧
    (∀ d0 d1, f_in.layout.dims = [d0, d1, nlevs] → f_out.layout.rank = 2 →
      ∃ out, vert_contraction f_out f_in weight = .ok out ∧
        ∀ i j, i < d0 → j < d1 → out.data [i, j] = f_in.data [i, j, k0]) := by
  refine ⟨?_, ?_, ?_⟩
  · intro hin hout
    refine ⟨_, vert_contraction_rank1 f_out f_in weight nlevs hw hin hout, ?_⟩
    simp only [Field.set, Function.update_same]
    exact sum_indicator nlevs k0 hk0 (fun k => weight.data [k]) (fun k => f_in.data [k]) hwv
  · intro d0 hin hout
    refine ⟨_, vert_contraction_rank2_w1d f_out f_in weight d0 nlevs hw hin hout, ?_⟩
    intro i hi
    have := forLoop_set_hit d0 (fun i => [i])
      (fun key => ∑ k in Finset.range nlevs, weight.data [k] * f_in.data (key ++ [k])) f_out i hi
    exact this.trans (sum_indicator nlevs k0 hk0 (fun k => weight.data [k])
      (fun k => f_in.data ([i] ++ [k])) hwv)
  · intro d0 d1 hin hout
    refine ⟨_, vert_contraction_rank3_w1d f_out f_in weight d0 d1 nlevs hw hin hout, ?_⟩
    intro i j hi hj
    obtain ⟨idx, ⟨h1, h2, h3⟩, _⟩ := flat_split_unique d0 d1 i j hi hj
    have := forLoop_set_hit (d0 * d1) (fun idx => [idx / d1, idx % d1])
      (fun key => ∑ k in Finset.range nlevs, weight.data [k] * f_in.data (key ++ [k]))
      f_out idx h1
    simp only [h2, h3] at this
    exact this.trans (sum_indicator nlevs k0 hk0 (fun k => weight.data [k])
      (fun k => f_in.data ([i, j] ++ [k])) hwv)

/-- Witness for C27: the weight [0,1] extracts level 1 of [[1,2],[3,4],[5,6]],
that is [2,4,6]. -/
theorem vert_contraction_extracts_level_witness :
    ∃ out, vert_contraction exOut3 exIn32 exWLev1 = .ok out ∧
      out.data [0] = 2 ∧ out.data [1] = 4 ∧ out.data [2] = 6 := by
  obtain ⟨out, h, hv⟩ := (vert_contraction_extracts_level exOut3 exIn32 exWLev1 2 1 rfl
    (by decide) (by decide)).2.1 3 rfl rfl
  exact ⟨out, h, hv 0 (by decide), hv 1 (by decide), hv 2 (by decide)⟩

/-! ## The Kahan loops and the generic fold -/

/-- Claim C28. For every field of rank 1 to 6, the hand-unrolled loop nest of
`field_sum` returns the sum component of the generic Kahan fold `kahan_fold`
over the logical entries taken in row-major order, and `frobenius_norm` returns
the square root of the sum component of the same fold over the squared entries.
The fold is the one of the spec: it starts from `sum = 0`, `c = 0`, and on one
more term it applies `y = term - c; t = sum + y; c = (t - sum) - y; sum = t`.
Row-major order means that the entry at `idx` is the term number
`flatIndex dims idx` of the list. -/
theorem kahan_loops_refine_fold {α : Type} [Zero α] [Add α] [Sub α] [Pow α Nat]
    (f : Field α) (h1 : 1 ≤ f.layout.rank) (h6 : f.layout.rank ≤ 6) :
    field_sum f none
      = .ok (kahan_fold ((indexSpace f.layout.dims).map (fun idx => f.data idx))).1 ∧
    (∀ sqrt : α → α, frobenius_norm sqrt f none
      = .ok (sqrt (kahan_fold
          ((indexSpace f.layout.dims).map (fun idx => (f.data idx) ^ 2))).1)) ∧
    (∀ idx, InBounds f.layout.dims idx →
      ((indexSpace f.layout.dims).map (fun idx => f.data idx))[flatIndex f.layout.dims idx]?
        = some (f.data idx)) ∧
    kahan_fold ([] : List α) = (0, 0) ∧
    (∀ (terms : List α) (term : α),
      kahan_fold (terms ++ [term])
        = ((kahan_fold terms).1 + (term - (kahan_fold terms).2),
           (((kahan_fold terms).1 + (term - (kahan_fold terms).2)) - (kahan_fold terms).1)
             - (term - (kahan_fold terms).2))) := by
  refine ⟨field_sum_local f h1 h6, fun sqrt => frobenius_norm_local sqrt f h1 h6, ?_, rfl, ?_⟩
  · intro idx hidx
    rw [List.getElem?_map, indexSpace_getElem?_flatIndex _ idx hidx]
    rfl
  · intro terms term
    simp only [kahan_fold, List.foldl_append, List.foldl_cons, List.foldl_nil, kahan_step]

/-- Witness for C28: on [[1,2],[3,4],[5,6]] the loop nest of `field_sum`
returns the sum 21 of the fold over [1,2,3,4,5,6]. -/
theorem kahan_loops_refine_fold_witness :
    field_sum exIn32 none = .ok (kahan_fold ([1, 2, 3, 4, 5, 6] : List Int)).1 ∧
    (kahan_fold ([1, 2, 3, 4, 5, 6] : List Int)).1 = 21 ∧
    frobenius_norm int_sqrt exIn32 none
      = .ok (int_sqrt (kahan_fold ([1, 4, 9, 16, 25, 36] : List Int)).1) :=
  ⟨(kahan_loops_refine_fold exIn32 (by decide) (by decide)).1, by decide,
    (kahan_loops_refine_fold exIn32 (by decide) (by decide)).2.1 int_sqrt⟩

/-! ## The Kahan loops in exact arithmetic -/

/-- Claim C29. In exact arithmetic (any ring: the integers, the rationals, the
integers modulo `2^w`), after every step of the Kahan loop the compensation is
0 and the running sum is the plain sum of the terms seen so far. Hence, for
every field of rank 1 to 6, `field_sum(f, null)` is the sum of all logical
entries of `f`, and the value whose square root `frobenius_norm` returns is the
sum of their squares. -/
theorem kahan_exact {α : Type} [Ring α] (f : Field α) (h1 : 1 ≤ f.layout.rank)
    (h6 : f.layout.rank ≤ 6) :
    (∀ (terms : List α) (n : Nat), kahan_fold (terms.take n) = ((terms.take n).sum, 0)) ∧
    field_sum f none = .ok ((indexSpace f.layout.dims).map (fun idx => f.data idx)).sum ∧
    (∀ sqrt : α → α, frobenius_norm sqrt f none
      = .ok (sqrt ((indexSpace f.layout.dims).map (fun idx => (f.data idx) ^ 2)).sum)) := by
  refine ⟨fun terms n => kahan_fold_exact _, field_sum_exact f h1 h6, ?_⟩
  intro sqrt
  rw [frobenius_norm_local sqrt f h1 h6, kahan_fold_exact]
  rfl

/-- Witness for C29: on [[1,2],[3,4],[5,6]] the sum is 21 and the value under
the square root (shown by running with the identity in its place) is 91. -/
theorem kahan_exact_witness :
    field_sum exIn32 none = .ok 21 ∧ frobenius_norm (fun x => x) exIn32 none = .ok 91 ∧
    kahan_fold (([1, 2, 3, 4, 5, 6] : List Int).take 4) = (10, 0) :=
  ⟨(kahan_exact exIn32 (by decide) (by decide)).2.1.trans rfl,
    ((kahan_exact exIn32 (by decide) (by decide)).2.2 (fun x => x)).trans rfl,
    ((kahan_exact exIn32 (by decide) (by decide)).1 [1, 2, 3, 4, 5, 6] 4).trans rfl⟩

/-! ## Masks of opposite comparison kinds -/

theorem set_mask_complement {α : Type} [LinearOrder α] (v x : α) :
    (set_mask .EQ v x = 0 ∨ set_mask .EQ v x = 1) ∧
    (set_mask .GT v x = 0 ∨ set_mask .GT v x = 1) ∧
    (set_mask .GE v x = 0 ∨ set_mask .GE v x = 1) ∧
    set_mask .NE v x = 1 - set_mask .EQ v x ∧
    set_mask .LE v x = 1 - set_mask .GT v x ∧
    set_mask .LT v x = 1 - set_mask .GE v x := by
  simp only [set_mask]
  refine ⟨?_, ?_, ?_, ?_, ?_, ?_⟩
  · by_cases h : x = v <;> simp [h]
  · by_cases h : v < x <;> simp [h]
  · by_cases h : v ≤ x <;> simp [h]
  · by_cases h : x = v <;> simp [h]
  · by_cases h : v < x
    · simp [h, not_le.mpr h]
    · simp [h, not_lt.mp h]
  · by_cases h : v ≤ x
    · simp [h, not_lt.mpr h]
    · simp [h, not_le.mp h]

/-- Claim C30. For a totally ordered element type, every source field `x` of
rank 0 to 6, every threshold `value` and masks of the layout of `x`,
`compute_mask` succeeds for the six comparison kinds, every logical entry of the
`==`, `>` and `>=` masks is 0 or 1, and the masks of opposite kinds are
entrywise complements: `mask_NE = 1 - mask_EQ`, `mask_LE = 1 - mask_GT` and
`mask_LT = 1 - mask_GE` at every logical entry. -/
theorem compute_mask_complement {α : Type} [LinearOrder α] (x : Field α) (value : α)
    (m1 m2 : Field Int) (hr : x.layout.rank ≤ 6) (hm1 : m1.layout = x.layout)
    (hm2 : m2.layout = x.layout) :
    ∃ rEQ rNE rGT rLE rGE rLT,
      compute_mask .EQ x value m1 = .ok rEQ ∧ compute_mask .NE x value m2 = .ok rNE ∧
      compute_mask .GT x value m1 = .ok rGT ∧ compute_mask .LE x value m2 = .ok rLE ∧
      compute_mask .GE x value m1 = .ok rGE ∧ compute_mask .LT x value m2 = .ok rLT ∧
      ∀ idx, InBounds x.layout.dims idx →
        (rEQ.data idx = 0 ∨ rEQ.data idx = 1) ∧ (rGT.data idx = 0 ∨ rGT.data idx = 1) ∧
        (rGE.data idx = 0 ∨ rGE.data idx = 1) ∧
        rNE.data idx = 1 - rEQ.data idx ∧ rLE.data idx = 1 - rGT.data idx ∧
        rLT.data idx = 1 - rGE.data idx := by
  refine ⟨_, _, _, _, _, _,
    compute_mask_entries .EQ x value m1 hr (by rw [hm1]),
    compute_mask_entries .NE x value m2 hr (by rw [hm2]),
    compute_mask_entries .GT x value m1 hr (by rw [hm1]),
    compute_mask_entries .LE x value m2 hr (by rw [hm2]),
    compute_mask_entries .GE x value m1 hr (by rw [hm1]),
    compute_mask_entries .LT x value m2 hr (by rw [hm2]), ?_⟩
  intro idx hidx
  have hmem : idx ∈ indexSpace x.layout.dims := (mem_indexSpace _ _).mpr hidx
  simp only [hmem, if_true]
  exact set_mask_complement value (x.data idx)

/-- Witness for C30: the masks of [[1,2],[3,4],[5,6]] against the threshold 3,
written over two masks that held 77 everywhere. -/
theorem compute_mask_complement_witness :
    ∃ rEQ rNE rGT rLE rGE rLT,
      compute_mask .EQ exIn32 3 exMask32 = .ok rEQ ∧
      compute_mask .NE exIn32 3 exMask32 = .ok rNE ∧
      compute_mask .GT exIn32 3 exMask32 = .ok rGT ∧
      compute_mask .LE exIn32 3 exMask32 = .ok rLE ∧
      compute_mask .GE exIn32 3 exMask32 = .ok rGE ∧
      compute_mask .LT exIn32 3 exMask32 = .ok rLT ∧
      ∀ idx, InBounds exIn32.layout.dims idx →
        (rEQ.data idx = 0 ∨ rEQ.data idx = 1) ∧ (rGT.data idx = 0 ∨ rGT.data idx = 1) ∧
        (rGE.data idx = 0 ∨ rGE.data idx = 1) ∧
        rNE.data idx = 1 - rEQ.data idx ∧ rLE.data idx = 1 - rGT.data idx ∧
        rLT.data idx = 1 - rGE.data idx :=
  compute_mask_complement exIn32 3 exMask32 exMask32 (by decide) rfl rfl

/-! ## The hyperslab printer: errors -/

theorem strip_idx_rank (l : FieldLayout) (i : Nat) (h : i < l.rank) :
    (l.strip_idx i).rank + 1 = l.rank := by
  simp only [FieldLayout.strip_idx, FieldLayout.rank] at *
  rw [List.length_eraseIdx]
  simp only [h, if_true]
  omega

theorem tags_length (l : FieldLayout) : l.tags.length = l.rank := by
  simp [FieldLayout.tags, FieldLayout.rank]

theorem apply_slices_layout {α : Type} (f : Field α) (tags : List FieldTag)
    (indices : List Nat) :
    (apply_slices f tags indices).layout = sliced_layout f.layout tags := by
  induction tags generalizing f indices with
  | nil => rfl
  | cons t ts ih =>
    show (apply_slices (f.subfield _ _) ts indices.tail).layout = _
    rw [ih]
    rfl

theorem apply_slices_name {α : Type} (f : Field α) (tags : List FieldTag)
    (indices : List Nat) : (apply_slices f tags indices).name = f.name := by
  induction tags generalizing f indices with
  | nil => rfl
  | cons t ts ih =>
    show (apply_slices (f.subfield _ _) ts indices.tail).name = _
    rw [ih]
    rfl

/-- The recursion of the printer, from any call on: if the slices still to be
taken are accepted, the call returns what the printing branch returns on the
fully sliced field; otherwise it returns an error and leaves the stream alone. -/
theorem print_rec_unroll {α : Type} (layout_str : FieldLayout → String)
    (e2str : FieldTag → String) (tags : List FieldTag) (indices : List Nat)
    (out : List (Tok α)) (R : Nat) (L0 : FieldLayout)
    (hlen : tags.length = indices.length) :
    ∀ (rest : List FieldTag) (k : Nat) (f : Field α) (parents : List FieldLayout)
      (fuel : Nat),
      tags.drop k = rest → k ≤ tags.length → rest.length ≤ fuel → f.layout.rank ≤ R →
      get_orig_header R (f.layout :: parents) = some L0 →
      (slices_accepted f.layout rest →
        print_field_hyperslab_rec layout_str e2str tags indices out R fuel f parents k
          = print_sliced_field layout_str (apply_slices f rest (indices.drop k)) L0 tags
              indices out) ∧
      (¬ slices_accepted f.layout rest →
        ∃ msg, print_field_hyperslab_rec layout_str e2str tags indices out R fuel f parents k
          = ⟨out, some msg⟩) := by
  intro rest
  induction rest with
  | nil =>
    intro k f parents fuel hdrop hk _ _ hhdr
    have hk2 : k = tags.length := by
      have := List.drop_eq_nil_iff.mp hdrop
      omega
    refine ⟨fun _ => ?_, fun h => absurd trivial h⟩
    have hl0 : ¬ tags.length ≠ indices.length := fun h => h hlen
    unfold print_field_hyperslab_rec
    simp only [if_neg hl0, hk2, if_true, hhdr]
    rfl
  | cons t ts ih =>
    intro k f parents fuel hdrop hk hfuel hR hhdr
    have hklt : k < tags.length := by
      by_contra hc
      have : tags.drop k = [] := List.drop_eq_nil_iff.mpr (by omega)
      rw [this] at hdrop
      exact List.noConfusion hdrop
    have hget : tags.get? k = some t := by
      have := List.head?_drop tags k
      rw [hdrop] at this
      simpa using this.symm
    have hdrop2 : tags.drop (k + 1) = ts := by
      have : tags.drop (k + 1) = (tags.drop k).tail := by
        rw [List.tail_drop]
      rw [this, hdrop]
      rfl
    have hidx : (indices.drop k).headD 0 = indices.getD k 0 := by
      rw [List.headD_eq_head?_getD, List.head?_drop, List.getD_eq_getElem?_getD]
    have hitail : (indices.drop k).tail = indices.drop (k + 1) := by
      rw [List.tail_drop]
    obtain ⟨fuel', rfl⟩ : ∃ fuel', fuel = fuel' + 1 :=
      ⟨fuel - 1, by simp only [List.length_cons] at hfuel; omega⟩
    have hne : k ≠ tags.length := by omega
    have hl0 : ¬ tags.length ≠ indices.length := fun h => h hlen
    by_cases hmem : t ∈ f.layout.tags
    · have hlt : f.layout.tags.indexOf t < f.layout.tags.length := List.indexOf_lt_length.mpr hmem
      have hnl : f.layout.tags.indexOf t ≠ f.layout.tags.length := by omega
      by_cases h2 : f.layout.tags.indexOf t < 2
      · have h01 : f.layout.tags.indexOf t = 0 ∨ f.layout.tags.indexOf t = 1 := by omega
        have hrank := strip_idx_rank f.layout (f.layout.tags.indexOf t)
          (by rw [← tags_length]; exact hlt)
        have hsubR : (f.layout.strip_idx (f.layout.tags.indexOf t)).rank ≤ R := by omega
        have hhdr2 : get_orig_header R
            ((f.subfield (f.layout.tags.indexOf t) (indices.getD k 0)).layout
              :: f.layout :: parents) = some L0 := by
          show get_orig_header R
            (f.layout.strip_idx (f.layout.tags.indexOf t) :: f.layout :: parents) = _
          rw [get_orig_header, if_pos (by omega)]
          exact hhdr
        obtain ⟨ih1, ih2⟩ := ih (k + 1)
          (f.subfield (f.layout.tags.indexOf t) (indices.getD k 0)) (f.layout :: parents)
          fuel' hdrop2 hklt (by simp only [List.length_cons] at hfuel; omega) hsubR hhdr2
        have hstep : print_field_hyperslab_rec layout_str e2str tags indices out R
              (fuel' + 1) f parents k
            = print_field_hyperslab_rec layout_str e2str tags indices out R fuel'
              (f.subfield (f.layout.tags.indexOf t) (indices.getD k 0))
              (f.layout :: parents) (k + 1) := by
          rw [print_field_hyperslab_rec]
          simp only [if_neg hl0, if_neg hne, hget, if_neg hnl, h01, not_true_eq_false, if_false]
        rw [hstep]
        constructor
        · intro hacc
          rw [ih1 hacc.2.2]
          show _ = print_sliced_field layout_str
            (apply_slices (f.subfield (f.layout.tags.indexOf t) ((indices.drop k).headD 0)) ts
              (indices.drop k).tail) L0 tags indices out
          rw [hidx, hitail]
        · intro hacc
          exact ih2 (fun h => hacc ⟨hmem, h2, h⟩)
      · refine ⟨fun hacc => absurd hacc.2.1 h2, fun _ => ?_⟩
        have h01 : ¬ (f.layout.tags.indexOf t = 0 ∨ f.layout.tags.indexOf t = 1) := by omega
        rw [print_field_hyperslab_rec]
        simp only [if_neg hl0, if_neg hne, hget, if_neg hnl, if_pos h01]
        exact ⟨_, rfl⟩
    · refine ⟨fun hacc => absurd hacc.1 hmem, fun _ => ?_⟩
      have hnl : f.layout.tags.indexOf t = f.layout.tags.length :=
        List.indexOf_eq_length.mpr hmem
      rw [print_field_hyperslab_rec]
      simp only [if_neg hl0, if_neg hne, hget, if_pos hnl]
      exact ⟨_, rfl⟩

/-- Claim C24, the code at a failing input. The field `g` of rank 5 with
extents (1,1,1,1,2) holds the two entries 1 and 2. Printed without slices, its
single run holds the entry 1 only: the innermost loop of the rank-5 case runs
over the extent of axis 3 (`layout.dim(3)`, here 1) instead of the extent of
the last axis (`layout.dim(4)`, here 2), so the entry at (0,0,0,0,1) is never
written. -/
theorem print_rank5_run_uses_extent3 :
    exRank5.layout.dims = [1, 1, 1, 1, 2] ∧ exRank5.data [0, 0, 0, 0, 1] = 2 ∧
    print_field_hyperslab exLayoutStr exTagStr exRank5 [] [] [] [] 5 0
      = ⟨[.text "     ", .text "g", .text "<layout>", .text "\n\n",
          .text "  ", .text "g", .text "(", .text "0,0,0,0,:", .text ")",
          .text "\n    ", .value 1, .text ", ", .text "\n"], none⟩ := by
  decide

/-! ## The hyperslab printer: labels -/

/-- Claim C25, the code at a failing input. The field `f` of layout (COL=2,
CMP=3, LEV=4) sliced at `<CMP,COL>/(1,0)`: both slices are accepted (CMP stands at position
1, then COL at position 0) and the run printed holds the entries
`f(0,1,0..3)`, but its label is `f(:,1,)`: the position of the sliced axis COL
holds ':' and the position of the remaining axis LEV is empty. The label the
claim describes is `f(0,1,:)`. The list `dims_left`, documented as the
dimensions that were not sliced away, holds the position 0 of the sliced axis
COL, and `dims_str` holds no index for it. -/
theorem print_label_out_of_order :
    slices_accepted exF234.layout [.CMP, .COL] ∧
    get_dims_left [.CMP, .COL] exF234.layout = [0, 2] ∧
    get_dims_str [.CMP, .COL] [1, 0] exF234.layout = ["", "1", ""] ∧
    print_field_hyperslab exLayoutStr exTagStr exF234 [] [.CMP, .COL] [1, 0] [] 3 0
      = ⟨[.text "     ", .text "f", .text "<layout>", .text "\n\n",
          .text "  ", .text "f", .text "(", .text ":,1,", .text ")",
          .text "\n    ", .value 10, .text ", ", .value 11, .text ", ", .value 12, .text ", ",
          .value 13, .text ", ", .text "\n"], none⟩ := by
  decide

/-! ## The hyperslab printer: the loops -/

theorem run_loop {α : Type} (g : Nat → α) (n : Nat) (out : List (Tok α)) :
    forLoop n (fun j (out : List (Tok α)) =>
        (if j % max_per_line = 0 then out ++ [Tok.text "\n    "] else out)
          ++ [Tok.value (g j), Tok.text ", "]) out
      = out ++ run_toks g n := by
  induction n with
  | zero => simp [forLoop, run_toks]
  | succ n ih =>
    rw [forLoop_succ, ih]
    simp only [run_toks, List.range_succ, List.flatMap_append, List.flatMap_cons,
      List.flatMap_nil, List.append_nil]
    by_cases h : n % max_per_line = 0
    · simp [h]
    · simp [h]

theorem AgreeOff.agree_refl (S : List Nat) (a : List String) : AgreeOff S a a :=
  ⟨rfl, fun _ _ => rfl⟩

theorem AgreeOff.agree_trans {S : List Nat} {a b c : List String} (h1 : AgreeOff S a b)
    (h2 : AgreeOff S b c) : AgreeOff S a c :=
  ⟨h1.1.trans h2.1, fun q hq => (h1.2 q hq).trans (h2.2 q hq)⟩

theorem AgreeOff.mono {S S' : List Nat} {a b : List String} (h : AgreeOff S a b)
    (hs : ∀ q, q ∈ S → q ∈ S') : AgreeOff S' a b :=
  ⟨h.1, fun q hq => h.2 q (fun hm => hq (hs q hm))⟩

theorem AgreeOff.set_self (a : List String) (p : Nat) (s : String) (S : List Nat) :
    AgreeOff (p :: S) (a.set p s) a := by
  refine ⟨List.length_set _ _ _, ?_⟩
  intro q hq
  have hne : p ≠ q := fun h => hq (h ▸ List.mem_cons_self _ _)
  simp only [List.get?_eq_getElem?]
  rw [List.getElem?_set_ne hne]

theorem AgreeOff.set_both {S : List Nat} {a b : List String} (p : Nat) (s : String)
    (h : AgreeOff (p :: S) a b) : AgreeOff S (a.set p s) (b.set p s) := by
  refine ⟨by rw [List.length_set, List.length_set]; exact h.1, ?_⟩
  intro q hq
  simp only [List.get?_eq_getElem?]
  by_cases hpq : p = q
  · subst hpq
    rw [List.getElem?_set_self', List.getElem?_set_self', ]
    have := h.1
    by_cases hlt : p < a.length
    · simp [List.getElem?_eq_getElem hlt, List.getElem?_eq_getElem (this ▸ hlt)]
    · simp [List.getElem?_eq_none (Nat.le_of_not_lt hlt),
        List.getElem?_eq_none (this ▸ Nat.le_of_not_lt hlt)]
  · rw [List.getElem?_set_ne hpq, List.getElem?_set_ne hpq]
    have := h.2 q (fun hm => by
      rcases List.mem_cons.mp hm with h1 | h1
      · exact hpq h1.symm
      · exact hq h1)
    simpa using this

theorem AgreeOff.eq_of_nil {a b : List String} (h : AgreeOff [] a b) : a = b := by
  apply List.ext_get? 
  intro q
  exact h.2 q (List.not_mem_nil q)

theorem set_all_agree (S : List Nat) (x : List Nat) (a b : List String)
    (hx : x.length = S.length) (h : AgreeOff S a b) :
    set_all a (S.zip x) = set_all b (S.zip x) := by
  induction S generalizing x a b with
  | nil => simpa [set_all] using h.eq_of_nil
  | cons p S ih =>
    cases x with
    | nil => simp at hx
    | cons i x =>
      show set_all (a.set p (toString i)) (S.zip x) = set_all (b.set p (toString i)) (S.zip x)
      exact ih x _ _ (by simpa using hx) (h.set_both p _)

theorem flatMap_congr_mem {β γ : Type} (L : List β) (F G : β → List γ)
    (h : ∀ x, x ∈ L → F x = G x) : L.flatMap F = L.flatMap G := by
  induction L with
  | nil => rfl
  | cons a L ih =>
    rw [List.flatMap_cons, List.flatMap_cons, h a (List.mem_cons_self _ _),
      ih (fun x hx => h x (List.mem_cons_of_mem _ hx))]

/-- The loops over the outer axes print one leaf per index tuple, in row-major
order; the leaf of the tuple `x` sees `dims_str` with the indices of `x`
written at the positions of the axes. -/
theorem print_nest_out {α : Type}
    (leaf : List Nat → List String → List (Tok α) → List (Tok α))
    (leafW : List Nat → List String → List (Tok α))
    (hleaf : ∀ o ds out, leaf o ds out = out ++ leafW o ds) :
    ∀ (axes : List (Nat × Nat)) (o : List Nat) (out : List (Tok α)) (ds : List String),
      ∃ ds', print_nest leaf axes o (out, ds)
          = (out ++ (indexSpace (axes.map Prod.fst)).flatMap (fun x =>
              leafW (o ++ x) (set_all ds ((axes.map Prod.snd).zip x))), ds') ∧
        AgreeOff (axes.map Prod.snd) ds' ds := by
  intro axes
  induction axes with
  | nil =>
    intro o out ds
    refine ⟨ds, ?_, AgreeOff.agree_refl _ _⟩
    simp [print_nest, hleaf, indexSpace, set_all]
  | cons a axes ih =>
    intro o out ds
    obtain ⟨n, p⟩ := a
    show ∃ ds', forLoop n (fun i st =>
        print_nest leaf axes (o ++ [i]) (st.1, st.2.set p (toString i))) (out, ds)
      = (out ++ (indexSpace (n :: axes.map Prod.fst)).flatMap (fun x =>
          leafW (o ++ x) (set_all ds ((p :: axes.map Prod.snd).zip x))), ds') ∧
      AgreeOff (p :: axes.map Prod.snd) ds' ds
    induction n with
    | zero =>
      refine ⟨ds, ?_, AgreeOff.agree_refl _ _⟩
      simp [forLoop, indexSpace]
    | succ m ihm =>
      obtain ⟨dsm, hm, ham⟩ := ihm
      obtain ⟨ds2, h2, ha2⟩ := ih (o ++ [m])
        (out ++ (indexSpace (m :: axes.map Prod.fst)).flatMap (fun x =>
          leafW (o ++ x) (set_all ds ((p :: axes.map Prod.snd).zip x))))
        (dsm.set p (toString m))
      refine ⟨ds2, ?_, ?_⟩
      · have key : (indexSpace (axes.map Prod.fst)).flatMap (fun x =>
              leafW (o ++ [m] ++ x)
                (set_all (dsm.set p (toString m)) ((axes.map Prod.snd).zip x)))
            = ((indexSpace (axes.map Prod.fst)).map (fun idx => m :: idx)).flatMap (fun x =>
              leafW (o ++ x) (set_all ds ((p :: axes.map Prod.snd).zip x))) := by
          rw [List.flatMap_map]
          apply flatMap_congr_mem
          intro x hx
          have hxl : x.length = (axes.map Prod.snd).length := by
            have := InBounds.length_eq ((mem_indexSpace _ _).mp hx)
            simpa using this
          rw [set_all_agree (axes.map Prod.snd) x (dsm.set p (toString m))
            (ds.set p (toString m)) hxl (ham.set_both p _)]
          simp only [List.append_assoc, List.singleton_append, List.zip_cons_cons, set_all]
          rfl
        rw [forLoop_succ, hm]
        show print_nest leaf axes (o ++ [m]) (_, dsm.set p (toString m)) = _
        rw [h2, indexSpace_succ, List.flatMap_append, List.append_assoc, key]
      · exact (ha2.mono (fun q hq => List.mem_cons_of_mem _ hq)).agree_trans
          ((AgreeOff.set_self dsm p (toString m) (axes.map Prod.snd)).agree_trans ham)

theorem run_leaf_eq {α : Type} (name : String) (g : List Nat → α) (n : Nat) (o : List Nat)
    (dims_str : List String) (out : List (Tok α)) :
    run_leaf name g n o dims_str out = out ++ run_block name g n o dims_str := by
  simp only [run_leaf, run_block, label_toks, run_loop, List.append_assoc]

theorem print_sliced_field_rank1 {α : Type} (layout_str : FieldLayout → String)
    (G : Field α) (L0 : FieldLayout) (tags : List FieldTag) (indices : List Nat)
    (out : List (Tok α)) (d0 : Nat) (hd : G.layout.dims = [d0]) :
    print_sliced_field layout_str G L0 tags indices out
      = ⟨(print_nest (run_leaf G.name G.data d0)
            [] []
            (out ++ header_toks layout_str G.name L0,
              (get_dims_str tags indices L0).set ((get_dims_left tags L0).getD 0 0) ":")).1,
          none⟩ := by
  have hr : G.layout.rank = 1 := FieldLayout.rank_of_dims _ _ hd
  have h0 : G.layout.dim 0 = d0 := FieldLayout.dim_of_dims _ _ hd 0
  simp only [print_sliced_field, hr, h0, Field.get_strided_view_ok G 1 hr]
  rfl

theorem print_sliced_field_rank2 {α : Type} (layout_str : FieldLayout → String)
    (G : Field α) (L0 : FieldLayout) (tags : List FieldTag) (indices : List Nat)
    (out : List (Tok α)) (d0 d1 : Nat) (hd : G.layout.dims = [d0, d1]) :
    print_sliced_field layout_str G L0 tags indices out
      = ⟨(print_nest (run_leaf G.name G.data d1)
            [(d0, (get_dims_left tags L0).getD 0 0)] []
            (out ++ header_toks layout_str G.name L0,
              (get_dims_str tags indices L0).set ((get_dims_left tags L0).getD 1 0) ":")).1,
          none⟩ := by
  have hr : G.layout.rank = 2 := FieldLayout.rank_of_dims _ _ hd
  have h0 : G.layout.dim 0 = d0 := FieldLayout.dim_of_dims _ _ hd 0
  have h1 : G.layout.dim 1 = d1 := FieldLayout.dim_of_dims _ _ hd 1
  simp only [print_sliced_field, hr, h0, h1, Field.get_strided_view_ok G 2 hr]
  rfl

theorem print_sliced_field_rank3 {α : Type} (layout_str : FieldLayout → String)
    (G : Field α) (L0 : FieldLayout) (tags : List FieldTag) (indices : List Nat)
    (out : List (Tok α)) (d0 d1 d2 : Nat) (hd : G.layout.dims = [d0, d1, d2]) :
    print_sliced_field layout_str G L0 tags indices out
      = ⟨(print_nest (run_leaf G.name G.data d2)
            [(d0, (get_dims_left tags L0).getD 0 0), (d1, (get_dims_left tags L0).getD 1 0)] []
            (out ++ header_toks layout_str G.name L0,
              (get_dims_str tags indices L0).set ((get_dims_left tags L0).getD 2 0) ":")).1,
          none⟩ := by
  have hr : G.layout.rank = 3 := FieldLayout.rank_of_dims _ _ hd
  have h0 : G.layout.dim 0 = d0 := FieldLayout.dim_of_dims _ _ hd 0
  have h1 : G.layout.dim 1 = d1 := FieldLayout.dim_of_dims _ _ hd 1
  have h2 : G.layout.dim 2 = d2 := FieldLayout.dim_of_dims _ _ hd 2
  simp only [print_sliced_field, hr, h0, h1, h2, Field.get_strided_view_ok G 3 hr]
  rfl

theorem print_sliced_field_rank4 {α : Type} (layout_str : FieldLayout → String)
    (G : Field α) (L0 : FieldLayout) (tags : List FieldTag) (indices : List Nat)
    (out : List (Tok α)) (d0 d1 d2 d3 : Nat) (hd : G.layout.dims = [d0, d1, d2, d3]) :
    print_sliced_field layout_str G L0 tags indices out
      = ⟨(print_nest (run_leaf G.name G.data d3)
            [(d0, (get_dims_left tags L0).getD 0 0), (d1, (get_dims_left tags L0).getD 1 0), (d2, (get_dims_left tags L0).getD 2 0)] []
            (out ++ header_toks layout_str G.name L0,
              (get_dims_str tags indices L0).set ((get_dims_left tags L0).getD 3 0) ":")).1,
          none⟩ := by
  have hr : G.layout.rank = 4 := FieldLayout.rank_of_dims _ _ hd
  have h0 : G.layout.dim 0 = d0 := FieldLayout.dim_of_dims _ _ hd 0
  have h1 : G.layout.dim 1 = d1 := FieldLayout.dim_of_dims _ _ hd 1
  have h2 : G.layout.dim 2 = d2 := FieldLayout.dim_of_dims _ _ hd 2
  have h3 : G.layout.dim 3 = d3 := FieldLayout.dim_of_dims _ _ hd 3
  simp only [print_sliced_field, hr, h0, h1, h2, h3, Field.get_strided_view_ok G 4 hr]
  rfl

theorem print_sliced_field_rank5 {α : Type} (layout_str : FieldLayout → String)
    (G : Field α) (L0 : FieldLayout) (tags : List FieldTag) (indices : List Nat)
    (out : List (Tok α)) (d0 d1 d2 d3 d4 : Nat) (hd : G.layout.dims = [d0, d1, d2, d3, d4]) :
    print_sliced_field layout_str G L0 tags indices out
      = ⟨(print_nest (run_leaf G.name G.data d3)
            [(d0, (get_dims_left tags L0).getD 0 0), (d1, (get_dims_left tags L0).getD 1 0), (d2, (get_dims_left tags L0).getD 2 0), (d3, (get_dims_left tags L0).getD 3 0)] []
            (out ++ header_toks layout_str G.name L0,
              (get_dims_str tags indices L0).set ((get_dims_left tags L0).getD 4 0) ":")).1,
          none⟩ := by
  have hr : G.layout.rank = 5 := FieldLayout.rank_of_dims _ _ hd
  have h0 : G.layout.dim 0 = d0 := FieldLayout.dim_of_dims _ _ hd 0
  have h1 : G.layout.dim 1 = d1 := FieldLayout.dim_of_dims _ _ hd 1
  have h2 : G.layout.dim 2 = d2 := FieldLayout.dim_of_dims _ _ hd 2
  have h3 : G.layout.dim 3 = d3 := FieldLayout.dim_of_dims _ _ hd 3
  have h4 : G.layout.dim 4 = d4 := FieldLayout.dim_of_dims _ _ hd 4
  simp only [print_sliced_field, hr, h0, h1, h2, h3, h4, Field.get_strided_view_ok G 5 hr]
  rfl

theorem print_nest_blocks {α : Type} (name : String) (g : List Nat → α) (n : Nat)
    (axes : List (Nat × Nat)) (out : List (Tok α)) (ds : List String) :
    (print_nest (run_leaf name g n) axes [] (out, ds)).1
      = out ++ (indexSpace (axes.map Prod.fst)).flatMap (fun x =>
          run_block name g n x (set_all ds ((axes.map Prod.snd).zip x))) := by
  obtain ⟨ds', h, -⟩ := print_nest_out (run_leaf name g n) (run_block name g n)
    (run_leaf_eq name g n) axes [] out ds
  rw [h]
  simp only [List.nil_append]

/-- The printing branch on a field `G` of rank 1 to 5: after the header, one
run per index tuple `x` of the outer axes, in row-major order; the label of the
run is `dims_str` with ':' at the position `dims_left[rank-1]` and the indices
of `x` at the positions `dims_left[0..rank-2]`; the run holds the entries
`G(x, j)` for `j` below the extent of the last axis (of axis 3 when the rank
is 5). -/
theorem print_sliced_field_out {α : Type} (layout_str : FieldLayout → String)
    (G : Field α) (L0 : FieldLayout) (tags : List FieldTag) (indices : List Nat)
    (out : List (Tok α)) (h1 : 1 ≤ G.layout.rank) (h5 : G.layout.rank ≤ 5) :
    print_sliced_field layout_str G L0 tags indices out
      = ⟨out ++ header_toks layout_str G.name L0
          ++ (indexSpace (G.layout.dims.take (G.layout.rank - 1))).flatMap (fun x =>
              run_block G.name G.data
                (if G.layout.rank = 5 then G.layout.dim 3 else G.layout.dim (G.layout.rank - 1))
                x
                (set_all
                  ((get_dims_str tags indices L0).set
                    ((get_dims_left tags L0).getD (G.layout.rank - 1) 0) ":")
                  (((List.range (G.layout.rank - 1)).map
                    (fun k => (get_dims_left tags L0).getD k 0)).zip x))),
          none⟩ := by
  have hlen : G.layout.dims.length = G.layout.rank := by
    simp [FieldLayout.dims, FieldLayout.rank]
  rw [← hlen] at h1 h5
  match hd : G.layout.dims, h1, h5 with
  | [d0], _, _ =>
    have hr : G.layout.rank = 1 := FieldLayout.rank_of_dims _ _ hd
    rw [print_sliced_field_rank1 layout_str G L0 tags indices out d0 hd, print_nest_blocks,
      hr]
    simp [FieldLayout.dim, hd]
  | [d0, d1], _, _ =>
    have hr : G.layout.rank = 2 := FieldLayout.rank_of_dims _ _ hd
    rw [print_sliced_field_rank2 layout_str G L0 tags indices out d0 d1 hd,
      print_nest_blocks, hr]
    simp [FieldLayout.dim, hd, List.range_succ]
  | [d0, d1, d2], _, _ =>
    have hr : G.layout.rank = 3 := FieldLayout.rank_of_dims _ _ hd
    rw [print_sliced_field_rank3 layout_str G L0 tags indices out d0 d1 d2 hd,
      print_nest_blocks, hr]
    simp [FieldLayout.dim, hd, List.range_succ]
  | [d0, d1, d2, d3], _, _ =>
    have hr : G.layout.rank = 4 := FieldLayout.rank_of_dims _ _ hd
    rw [print_sliced_field_rank4 layout_str G L0 tags indices out d0 d1 d2 d3 hd,
      print_nest_blocks, hr]
    simp [FieldLayout.dim, hd, List.range_succ]
  | [d0, d1, d2, d3, d4], _, _ =>
    have hr : G.layout.rank = 5 := FieldLayout.rank_of_dims _ _ hd
    rw [print_sliced_field_rank5 layout_str G L0 tags indices out d0 d1 d2 d3 d4 hd,
      print_nest_blocks, hr]
    simp [FieldLayout.dim, hd, List.range_succ]
  | [], h, _ => simp at h
  | _ :: _ :: _ :: _ :: _ :: _ :: _, _, h => simp at h

/-! ## The hyperslab printer: the label of a run -/

theorem set_all_eq_write_all (ds : List String) (ws : List (Nat × Nat)) :
    set_all ds ws = write_all ds (ws.map (fun w => (w.1, toString w.2))) := by
  induction ws generalizing ds with
  | nil => rfl
  | cons w ws ih =>
    show set_all (ds.set w.1 (toString w.2)) ws = write_all (ds.set w.1 (toString w.2)) _
    exact ih _

theorem write_all_append (ds : List String) (ws1 ws2 : List (Nat × String)) :
    write_all ds (ws1 ++ ws2) = write_all (write_all ds ws1) ws2 := by
  induction ws1 generalizing ds with
  | nil => rfl
  | cons w ws ih => exact ih _

theorem write_all_set_comm (ds : List String) (p : Nat) (s : String)
    (ws : List (Nat × String)) (hp : ∀ w ∈ ws, w.1 ≠ p) :
    write_all (ds.set p s) ws = (write_all ds ws).set p s := by
  induction ws generalizing ds with
  | nil => rfl
  | cons w ws ih =>
    show write_all ((ds.set p s).set w.1 w.2) ws = (write_all (ds.set w.1 w.2) ws).set p s
    rw [List.set_comm _ _ _ (hp w (List.mem_cons_self _ _)).symm]
    exact ih _ (fun w' hw' => hp w' (List.mem_cons_of_mem _ hw'))

theorem free_positions_ge (tags : List FieldTag) (ii : Nat) (T : List FieldTag) :
    ∀ q ∈ free_positions tags ii T, ii ≤ q := by
  induction T generalizing ii with
  | nil => intro q hq; simp [free_positions] at hq
  | cons t T ih =>
    intro q hq
    by_cases ht : t ∈ tags
    · simp only [free_positions, ht, if_true] at hq
      exact Nat.le_of_succ_le (ih (ii + 1) q hq)
    · simp only [free_positions, ht, if_false, List.mem_cons] at hq
      rcases hq with h | h
      · omega
      · exact Nat.le_of_succ_le (ih (ii + 1) q h)

theorem free_positions_length (tags : List FieldTag) (ii : Nat) (T : List FieldTag) :
    (free_positions tags ii T).length = (T.filter (fun t => decide (t ∉ tags))).length := by
  induction T generalizing ii with
  | nil => rfl
  | cons t T ih =>
    by_cases ht : t ∈ tags
    · simp [free_positions, ht, ih]
    · simp [free_positions, ht, ih]

/-- Writing the strings `vals` at the free positions of the fixed strings gives
the expected label. -/
theorem write_all_free (tags : List FieldTag) (indices : List Nat) (T : List FieldTag) :
    ∀ (pre : List String) (vals : List String),
      vals.length = (free_positions tags pre.length T).length →
      write_all (pre ++ fixed_strings tags indices T)
          ((free_positions tags pre.length T).zip vals)
        = pre ++ expected_label tags indices T vals := by
  induction T with
  | nil =>
    intro pre vals _
    simp [fixed_strings, free_positions, write_all, expected_label]
  | cons t T ih =>
    intro pre vals hv
    by_cases ht : t ∈ tags
    · have := ih (pre ++ [toString (indices.getD (tags.indexOf t) 0)]) vals
        (by simpa [free_positions, ht] using hv)
      simp only [List.length_append, List.length_singleton, List.append_assoc,
        List.singleton_append] at this
      simpa [fixed_strings, free_positions, ht, expected_label] using this
    · cases vals with
      | nil => simp [free_positions, ht] at hv
      | cons v vals =>
        have := ih (pre ++ [v]) vals (by simpa [free_positions, ht] using hv)
        simp only [List.length_append, List.length_singleton, List.append_assoc,
          List.singleton_append] at this
        simp only [fixed_strings, free_positions, ht, if_false, expected_label,
          List.map_cons, List.zip_cons_cons, write_all, List.headD_cons, List.tail_cons]
        rw [List.set_append_right _ _ (Nat.le_refl _), Nat.sub_self, List.set_cons_zero]
        exact this

/-! ## The hyperslab printer: matching the tags with the original layout -/

/-- With tags listed in the order of a layout without repeated tags, the axis
next in line is a sliced axis exactly when it carries the tag next in line. -/
theorem head_match (T Tpre T' : List FieldTag) (t : FieldTag)
    (tags tagsDone tagsRem : List FieldTag)
    (hT : T = Tpre ++ t :: T') (htags : tags = tagsDone ++ tagsRem) (hnd : T.Nodup)
    (hsub : tagsRem.Sublist (t :: T')) (hdone : ∀ s ∈ tagsDone, s ∈ Tpre) :
    (t ∈ tags → ∃ r, tagsRem = t :: r ∧ r.Sublist T' ∧ tags.indexOf t = tagsDone.length) ∧
    (t ∉ tags → tagsRem.Sublist T' ∧ tagsRem.head? ≠ some t) := by
  rw [hT] at hnd
  obtain ⟨-, hnd2, hdisj⟩ := List.nodup_append.mp hnd
  have htT' : t ∉ T' := (List.nodup_cons.mp hnd2).1
  have htd : t ∉ tagsDone := fun h => hdisj (hdone t h) (List.mem_cons_self _ _)
  constructor
  · intro ht
    rw [htags] at ht
    have htr : t ∈ tagsRem := by
      rcases List.mem_append.mp ht with h | h
      · exact absurd h htd
      · exact h
    rcases List.sublist_cons_iff.mp hsub with h | ⟨r, hr, hrs⟩
    · exact absurd (h.subset htr) htT'
    · refine ⟨r, hr, hrs, ?_⟩
      rw [htags, List.indexOf_append_of_not_mem htd, hr, List.indexOf_cons_self, Nat.add_zero]
  · intro ht
    have hne : tagsRem.head? ≠ some t := by
      intro h
      apply ht
      rw [htags]
      exact List.mem_append_right _ (List.mem_of_mem_head? h)
    rcases List.sublist_cons_iff.mp hsub with h | ⟨r, hr, -⟩
    · exact ⟨h, hne⟩
    · rw [hr] at hne
      exact absurd rfl hne

theorem get?_split (Tpre : List FieldTag) (t : FieldTag) (T' : List FieldTag) :
    (Tpre ++ t :: T').get? Tpre.length = some t := by
  rw [List.get?_eq_getElem?, List.getElem?_append_right (Nat.le_refl _)]
  simp

theorem get?_done (tagsDone tagsRem : List FieldTag) :
    (tagsDone ++ tagsRem).get? tagsDone.length = tagsRem.head? := by
  rw [List.get?_eq_getElem?, List.getElem?_append_right (Nat.le_refl _)]
  cases tagsRem with
  | nil => simp
  | cons a r => simp

/-- The loop of `get_dims_left`, from any position on. -/
theorem dims_left_loop (T tags : List FieldTag) (hnd : T.Nodup) :
    ∀ (Tsuf Tpre tagsDone tagsRem : List FieldTag) (dl : List Nat),
      T = Tpre ++ Tsuf → tags = tagsDone ++ tagsRem → tagsRem.Sublist Tsuf →
      (∀ s ∈ tagsDone, s ∈ Tpre) →
      ∃ jj, (List.range' Tpre.length Tsuf.length).foldl (fun (st : List Nat × Nat) ii =>
          if st.2 < tags.length ∧ T.get? ii = tags.get? st.2 then (st.1, st.2 + 1)
          else (st.1 ++ [ii], st.2)) (dl, tagsDone.length)
        = (dl ++ free_positions tags Tpre.length Tsuf, jj) := by
  intro Tsuf
  induction Tsuf with
  | nil =>
    intro Tpre tagsDone tagsRem dl _ _ _ _
    exact ⟨tagsDone.length, by simp [free_positions]⟩
  | cons t T' ih =>
    intro Tpre tagsDone tagsRem dl hT htags hsub hdone
    obtain ⟨hin, hout⟩ := head_match T Tpre T' t tags tagsDone tagsRem hT htags hnd hsub hdone
    have hT2 : T = (Tpre ++ [t]) ++ T' := by rw [hT]; simp
    have hTget : T.get? Tpre.length = some t := by rw [hT]; exact get?_split _ _ _
    have htget : tags.get? tagsDone.length = tagsRem.head? := by
      rw [htags]; exact get?_done _ _
    rw [List.length_cons, List.range'_succ, List.foldl_cons]
    by_cases ht : t ∈ tags
    · obtain ⟨r, hr, hrs, -⟩ := hin ht
      have hlt : tagsDone.length < tags.length := by
        rw [htags, hr]; simp
      have hcond : tagsDone.length < tags.length ∧ T.get? Tpre.length = tags.get? tagsDone.length := by
        refine ⟨hlt, ?_⟩
        rw [hTget, htget, hr]; rfl
      obtain ⟨jj, hjj⟩ := ih (Tpre ++ [t]) (tagsDone ++ [t]) r dl hT2
        (by rw [htags, hr]; simp) hrs
        (by
          intro s hs
          rcases List.mem_append.mp hs with h | h
          · exact List.mem_append_left _ (hdone s h)
          · exact List.mem_append_right _ h)
      refine ⟨jj, ?_⟩
      simp only [hcond, and_self, if_true]
      simp only [List.length_append, List.length_singleton] at hjj
      rw [hjj]
      simp [free_positions, ht]
    · obtain ⟨hrs, hne⟩ := hout ht
      have hcond : ¬ (tagsDone.length < tags.length ∧
          T.get? Tpre.length = tags.get? tagsDone.length) := by
        rintro ⟨-, h⟩
        rw [hTget, htget] at h
        exact hne h.symm
      obtain ⟨jj, hjj⟩ := ih (Tpre ++ [t]) tagsDone tagsRem (dl ++ [Tpre.length]) hT2 htags hrs
        (fun s hs => List.mem_append_left _ (hdone s hs))
      refine ⟨jj, ?_⟩
      simp only [hcond, if_false]
      simp only [List.length_append, List.length_singleton] at hjj
      rw [hjj]
      simp [free_positions, ht]

/-- Under tags listed in the order of a layout without repeated tags,
`get_dims_left` returns the positions of the axes that are not sliced. -/
theorem get_dims_left_eq (tags : List FieldTag) (L0 : FieldLayout) (hnd : L0.tags.Nodup)
    (hsub : tags.Sublist L0.tags) :
    get_dims_left tags L0 = free_positions tags 0 L0.tags := by
  obtain ⟨jj, hjj⟩ := dims_left_loop L0.tags tags hnd L0.tags [] [] tags [] rfl rfl hsub
    (fun s hs => absurd hs (List.not_mem_nil s))
  simp only [get_dims_left, forLoop, List.range_eq_range', ← tags_length]
  simp only [List.length_nil, List.nil_append] at hjj
  rw [hjj]

theorem fixed_strings_untagged (tags : List FieldTag) (indices : List Nat) :
    ∀ T : List FieldTag, (∀ t ∈ T, t ∉ tags) →
      fixed_strings tags indices T = List.replicate T.length "" := by
  intro T
  induction T with
  | nil => intro _; rfl
  | cons t T' ih =>
    intro h
    have ht : t ∉ tags := h t (List.mem_cons_self _ _)
    have := ih (fun s hs => h s (List.mem_cons_of_mem _ hs))
    simp only [fixed_strings] at this ⊢
    rw [List.map_cons, this, if_neg ht]
    rfl

theorem set_at_split (pre : List String) (v w : String) (rest : List String) :
    (pre ++ w :: rest).set pre.length v = (pre ++ [v]) ++ rest := by
  induction pre with
  | nil => rfl
  | cons a p ih => simp [List.set, ih]

/-- The loop of `get_dims_str`, from any position on. -/
theorem dims_str_loop (T tags : List FieldTag) (indices : List Nat) (hnd : T.Nodup) :
    ∀ (Tsuf Tpre tagsDone tagsRem : List FieldTag) (pre : List String),
      T = Tpre ++ Tsuf → tags = tagsDone ++ tagsRem → tagsRem.Sublist Tsuf →
      (∀ s ∈ tagsDone, s ∈ Tpre) → pre.length = Tpre.length →
      ∃ jj, forLoopGuard (fun (st : List String × Nat) => decide (st.2 < tags.length))
          (fun ii (st : List String × Nat) =>
            if T.get? ii = tags.get? st.2 then
              (st.1.set ii (toString (indices.getD st.2 0)), st.2 + 1)
            else st)
          (List.range' Tpre.length Tsuf.length)
          (pre ++ List.replicate Tsuf.length "", tagsDone.length)
        = (pre ++ fixed_strings tags indices Tsuf, jj) := by
  intro Tsuf
  induction Tsuf with
  | nil =>
    intro Tpre tagsDone tagsRem pre _ _ _ _ _
    exact ⟨tagsDone.length, by simp [fixed_strings, forLoopGuard]⟩
  | cons t T' ih =>
    intro Tpre tagsDone tagsRem pre hT htags hsub hdone hpre
    obtain ⟨hin, hout⟩ := head_match T Tpre T' t tags tagsDone tagsRem hT htags hnd hsub hdone
    have hT2 : T = (Tpre ++ [t]) ++ T' := by rw [hT]; simp
    have hTget : T.get? Tpre.length = some t := by rw [hT]; exact get?_split _ _ _
    have htget : tags.get? tagsDone.length = tagsRem.head? := by
      rw [htags]; exact get?_done _ _
    rw [List.length_cons, List.range'_succ, forLoopGuard]
    by_cases hg : tagsDone.length < tags.length
    · simp only [hg, decide_True, if_true]
      by_cases ht : t ∈ tags
      · obtain ⟨r, hr, hrs, hidx⟩ := hin ht
        have hcond : T.get? Tpre.length = tags.get? tagsDone.length := by
          rw [hTget, htget, hr]; rfl
        obtain ⟨jj, hjj⟩ := ih (Tpre ++ [t]) (tagsDone ++ [t]) r
          (pre ++ [toString (indices.getD tagsDone.length 0)]) hT2
          (by rw [htags, hr]; simp) hrs
          (by
            intro s hs
            rcases List.mem_append.mp hs with h | h
            · exact List.mem_append_left _ (hdone s h)
            · exact List.mem_append_right _ h)
          (by simp [hpre])
        refine ⟨jj, ?_⟩
        simp only [hcond, if_true]
        simp only [List.length_append, List.length_singleton] at hjj
        rw [List.replicate_succ, ← hpre, set_at_split, hpre, hjj]
        simp [fixed_strings, ht, hidx]
      · obtain ⟨hrs, hne⟩ := hout ht
        have hcond : ¬ (T.get? Tpre.length = tags.get? tagsDone.length) := by
          intro h
          rw [hTget, htget] at h
          exact hne h.symm
        obtain ⟨jj, hjj⟩ := ih (Tpre ++ [t]) tagsDone tagsRem (pre ++ [""]) hT2 htags hrs
          (fun s hs => List.mem_append_left _ (hdone s hs)) (by simp [hpre])
        refine ⟨jj, ?_⟩
        simp only [hcond, if_false]
        simp only [List.length_append, List.length_singleton] at hjj
        have hsplit : pre ++ List.replicate (T'.length + 1) "" =
            (pre ++ [""]) ++ List.replicate T'.length "" := by
          simp [List.replicate_succ]
        rw [hsplit, hjj]
        simp [fixed_strings, ht]
    · refine ⟨tagsDone.length, ?_⟩
      simp only [hg, decide_False, Bool.false_eq_true, if_false]
      have hrem : tagsRem = [] := by
        have : (tagsDone ++ tagsRem).length ≤ tagsDone.length := by
          rw [← htags]; exact Nat.le_of_not_lt hg
        simp only [List.length_append] at this
        exact List.eq_nil_of_length_eq_zero (by omega)
      have hnd2 := hnd
      rw [hT] at hnd2
      obtain ⟨-, -, hdisj⟩ := List.nodup_append.mp hnd2
      have hun : ∀ s ∈ t :: T', s ∉ tags := by
        intro s hs hst
        rw [htags, hrem, List.append_nil] at hst
        exact hdisj (hdone s hst) hs
      rw [fixed_strings_untagged tags indices (t :: T') hun]
      rfl

/-- Under tags listed in the order of a layout without repeated tags,
`get_dims_str` holds the requested index at every sliced axis and the empty
string elsewhere. -/
theorem get_dims_str_eq (tags : List FieldTag) (indices : List Nat) (L0 : FieldLayout)
    (hnd : L0.tags.Nodup) (hsub : tags.Sublist L0.tags) :
    get_dims_str tags indices L0 = fixed_strings tags indices L0.tags := by
  obtain ⟨jj, hjj⟩ := dims_str_loop L0.tags tags indices hnd L0.tags [] [] tags [] rfl rfl hsub
    (fun s hs => absurd hs (List.not_mem_nil s)) rfl
  simp only [get_dims_str, List.range_eq_range', ← tags_length]
  simp only [List.length_nil, List.nil_append] at hjj
  rw [hjj]

/-! ## The hyperslab printer: the positions that are not sliced -/

/-- The positions of the axes that are not sliced are strictly increasing. -/
theorem free_positions_sorted (tags : List FieldTag) (ii : Nat) (T : List FieldTag) :
    (free_positions tags ii T).Pairwise (fun a b => a < b) := by
  induction T generalizing ii with
  | nil => exact List.Pairwise.nil
  | cons t T ih =>
    by_cases ht : t ∈ tags
    · simp only [free_positions, ht, if_true]
      exact ih (ii + 1)
    · simp only [free_positions, ht, if_false]
      exact List.Pairwise.cons (fun q hq => free_positions_ge tags (ii + 1) T q hq) (ih (ii + 1))

theorem free_positions_congr (tags tags2 : List FieldTag) (ii : Nat) (T : List FieldTag)
    (h : ∀ s ∈ T, (s ∈ tags ↔ s ∈ tags2)) :
    free_positions tags ii T = free_positions tags2 ii T := by
  induction T generalizing ii with
  | nil => rfl
  | cons t T ih =>
    have hT := ih (ii + 1) (fun s hs => h s (List.mem_cons_of_mem _ hs))
    by_cases ht : t ∈ tags
    · have ht2 : t ∈ tags2 := (h t (List.mem_cons_self _ _)).mp ht
      simp only [free_positions, ht, ht2, if_true, hT]
    · have ht2 : t ∉ tags2 := fun h2 => ht ((h t (List.mem_cons_self _ _)).mpr h2)
      simp only [free_positions, ht, ht2, if_false, hT]

/-- With tags listed in the order of a layout without repeated tags, every tag
slices one axis: the axes that are not sliced and the tags make up the rank. -/
theorem free_positions_count (T : List FieldTag) :
    ∀ (tags : List FieldTag) (ii : Nat), T.Nodup → tags.Sublist T →
      (free_positions tags ii T).length + tags.length = T.length := by
  induction T with
  | nil =>
    intro tags ii _ hsub
    rw [List.sublist_nil.mp hsub]
    rfl
  | cons t T ih =>
    intro tags ii hnd hsub
    obtain ⟨htT, hndT⟩ := List.nodup_cons.mp hnd
    rcases List.sublist_cons_iff.mp hsub with h | ⟨r, hr, hrs⟩
    · have ht : t ∉ tags := fun h2 => htT (h.subset h2)
      simp only [free_positions, ht, if_false, List.length_cons]
      have := ih tags (ii + 1) hndT h
      omega
    · have ht : t ∈ tags := by rw [hr]; exact List.mem_cons_self _ _
      have hc : free_positions tags (ii + 1) T = free_positions r (ii + 1) T := by
        apply free_positions_congr
        intro s hs
        rw [hr, List.mem_cons]
        constructor
        · rintro (h | h)
          · exact absurd (h ▸ hs) htT
          · exact h
        · exact Or.inr
      simp only [free_positions, ht, if_true, hc]
      have := ih r (ii + 1) hndT hrs
      rw [hr, List.length_cons, List.length_cons]
      omega

/-- Every accepted slice removes one axis. -/
theorem sliced_layout_rank (tags : List FieldTag) :
    ∀ l : FieldLayout, slices_accepted l tags →
      (sliced_layout l tags).rank + tags.length = l.rank := by
  induction tags with
  | nil => intro l _; rfl
  | cons t ts ih =>
    intro l h
    obtain ⟨hmem, -, hacc⟩ := h
    have hi : l.tags.indexOf t < l.rank := by
      rw [← tags_length]
      exact List.indexOf_lt_length.mpr hmem
    have h1 := strip_idx_rank l (l.tags.indexOf t) hi
    have h2 := ih _ hacc
    show (sliced_layout (l.strip_idx (l.tags.indexOf t)) ts).rank + (ts.length + 1) = l.rank
    omega

theorem range_map_getD (l : List Nat) (m : Nat) (hm : m ≤ l.length) :
    (List.range m).map (fun k => l.getD k 0) = l.take m := by
  apply List.ext_getElem
  · simp [hm]
  · intro n h1 h2
    simp only [List.length_map, List.length_range] at h1
    simp [List.getD_eq_getElem?_getD, List.getElem?_eq_getElem (Nat.lt_of_lt_of_le h1 hm)]

theorem take_append_last (l : List Nat) (h : 1 ≤ l.length) :
    l.take (l.length - 1) ++ [l.getD (l.length - 1) 0] = l := by
  have hlt : l.length - 1 < l.length := by omega
  conv => rhs; rw [← List.take_append_drop (l.length - 1) l]
  congr 1
  rw [List.drop_eq_getElem_cons hlt]
  have : l.length - 1 + 1 = l.length := by omega
  simp [this, List.getD_eq_getElem?_getD, List.getElem?_eq_getElem hlt]

/-- The label of a run: with the strings of the sliced axes in place, writing
':' at the last free position and then the loop indices `x` at the free
positions before it gives the label with one position per axis of the original
layout, in order. -/
theorem label_of_run (tags : List FieldTag) (indices : List Nat) (T : List FieldTag)
    (x : List Nat) (h1 : 1 ≤ (free_positions tags 0 T).length)
    (hx : x.length = (free_positions tags 0 T).length - 1) :
    set_all ((fixed_strings tags indices T).set
        ((free_positions tags 0 T).getD ((free_positions tags 0 T).length - 1) 0) ":")
      (((List.range ((free_positions tags 0 T).length - 1)).map
        (fun k => (free_positions tags 0 T).getD k 0)).zip x)
      = expected_label tags indices T (x.map toString ++ [":"]) := by
  generalize hdl : free_positions tags 0 T = dl at h1 hx
  have hsorted : dl.Pairwise (fun a b => a < b) := hdl ▸ free_positions_sorted tags 0 T
  have hsplit := take_append_last dl h1
  rw [range_map_getD dl _ (Nat.sub_le _ _), set_all_eq_write_all]
  have hzip : ((dl.take (dl.length - 1)).zip x).map (fun w => (w.1, toString w.2))
      = (dl.take (dl.length - 1)).zip (x.map toString) := by
    rw [List.zip_map_right]
    apply List.map_congr_left
    intro w _
    rfl
  rw [hzip]
  have hfresh : ∀ w ∈ (dl.take (dl.length - 1)).zip (x.map toString),
      w.1 ≠ dl.getD (dl.length - 1) 0 := by
    intro w hw
    have hw1 : w.1 ∈ dl.take (dl.length - 1) := (List.of_mem_zip hw).1
    rw [← hsplit] at hsorted
    have := (List.pairwise_append.mp hsorted).2.2 w.1 hw1 _ (List.mem_singleton_self _)
    omega
  rw [write_all_set_comm _ _ _ _ hfresh]
  have hlast : (write_all (fixed_strings tags indices T)
        ((dl.take (dl.length - 1)).zip (x.map toString))).set (dl.getD (dl.length - 1) 0) ":"
      = write_all (fixed_strings tags indices T)
          ((dl.take (dl.length - 1)).zip (x.map toString)
            ++ [dl.getD (dl.length - 1) 0].zip [":"]) := by
    rw [write_all_append]
    rfl
  rw [hlast, ← List.zip_append (by simp; omega), hsplit]
  have := write_all_free tags indices T [] (x.map toString ++ [":"])
    (by simp [hdl]; omega)
  simp only [List.nil_append, List.length_nil, hdl] at this
  exact this

theorem mem_indexSpace_length (dims idx : List Nat) (h : idx ∈ indexSpace dims) :
    idx.length = dims.length :=
  ((mem_indexSpace dims idx).mp h).length_eq

theorem dims_length (l : FieldLayout) : l.dims.length = l.rank := by
  simp [FieldLayout.dims, FieldLayout.rank]

/-- The tags in the order of the layout. For every sequence of (tag, index)
slices that `print_field_hyperslab` accepts and whose tags are listed in the
same relative order as in the original layout, a layout without repeated tags
(a sufficient condition, not a necessary one), the label of
each printed run has one position per axis of the original, un-sliced layout,
in that layout's order: the position of every sliced axis holds that axis's
fixed index, the position of every remaining outer axis holds the current loop
index, and the position of the innermost remaining axis holds ':'. The call is
the one of the public entry point (`orig_rank` the rank of `f`,
`curr_idx = 0`) and the sub-array left has rank 5 at most. -/
theorem print_labels_in_order {α : Type} (layout_str : FieldLayout → String)
    (e2str : FieldTag → String) (f : Field α) (parents : List FieldLayout)
    (tags : List FieldTag) (indices : List Nat) (out : List (Tok α))
    (hlen : tags.length = indices.length)
    (hacc : slices_accepted f.layout tags)
    (hnd : f.layout.tags.Nodup)
    (hsub : tags.Sublist f.layout.tags)
    (h5 : (sliced_layout f.layout tags).rank ≤ 5) :
    print_field_hyperslab layout_str e2str f parents tags indices out f.layout.rank 0
      = ⟨out ++ header_toks layout_str f.name f.layout ++
          (if (sliced_layout f.layout tags).rank = 0 then
            label_toks f.name (expected_label tags indices f.layout.tags [])
              ++ [.text "\n    ", .value ((apply_slices f tags indices).data []), .text ", \n"]
          else
            (indexSpace ((sliced_layout f.layout tags).dims.take
                ((sliced_layout f.layout tags).rank - 1))).flatMap (fun x =>
              run_block f.name (apply_slices f tags indices).data
                (if (sliced_layout f.layout tags).rank = 5 then (sliced_layout f.layout tags).dim 3
                  else (sliced_layout f.layout tags).dim ((sliced_layout f.layout tags).rank - 1))
                x
                (expected_label tags indices f.layout.tags (x.map toString ++ [":"])))),
          none⟩ := by
  have hhdr : get_orig_header f.layout.rank (f.layout :: parents) = some f.layout := by
    rw [get_orig_header, if_neg (Nat.lt_irrefl _)]
  have hres : print_field_hyperslab layout_str e2str f parents tags indices out f.layout.rank 0
      = print_sliced_field layout_str (apply_slices f tags indices) f.layout tags indices out :=
    (print_rec_unroll layout_str e2str tags indices out f.layout.rank f.layout hlen tags 0 f
      parents (tags.length - 0) rfl (Nat.zero_le _) (Nat.le_refl _) (Nat.le_refl _) hhdr).1 hacc
  have hGl := apply_slices_layout f tags indices
  have hGn := apply_slices_name f tags indices
  have hstr := get_dims_str_eq tags indices f.layout hnd hsub
  have hleft := get_dims_left_eq tags f.layout hnd hsub
  have hr : (sliced_layout f.layout tags).rank = (free_positions tags 0 f.layout.tags).length := by
    have e1 := sliced_layout_rank tags f.layout hacc
    have e2 := free_positions_count f.layout.tags tags 0 hnd hsub
    rw [tags_length] at e2
    omega
  rw [hres]
  by_cases h0 : (sliced_layout f.layout tags).rank = 0
  · rw [if_pos h0]
    have hfree : free_positions tags 0 f.layout.tags = [] :=
      List.eq_nil_of_length_eq_zero (by omega)
    have hlab : fixed_strings tags indices f.layout.tags
        = expected_label tags indices f.layout.tags [] := by
      have := write_all_free tags indices f.layout.tags [] [] (by simp [hfree])
      simpa [hfree, write_all] using this
    have hG0 : (apply_slices f tags indices).layout.rank = 0 := by rw [hGl]; exact h0
    simp only [print_sliced_field, hG0, Field.get_strided_view_ok _ 0 hG0, hstr, hGn, hlab]
    simp [header_toks, label_toks]
  · rw [if_neg h0]
    have h1 : 1 ≤ (apply_slices f tags indices).layout.rank := by rw [hGl]; omega
    have h5G : (apply_slices f tags indices).layout.rank ≤ 5 := by rw [hGl]; exact h5
    rw [print_sliced_field_out layout_str _ f.layout tags indices out h1 h5G, hGl, hGn, hstr,
      hleft]
    congr 2
    apply flatMap_congr_mem
    intro x hx
    have hxl : x.length = (free_positions tags 0 f.layout.tags).length - 1 := by
      rw [mem_indexSpace_length _ _ hx, List.length_take, dims_length, ← hr]
      omega
    rw [hr, label_of_run tags indices f.layout.tags x (by omega) hxl]

/-- The tags in the order of the layout, the example of the source: the field
`f` of layout (COL=2, CMP=3, LEV=4) sliced at `<COL,LEV>/(0,1)`; the slices are accepted, the tags stand in the order of the
layout, and the run printed, `f(0,0..2,1)`, is labelled `f(0,:,1)`. -/
theorem print_labels_in_order_witness :
    slices_accepted exF234.layout [.COL, .LEV] ∧ exF234.layout.tags.Nodup ∧
    [FieldTag.COL, FieldTag.LEV].Sublist exF234.layout.tags ∧
    print_field_hyperslab exLayoutStr exTagStr exF234 [] [.COL, .LEV] [0, 1] [] exF234.layout.rank 0
      = ⟨[.text "     ", .text "f", .text "<layout>", .text "\n\n",
          .text "  ", .text "f", .text "(", .text "0,:,1", .text ")",
          .text "\n    ", .value 1, .text ", ", .value 11, .text ", ", .value 21, .text ", ",
          .text "\n"], none⟩ :=
  ⟨by decide, by decide, by decide,
    (print_labels_in_order exLayoutStr exTagStr exF234 [] [.COL, .LEV] [0, 1] [] (by decide)
      (by decide) (by decide) (by decide) (by decide)).trans (by decide)⟩

/-- A layout with a repeated tag: the field `h` of layout (CMP=2, COL=3, CMP=4)
sliced at `<COL,CMP>/(2,1)`. The tags stand in the order of the layout and the
slices are accepted; the second slice is taken at the first CMP axis, so the run
printed holds the entries `h(1,2,0..3)`, but the label is `h(:,2,1)`: in a
layout with repeated tags the order of the tags does not settle the labels. -/
theorem print_label_repeated_tag :
    slices_accepted exRepeat.layout [.COL, .CMP] ∧
    [FieldTag.COL, FieldTag.CMP].Sublist exRepeat.layout.tags ∧
    print_field_hyperslab exLayoutStr exTagStr exRepeat [] [.COL, .CMP] [2, 1] [] 3 0
      = ⟨[.text "     ", .text "h", .text "<layout>", .text "\n\n",
          .text "  ", .text "h", .text "(", .text ":,2,1", .text ")",
          .text "\n    ", .value 120, .text ", ", .value 121, .text ", ", .value 122, .text ", ",
          .value 123, .text ", ", .text "\n"], none⟩ := by
  decide

theorem toDigitsCore_ne_nil (b : Nat) : ∀ (fuel n : Nat) (ds : List Char),
    (0 < fuel ∨ ds ≠ []) → Nat.toDigitsCore b fuel n ds ≠ [] := by
  intro fuel
  induction fuel with
  | zero =>
    intro n ds h
    rcases h with h | h
    · exact absurd h (Nat.lt_irrefl 0)
    · simpa [Nat.toDigitsCore] using h
  | succ fuel ih =>
    intro n ds _
    rw [Nat.toDigitsCore]
    by_cases h0 : n / b = 0
    · simp [h0]
    · simp only [h0, if_false]
      exact ih _ _ (Or.inr (List.cons_ne_nil _ _))

/-- The decimal string of a natural number is not empty. -/
theorem toString_nat_ne_empty (n : Nat) : toString n ≠ "" := by
  intro h
  have h2 : (Nat.toDigits 10 n).asString = "" := h
  have h3 : Nat.toDigits 10 n = [] := by
    have := congrArg String.data h2
    simpa using this
  exact toDigitsCore_ne_nil 10 (n + 1) n [] (Or.inl (Nat.succ_pos _)) h3

/-! ## The hyperslab printer: the positions left and the positions filled -/

theorem get?_at_split (Tpre : List FieldTag) (t : FieldTag) (T' : List FieldTag) :
    (Tpre ++ t :: T').get? Tpre.length = some t := by
  rw [List.get?_eq_getElem?, List.getElem?_append_right (Nat.le_refl _)]
  simp

theorem get?_eq_head?_drop (tags : List FieldTag) (jj : Nat) :
    tags.get? jj = (tags.drop jj).head? := by
  rw [List.head?_drop, List.get?_eq_getElem?]

theorem drop_head?_lt (tags : List FieldTag) (jj : Nat) (t : FieldTag)
    (h : (tags.drop jj).head? = some t) : jj < tags.length := by
  by_contra hn
  rw [List.drop_eq_nil_of_le (Nat.le_of_not_lt hn)] at h
  exact Option.noConfusion h

/-- The loop of `get_dims_left`, from any position on, for any tags. -/
theorem get_dims_left_loop (T tags : List FieldTag) :
    ∀ (Tsuf Tpre : List FieldTag) (jj : Nat) (dl : List Nat), T = Tpre ++ Tsuf →
      ∃ jj2, (List.range' Tpre.length Tsuf.length).foldl (fun (st : List Nat × Nat) ii =>
          if st.2 < tags.length ∧ T.get? ii = tags.get? st.2 then (st.1, st.2 + 1)
          else (st.1 ++ [ii], st.2)) (dl, jj)
        = (dl ++ unmatched_positions Tpre.length Tsuf (tags.drop jj), jj2) := by
  intro Tsuf
  induction Tsuf with
  | nil =>
    intro Tpre jj dl _
    exact ⟨jj, by simp [unmatched_positions]⟩
  | cons t T' ih =>
    intro Tpre jj dl hT
    have hT2 : T = (Tpre ++ [t]) ++ T' := by rw [hT]; simp
    have hTget : T.get? Tpre.length = some t := by rw [hT]; exact get?_at_split _ _ _
    rw [List.length_cons, List.range'_succ, List.foldl_cons]
    by_cases hm : (tags.drop jj).head? = some t
    · have hcond : jj < tags.length ∧ T.get? Tpre.length = tags.get? jj :=
        ⟨drop_head?_lt tags jj t hm, by rw [hTget, get?_eq_head?_drop, hm]⟩
      obtain ⟨jj2, hjj⟩ := ih (Tpre ++ [t]) (jj + 1) dl hT2
      refine ⟨jj2, ?_⟩
      simp only [hcond, and_self, if_true]
      simp only [List.length_append, List.length_singleton] at hjj
      rw [hjj, unmatched_positions, if_pos hm, List.tail_drop]
    · have hcond : ¬ (jj < tags.length ∧ T.get? Tpre.length = tags.get? jj) := by
        rintro ⟨-, h⟩
        rw [hTget, get?_eq_head?_drop] at h
        exact hm h.symm
      obtain ⟨jj2, hjj⟩ := ih (Tpre ++ [t]) jj (dl ++ [Tpre.length]) hT2
      refine ⟨jj2, ?_⟩
      simp only [hcond, if_false]
      simp only [List.length_append, List.length_singleton] at hjj
      rw [hjj, unmatched_positions, if_neg hm]
      simp

/-- The list `dims_left` holds the positions of the axes that are not matched. -/
theorem get_dims_left_greedy (tags : List FieldTag) (L0 : FieldLayout) :
    get_dims_left tags L0 = unmatched_positions 0 L0.tags tags := by
  obtain ⟨jj2, hjj⟩ := get_dims_left_loop L0.tags tags L0.tags [] 0 [] rfl
  simp only [get_dims_left, forLoop, List.range_eq_range', ← tags_length]
  simp only [List.length_nil, List.nil_append, List.drop_zero] at hjj
  rw [hjj]

theorem matched_strings_nil (indices : List Nat) (jj : Nat) :
    ∀ T : List FieldTag, matched_strings indices jj T [] = List.replicate T.length "" := by
  intro T
  induction T with
  | nil => rfl
  | cons t T' ih =>
    rw [matched_strings, if_neg (by simp), ih]
    rfl

theorem set_at_length (pre : List String) (v w : String) (rest : List String) :
    (pre ++ w :: rest).set pre.length v = (pre ++ [v]) ++ rest := by
  induction pre with
  | nil => rfl
  | cons a p ih => simp [List.set, ih]

/-- The loop of `get_dims_str`, from any position on, for any tags. -/
theorem get_dims_str_loop (T tags : List FieldTag) (indices : List Nat) :
    ∀ (Tsuf Tpre : List FieldTag) (jj : Nat) (pre : List String),
      T = Tpre ++ Tsuf → pre.length = Tpre.length →
      ∃ jj2, forLoopGuard (fun (st : List String × Nat) => decide (st.2 < tags.length))
          (fun ii (st : List String × Nat) =>
            if T.get? ii = tags.get? st.2 then
              (st.1.set ii (toString (indices.getD st.2 0)), st.2 + 1)
            else st)
          (List.range' Tpre.length Tsuf.length)
          (pre ++ List.replicate Tsuf.length "", jj)
        = (pre ++ matched_strings indices jj Tsuf (tags.drop jj), jj2) := by
  intro Tsuf
  induction Tsuf with
  | nil =>
    intro Tpre jj pre _ _
    exact ⟨jj, by simp [matched_strings, forLoopGuard]⟩
  | cons t T' ih =>
    intro Tpre jj pre hT hpre
    have hT2 : T = (Tpre ++ [t]) ++ T' := by rw [hT]; simp
    have hTget : T.get? Tpre.length = some t := by rw [hT]; exact get?_at_split _ _ _
    rw [List.length_cons, List.range'_succ, forLoopGuard]
    by_cases hg : jj < tags.length
    · simp only [hg, decide_True, if_true]
      by_cases hm : (tags.drop jj).head? = some t
      · have hcond : T.get? Tpre.length = tags.get? jj := by
          rw [hTget, get?_eq_head?_drop, hm]
        obtain ⟨jj2, hjj⟩ := ih (Tpre ++ [t]) (jj + 1)
          (pre ++ [toString (indices.getD jj 0)]) hT2 (by simp [hpre])
        refine ⟨jj2, ?_⟩
        simp only [hcond, if_true]
        simp only [List.length_append, List.length_singleton] at hjj
        rw [List.replicate_succ, ← hpre, set_at_length, hpre, hjj, matched_strings, if_pos hm,
          List.tail_drop]
        simp
      · have hcond : ¬ (T.get? Tpre.length = tags.get? jj) := by
          intro h
          rw [hTget, get?_eq_head?_drop] at h
          exact hm h.symm
        obtain ⟨jj2, hjj⟩ := ih (Tpre ++ [t]) jj (pre ++ [""]) hT2 (by simp [hpre])
        refine ⟨jj2, ?_⟩
        simp only [hcond, if_false]
        simp only [List.length_append, List.length_singleton] at hjj
        have hsplit : pre ++ List.replicate (T'.length + 1) "" =
            (pre ++ [""]) ++ List.replicate T'.length "" := by
          simp [List.replicate_succ]
        rw [hsplit, hjj, matched_strings, if_neg hm]
        simp
    · refine ⟨jj, ?_⟩
      simp only [hg, decide_False, Bool.false_eq_true, if_false]
      rw [List.drop_eq_nil_of_le (Nat.le_of_not_lt hg), matched_strings_nil]
      rfl

/-- The vector `dims_str` holds the slice index at every matched axis and the
empty string elsewhere. -/
theorem get_dims_str_greedy (tags : List FieldTag) (indices : List Nat) (L0 : FieldLayout) :
    get_dims_str tags indices L0 = matched_strings indices 0 L0.tags tags := by
  obtain ⟨jj2, hjj⟩ := get_dims_str_loop L0.tags tags indices L0.tags [] 0 [] rfl rfl
  simp only [get_dims_str, List.range_eq_range', ← tags_length]
  simp only [List.length_nil, List.nil_append, List.drop_zero] at hjj
  rw [hjj]

theorem unmatched_positions_bounds :
    ∀ (T : List FieldTag) (ii : Nat) (rem : List FieldTag) (q : Nat),
      q ∈ unmatched_positions ii T rem → ii ≤ q ∧ q < ii + T.length := by
  intro T
  induction T with
  | nil => intro ii rem q hq; simp [unmatched_positions] at hq
  | cons t T ih =>
    intro ii rem q hq
    rw [unmatched_positions] at hq
    rw [List.length_cons]
    by_cases hm : rem.head? = some t
    · rw [if_pos hm] at hq
      have := ih _ _ _ hq
      omega
    · rw [if_neg hm, List.mem_cons] at hq
      rcases hq with h | h
      · omega
      · have := ih _ _ _ h
        omega

/-- The positions that are not matched are strictly increasing. -/
theorem unmatched_positions_sorted :
    ∀ (T : List FieldTag) (ii : Nat) (rem : List FieldTag),
      (unmatched_positions ii T rem).Pairwise (fun a b => a < b) := by
  intro T
  induction T with
  | nil => intro ii rem; exact List.Pairwise.nil
  | cons t T ih =>
    intro ii rem
    rw [unmatched_positions]
    by_cases hm : rem.head? = some t
    · rw [if_pos hm]
      exact ih _ _
    · rw [if_neg hm]
      exact List.Pairwise.cons
        (fun q hq => (unmatched_positions_bounds T (ii + 1) rem q hq).1) (ih _ _)

/-- When the requested tags stand in the layout in the order requested, every
one of them is matched: the positions left and the tags make up the rank. -/
theorem unmatched_positions_count :
    ∀ (T : List FieldTag) (ii : Nat) (rem : List FieldTag), rem.Sublist T →
      (unmatched_positions ii T rem).length + rem.length = T.length := by
  intro T
  induction T with
  | nil =>
    intro ii rem hsub
    rw [List.sublist_nil.mp hsub]
    rfl
  | cons t T ih =>
    intro ii rem hsub
    rw [unmatched_positions]
    by_cases hm : rem.head? = some t
    · rw [if_pos hm]
      cases rem with
      | nil => exact Option.noConfusion hm
      | cons s r =>
        have hr : r.Sublist T := by
          rcases List.sublist_cons_iff.mp hsub with h | ⟨r2, hr2, hrs⟩
          · exact (List.sublist_cons_self s r).trans h
          · rw [(List.cons.inj hr2).2]
            exact hrs
        have := ih (ii + 1) r hr
        simp only [List.tail_cons, List.length_cons]
        omega
    · rw [if_neg hm]
      have hr : rem.Sublist T := by
        rcases List.sublist_cons_iff.mp hsub with h | ⟨r2, hr2, -⟩
        · exact h
        · rw [hr2] at hm
          exact absurd rfl hm
      have := ih (ii + 1) rem hr
      simp only [List.length_cons]
      omega

theorem matched_strings_length (indices : List Nat) :
    ∀ (T : List FieldTag) (jj : Nat) (rem : List FieldTag),
      (matched_strings indices jj T rem).length = T.length := by
  intro T
  induction T with
  | nil => intro jj rem; rfl
  | cons t T ih =>
    intro jj rem
    rw [matched_strings]
    by_cases hm : rem.head? = some t
    · rw [if_pos hm, List.length_cons, ih, List.length_cons]
    · rw [if_neg hm, List.length_cons, ih, List.length_cons]

/-- Every axis is either left, and then its string is empty, or matched with a
requested tag, and then its string is the index of that slice. -/
theorem matched_or_left (indices : List Nat) :
    ∀ (T : List FieldTag) (ii jj : Nat) (rem : List FieldTag) (q : Nat), q < T.length →
      (ii + q ∈ unmatched_positions ii T rem ∧
        (matched_strings indices jj T rem).get? q = some "") ∨
      (ii + q ∉ unmatched_positions ii T rem ∧
        ∃ j, j < rem.length ∧ T.get? q = rem.get? j ∧
          (matched_strings indices jj T rem).get? q
            = some (toString (indices.getD (jj + j) 0))) := by
  intro T
  induction T with
  | nil => intro ii jj rem q hq; exact absurd hq (Nat.not_lt_zero _)
  | cons t T ih =>
    intro ii jj rem q hq
    rw [unmatched_positions, matched_strings]
    by_cases hm : rem.head? = some t
    · rw [if_pos hm, if_pos hm]
      cases rem with
      | nil => exact Option.noConfusion hm
      | cons s r =>
        have hs : s = t := Option.some.inj hm
        cases q with
        | zero =>
          right
          refine ⟨fun h => ?_, 0, Nat.succ_pos _, by rw [hs]; rfl, rfl⟩
          have := (unmatched_positions_bounds T (ii + 1) _ _ h).1
          omega
        | succ q =>
          have hq2 : q < T.length := Nat.lt_of_succ_lt_succ hq
          have e : ii + (q + 1) = (ii + 1) + q := by omega
          rw [e]
          rcases ih (ii + 1) (jj + 1) r q hq2 with ⟨h1, h2⟩ | ⟨h1, j, hj, hT, hstr⟩
          · exact Or.inl ⟨h1, h2⟩
          · right
            refine ⟨h1, j + 1, Nat.succ_lt_succ hj, hT, ?_⟩
            have e2 : jj + (j + 1) = jj + 1 + j := by omega
            rw [e2]
            exact hstr
    · rw [if_neg hm, if_neg hm]
      cases q with
      | zero => exact Or.inl ⟨List.mem_cons_self _ _, rfl⟩
      | succ q =>
        have hq2 : q < T.length := Nat.lt_of_succ_lt_succ hq
        have e : ii + (q + 1) = (ii + 1) + q := by omega
        rw [e]
        rcases ih (ii + 1) jj rem q hq2 with ⟨h1, h2⟩ | ⟨h1, j, hj, hT, hstr⟩
        · exact Or.inl ⟨List.mem_cons_of_mem _ h1, h2⟩
        · right
          refine ⟨fun h => ?_, j, hj, hT, hstr⟩
          rcases List.mem_cons.mp h with h | h
          · omega
          · exact h1 h

theorem strip_idx_tags (l : FieldLayout) (t : FieldTag) :
    (l.strip_idx (l.tags.indexOf t)).tags = l.tags.erase t := by
  show (l.descriptors.eraseIdx ((l.descriptors.map Prod.fst).indexOf t)).map Prod.fst
    = (l.descriptors.map Prod.fst).erase t
  rw [← List.eraseIdx_indexOf_eq_erase]
  generalize (l.descriptors.map Prod.fst).indexOf t = i
  induction l.descriptors generalizing i with
  | nil => rfl
  | cons d ds ih =>
    cases i with
    | zero => rfl
    | succ i => simp only [List.eraseIdx, List.map_cons, ih]

/-- When the requested tags stand in the layout in the order requested, every
slice removes one axis. -/
theorem sliced_layout_rank_sublist (tags : List FieldTag) :
    ∀ l : FieldLayout, tags.Sublist l.tags →
      (sliced_layout l tags).rank + tags.length = l.rank := by
  induction tags with
  | nil => intro l _; rfl
  | cons t ts ih =>
    intro l hsub
    have hmem : t ∈ l.tags := hsub.subset (List.mem_cons_self _ _)
    have hi : l.tags.indexOf t < l.rank := by
      rw [← tags_length]
      exact List.indexOf_lt_length.mpr hmem
    have h1 := strip_idx_rank l (l.tags.indexOf t) hi
    have hsub2 : ts.Sublist (l.strip_idx (l.tags.indexOf t)).tags := by
      rw [strip_idx_tags]
      have := hsub.erase t
      rwa [List.erase_cons_head] at this
    have h2 := ih _ hsub2
    show (sliced_layout (l.strip_idx (l.tags.indexOf t)) ts).rank + (ts.length + 1) = l.rank
    omega

/-- Claim C31. In `print_field_hyperslab`, when the requested tags are tags of
the original layout listed in the same relative order as in that layout (they
need not even be distinct), the list `dims_left` of un-sliced positions is
strictly increasing; every position of the original layout is either in
`dims_left`, and then `dims_str` still holds the empty string there, or not in
it, and then it is the position of a requested tag and `dims_str` holds the
(non-empty) string of that slice index there; `dims_left` has exactly
`orig_rank - tags.size()` elements, which is the rank of the sub-array left by
the slices. Hence every access `dims_left[k]` with `k` below the remaining rank
and every write `dims_str[dims_left[k]]` is in bounds. -/
theorem dims_left_in_bounds {α : Type} (f : Field α) (tags : List FieldTag)
    (indices : List Nat) (hsub : tags.Sublist f.layout.tags) :
    (get_dims_left tags f.layout).Pairwise (fun a b => a < b) ∧
    (∀ q, q < f.layout.rank →
      (q ∈ get_dims_left tags f.layout ∧
        (get_dims_str tags indices f.layout).get? q = some "") ∨
      (q ∉ get_dims_left tags f.layout ∧
        ∃ j, j < tags.length ∧ f.layout.tags.get? q = tags.get? j ∧
          (get_dims_str tags indices f.layout).get? q = some (toString (indices.getD j 0)) ∧
          toString (indices.getD j 0) ≠ "")) ∧
    (get_dims_left tags f.layout).length + tags.length = f.layout.rank ∧
    (apply_slices f tags indices).layout.rank = (get_dims_left tags f.layout).length ∧
    (∀ k, k < (apply_slices f tags indices).layout.rank →
      k < (get_dims_left tags f.layout).length) ∧
    (∀ q ∈ get_dims_left tags f.layout, q < (get_dims_str tags indices f.layout).length) := by
  have hcount : (get_dims_left tags f.layout).length + tags.length = f.layout.rank := by
    rw [get_dims_left_greedy, ← tags_length]
    exact unmatched_positions_count f.layout.tags 0 tags hsub
  have hrank : (apply_slices f tags indices).layout.rank
      = (get_dims_left tags f.layout).length := by
    have := sliced_layout_rank_sublist tags f.layout hsub
    rw [apply_slices_layout]
    omega
  refine ⟨?_, ?_, hcount, hrank, ?_, ?_⟩
  · rw [get_dims_left_greedy]
    exact unmatched_positions_sorted _ _ _
  · intro q hq
    rw [get_dims_left_greedy, get_dims_str_greedy]
    rw [← tags_length] at hq
    rcases matched_or_left indices f.layout.tags 0 0 tags q hq with ⟨h1, h2⟩ | ⟨h1, j, hj, hT, hs⟩
    · rw [Nat.zero_add] at h1
      exact Or.inl ⟨h1, h2⟩
    · rw [Nat.zero_add] at h1 hs
      exact Or.inr ⟨h1, j, hj, hT, hs, toString_nat_ne_empty _⟩
  · intro k hk
    rw [← hrank]
    exact hk
  · intro q hq
    rw [get_dims_left_greedy] at hq
    rw [get_dims_str_greedy, matched_strings_length]
    have := (unmatched_positions_bounds f.layout.tags 0 tags q hq).2
    omega

/-- Claim C31, witness: the field `f` of layout (COL=2, CMP=3, LEV=4) with the
requested tags `<COL,LEV>` and indices `(0,1)`: `dims_left` is `[1]`, of length
3 - 2, and `dims_str` is `("0", "", "1")`. -/
theorem dims_left_in_bounds_witness :
    [FieldTag.COL, FieldTag.LEV].Sublist exF234.layout.tags ∧
    (get_dims_left [.COL, .LEV] exF234.layout).length + [FieldTag.COL, FieldTag.LEV].length
      = exF234.layout.rank ∧
    get_dims_left [.COL, .LEV] exF234.layout = [1] ∧
    get_dims_str [.COL, .LEV] [0, 1] exF234.layout = ["0", "", "1"] :=
  ⟨by decide, (dims_left_in_bounds exF234 [.COL, .LEV] [0, 1] (by decide)).2.2.1,
    by decide, by decide⟩

end scream
